import Mathlib

/-!
# findsim: sparse k-nearest-neighbour search (IdxJoin and inverted index)

A shallow embedding of the selection kernel (`sort.cpp`), the IdxJoin engine
(`idxjoin.cpp`), the inverted-index engine (`invertedidx.cpp`) and the sparse
matrix operations they call (`da_csr.cpp`).

Conventions of the embedding.
* `val_t` (a C `float`) is an arbitrary linearly ordered field `α`: the
  results are about exact arithmetic.
* C arrays are lists; `a[i]` is `a.getD i default` and `a[i] = v` is
  `a.set i v`.  A `NULL` array is `none`.
* Sizes, pointers and stored indices (`nrows`, `rowptr[i]`, `rowind[j]`) are
  natural numbers.  Variables that can hold `-1` (`marker[k]`, `nsim`, the
  cursor `i` of the partition loop) are integers.
* Loops whose trip count is fixed on entry recurse on the remaining trip
  count; the `lo < hi` loop of the selection kernel recurses on fuel and
  answers `none` when the fuel is used up.
-/

namespace Findsim

set_option linter.unusedSectionVars false
set_option linter.unusedVariables false

/-! ## Data model (`struct.h`) -/

/-- Key-value pair `da_ivkv_t`: an `idx_t` key (a row id) and a `val_t` value. -/
structure da_ivkv_t (α : Type) where
  key : Nat
  val : α
deriving DecidableEq, Repr

instance {α : Type} [Zero α] : Inhabited (da_ivkv_t α) := ⟨⟨0, 0⟩⟩

/-- Sparse matrix `da_csr_t`: a row view and a column view, each a pointer
array, an index array and an optional value array; `none` is a `NULL` array. -/
structure da_csr_t (α : Type) where
  nrows : Nat
  ncols : Nat
  rowptr : Option (List Nat)
  colptr : Option (List Nat)
  rowind : Option (List Nat)
  colind : Option (List Nat)
  rowval : Option (List α)
  colval : Option (List α)
  rnorms : Option (List α)
  cnorms : Option (List α)

/-- Key-value pair `da_iikv_t`: an `idx_t` key and an `idx_t` value. -/
structure da_iikv_t where
  key : Nat
  val : Nat
deriving DecidableEq, Repr, Inhabited

/-- Key-value pair `da_pikv_t`: a `ptr_t` key and an `idx_t` value. -/
structure da_pikv_t where
  key : Nat
  val : Nat
deriving DecidableEq, Repr, Inhabited

/-- The part of `params_t` read by the search engines. -/
structure params_t (α : Type) where
  docs : da_csr_t α
  k : Int
  epsilon : α

/-- Macro `DA_QSSWAP(a[i], a[j], stmp)`: `stmp = a[i]; a[i] = a[j]; a[j] = stmp`. -/
def DA_QSSWAP {β : Type} [Inhabited β] (a : List β) (i j : Nat) : List β :=
  let stmp := a.getD i default
  let a1 := a.set i (a.getD j default)
  a1.set j stmp

/-- Counted loop `for (j = start; j < start + n; j++) st = body(j, st)`; the
first numeric argument is the number of iterations left. -/
def forLoop {σ : Type} (body : Nat → σ → σ) : Nat → Nat → σ → σ
  | 0, _, st => st
  | m + 1, j, st => forLoop body m (j + 1) (body j st)

/-- Modelled from the spec: the macro `DA_MKQSORT(TYPE, base, n, lt)` of
`da_mksort.h`, which is not among the sources.  It is a full comparison sort of
`base[0..n)` in place: afterwards no entry is `lt` an earlier one.  The model is
an insertion sort of the first `n` entries. -/
def DA_MKQSORT {β : Type} (lt : β → β → Bool) (n : Nat) (base : List β) : List β :=
  (base.take n).insertionSort (fun a b => lt b a = false) ++ base.drop n

/-! ## Selection kernel (`sort.cpp`) -/

section Select

variable {α : Type} [LinearOrder α] [Zero α]

/-- Value `cand[i].val` for an `idx_t` cursor `i`. -/
def valAt (cand : List (da_ivkv_t α)) (i : Int) : α :=
  (cand.getD i.toNat default).val

/-- Median choice of `da_ivkvkselectd` (the three `if`s before `jump_over`):
the index `mid` whose entry is moved to `cand[hi]` as pivot.  `(hi-lo) >> 1`
is `(hi-lo) / 2`, the operand being non-negative inside the loop. -/
def selectMedianD (cand : List (da_ivkv_t α)) (lo hi : Int) : Int :=
  let mid := lo + (hi - lo) / 2
  let mid := if valAt cand lo < valAt cand mid then lo else mid
  if valAt cand hi > valAt cand mid then
    let mid := hi
    if valAt cand lo < valAt cand mid then lo else mid
  else
    mid

/-- Partitioning loop of `da_ivkvkselectd`:
`for (i=lo-1, j=lo; j<hi; j++) if (cand[j].val >= pivot) { i++; swap(cand[i], cand[j]); }`.
The first argument is the number of iterations left, `hi - j`. -/
def partitionD (pivot : α) : Nat → Int → Int → List (da_ivkv_t α) → Int × List (da_ivkv_t α)
  | 0, i, _, cand => (i, cand)
  | m + 1, i, j, cand =>
    if pivot ≤ valAt cand j then
      partitionD pivot m (i + 1) (j + 1) (DA_QSSWAP cand (i + 1).toNat j.toNat)
    else
      partitionD pivot m i (j + 1) cand

/-- Loop `for (lo=0, hi=n-1; lo < hi;)` of `da_ivkvkselectd`, one iteration per
unit of fuel; `none` when the fuel runs out before the loop ends. -/
def kselectdLoop (topk : Int) : Nat → Int → Int → List (da_ivkv_t α) → Option (List (da_ivkv_t α))
  | 0, lo, hi, cand => if lo < hi then none else some cand
  | fuel + 1, lo, hi, cand =>
    if lo < hi then
      let mid := selectMedianD cand lo hi
      let cand := DA_QSSWAP cand mid.toNat hi.toNat
      let pivot := valAt cand hi
      let r := partitionD pivot (hi - lo).toNat (lo - 1) lo cand
      let i := r.1 + 1
      let cand := DA_QSSWAP r.2 i.toNat hi.toNat
      if i > topk then kselectdLoop topk fuel lo (i - 1) cand
      else if i < topk then kselectdLoop topk fuel (i + 1) hi cand
      else some cand
    else some cand

/-- Function `da_ivkvkselectd(n, topk, cand)`: puts the `topk` largest values in
the beginning of the array; returns the count and the array.  The model covers
`0 ≤ topk`, where the mixed `size_t`/`idx_t` comparison `n <= topk` is the
mathematical one. -/
def da_ivkvkselectd (n : Nat) (topk : Int) (cand : List (da_ivkv_t α)) :
    Option (Int × List (da_ivkv_t α)) :=
  if (n : Int) ≤ topk then some ((n : Int), cand)
  else (kselectdLoop topk n 0 ((n : Int) - 1) cand).map (fun c => (topk, c))

/-- Function `da_ivkvsortd(n, base)`: sorts an array of `da_ivkv_t` in decreasing
order of value, with `da_ivkv_gt(a, b) = ((a)->val > (b)->val)`. -/
def da_ivkvsortd (n : Nat) (base : List (da_ivkv_t α)) : List (da_ivkv_t α) :=
  DA_MKQSORT (fun a b => decide (a.val > b.val)) n base

end Select

/-! ## Sparse matrix operations (`da_csr.cpp`) -/

/-- Constant `DA_ROW` of `defs.h`. -/
def DA_ROW : Nat := 1

/-- Constant `DA_COL` of `defs.h`. -/
def DA_COL : Nat := 2

/-- Function `da_iikvsortd(n, base)`: sorts in decreasing order of value, with
`da_iikv_gt(a, b) = ((a)->val > (b)->val)`. -/
def da_iikvsortd (n : Nat) (base : List da_iikv_t) : List da_iikv_t :=
  DA_MKQSORT (fun a b => decide (a.val > b.val)) n base

/-- Function `da_pikvsorti(n, base)`: sorts in increasing order of value, with
`da_pikv_lt(a, b) = ((a)->val < (b)->val)`. -/
def da_pikvsorti (n : Nat) (base : List da_pikv_t) : List da_pikv_t :=
  DA_MKQSORT (fun a b => decide (a.val < b.val)) n base

/-- Macro `CSRMAKE(i, n, a)`: prefix sums, then a shift by one place. -/
def CSRMAKE (n : Nat) (a : List Nat) : List Nat :=
  let a1 := forLoop (fun i a => a.set i (a.getD i 0 + a.getD (i - 1) 0)) (n - 1) 1 a
  let a2 := forLoop (fun t a => a.set (n - t) (a.getD (n - t - 1) 0)) n 0 a1
  a2.set 0 0

/-- Macro `CSRSHIFT(i, n, a)`: `for (i=n; i>0; i--) a[i] = a[i-1]; a[0] = 0;`. -/
def CSRSHIFT (n : Nat) (a : List Nat) : List Nat :=
  let a2 := forLoop (fun t a => a.set (n - t) (a.getD (n - t - 1) 0)) n 0 a
  a2.set 0 0

/-- Nested loop `for (i=0; i<nf; ++i) for (j=fptr[i]; j<fptr[i+1]; ++j) body(i, j)`. -/
def forEntries {σ : Type} (nf : Nat) (fptr : List Nat) (body : Nat → Nat → σ → σ) (st : σ) : σ :=
  forLoop (fun i st => forLoop (body i) (fptr.getD (i + 1) 0 - fptr.getD i 0) (fptr.getD i 0) st)
    nf 0 st

section CsrOps

variable {α : Type} [LinearOrderedField α]

/-- Loop of `da_csr_CompactColumns` that numbers the non-empty columns:
`for (nncols=0, i=0; i<ncols; ++i) if (clens[i].val > 0) colmap[clens[i].key] = nncols++; else break;`. -/
def compactMap (clens : List da_iikv_t) : Nat → Nat → List Nat × Nat → List Nat × Nat
  | 0, _, st => st
  | m + 1, i, st =>
    if (clens.getD i default).val > 0 then
      compactMap clens m (i + 1) (st.1.set (clens.getD i default).key st.2, st.2 + 1)
    else st

/-- Function `da_csr_CompactColumns(mat)`.  The scratch arrays allocated with
`da_imalloc` and `da_iikvmalloc` start as zeros. -/
def da_csr_CompactColumns (mat : da_csr_t α) : da_csr_t α :=
  let nrows := mat.nrows
  let ncols := mat.ncols
  let rowptr := mat.rowptr.getD []
  let rowind := mat.rowind.getD []
  let colmap : List Nat := List.replicate ncols 0
  let clens : List da_iikv_t := List.replicate ncols default
  let clens := forLoop (fun i (c : List da_iikv_t) => c.set i ⟨i, 0⟩) ncols 0 clens
  let nnz := rowptr.getD nrows 0
  let clens := forLoop (fun i (c : List da_iikv_t) =>
      let x := rowind.getD i 0
      c.set x { c.getD x default with val := (c.getD x default).val + 1 }) nnz 0 clens
  let clens := da_iikvsortd ncols clens
  let r := compactMap clens ncols 0 (colmap, 0)
  let rowind := forLoop (fun i (ri : List Nat) => ri.set i (r.1.getD (ri.getD i 0) 0)) nnz 0 rowind
  { mat with ncols := r.2, rowind := mat.rowind.map (fun _ => rowind) }

/-- Constant `DA_SORT_I` of `defs.h`. -/
def DA_SORT_I : Nat := 1

/-- Constant `DA_SORT_D` of `defs.h`. -/
def DA_SORT_D : Nat := 2

/-- Function `da_ivkvsorti(n, base)`: sorts an array of `da_ivkv_t` in increasing
order of value, with `da_ivkv_lt(a, b) = ((a)->val < (b)->val)`. -/
def da_ivkvsorti (n : Nat) (base : List (da_ivkv_t α)) : List (da_ivkv_t α) :=
  DA_MKQSORT (fun a b => decide (a.val < b.val)) n base

/-- Scan of one row in `da_csr_SortValues`:
`for (k=0, j=s+1; j < e; ++j) { if (inversion) { k = 1; break; } cand[j-s].key = ind[j]; }`
with the inversion test `val[j] < val[j-1]` for `DA_SORT_I` and
`val[j] > val[j-1]` otherwise; returns `(k, j, cand)`.  The first numeric
argument is the number of positions left. -/
def sortValScan (how : Nat) (ind : List Nat) (val : List α) (s : Nat) :
    Nat → Nat → List (da_ivkv_t α) → Bool × Nat × List (da_ivkv_t α)
  | 0, j, cand => (false, j, cand)
  | m + 1, j, cand =>
    if (if how = DA_SORT_I then val.getD j 0 < val.getD (j - 1) 0
        else val.getD j 0 > val.getD (j - 1) 0) then (true, j, cand)
    else sortValScan how ind val s m (j + 1)
      (cand.set (j - s) { cand.getD (j - s) default with key := ind.getD j 0 })

/-- Body of the row loop of `da_csr_SortValues` for row (or column) `i`; the
state is `(ind, val, cand)`. -/
def sortValuesRow (how : Nat) (ptr : List Nat) (i : Nat)
    (st : List Nat × List α × List (da_ivkv_t α)) : List Nat × List α × List (da_ivkv_t α) :=
  let s := ptr.getD i 0
  let e := ptr.getD (i + 1) 0
  if e - s < 2 then st
  else
    let cand := st.2.2.set 0 { st.2.2.getD 0 default with key := st.1.getD s 0 }
    let scan := sortValScan how st.1 st.2.1 s (e - (s + 1)) (s + 1) cand
    if scan.1 then
      let cand := forLoop (fun j (c : List (da_ivkv_t α)) =>
          c.set (j - s) { c.getD (j - s) default with key := st.1.getD j 0 })
        (e - scan.2.1) scan.2.1 scan.2.2
      let cand := forLoop (fun j (c : List (da_ivkv_t α)) =>
          c.set (j - s) { c.getD (j - s) default with val := st.2.1.getD j 0 }) (e - s) s cand
      let cand := if how = DA_SORT_I then da_ivkvsorti (e - s) cand else da_ivkvsortd (e - s) cand
      let ind := forLoop (fun j (a : List Nat) => a.set j (cand.getD (j - s) default).key)
        (e - s) s st.1
      let val := forLoop (fun j (a : List α) => a.set j (cand.getD (j - s) default).val)
        (e - s) s st.2.1
      (ind, val, cand)
    else (st.1, st.2.1, scan.2.2)

/-- The row loop of `da_csr_SortValues` on one view `(n, ptr, ind, val)` with the
buffer length `nn` chosen from `mrl`; returns the sorted `ind` and `val`. -/
def sortValuesView (n : Nat) (ptr ind : List Nat) (val : List α) (mrl how : Nat) :
    List Nat × List α :=
  let nn := if mrl > 0 then mrl
    else forLoop (fun ii (nn : Nat) =>
      if ptr.getD (ii + 1) 0 - ptr.getD ii 0 > nn then ptr.getD (ii + 1) 0 - ptr.getD ii 0
      else nn) n 0 0
  let st := forLoop (sortValuesRow how ptr) n 0 (ind, val, List.replicate nn default)
  (st.1, st.2.1)

/-- Function `da_csr_SortValues(mat, what, mrl, how)`; `none` is the exit
through `da_errexit` (view absent, invalid `what`, values absent). -/
def da_csr_SortValues (mat : da_csr_t α) (what mrl how : Nat) : Option (da_csr_t α) :=
  if what = DA_ROW then
    match mat.rowptr, mat.rowval with
    | some ptr, some val =>
      let r := sortValuesView mat.nrows ptr (mat.rowind.getD []) val mrl how
      some { mat with rowind := mat.rowind.map (fun _ => r.1), rowval := some r.2 }
    | _, _ => none
  else if what = DA_COL then
    match mat.colptr, mat.colval with
    | some ptr, some val =>
      let r := sortValuesView mat.ncols ptr (mat.colind.getD []) val mrl how
      some { mat with colind := mat.colind.map (fun _ => r.1), colval := some r.2 }
    | _, _ => none
  else none

/-- Function `da_csr_CompactRows(mat)`.  The loop state is `(rowptr, j)`; the
final `da_prealloc(mat->rowptr, j+1, ...)` keeps the first `j + 1` entries.  A
write past the end of `rowptr` (the case `j = nrows`) is dropped. -/
def da_csr_CompactRows (mat : da_csr_t α) : da_csr_t α :=
  let nrows := mat.nrows
  let rowptr := mat.rowptr.getD []
  let r := forLoop (fun i (st : List Nat × Nat) =>
      let rp := st.1.set st.2 (st.1.getD i 0)
      (rp, if rp.getD (i + 1) 0 > rp.getD i 0 then st.2 + 1 else st.2)) nrows 0 (rowptr, 0)
  let rp := r.1.set (r.2 + 1) (r.1.getD nrows 0)
  { mat with nrows := r.2, rowptr := mat.rowptr.map (fun _ => rp.take (r.2 + 1)) }

/-- Scratch registers of the row loop of `da_csr_SortIndices`. -/
structure SortIdxState (α : Type) where
  ind : List Nat
  val : Option (List α)
  cand : List da_pikv_t
  tval : List α

/-- Body of the row loop of `da_csr_SortIndices` for row (or column) `i`: the scan
that fills `cand` and `tval` and looks for an inversion, then the sort and the
copy back when an inversion was seen.  With `val = none` it is the branch
without values. -/
def sortIndicesRow (ptr : List Nat) (i : Nat) (st : SortIdxState α) : SortIdxState α :=
  let s := ptr.getD i 0
  let len := ptr.getD (i + 1) 0 - s
  let scan := forLoop (fun j (c : Bool × List da_pikv_t × List α) =>
      let k := if j > s ∧ st.ind.getD j 0 < st.ind.getD (j - 1) 0 then true else c.1
      (k, c.2.1.set (j - s) ⟨j - s, st.ind.getD j 0⟩,
        match st.val with
        | some v => c.2.2.set (j - s) (v.getD j 0)
        | none => c.2.2))
    len s (false, st.cand, st.tval)
  if scan.1 then
    let cand := da_pikvsorti len scan.2.1
    let ind := forLoop (fun j (a : List Nat) => a.set j (cand.getD (j - s) default).val) len s st.ind
    let val := st.val.map (fun v =>
      forLoop (fun j (a : List α) => a.set j (scan.2.2.getD (cand.getD (j - s) default).key 0)) len s v)
    { ind := ind, val := val, cand := cand, tval := scan.2.2 }
  else
    { st with cand := scan.2.1, tval := scan.2.2 }

/-- The row loop of `da_csr_SortIndices` on one view `(n, ptr, ind, val)`;
returns the sorted `ind` and `val`. -/
def sortIndicesView (n : Nat) (ptr ind : List Nat) (val : Option (List α)) :
    List Nat × Option (List α) :=
  let nn := forLoop (fun i (nn : Nat) =>
      if nn ≥ ptr.getD (i + 1) 0 - ptr.getD i 0 then nn else ptr.getD (i + 1) 0 - ptr.getD i 0)
    n 0 0
  let st := forLoop (sortIndicesRow ptr) n 0
    { ind := ind, val := val, cand := List.replicate nn default, tval := List.replicate nn 0 }
  (st.ind, st.val)

/-- Function `da_csr_SortIndices(mat, what)`; `none` is the exit through
`da_errexit`. -/
def da_csr_SortIndices (mat : da_csr_t α) (what : Nat) : Option (da_csr_t α) :=
  if what = DA_ROW then
    match mat.rowptr with
    | none => none
    | some ptr =>
      let r := sortIndicesView mat.nrows ptr (mat.rowind.getD []) mat.rowval
      some { mat with rowind := mat.rowind.map (fun _ => r.1), rowval := r.2 }
  else if what = DA_COL then
    match mat.colptr with
    | none => none
    | some ptr =>
      let r := sortIndicesView mat.ncols ptr (mat.colind.getD []) mat.colval
      some { mat with colind := mat.colind.map (fun _ => r.1), colval := r.2 }
  else none

/-- Counting, prefix sums and scatter of `da_csr_CreateIndex` from the forward
view `(nf, fptr, find, fval)` to the reverse view of dimension `nr`; returns
`(rptr, rind, rval)`.  Arrays from `da_imalloc` and `da_vmalloc` start as zeros. -/
def createIndexView (nf nr : Nat) (fptr find : List Nat) (fval : Option (List α)) :
    List Nat × List Nat × Option (List α) :=
  let nnz := fptr.getD nf 0
  let rptr : List Nat := List.replicate (nr + 1) 0
  let rind : List Nat := List.replicate nnz 0
  let rval : Option (List α) := fval.map (fun _ => List.replicate nnz 0)
  let rptr := forEntries nf fptr (fun _ j (rp : List Nat) =>
      rp.set (find.getD j 0) (rp.getD (find.getD j 0) 0 + 1)) rptr
  let rptr := CSRMAKE nr rptr
  if rptr.getD nr 0 > 6 * nr then
    let p1 := forEntries nf fptr (fun i j (st : List Nat × List Nat) =>
        (st.1.set (find.getD j 0) (st.1.getD (find.getD j 0) 0 + 1),
         st.2.set (st.1.getD (find.getD j 0) 0) i)) (rptr, rind)
    let rptr := CSRSHIFT nr p1.1
    match fval with
    | some fv =>
      let p2 := forEntries nf fptr (fun _ j (st : List Nat × List α) =>
          (st.1.set (find.getD j 0) (st.1.getD (find.getD j 0) 0 + 1),
           st.2.set (st.1.getD (find.getD j 0) 0) (fv.getD j 0))) (rptr, List.replicate nnz 0)
      (CSRSHIFT nr p2.1, p1.2, some p2.2)
    | none => (rptr, p1.2, none)
  else
    match fval with
    | some fv =>
      let p := forEntries nf fptr (fun i j (st : List Nat × List Nat × List α) =>
          let k := find.getD j 0
          (st.1.set k (st.1.getD k 0 + 1),
           st.2.1.set (st.1.getD k 0) i,
           st.2.2.set (st.1.getD k 0) (fv.getD j 0))) (rptr, rind, List.replicate nnz 0)
      (CSRSHIFT nr p.1, p.2.1, some p.2.2)
    | none =>
      let p := forEntries nf fptr (fun i j (st : List Nat × List Nat) =>
          (st.1.set (find.getD j 0) (st.1.getD (find.getD j 0) 0 + 1),
           st.2.set (st.1.getD (find.getD j 0) 0) i)) (rptr, rind)
      (CSRSHIFT nr p.1, p.2, rval)

/-- Function `da_csr_CreateIndex(mat, what)`; `none` is the exit through
`da_errexit` on an invalid `what`.  A `NULL` forward view is read as empty. -/
def da_csr_CreateIndex (mat : da_csr_t α) (what : Nat) : Option (da_csr_t α) :=
  if what = DA_COL then
    let r := createIndexView mat.nrows mat.ncols (mat.rowptr.getD []) (mat.rowind.getD [])
      mat.rowval
    some { mat with colptr := some r.1, colind := some r.2.1, colval := r.2.2 }
  else if what = DA_ROW then
    let r := createIndexView mat.ncols mat.nrows (mat.colptr.getD []) (mat.colind.getD [])
      mat.colval
    some { mat with rowptr := some r.1, rowind := some r.2.1, rowval := r.2.2 }
  else none

/-- Counting, prefix sums and scatter of `da_csr_CreateIndex_a`: the counting
loop and `CSRMAKE`, then one scatter pass that writes the indices and, when the
forward view has values, the values, then `CSRSHIFT`.  Arrays from
`da_pnmalloc_a`, `da_imalloc_a` and `da_vmalloc_a` start as zeros. -/
def createIndexView_a (nf nr : Nat) (fptr find : List Nat) (fval : Option (List α)) :
    List Nat × List Nat × Option (List α) :=
  let nnz := fptr.getD nf 0
  let rptr : List Nat := List.replicate (nr + 1) 0
  let rind : List Nat := List.replicate nnz 0
  let rval : Option (List α) := fval.map (fun _ => List.replicate nnz 0)
  let rptr := forEntries nf fptr (fun _ j (rp : List Nat) =>
      rp.set (find.getD j 0) (rp.getD (find.getD j 0) 0 + 1)) rptr
  let rptr := CSRMAKE nr rptr
  match fval with
  | some fv =>
    let p := forEntries nf fptr (fun i j (st : List Nat × List Nat × List α) =>
        let k := find.getD j 0
        (st.1.set k (st.1.getD k 0 + 1),
         st.2.1.set (st.1.getD k 0) i,
         st.2.2.set (st.1.getD k 0) (fv.getD j 0))) (rptr, rind, List.replicate nnz 0)
    (CSRSHIFT nr p.1, p.2.1, some p.2.2)
  | none =>
    let p := forEntries nf fptr (fun i j (st : List Nat × List Nat) =>
        let k := find.getD j 0
        (st.1.set k (st.1.getD k 0 + 1), st.2.set (st.1.getD k 0) i)) (rptr, rind)
    (CSRSHIFT nr p.1, p.2, rval)

/-- Function `da_csr_CreateIndex_a(mat, what)`; `none` is the exit through
`da_errexit` on an invalid `what`.  A `NULL` forward view is read as empty. -/
def da_csr_CreateIndex_a (mat : da_csr_t α) (what : Nat) : Option (da_csr_t α) :=
  if what = DA_COL then
    let r := createIndexView_a mat.nrows mat.ncols (mat.rowptr.getD []) (mat.rowind.getD [])
      mat.rowval
    some { mat with colptr := some r.1, colind := some r.2.1, colval := r.2.2 }
  else if what = DA_ROW then
    let r := createIndexView_a mat.ncols mat.nrows (mat.colptr.getD []) (mat.colind.getD [])
      mat.colval
    some { mat with rowptr := some r.1, rowind := some r.2.1, rowval := r.2.2 }
  else none

/-- Body of the outer loop of `da_csr_CheckSortedIndex` for row (or column) `i`,
entered with the flag `k`: the loop condition `k == 1`, then the scan
`for (j=ptr[i]; j < ptr[i+1]; ++j) if (j > ptr[i] && ind[j] < ind[j-1]) { k = 0; break; }`.
After the `break` the remaining rounds of the scan are not run: they keep `k`. -/
def checkSortedRow (ptr ind : List Nat) (i : Nat) (k : Nat) : Nat :=
  if k = 1 then
    forLoop (fun j (k : Nat) =>
        if k = 1 then
          if j > ptr.getD i 0 ∧ ind.getD j 0 < ind.getD (j - 1) 0 then 0 else k
        else k)
      (ptr.getD (i + 1) 0 - ptr.getD i 0) (ptr.getD i 0) k
  else k

/-- Function `da_csr_CheckSortedIndex(mat, what)`: 1 when no row (or column) of
the view holds an index smaller than the one before it, else 0; `none` is the
exit through `da_errexit`. -/
def da_csr_CheckSortedIndex (mat : da_csr_t α) (what : Nat) : Option Nat :=
  if what = DA_ROW then
    match mat.rowptr with
    | none => none
    | some ptr => some (forLoop (checkSortedRow ptr (mat.rowind.getD [])) mat.nrows 0 1)
  else if what = DA_COL then
    match mat.colptr with
    | none => none
    | some ptr => some (forLoop (checkSortedRow ptr (mat.colind.getD [])) mat.ncols 0 1)
  else none

/-- Body of the row loop of `da_csr_Normalize` for row (or column) `i`: the sum
(of squares for `norm = 2`, of values for `norm = 1`), then, when the sum is
positive, the multiplication of the row by `1/sqrt(sum)` or `1/sum`. -/
def normalizeRow (sqrt : α → α) (ptr : List Nat) (norm : Nat) (i : Nat) (val : List α) :
    List α :=
  let s := ptr.getD i 0
  let len := ptr.getD (i + 1) 0 - s
  let sum := forLoop (fun j (sum : α) =>
      if norm = 2 then sum + val.getD j 0 * val.getD j 0
      else if norm = 1 then sum + val.getD j 0
      else sum) len s 0
  if sum > 0 then
    let sum := if norm = 2 then 1 / sqrt sum else if norm = 1 then 1 / sum else sum
    forLoop (fun j (val : List α) => val.set j (val.getD j 0 * sum)) len s val
  else val

/-- Loop of `da_csr_Normalize` over the rows (or columns) of one view. -/
def normalizeView (sqrt : α → α) (n : Nat) (ptr : List Nat) (norm : Nat) (val : List α) : List α :=
  forLoop (normalizeRow sqrt ptr norm) n 0 val

/-- First block of `da_csr_Normalize`: `if ((what & DA_ROW) && mat->rowval) ...`. -/
def normalizeRows (sqrt : α → α) (mat : da_csr_t α) (what norm : Nat) : da_csr_t α :=
  match mat.rowval with
  | some val =>
    if what &&& DA_ROW ≠ 0 then
      { mat with rowval := some (normalizeView sqrt mat.nrows (mat.rowptr.getD []) norm val) }
    else mat
  | none => mat

/-- Second block of `da_csr_Normalize`: `if ((what & DA_COL) && mat->colval) ...`. -/
def normalizeCols (sqrt : α → α) (mat : da_csr_t α) (what norm : Nat) : da_csr_t α :=
  match mat.colval with
  | some val =>
    if what &&& DA_COL ≠ 0 then
      { mat with colval := some (normalizeView sqrt mat.ncols (mat.colptr.getD []) norm val) }
    else mat
  | none => mat

/-- Function `da_csr_Normalize(mat, what, norm)`; `sqrt` is the square root of
`math.h`. -/
def da_csr_Normalize (sqrt : α → α) (mat : da_csr_t α) (what norm : Nat) : da_csr_t α :=
  normalizeCols sqrt (normalizeRows sqrt mat what norm) what norm

/-- Function `da_csr_Scale(mat)`; `log` is the natural logarithm of `math.h`. -/
def da_csr_Scale (log : α → α) (mat : da_csr_t α) : da_csr_t α :=
  let nrows := mat.nrows
  let ncols := mat.ncols
  let rowptr := mat.rowptr.getD []
  let rowind := mat.rowind.getD []
  let collen := forEntries nrows rowptr (fun _ j (cl : List Nat) =>
      cl.set (rowind.getD j 0) (cl.getD (rowind.getD j 0) 0 + 1)) (List.replicate ncols 0)
  let cscale := forLoop (fun i (cs : List α) =>
      cs.set i (if collen.getD i 0 > 0 then log ((nrows : α) / (collen.getD i 0 : α)) else 0))
    ncols 0 (List.replicate ncols 0)
  { mat with rowval := mat.rowval.map (fun rowval =>
      forEntries nrows rowptr (fun _ j (rv : List α) =>
        rv.set j (rv.getD j 0 * cscale.getD (rowind.getD j 0) 0)) rowval) }

/-- Preprocessing shared by `idxjoin` and `invertedidx`: compact the columns,
sort the row indices, scale by IDF, normalise the rows to unit 2-norm and build
the column view. -/
def preprocess (log sqrt : α → α) (docs : da_csr_t α) : Option (da_csr_t α) :=
  match da_csr_SortIndices (da_csr_CompactColumns docs) DA_ROW with
  | none => none
  | some d => da_csr_CreateIndex (da_csr_Normalize sqrt (da_csr_Scale log d) DA_ROW 2) DA_COL

end CsrOps

/-! ## Cosine similarity of two rows (`da_csr_ComputeSimilarity`) -/

section Similarity

variable {α : Type} [LinearOrderedField α]

/-- Registers of the merge loop of `da_csr_ComputeSimilarity`. -/
structure SimState (α : Type) where
  i1 : Nat
  i2 : Nat
  sim : α
  stat1 : α
  stat2 : α

/-- Body of the `while` loop of `da_csr_ComputeSimilarity`, with its five
branches in the order of the source; `p1` and `p2` are the offsets
`ptr[rc1]` and `ptr[rc2]` of the two rows in `ind` and `val`. -/
def simStep (ind : List Nat) (val : List α) (p1 p2 nind1 nind2 : Nat) (s : SimState α) :
    SimState α :=
  if s.i1 = nind1 then
    { s with stat2 := s.stat2 + val.getD (p2 + s.i2) 0 * val.getD (p2 + s.i2) 0, i2 := s.i2 + 1 }
  else if s.i2 = nind2 then
    { s with stat1 := s.stat1 + val.getD (p1 + s.i1) 0 * val.getD (p1 + s.i1) 0, i1 := s.i1 + 1 }
  else if ind.getD (p1 + s.i1) 0 < ind.getD (p2 + s.i2) 0 then
    { s with stat1 := s.stat1 + val.getD (p1 + s.i1) 0 * val.getD (p1 + s.i1) 0, i1 := s.i1 + 1 }
  else if ind.getD (p1 + s.i1) 0 > ind.getD (p2 + s.i2) 0 then
    { s with stat2 := s.stat2 + val.getD (p2 + s.i2) 0 * val.getD (p2 + s.i2) 0, i2 := s.i2 + 1 }
  else
    { sim := s.sim + val.getD (p1 + s.i1) 0 * val.getD (p2 + s.i2) 0,
      stat1 := s.stat1 + val.getD (p1 + s.i1) 0 * val.getD (p1 + s.i1) 0,
      stat2 := s.stat2 + val.getD (p2 + s.i2) 0 * val.getD (p2 + s.i2) 0,
      i1 := s.i1 + 1, i2 := s.i2 + 1 }

/-- Loop `while (i1<nind1 && i2<nind2) ...` of `da_csr_ComputeSimilarity`; the
first argument bounds the number of rounds, and `none` means that the bound was
reached with the loop condition still true. -/
def simLoop (ind : List Nat) (val : List α) (p1 p2 nind1 nind2 : Nat) :
    Nat → SimState α → Option (SimState α)
  | fuel, s =>
    if s.i1 < nind1 ∧ s.i2 < nind2 then
      match fuel with
      | 0 => none
      | f + 1 => simLoop ind val p1 p2 nind1 nind2 f (simStep ind val p1 p2 nind1 nind2 s)
    else some s

/-- The merge and the final quotient of `da_csr_ComputeSimilarity` on one view
`(ptr, ind, val)`; `sqrt` is the square root of `math.h`. -/
def similarityView (sqrt : α → α) (ptr ind : List Nat) (val : List α) (rc1 rc2 : Nat) :
    Option α :=
  let nind1 := ptr.getD (rc1 + 1) 0 - ptr.getD rc1 0
  let nind2 := ptr.getD (rc2 + 1) 0 - ptr.getD rc2 0
  match simLoop ind val (ptr.getD rc1 0) (ptr.getD rc2 0) nind1 nind2 (nind1 + nind2)
      { i1 := 0, i2 := 0, sim := 0, stat1 := 0, stat2 := 0 } with
  | none => none
  | some s => some (if s.stat1 * s.stat2 > 0 then s.sim / sqrt (s.stat1 * s.stat2) else 0)

/-- Function `da_csr_ComputeSimilarity(mat, rc1, rc2, what)`; `none` is the exit
through `da_errexit` (view absent, invalid `what`).  `NULL` index and value
arrays are read as empty. -/
def da_csr_ComputeSimilarity (sqrt : α → α) (mat : da_csr_t α) (rc1 rc2 what : Nat) :
    Option α :=
  if what = DA_ROW then
    match mat.rowptr with
    | none => none
    | some ptr => similarityView sqrt ptr (mat.rowind.getD []) (mat.rowval.getD []) rc1 rc2
  else if what = DA_COL then
    match mat.colptr with
    | none => none
    | some ptr => similarityView sqrt ptr (mat.colind.getD []) (mat.colval.getD []) rc1 rc2
  else none

end Similarity

/-! ## Comparison and transposition (`da_csr_Compare`, `da_csr_Transpose`) -/

section CompareTranspose

variable {α : Type} [LinearOrderedField α]

/-- Loop `for (i=0; i<n; i++) if (bad(i)) return 0; return 1;` shared by
`da_iarreq`, `da_parreq` and `da_varreq_p`; the first numeric argument is the
number of iterations left. -/
def arrScan (bad : Nat → Bool) : Nat → Nat → Nat
  | 0, _ => 1
  | m + 1, i => if bad i then 0 else arrScan bad m (i + 1)

/-- Function `da_iarreq(n, x, y)`: 1 when `x[i] == y[i]` for all `i < n`. -/
def da_iarreq (n : Nat) (x y : List Nat) : Nat :=
  arrScan (fun i => decide (x.getD i 0 ≠ y.getD i 0)) n 0

/-- Function `da_parreq(n, x, y)`: 1 when `x[i] == y[i]` for all `i < n`. -/
def da_parreq (n : Nat) (x y : List Nat) : Nat :=
  arrScan (fun i => decide (x.getD i 0 ≠ y.getD i 0)) n 0

/-- Function `da_varreq_p(n, x, y, p)`: 1 when no `i < n` has
`((x[i] - y[i]) >= 0 ? (x[i] - y[i]) : -(x[i] - y[i])) > p`. -/
def da_varreq_p (n : Nat) (x y : List α) (p : α) : Nat :=
  arrScan (fun i => decide ((if x.getD i 0 - y.getD i 0 ≥ 0 then x.getD i 0 - y.getD i 0
    else -(x.getD i 0 - y.getD i 0)) > p)) n 0

/-- Function `da_csr_Compare(a, b, p)` on two non-null matrices; `none` is the
failure of `assert((a->rowptr && b->rowptr) || (a->colptr && b->colptr))`.
`NULL` index and value arrays are read as empty. -/
def da_csr_Compare (a b : da_csr_t α) (p : α) : Option Nat :=
  if a.ncols ≠ b.ncols ∨ a.nrows ≠ b.nrows then some 0
  else if ¬ ((a.rowptr.isSome ∧ b.rowptr.isSome) ∨ (a.colptr.isSome ∧ b.colptr.isSome)) then none
  else
    match a.rowptr, b.rowptr with
    | some pa, some pb =>
      if pa.getD a.nrows 0 ≠ pb.getD b.nrows 0 then some 0
      else
        let nnz := pa.getD a.nrows 0
        if da_parreq (a.nrows + 1) pa pb = 0 then some 0
        else if da_iarreq nnz (a.rowind.getD []) (b.rowind.getD []) = 0 then some 0
        else if a.rowval.isSome ∧ b.rowval.isSome ∧
            da_varreq_p nnz (a.rowval.getD []) (b.rowval.getD []) p = 0 then some 0
        else if (a.rowval.isSome ∧ b.rowval.isNone) ∨ (a.rowval.isNone ∧ b.rowval.isSome) then
          some 0
        else some 1
    | _, _ =>
      match a.colptr, b.colptr with
      | some ca, some cb =>
        if ca.getD a.ncols 0 ≠ cb.getD b.ncols 0 then some 0
        else
          let nnz := ca.getD a.ncols 0
          if da_parreq (a.ncols + 1) ca cb = 0 then some 0
          else if da_iarreq nnz (a.colind.getD []) (b.colind.getD []) = 0 then some 0
          else if a.rowval.isSome ∧ b.rowval.isSome ∧
              da_varreq_p nnz (a.colval.getD []) (b.colval.getD []) p = 0 then some 0
          else if (a.rowval.isSome ∧ b.rowval.isNone) ∨ (a.rowval.isNone ∧ b.rowval.isSome) then
            some 0
          else some 1
      | _, _ => some 0

/-- Function `da_csr_Transpose(mat)`: builds the column view when `colptr` is
`NULL`, then exchanges the dimensions and the two views. -/
def da_csr_Transpose (mat : da_csr_t α) : Option (da_csr_t α) :=
  match (if mat.colptr.isNone then da_csr_CreateIndex mat DA_COL else some mat) with
  | none => none
  | some m =>
    some { nrows := m.ncols, ncols := m.nrows,
           rowptr := m.colptr, rowind := m.colind, rowval := m.colval, rnorms := m.cnorms,
           colptr := m.rowptr, colind := m.rowind, colval := m.rowval, cnorms := m.rnorms }

end CompareTranspose

/-! ## Recall check (`verify_knng_results`, `util.cpp`) -/

section Verify

variable {α : Type} [LinearOrderedField α]

/-- Macro `da_abs(x)`: `((x) >= 0 ? (x) : -(x))`. -/
def da_abs (x : α) : α := if x ≥ 0 then x else -x

/-- Macro `da_min(a, b)`: `((a) >= (b) ? (b) : (a))`. -/
def da_min (a b : Nat) : Nat := if a ≥ b then b else a

/-- Registers of the row loop of `verify_knng_results` that outlive one row: the
scratch array `row` and the accumulators `recall` (field `recallAcc`, the source
name being a reserved word), `crecall` and `n`. -/
structure KnngState (α : Type) where
  row : List α
  recallAcc : α
  crecall : α
  n : Nat

/-- Registers of the loop over the true neighbours of one row. -/
structure KnngRowState (α : Type) where
  row : List α
  c : Nat
  cc : Nat
  err : Nat
  lv2 : α

/-- First loop of a row of `verify_knng_results`:
`for(lv=FLT_MAX, j=ptr[i]; j < ptr[i+1]; ++j){ row[ind[j]] = val[j]; if(val[j] < lv) lv = val[j]; }`;
returns `(row, lv)`. -/
def knngFill (ind : List Nat) (val : List α) (s len : Nat) (fltMax : α) (row : List α) :
    List α × α :=
  forLoop (fun j (st : List α × α) =>
      (st.1.set (ind.getD j 0) (val.getD j 0),
       if val.getD j 0 < st.2 then val.getD j 0 else st.2)) len s (row, fltMax)

/-- Body of the loop over the true neighbours at position `j`; the `printf`
calls are left out, the counter `err` they come with is kept. -/
def knngCheckStep (ind2 : List Nat) (val2 : List α) (print_errors : Nat) (lv : α) (j : Nat)
    (st : KnngRowState α) : KnngRowState α :=
  let cid := ind2.getD j 0
  let v := val2.getD j 0
  let st1 : KnngRowState α :=
    if st.row.getD cid 0 > -1 then
      { st with
        c := st.c + 1,
        cc := if da_abs (st.row.getD cid 0 - v) < 1 / 10000 then st.cc + 1 else st.cc,
        err := if ¬ da_abs (st.row.getD cid 0 - v) < 1 / 10000 ∧ print_errors > 0
          then st.err + 1 else st.err,
        row := st.row.set cid 1 }
    else if da_abs (lv - v) < 1 / 10000 then
      { st with cc := st.cc + 1, err := if print_errors > 1 then st.err + 1 else st.err }
    else if print_errors > 1 then { st with err := st.err + 1 }
    else st
  { st1 with lv2 := if v < st1.lv2 then v else st1.lv2 }

/-- Loop `for(k=0, j=ptr2[i]; j < ptr2[i+1] && k < nsz; ++j, ++k)` over the true
neighbours of one row; `j` and `k` advance together, so it runs `cnt` rounds with
`cnt` the smaller of the row length and `nsz`. -/
def knngCheck (ind2 : List Nat) (val2 : List α) (s2 cnt print_errors : Nat) (lv fltMax : α)
    (row : List α) : KnngRowState α :=
  forLoop (knngCheckStep ind2 val2 print_errors lv) cnt s2
    { row := row, c := 0, cc := 0, err := 0, lv2 := fltMax }

/-- Last loop of a row: `for(k-=err, j=ptr[i]; j < ptr[i+1]; ++j)` with the
`print_errors > 2` branch (its `printf` left out) and `row[ind[j]] = -1`; the
state is `(row, err, k)`. -/
def knngReset (ind : List Nat) (s len nsz print_errors : Nat) (st : List α × Nat × Nat) :
    List α × Nat × Nat :=
  forLoop (fun j (st : List α × Nat × Nat) =>
      let st1 : List α × Nat × Nat :=
        if print_errors > 2 ∧ st.2.2 < nsz ∧ st.1.getD (ind.getD j 0) 0 ≠ 1 then
          (st.1, st.2.1 + 1, st.2.2 + 1)
        else st
      (st1.1.set (ind.getD j 0) (-1), st1.2.1, st1.2.2)) len s st

/-- Body of the row loop of `verify_knng_results` for row `i`; the progress
indicator and the `printf` calls are left out. -/
def knngRow (ptr ind : List Nat) (val : List α) (ptr2 ind2 : List Nat) (val2 : List α)
    (nsz print_errors : Nat) (fltMax : α) (i : Nat) (st : KnngState α) : KnngState α :=
  if ptr.getD (i + 1) 0 = ptr.getD i 0 then st
  else
    let fill := knngFill ind val (ptr.getD i 0) (ptr.getD (i + 1) 0 - ptr.getD i 0) fltMax st.row
    let ln := da_min nsz (ptr2.getD (i + 1) 0 - ptr2.getD i 0)
    let chk := knngCheck ind2 val2 (ptr2.getD i 0)
      (min (ptr2.getD (i + 1) 0 - ptr2.getD i 0) nsz) print_errors fill.2 fltMax fill.1
    let rst := knngReset ind (ptr.getD i 0) (ptr.getD (i + 1) 0 - ptr.getD i 0) nsz print_errors
      (chk.row, chk.err, min (ptr2.getD (i + 1) 0 - ptr2.getD i 0) nsz - chk.err)
    if ln > 0 then
      { row := rst.1, recallAcc := st.recallAcc + (chk.c : α) / (ln : α),
        crecall := st.crecall + (chk.cc : α) / (ln : α), n := st.n + 1 }
    else { st with row := rst.1 }

/-- Function `verify_knng_results(ngbrs1, ngbrs2, nsz, print_errors)`: the
registers at the end of the row loop; `none` is the exit through `da_errexit`
when the row counts differ.  `fltMax` is the constant `FLT_MAX`, and `NULL`
arrays are read as empty. -/
def verify_knng_results (ngbrs1 ngbrs2 : da_csr_t α) (nsz print_errors : Nat) (fltMax : α) :
    Option (KnngState α) :=
  if ngbrs1.nrows ≠ ngbrs2.nrows then none
  else
    some (forLoop (knngRow (ngbrs1.rowptr.getD []) (ngbrs1.rowind.getD [])
        (ngbrs1.rowval.getD []) (ngbrs2.rowptr.getD []) (ngbrs2.rowind.getD [])
        (ngbrs2.rowval.getD []) nsz print_errors fltMax) ngbrs1.nrows 0
      { row := List.replicate ngbrs1.nrows (-1), recallAcc := 0, crecall := 0, n := 0 })

/-- Row `i` enters the averages of `verify_knng_results`: its row in `ngbrs1` is
not empty and `ln`, the smaller of `nsz` and the length of its row in `ngbrs2`,
is positive. -/
def knngCounted (ptr ptr2 : List Nat) (nsz i : Nat) : Bool :=
  decide (ptr.getD (i + 1) 0 ≠ ptr.getD i 0 ∧
    da_min nsz (ptr2.getD (i + 1) 0 - ptr2.getD i 0) > 0)

/-- Corrected recall of row `i` alone: what one round of the row loop, started
with a scratch array of `-1` and zeroed accumulators, adds to `crecall`. -/
def rowCorrected (nrows : Nat) (ptr ind : List Nat) (val : List α) (ptr2 ind2 : List Nat)
    (val2 : List α) (nsz print_errors : Nat) (fltMax : α) (i : Nat) : α :=
  (knngRow ptr ind val ptr2 ind2 val2 nsz print_errors fltMax i
    { row := List.replicate nrows (-1), recallAcc := 0, crecall := 0, n := 0 }).crecall

/-- A true neighbour `cid` with value `v` is correctly scored against the
candidate row `ind[s..s+len)`, `val[s..s+len)` whose smallest value is `lv`:
either the row holds `cid` with a value less than `1e-4` from `v`, or the row
does not hold `cid` and `v` is less than `1e-4` from `lv`. -/
def correctlyScored (ind : List Nat) (val : List α) (s len : Nat) (lv : α) (cid : Nat) (v : α) :
    Bool :=
  decide ((∃ t, t < len ∧ ind.getD (s + t) 0 = cid ∧
      da_abs (val.getD (s + t) 0 - v) < 1 / 10000) ∨
    ((∀ t, t < len → ind.getD (s + t) 0 ≠ cid) ∧ da_abs (lv - v) < 1 / 10000))

/-- The value printed by `printf("\nRecall: %.4f\n", crecall/n)`. -/
def reportedRecall (st : KnngState α) : α := st.crecall / (st.n : α)

end Verify

/-! ## Difference count (`da_csrCompare`, `util.cpp`) -/

section CsrCompare

variable {α : Type} [LinearOrderedField α]

/-- Routine `PRFX ## copy(n, a, b)` of the macro `DA_MKALLOC(PRFX, TYPE)` of
`da_mkmemory.h`, which `proto.h` instantiates as `da_pcopy`, `da_icopy` and
`da_vcopy`: `return (TYPE *)memmove((void *)b, (void *)a, sizeof(TYPE)*n);`.
The first `n` entries of `b` become those of `a` and `b` is returned; `z` is
the value read at an index past the end of `a`. -/
def da_copy {β : Type} (z : β) (n : Nat) (a b : List β) : List β :=
  forLoop (fun i (b : List β) => b.set i (a.getD i z)) n 0 b

/-- Instance `DA_MKALLOC(da_p, ptr_t)` of the copy routine. -/
def da_pcopy (n : Nat) (a b : List Nat) : List Nat := da_copy 0 n a b

/-- Instance `DA_MKALLOC(da_i, idx_t)` of the copy routine. -/
def da_icopy (n : Nat) (a b : List Nat) : List Nat := da_copy 0 n a b

/-- Instance `DA_MKALLOC(da_v, val_t)` of the copy routine. -/
def da_vcopy (n : Nat) (a b : List α) : List α := da_copy 0 n a b

/-- Function `da_csr_Copy(mat)`: a new matrix with the dimensions of `mat` and,
for each array of `mat` that is not `NULL`, a freshly allocated array of the
length the source gives to it (`da_pmalloc`, `da_imalloc`, `da_vmalloc`, which
start as zeros) filled by the copy routine. -/
def da_csr_Copy (mat : da_csr_t α) : da_csr_t α :=
  { nrows := mat.nrows, ncols := mat.ncols,
    rowptr := mat.rowptr.map (fun a =>
      da_pcopy (mat.nrows + 1) a (List.replicate (mat.nrows + 1) 0)),
    rnorms := mat.rnorms.map (fun a => da_vcopy mat.nrows a (List.replicate mat.nrows 0)),
    rowind := mat.rowind.map (fun a =>
      da_icopy ((mat.rowptr.getD []).getD mat.nrows 0) a
        (List.replicate ((mat.rowptr.getD []).getD mat.nrows 0) 0)),
    rowval := mat.rowval.map (fun a =>
      da_vcopy ((mat.rowptr.getD []).getD mat.nrows 0) a
        (List.replicate ((mat.rowptr.getD []).getD mat.nrows 0) 0)),
    colptr := mat.colptr.map (fun a =>
      da_pcopy (mat.ncols + 1) a (List.replicate (mat.ncols + 1) 0)),
    cnorms := mat.cnorms.map (fun a => da_vcopy mat.ncols a (List.replicate mat.ncols 0)),
    colind := mat.colind.map (fun a =>
      da_icopy ((mat.colptr.getD []).getD mat.ncols 0) a
        (List.replicate ((mat.colptr.getD []).getD mat.ncols 0) 0)),
    colval := mat.colval.map (fun a =>
      da_vcopy ((mat.colptr.getD []).getD mat.ncols 0) a
        (List.replicate ((mat.colptr.getD []).getD mat.ncols 0) 0)) }

/-- Loop `for(j=ptr1[i], k=ptr2[i]; j < ptr1[i+1] && k < ptr2[i+1]; )` of the
index branch of `da_csrCompare` (the `COMPERRPRINT` output left out); `e1` and
`e2` are the two row ends, the first argument bounds the number of rounds, and
the result is `(j, k, ndiff)`. -/
def cmpMerge (ind1 ind2 : List Nat) (val1 val2 : List α) (e1 e2 : Nat) (eps : α)
    (compVals : Nat) : Nat → Nat → Nat → Nat → Option (Nat × Nat × Nat)
  | fuel, j, k, ndiff =>
    if j < e1 ∧ k < e2 then
      match fuel with
      | 0 => none
      | f + 1 =>
        if ind1.getD j 0 = ind2.getD k 0 then
          cmpMerge ind1 ind2 val1 val2 e1 e2 eps compVals f (j + 1) (k + 1)
            (if compVals ≠ 0 ∧ da_abs (val1.getD j 0 - val2.getD k 0) > eps then ndiff + 1
             else ndiff)
        else if ind1.getD j 0 > ind2.getD k 0 then
          cmpMerge ind1 ind2 val1 val2 e1 e2 eps compVals f j (k + 1) (ndiff + 1)
        else
          cmpMerge ind1 ind2 val1 val2 e1 e2 eps compVals f (j + 1) k (ndiff + 1)
    else some (j, k, ndiff)

/-- One row of the index branch of `da_csrCompare`: the merge, then the two
loops over what is left of either row, each entry left adding one to `ndiff`. -/
def cmpIndRow (ptr1 ind1 : List Nat) (val1 : List α) (ptr2 ind2 : List Nat) (val2 : List α)
    (eps : α) (compVals i ndiff : Nat) : Option Nat :=
  let e1 := ptr1.getD (i + 1) 0
  let e2 := ptr2.getD (i + 1) 0
  match cmpMerge ind1 ind2 val1 val2 e1 e2 eps compVals
      ((e1 - ptr1.getD i 0) + (e2 - ptr2.getD i 0)) (ptr1.getD i 0) (ptr2.getD i 0) ndiff with
  | none => none
  | some r => some (r.2.2 + (e1 - r.1) + (e2 - r.2.1))

/-- One row of the value branch of `da_csrCompare`: `j` and `k` advance together
over the shorter of the two rows, then each entry left adds one to `ndiff`. -/
def cmpValRow (ptr1 : List Nat) (val1 : List α) (ptr2 : List Nat) (val2 : List α) (eps : α)
    (i ndiff : Nat) : Nat :=
  let len1 := ptr1.getD (i + 1) 0 - ptr1.getD i 0
  let len2 := ptr2.getD (i + 1) 0 - ptr2.getD i 0
  let nd := forLoop (fun t (nd : Nat) =>
      if da_abs (val1.getD (ptr1.getD i 0 + t) 0 - val2.getD (ptr2.getD i 0 + t) 0) > eps
      then nd + 1 else nd) (min len1 len2) 0 ndiff
  nd + (len1 - min len1 len2) + (len2 - min len1 len2)

/-- Loop `for( ; i < nrows; i++) for(j=ptr[i]; j < ptr[i+1]; j++) ndiff++;` over
the rows that only one of the two matrices has. -/
def cmpRest (ptr : List Nat) (start nrows ndiff : Nat) : Nat :=
  forLoop (fun i (nd : Nat) => nd + (ptr.getD (i + 1) 0 - ptr.getD i 0)) (nrows - start) start
    ndiff

/-- Row loop of the index branch, over the rows that both matrices have. -/
def cmpIndRows (ptr1 ind1 : List Nat) (val1 : List α) (ptr2 ind2 : List Nat) (val2 : List α)
    (eps : α) (compVals : Nat) : Nat → Nat → Nat → Option Nat
  | 0, _, ndiff => some ndiff
  | m + 1, i, ndiff =>
    match cmpIndRow ptr1 ind1 val1 ptr2 ind2 val2 eps compVals i ndiff with
    | none => none
    | some nd => cmpIndRows ptr1 ind1 val1 ptr2 ind2 val2 eps compVals m (i + 1) nd

/-- Function `da_csrCompare(doc1, doc2, eps, compInds, compVals)`: the number
`ndiff` printed at the end.  `none` is a failed `ASSERT`, the exit of
`da_csr_SortIndices` through `da_errexit`, or a merge that used up its bound.
The `printf` output is left out; `NULL` arrays are read as empty. -/
def da_csrCompare (doc1 doc2 : da_csr_t α) (eps : α) (compInds compVals : Nat) : Option Nat :=
  if ¬ ((doc1.rowptr.isSome ∧ doc2.rowptr.isSome) ∨ (doc1.colptr.isSome ∧ doc2.colptr.isSome))
  then none
  else
    let sorted : Option (da_csr_t α × da_csr_t α) :=
      if compInds ≠ 0 then
        match da_csr_SortIndices (da_csr_Copy doc1) DA_ROW,
            da_csr_SortIndices (da_csr_Copy doc2) DA_ROW with
        | some a, some b => some (a, b)
        | _, _ => none
      else some (da_csr_Copy doc1, da_csr_Copy doc2)
    match sorted with
    | none => none
    | some (a, b) =>
      let ptr1 := a.rowptr.getD []
      let ind1 := a.rowind.getD []
      let val1 := a.rowval.getD []
      let ptr2 := b.rowptr.getD []
      let ind2 := b.rowind.getD []
      let val2 := b.rowval.getD []
      let compVals := if a.rowval.isNone then 0 else compVals
      let both := min a.nrows b.nrows
      if compVals ≠ 0 ∧ ¬ compInds ≠ 0 then
        let nd := forLoop (cmpValRow ptr1 val1 ptr2 val2 eps) both 0 0
        some (cmpRest ptr2 both b.nrows (cmpRest ptr1 both a.nrows nd))
      else
        match cmpIndRows ptr1 ind1 val1 ptr2 ind2 val2 eps compVals both 0 0 with
        | none => none
        | some nd => some (cmpRest ptr2 both b.nrows (cmpRest ptr1 both a.nrows nd))

end CsrCompare

/-! ## IdxJoin (`idxjoin.cpp`) -/

/-- Scratch state of the accumulation loop of `da_getSimilarRows`. -/
structure AccState (α : Type) where
  marker : List Int
  cand : List (da_ivkv_t α)
  ncand : Nat

/-- Result of `da_getSimilarRows`: the returned count `k`, the arrays it wrote
and the value left in `*ncands`. -/
structure SimRows (α : Type) where
  k : Nat
  hits : List (da_ivkv_t α)
  cand : List (da_ivkv_t α)
  marker : List Int
  ncands : Nat

/-- Registers of the search loop of `idxjoin`: scratch arrays, counters and the
three arrays of the `neighbors` matrix. -/
structure JoinState (α : Type) where
  hits : List (da_ivkv_t α)
  cand : List (da_ivkv_t α)
  marker : List Int
  ncand : Nat
  ncands : Nat
  nsims : Nat
  rowptr : List Nat
  rowind : List Nat
  rowval : List α

section IdxJoin

variable {α : Type} [LinearOrderedCommRing α]

/-- First statement group of the posting loop of `da_getSimilarRows`:
`if (marker[k] == -1) { cand[ncand].key = k; cand[ncand].val = 0; marker[k] = ncand++; }`. -/
def markCandidate (k : Nat) (st : AccState α) : AccState α :=
  if st.marker.getD k 0 = -1 then
    { marker := st.marker.set k (st.ncand : Int),
      cand := st.cand.set st.ncand ⟨k, 0⟩,
      ncand := st.ncand + 1 }
  else st

/-- Body of the posting loop of `da_getSimilarRows` for the posting entry `j`:
`k = colind[j]; if (k == rid) continue; if (marker[k] == -1) {...}
cand[marker[k]].val += colval[j] * qval[ii];`. -/
def accumEntry (colind : List Nat) (colval : List α) (rid : Nat) (qv : α) (j : Nat)
    (st : AccState α) : AccState α :=
  let k := colind.getD j 0
  if k = rid then st
  else
    let st1 := markCandidate k st
    let slot := (st1.marker.getD k 0).toNat
    let e := st1.cand.getD slot default
    { st1 with cand := st1.cand.set slot { e with val := e.val + colval.getD j 0 * qv } }

/-- Body of the query loop of `da_getSimilarRows` for the query entry `ii`:
`i = qind[ii]; if (i < ncols) for (j=colptr[i]; j<colptr[i+1]; j++) ...`. -/
def accumFeature (mat : da_csr_t α) (rid : Nat) (ii : Nat) (st : AccState α) : AccState α :=
  let colptr := mat.colptr.getD []
  let colind := mat.colind.getD []
  let colval := mat.colval.getD []
  let qstart := (mat.rowptr.getD []).getD rid 0
  let i := (mat.rowind.getD []).getD (qstart + ii) 0
  let qv := (mat.rowval.getD []).getD (qstart + ii) 0
  if i < mat.ncols then
    forLoop (accumEntry colind colval rid qv) (colptr.getD (i + 1) 0 - colptr.getD i 0)
      (colptr.getD i 0) st
  else st

/-- Accumulation loop of `da_getSimilarRows`: `for (ncand=0, ii=0; ii<qsz; ii++)`. -/
def accumulate (mat : da_csr_t α) (rid : Nat) (qsz : Nat) (marker : List Int)
    (cand : List (da_ivkv_t α)) : AccState α :=
  forLoop (accumFeature mat rid) qsz 0 { marker := marker, cand := cand, ncand := 0 }

/-- Loop `for (i=0; i<ncand; i++) marker[cand[i].key] = -1;`. -/
def clearMarkers (cand : List (da_ivkv_t α)) (ncand : Nat) (marker : List Int) : List Int :=
  forLoop (fun i m => m.set (cand.getD i default).key (-1)) ncand 0 marker

/-- Filter loop of `da_getSimilarRows`:
`for (k=0, i=0; i < nsim; ++i) if (cand[i].val >= eps) { hits[k] = cand[i]; k++; }`.
The state is the pair of `hits` and `k`. -/
def filterHits (cand : List (da_ivkv_t α)) (eps : α) (nsim : Nat)
    (hits : List (da_ivkv_t α)) : List (da_ivkv_t α) × Nat :=
  forLoop (fun i (st : List (da_ivkv_t α) × Nat) =>
      if eps ≤ (cand.getD i default).val then (st.1.set st.2 (cand.getD i default), st.2 + 1)
      else st)
    nsim 0 (hits, 0)

/-- Function `da_getSimilarRows(mat, rid, nsim, eps, hits, i_cand, i_marker, ncands)`.
`ncands` is the value held by `*ncands` on entry; the early return for an empty
query row leaves it as it is.  Arrays allocated with `da_ivkvmalloc` start as
zeros. -/
def da_getSimilarRows (mat : da_csr_t α) (rid : Nat) (nsim : Int) (eps : α)
    (hits : List (da_ivkv_t α)) (i_cand : Option (List (da_ivkv_t α)))
    (i_marker : Option (List Int)) (ncands : Nat) : Option (SimRows α) :=
  let nrows := mat.nrows
  let rowptr := mat.rowptr.getD []
  let qsz : Int := (rowptr.getD (rid + 1) 0 : Int) - (rowptr.getD rid 0 : Int)
  let marker0 := i_marker.getD (List.replicate nrows (-1))
  let cand0 := i_cand.getD (List.replicate nrows default)
  if qsz = 0 then
    some { k := 0, hits := hits, cand := cand0, marker := marker0, ncands := ncands }
  else
    let st := accumulate mat rid qsz.toNat marker0 cand0
    let ncand := st.ncand
    let marker := clearMarkers st.cand ncand st.marker
    let sel : Option (Int × List (da_ivkv_t α)) :=
      if nsim = -1 ∨ nsim ≥ (ncand : Int) then some ((ncand : Int), st.cand)
      else
        let nsim := if nsim ≥ (ncand : Int) then (ncand : Int) else nsim
        (da_ivkvkselectd ncand nsim st.cand).map (fun r => (nsim, r.2))
    sel.map (fun r =>
      let f := filterHits r.2 eps r.1.toNat hits
      { k := f.2, hits := da_ivkvsortd f.2 f.1, cand := r.2, marker := marker, ncands := ncand })

/-- Body of the search loop of `idxjoin` for row `i`: the call of
`da_getSimilarRows` and the transfer of the hits to the output arrays. -/
def idxjoinRow (docs : da_csr_t α) (k : Int) (eps : α) (i : Nat)
    (st : Option (JoinState α)) : Option (JoinState α) :=
  st.bind (fun s =>
    (da_getSimilarRows docs i k eps s.hits (some s.cand) (some s.marker) s.ncand).map (fun r =>
      let out := forLoop (fun j (o : List Nat × List α × Nat) =>
          (o.1.set o.2.2 (r.hits.getD j default).key,
           o.2.1.set o.2.2 (r.hits.getD j default).val,
           o.2.2 + 1))
        r.k 0 (s.rowind, s.rowval, s.nsims)
      { hits := r.hits, cand := r.cand, marker := r.marker, ncand := r.ncands,
        ncands := s.ncands + r.ncands, nsims := out.2.2,
        rowptr := s.rowptr.set (i + 1) out.2.2, rowind := out.1, rowval := out.2.1 }))

/-- Search phase of `idxjoin` (from the allocation of `hits` to the end of the
row loop) on the preprocessed matrix `docs`.  `ncand0` is the indeterminate
initial value of the local `ncand`; arrays allocated with `da_pmalloc`,
`da_imalloc` and `da_vmalloc` start as zeros. -/
def idxjoinSearch (docs : da_csr_t α) (k : Int) (eps : α) (ncand0 : Nat) :
    Option (JoinState α) :=
  let nrows := docs.nrows
  let nnz := (k * (nrows : Int)).toNat
  forLoop (idxjoinRow docs k eps) nrows 0
    (some { hits := List.replicate nrows ⟨0, 0⟩, cand := List.replicate nrows ⟨0, 0⟩,
            marker := List.replicate nrows (-1), ncand := ncand0, ncands := 0, nsims := 0,
            rowptr := (List.replicate (nrows + 1) 0).set 0 0,
            rowind := List.replicate nnz 0, rowval := List.replicate nnz 0 })

end IdxJoin


/-- Function `idxjoin(params)`: the preprocessing, then the search; returns the
preprocessed matrix and the final registers, `none` when a step exits through
`da_errexit`. -/
def idxjoin {α : Type} [LinearOrderedField α] (log sqrt : α → α) (params : params_t α)
    (ncand0 : Nat) : Option (da_csr_t α × JoinState α) :=
  match preprocess log sqrt params.docs with
  | none => none
  | some docs => (idxjoinSearch docs params.k params.epsilon ncand0).map (fun s => (docs, s))

/-- Entries of row `i` of a neighbour matrix given by its three arrays: the
pairs `(rowind[j], rowval[j])` for `rowptr[i] ≤ j < rowptr[i+1]`. -/
def outRow {α : Type} [Zero α] (rowptr rowind : List Nat) (rowval : List α) (i : Nat) :
    List (Nat × α) :=
  (List.range' (rowptr.getD i 0) (rowptr.getD (i + 1) 0 - rowptr.getD i 0)).map
    (fun j => (rowind.getD j 0, rowval.getD j 0))

/-! ## Inverted index (`invertedidx.cpp`) -/

section Inverted

variable {α : Type} [LinearOrderedCommRing α]

/-- Member `std::map<int, float>::insert(pair)`: the map is the list of its
entries in increasing key order; an entry whose key is present is not replaced. -/
def mapInsert (kv : Nat × α) : List (Nat × α) → List (Nat × α)
  | [] => [kv]
  | x :: xs =>
    if kv.1 < x.1 then kv :: x :: xs
    else if x.1 < kv.1 then x :: mapInsert kv xs
    else x :: xs

/-- Comparison `std::greater<pair<float, int>>`: `a` goes before `b` when
`b < a` in the lexicographic order of pairs. -/
def pairGreater (a b : α × Nat) : Bool :=
  decide (b.1 < a.1 ∨ (¬ a.1 < b.1 ∧ b.2 < a.2))

/-- Member `std::set<pair<float, int>, greater<...>>::insert(p)`: the set is the
list of its elements in iteration order; an equivalent element is not added. -/
def setInsert (p : α × Nat) : List (α × Nat) → List (α × Nat)
  | [] => [p]
  | x :: xs =>
    if pairGreater p x then p :: x :: xs
    else if pairGreater x p then x :: setInsert p xs
    else x :: xs

/-- Function `findMatches(doc_id, invertedIndex, eps, docs, ncands, matchMaps)`:
returns the updated `matches` (here `matchMaps`) and the value stored in `*ncands`. -/
def findMatches (doc_id : Nat) (invertedIndex : List (List (Nat × α))) (eps : α)
    (docs : da_csr_t α) (matchMaps : List (List (Nat × α))) : List (List (Nat × α)) × Nat :=
  let rowptr := docs.rowptr.getD []
  let rowind := docs.rowind.getD []
  let rowval := docs.rowval.getD []
  let cosineSimilarities : List α := List.replicate doc_id 0
  let cosineSimilarities := forLoop (fun i (cs : List α) =>
      (invertedIndex.getD (rowind.getD i 0) []).foldl
        (fun cs candidatePair =>
          cs.set candidatePair.1 (cs.getD candidatePair.1 0 + rowval.getD i 0 * candidatePair.2))
        cs)
    (rowptr.getD (doc_id + 1) 0 - rowptr.getD doc_id 0) (rowptr.getD doc_id 0) cosineSimilarities
  forLoop (fun i (st : List (List (Nat × α)) × Nat) =>
      if eps ≤ cosineSimilarities.getD i 0 then
        let m1 := st.1.set i (mapInsert (doc_id, cosineSimilarities.getD i 0) (st.1.getD i []))
        let m2 := m1.set doc_id (mapInsert (i, cosineSimilarities.getD i 0) (m1.getD doc_id []))
        (m2, st.2 + 1)
      else st)
    cosineSimilarities.length 0 (matchMaps, 0)

/-- Registers of the document loop of `invertedidx`. -/
structure InvState (α : Type) where
  invertedIndex : List (List (Nat × α))
  matchMaps : List (List (Nat × α))
  ncands : Nat

/-- Body of the document loop of `invertedidx` for the index `i`: the call of
`findMatches`, then the appending of the entries of row `i` to the posting lists. -/
def invertedDoc (docs : da_csr_t α) (eps : α) (i : Nat) (st : InvState α) : InvState α :=
  let r := findMatches i st.invertedIndex eps docs st.matchMaps
  let rowptr := docs.rowptr.getD []
  let rowind := docs.rowind.getD []
  let rowval := docs.rowval.getD []
  let idx := forLoop (fun j (idx : List (List (Nat × α))) =>
      idx.set (rowind.getD j 0) (idx.getD (rowind.getD j 0) [] ++ [(i, rowval.getD j 0)]))
    (rowptr.getD (i + 1) 0 - rowptr.getD i 0) (rowptr.getD i 0) st.invertedIndex
  { invertedIndex := idx, matchMaps := r.1, ncands := st.ncands + r.2 }

/-- The document loop of `invertedidx`, `for (i=0; i <= docs->nrows; i++)`, run for
`n` iterations from empty posting lists and empty maps. -/
def invertedScan (docs : da_csr_t α) (eps : α) (n : Nat) : InvState α :=
  forLoop (invertedDoc docs eps) n 0
    { invertedIndex := List.replicate docs.ncols [], matchMaps := List.replicate docs.nrows [],
      ncands := 0 }

/-- The set `candidatePairs` of `invertedidx` built from one similarity map. -/
def candidatePairs (m : List (Nat × α)) : List (α × Nat) :=
  m.foldl (fun (set : List (α × Nat)) similarity => setInsert (similarity.2, similarity.1) set) []

/-- Registers of the output loop of `invertedidx`: the three arrays of
`neighbors` and the counter `nsims`. -/
structure OutState (α : Type) where
  rowptr : List Nat
  rowind : List Nat
  rowval : List α
  nsims : Nat

/-- Body of the output loop of `invertedidx` for row `i`: the walk over
`candidatePairs` that copies an element while `j < params->k`. -/
def emitRow (k : Int) (matchMaps : List (List (Nat × α))) (i : Nat) (st : OutState α) :
    OutState α :=
  let r := (candidatePairs (matchMaps.getD i [])).foldl
    (fun (o : OutState α × Int) candidatePair =>
      if o.2 < k then
        ({ o.1 with rowind := o.1.rowind.set o.1.nsims candidatePair.2,
                    rowval := o.1.rowval.set o.1.nsims candidatePair.1,
                    nsims := o.1.nsims + 1 }, o.2 + 1)
      else o)
    (st, 0)
  { r.1 with rowptr := r.1.rowptr.set (i + 1) r.1.nsims }

/-- The array accesses of iteration `i` of the document loop of `invertedidx`
stay inside their arrays: every index `j` with `rowptr[i] ≤ j < rowptr[i+1]`, at
which `findMatches` and the posting loop read `rowind[j]` and `rowval[j]`, is an
index of `rowind` (`rowval` has the length of `rowind`) and `rowind[j]` names a
posting list of `invertedIndex`; and when `findMatches` records a pair, the map
`matches[doc_id]` that it writes exists. -/
def docAccessOk (docs : da_csr_t α) (eps : α) (i : Nat) (st : InvState α) : Bool :=
  (List.range' ((docs.rowptr.getD []).getD i 0)
      ((docs.rowptr.getD []).getD (i + 1) 0 - (docs.rowptr.getD []).getD i 0)).all
    (fun j => decide (j < (docs.rowind.getD []).length) &&
      decide ((docs.rowind.getD []).getD j 0 < st.invertedIndex.length)) &&
  (decide ((findMatches i st.invertedIndex eps docs st.matchMaps).2 = 0) ||
    decide (i < st.matchMaps.length))

/-- Body of the document loop of `invertedidx` for the index `i`, followed only
as long as its array accesses stay inside their arrays: `none` is an access
outside an array, to which C++ gives no meaning (the run may end in a
segmentation fault). -/
def invertedDocChecked (docs : da_csr_t α) (eps : α) (i : Nat) (st : Option (InvState α)) :
    Option (InvState α) :=
  st.bind (fun s => if docAccessOk docs eps i s then some (invertedDoc docs eps i s) else none)

/-- Search phase of `invertedidx` on the preprocessed matrix `docs`: the document
loop `for (i=0; i <= docs->nrows; i++)`, then the output loop over `matches`.
The row pointer array has `nrows + 1` entries and the iteration `i = nrows` reads
`docs->rowptr[nrows+1]`, the word after it, which the program never writes: `g`
is the value found there (a negative word gives the same empty range as 0).
`none` is an access outside an array in some iteration of the document loop
(see `docAccessOk`). -/
def invertedSearch (docs : da_csr_t α) (k : Int) (eps : α) (g : Nat) :
    Option (InvState α × OutState α) :=
  let nrows := docs.nrows
  let nnz := (k * (nrows : Int)).toNat
  let mem : da_csr_t α := { docs with rowptr := docs.rowptr.map (fun p => p ++ [g]) }
  (forLoop (invertedDocChecked mem eps) (nrows + 1) 0
    (some { invertedIndex := List.replicate docs.ncols [],
            matchMaps := List.replicate docs.nrows [], ncands := 0 })).map (fun st =>
    (st, forLoop (emitRow k st.matchMaps) st.matchMaps.length 0
      { rowptr := (List.replicate (nrows + 1) 0).set 0 0, rowind := List.replicate nnz 0,
        rowval := List.replicate nnz 0, nsims := 0 }))

end Inverted

/-- Function `invertedidx(params)`: the preprocessing, then the search; `g` is
the value of the word after the row pointer array (see `invertedSearch`).  `none`
when a step exits through `da_errexit` or the document loop leaves its arrays. -/
def invertedidx {α : Type} [LinearOrderedField α] (log sqrt : α → α) (params : params_t α)
    (g : Nat) : Option (da_csr_t α × InvState α × OutState α) :=
  match preprocess log sqrt params.docs with
  | none => none
  | some docs => (invertedSearch docs params.k params.epsilon g).map (fun r => (docs, r.1, r.2))


/-! ## Specification vocabulary -/

/-- The list `b` rearranges `a` inside the index window `[lo, hi]` only. -/
def ShuffledIn {β : Type} [Inhabited β] (lo hi : Nat) (a b : List β) : Prop :=
  b.length = a.length ∧ b.Perm a ∧
  (∀ p, (p < lo ∨ hi < p) → b.getD p default = a.getD p default) ∧
  (∀ p, lo ≤ p → p ≤ hi → ∃ q, lo ≤ q ∧ q ≤ hi ∧ b.getD p default = a.getD q default)

section SelectSpec
variable {α : Type} [LinearOrder α] [Zero α]

/-- Value stored at the natural-number position `p`. -/
def vN (cand : List (da_ivkv_t α)) (p : Nat) : α := (cand.getD p default).val

/-- Every value at a position in `[k, n)` is at most every value at a position in `[0, k)`. -/
def TopSplit (n k : Nat) (cand : List (da_ivkv_t α)) : Prop :=
  ∀ p q, p < k → k ≤ q → q < n → vN cand q ≤ vN cand p

end SelectSpec

section JoinSpec
variable {α : Type} [LinearOrderedCommRing α]

/-- Invariant of the accumulation loop: the keys of the candidates found so far
are distinct row ids whose marker is not `-1`. -/
def AccInv (nrows : Nat) (st : AccState α) : Prop :=
  st.marker.length = nrows ∧ st.cand.length = nrows ∧ st.ncand ≤ nrows ∧
  ((st.cand.take st.ncand).map (fun e => e.key)).Nodup ∧
  ∀ x ∈ (st.cand.take st.ncand).map (fun e => e.key), x < nrows ∧ st.marker.getD x 0 ≠ -1

/-- Marker discipline of the accumulation loop: slot `s` of `cand` is the slot
that `marker` records for the key stored there, and every row whose marker is
not `-1` owns such a slot. -/
def MarkerInv (nrows : Nat) (st : AccState α) : Prop :=
  (∀ s, s < st.ncand → (st.cand.getD s default).key < nrows ∧
    st.marker.getD (st.cand.getD s default).key 0 = (s : Int)) ∧
  (∀ x, x < nrows → st.marker.getD x 0 ≠ -1 →
    ∃ s, s < st.ncand ∧ st.marker.getD x 0 = (s : Int) ∧ (st.cand.getD s default).key = x)

/-- Number of entries of the query row as `da_getSimilarRows` computes it,
`rowptr[rid+1] - rowptr[rid]`. -/
def querySize (mat : da_csr_t α) (rid : Nat) : Int :=
  (((mat.rowptr.getD []).getD (rid + 1) 0 : Nat) : Int) - (((mat.rowptr.getD []).getD rid 0 : Nat) : Int)

/-- The candidates of query row `rid` with their accumulated scores: the first
`ncand` entries of `cand` after the accumulation loop of `da_getSimilarRows`. -/
def candidatesOf (mat : da_csr_t α) (rid : Nat) (marker : List Int)
    (cand : List (da_ivkv_t α)) : List (da_ivkv_t α) :=
  (accumulate mat rid (querySize mat rid).toNat marker cand).cand.take
    (accumulate mat rid (querySize mat rid).toNat marker cand).ncand

/-- Two runs of the accumulation loop that differ only in the initial content of
the candidate array: same markers, same count, same candidates found so far. -/
def AccRel (nrows : Nat) (s1 s2 : AccState α) : Prop :=
  s1.marker = s2.marker ∧ s1.ncand = s2.ncand ∧
  s1.cand.take s1.ncand = s2.cand.take s2.ncand ∧
  s2.cand.length = nrows ∧ AccInv nrows s1 ∧ MarkerInv nrows s1

/-- The candidates of query row `rid` as `idxjoin` finds them: the accumulated
candidate array of `da_getSimilarRows` entered with every marker `-1`. -/
def candidates (mat : da_csr_t α) (rid : Nat) : List (da_ivkv_t α) :=
  candidatesOf mat rid (List.replicate mat.nrows (-1)) (List.replicate mat.nrows ⟨0, 0⟩)

/-- The list `row` is what one call of `da_getSimilarRows` for the query row `i`
reports when it is entered, as in `idxjoin`, with every marker `-1`, a `hits`
array of length `nrows` and the candidate array `cand0`: the first `k` hits as
(key, value) pairs. -/
def IsRowAnswer (docs : da_csr_t α) (k : Int) (eps : α) (i : Nat) (cand0 : List (da_ivkv_t α))
    (row : List (Nat × α)) : Prop :=
  ∃ (hits : List (da_ivkv_t α)) (nc : Nat) (r : SimRows α),
    hits.length = docs.nrows ∧
    da_getSimilarRows docs i k eps hits (some cand0)
      (some (List.replicate docs.nrows (-1))) nc = some r ∧
    row = (r.hits.take r.k).map (fun e => (e.key, e.val))

/-- What the posting entry `j` adds in the accumulation loop of
`da_getSimilarRows` for a query value `qv`: nothing when the entry is the query
row itself, else the pair of the row `colind[j]` and the product
`colval[j] * qv`. -/
def entryContrib (mat : da_csr_t α) (rid : Nat) (qv : α) (j : Nat) : List (Nat × α) :=
  if (mat.colind.getD []).getD j 0 = rid then []
  else [((mat.colind.getD []).getD j 0, (mat.colval.getD []).getD j 0 * qv)]

/-- What the query entry `ii` of row `rid` adds in the accumulation loop: the
contributions of the posting entries of its column, when that column is below
`ncols`. -/
def featureContrib (mat : da_csr_t α) (rid : Nat) (ii : Nat) : List (Nat × α) :=
  if (mat.rowind.getD []).getD ((mat.rowptr.getD []).getD rid 0 + ii) 0 < mat.ncols then
    (List.range'
      ((mat.colptr.getD []).getD
        ((mat.rowind.getD []).getD ((mat.rowptr.getD []).getD rid 0 + ii) 0) 0)
      ((mat.colptr.getD []).getD
          ((mat.rowind.getD []).getD ((mat.rowptr.getD []).getD rid 0 + ii) 0 + 1) 0 -
        (mat.colptr.getD []).getD
          ((mat.rowind.getD []).getD ((mat.rowptr.getD []).getD rid 0 + ii) 0) 0)).flatMap
      (entryContrib mat rid ((mat.rowval.getD []).getD ((mat.rowptr.getD []).getD rid 0 + ii) 0))
  else []

/-- The (row, product) pairs added by the first `qsz` query entries of row `rid`,
in the order of the accumulation loop. -/
def contributions (mat : da_csr_t α) (rid qsz : Nat) : List (Nat × α) :=
  (List.range qsz).flatMap (featureContrib mat rid)

/-- Score discipline of the accumulation loop against the list `C` of the
contributions made so far: a row is marked exactly when it has a contribution,
and the value of a slot is the sum of the contributions to its key. -/
def ScoreInv (nrows : Nat) (st : AccState α) (C : List (Nat × α)) : Prop :=
  (∀ x, x < nrows → (st.marker.getD x 0 ≠ -1 ↔ x ∈ C.map Prod.fst)) ∧
  (∀ s, s < st.ncand → (st.cand.getD s default).val =
    ((C.filter (fun p => decide (p.1 = (st.cand.getD s default).key))).map Prod.snd).sum)

end JoinSpec

section InvertedSpec
variable {α : Type} [LinearOrderedCommRing α]

/-- Order of iteration of `candidatePairs`: `a` is visited before `b`. -/
def PairBefore (a b : α × Nat) : Prop := b.1 < a.1 ∨ (¬ a.1 < b.1 ∧ b.2 < a.2)

/-- A similarity map is well formed when its keys are strictly increasing. -/
def MapSorted (m : List (Nat × α)) : Prop := List.Pairwise (fun a b => a.1 < b.1) m

/-- Entries of row `a` of the row view: the pairs `(rowind[p], rowval[p])` for
`rowptr[a] ≤ p < rowptr[a+1]`. -/
def rowEntries (mat : da_csr_t α) (a : Nat) : List (Nat × α) :=
  outRow (mat.rowptr.getD []) (mat.rowind.getD []) (mat.rowval.getD []) a

/-- Dot product of rows `a` and `b` of the row view: the sum, over the entries `x`
of row `a` and the entries `y` of row `b` in the same column, of `x.val * y.val`. -/
def dotRows (mat : da_csr_t α) (a b : Nat) : α :=
  ((rowEntries mat a).map (fun x =>
    (((rowEntries mat b).filter (fun y => decide (y.1 = x.1))).map (fun y => x.2 * y.2)).sum)).sum

/-- The posting list of feature `f` once documents `0..d-1` are indexed: the
(row, value) entries of column `f` with row below `d`, in increasing row order. -/
def postingsUpTo (mat : da_csr_t α) (f d : Nat) : List (Nat × α) :=
  (List.range d).flatMap (fun r =>
    ((rowEntries mat r).filter (fun e => decide (e.1 = f))).map (fun e => (r, e.2)))

/-- First loop of `findMatches`: the dense buffer `cosineSimilarities` after the
walk over the posting lists of the features of row `doc_id`. -/
def scoresOf (doc_id : Nat) (invertedIndex : List (List (Nat × α))) (docs : da_csr_t α) :
    List α :=
  forLoop (fun i (cs : List α) =>
      ((invertedIndex.getD ((docs.rowind.getD []).getD i 0) []).foldl
        (fun cs candidatePair =>
          cs.set candidatePair.1
            (cs.getD candidatePair.1 0 + (docs.rowval.getD []).getD i 0 * candidatePair.2))
        cs))
    ((docs.rowptr.getD []).getD (doc_id + 1) 0 - (docs.rowptr.getD []).getD doc_id 0)
    ((docs.rowptr.getD []).getD doc_id 0) (List.replicate doc_id 0)

/-- The row view stores only column ids below `ncols` in the rows below `nrows`. -/
def RowsInRange (mat : da_csr_t α) : Prop :=
  ∀ a, a < mat.nrows → ∀ e ∈ rowEntries mat a, e.1 < mat.ncols

/-- The pair `e = (id, value)` is a neighbour of row `i` that reaches the
threshold: `id` is a row other than `i`, `value` is the dot product of rows `i`
and `id`, and `value ≥ eps`. -/
def Qualifies (mat : da_csr_t α) (eps : α) (i : Nat) (e : Nat × α) : Prop :=
  e.1 < mat.nrows ∧ e.1 ≠ i ∧ e.2 = dotRows mat i e.1 ∧ eps ≤ e.2

/-- The rows other than `i` whose score with row `i` is above `v`. -/
def rowsAbove (mat : da_csr_t α) (i : Nat) (v : α) : List Nat :=
  (List.range mat.nrows).filter (fun c => decide (c ≠ i) && decide (v < dotRows mat i c))

/-- The rows other than `i` whose score with row `i` is at least `v`. -/
def rowsAtLeast (mat : da_csr_t α) (i : Nat) (v : α) : List Nat :=
  (List.range mat.nrows).filter (fun c => decide (c ≠ i) && decide (v ≤ dotRows mat i c))

/-- No tie of row `i` lies across the `k`-th place: there is no neighbour `a`
reaching the threshold such that fewer than `k` rows score above `a` while more
than `k` rows score at least as much as `a`. -/
def NoTieAtCut (mat : da_csr_t α) (eps : α) (k : Int) (i : Nat) : Prop :=
  ∀ a, a < mat.nrows → a ≠ i → eps ≤ dotRows mat i a →
    ¬ (((rowsAbove mat i (dotRows mat i a)).length : Int) < k ∧
       k < ((rowsAtLeast mat i (dotRows mat i a)).length : Int))

end InvertedSpec

/-! ### Vocabulary for the index construction -/

/-- The (row, position) pairs of a view in the order of the nested loop
`for (i=0; i<nf; ++i) for (j=fptr[i]; j<fptr[i+1]; ++j)`. -/
def fwdEntries (nf : Nat) (fptr : List Nat) : List (Nat × Nat) :=
  (List.range nf).flatMap (fun i =>
    (List.range' (fptr.getD i 0) (fptr.getD (i + 1) 0 - fptr.getD i 0)).map (fun j => (i, j)))

/-- A view `(n, ptr, ind)` over `m` index values is well formed: `ptr` has `n+1`
entries, starts at 0 and is non-decreasing, `ind` has `ptr[n]` entries, all
below `m`. -/
def WellFormedView (n m : Nat) (ptr ind : List Nat) : Prop :=
  ptr.length = n + 1 ∧ ptr.getD 0 0 = 0 ∧ (∀ i, i < n → ptr.getD i 0 ≤ ptr.getD (i + 1) 0) ∧
  ind.length = ptr.getD n 0 ∧ ∀ x ∈ ind, x < m

/-- Number of entries of the list `L` whose index value (through `find`) is `c`. -/
def bucketCount (find : List Nat) (L : List (Nat × Nat)) (c : Nat) : Nat :=
  (L.filter (fun e => decide (find.getD e.2 0 = c))).length

/-- Start of bucket `c`: the number of entries of `L` with index value below `c`. -/
def bucketStart (find : List Nat) (L : List (Nat × Nat)) (c : Nat) : Nat :=
  ((List.range c).map (bucketCount find L)).sum

/-- The arrays `r = (rptr, rind, rval)` are the index of the forward view
`(nf, fptr, find, fval)` over `nr` buckets: `rptr[c]` is the start of bucket `c`,
and position `rptr[c] + t` holds the row and the value of the `t`-th forward
entry (in loop order) whose index value is `c`. -/
def IsIndexOf {α : Type} [Zero α] (nf nr : Nat) (fptr find : List Nat) (fval : Option (List α))
    (r : List Nat × List Nat × Option (List α)) : Prop :=
  r.1.length = nr + 1 ∧
  (∀ i, i ≤ nr → r.1.getD i 0 = bucketStart find (fwdEntries nf fptr) i) ∧
  r.2.1.length = fptr.getD nf 0 ∧
  (∀ c, c < nr → ∀ t, t < bucketCount find (fwdEntries nf fptr) c →
    r.2.1.getD (bucketStart find (fwdEntries nf fptr) c + t) 0 =
      (((fwdEntries nf fptr).filter (fun e => decide (find.getD e.2 0 = c))).getD t (0, 0)).1) ∧
  (match fval with
   | none => r.2.2 = none
   | some fv => ∃ rv, r.2.2 = some rv ∧ rv.length = fptr.getD nf 0 ∧
      ∀ c, c < nr → ∀ t, t < bucketCount find (fwdEntries nf fptr) c →
        rv.getD (bucketStart find (fwdEntries nf fptr) c + t) 0 =
          fv.getD (((fwdEntries nf fptr).filter
            (fun e => decide (find.getD e.2 0 = c))).getD t (0, 0)).2 0)

/-- The comparison handed to `DA_MKQSORT` by `da_csr_SortValues`: `da_ivkv_lt` for
`DA_SORT_I`, `da_ivkv_gt` otherwise. -/
def sortValLt {α : Type} [LinearOrder α] (how : Nat) (a b : da_ivkv_t α) : Bool :=
  if how = DA_SORT_I then decide (a.val < b.val) else decide (a.val > b.val)

/-- The inversion test of the scan of `da_csr_SortValues` at position `k`. -/
def sortValInv {α : Type} [LinearOrder α] [Zero α] (how : Nat) (val : List α) (k : Nat) : Prop :=
  if how = DA_SORT_I then val.getD k 0 < val.getD (k - 1) 0
  else val.getD k 0 > val.getD (k - 1) 0

/-- The (index, value) pairs of row `i` as `da_ivkv_t` entries, sorted by the
comparison of `da_csr_SortValues`. -/
def sortedRowPairs {α : Type} [LinearOrder α] [Zero α] (how : Nat) (ptr ind : List Nat)
    (val : List α) (i : Nat) : List (da_ivkv_t α) :=
  ((List.range (ptr.getD (i + 1) 0 - ptr.getD i 0)).map
    (fun t => (⟨ind.getD (ptr.getD i 0 + t) 0, val.getD (ptr.getD i 0 + t) 0⟩ : da_ivkv_t α))
    ).insertionSort (fun a b => sortValLt how b a = false)

/-- Values of row `i` of a view: `val[j]` for `ptr[i] ≤ j < ptr[i+1]`. -/
def rowVals {α : Type} [Zero α] (ptr : List Nat) (val : List α) (i : Nat) : List α :=
  (List.range' (ptr.getD i 0) (ptr.getD (i + 1) 0 - ptr.getD i 0)).map (fun j => val.getD j 0)

/-- The view `(n, ptr, ind, val)` that the switch on `what` selects in the CSR
routines: the row arrays for `DA_ROW`, the column arrays otherwise. -/
def viewOf {α : Type} (mat : da_csr_t α) (what : Nat) :
    Nat × Option (List Nat) × Option (List Nat) × Option (List α) :=
  if what = DA_ROW then (mat.nrows, mat.rowptr, mat.rowind, mat.rowval)
  else (mat.ncols, mat.colptr, mat.colind, mat.colval)

/-- The (row, column, value) triples stored by a view `(n, ptr, ind, val)` whose
segments are rows: for each `i < n` and `ptr[i] ≤ j < ptr[i+1]` the triple
`(i, ind[j], val[j])`. -/
def rowTriples {α : Type} [Zero α] (n : Nat) (ptr ind : List Nat) (val : List α) :
    List (Nat × Nat × α) :=
  (fwdEntries n ptr).map (fun e => (e.1, ind.getD e.2 0, val.getD e.2 0))

/-- The (row, column, value) triples stored by a view `(n, ptr, ind, val)` whose
segments are columns: for each `c < n` and `ptr[c] ≤ j < ptr[c+1]` the triple
`(ind[j], c, val[j])`. -/
def colTriples {α : Type} [Zero α] (n : Nat) (ptr ind : List Nat) (val : List α) :
    List (Nat × Nat × α) :=
  (fwdEntries n ptr).map (fun e => (ind.getD e.2 0, e.1, val.getD e.2 0))

/-- The 4 x 5 example input: rows `{f0:1, f1:1}`, `{f0:1, f1:1}`, `{f2:1}` and an
empty row, with `row_ptr = [0,2,4,5,5]` and no column view. -/
def scenarioDocs (α : Type) [LinearOrderedField α] : da_csr_t α :=
  { nrows := 4, ncols := 5, rowptr := some [0, 2, 4, 5, 5], colptr := none,
    rowind := some [0, 1, 0, 1, 2], colind := none,
    rowval := some [1, 1, 1, 1, 1], colval := none, rnorms := none, cnorms := none }

/-- A 3 x 2 sample matrix with a row view only: rows `{f0:1, f1:2}`, `{f0:3}` and
`{f1:1}`. -/
def sampleDocs : da_csr_t ℚ :=
  { nrows := 3, ncols := 2, rowptr := some [0, 2, 3, 4], colptr := none,
    rowind := some [0, 1, 0, 1], colind := none,
    rowval := some [1, 2, 3, 1], colval := none, rnorms := none, cnorms := none }

/-- A 2 x 2 sample matrix with a row view only, whose first row is stored out of
order: rows `{f1:2, f0:1}` and `{f0:3}`. -/
def shuffledDocs : da_csr_t ℚ :=
  { nrows := 2, ncols := 2, rowptr := some [0, 2, 3], colptr := none,
    rowind := some [1, 0, 0], colind := none,
    rowval := some [2, 1, 3], colval := none, rnorms := none, cnorms := none }

/-- A 2 x 2 sample matrix with a row view only, whose second row extends the
first: rows `{f0:1}` and `{f0:1, f1:1}`. -/
def tailDocs (α : Type) [LinearOrderedField α] : da_csr_t α :=
  { nrows := 2, ncols := 2, rowptr := some [0, 1, 3], colptr := none,
    rowind := some [0, 0, 1], colind := none,
    rowval := some [1, 1, 1], colval := none, rnorms := none, cnorms := none }

/-- A 1 x 1 sample matrix holding only a column view, with the single value `v`. -/
def colOnlyDocs (v : ℚ) : da_csr_t ℚ :=
  { nrows := 1, ncols := 1, rowptr := none, colptr := some [0, 1],
    rowind := none, colind := some [0],
    rowval := none, colval := some [v], rnorms := none, cnorms := none }

/-- A 2 x 2 neighbour matrix whose row 0 holds the neighbour `1` with value `1/2`
and whose row 1 is empty. -/
def halfNeighbors : da_csr_t ℚ :=
  { nrows := 2, ncols := 2, rowptr := some [0, 1, 1], colptr := none,
    rowind := some [1], colind := none,
    rowval := some [1 / 2], colval := none, rnorms := none, cnorms := none }

/-- A 2 x 2 neighbour matrix in which each of the two rows holds the other row as
its neighbour, with value `1/2`. -/
def fullNeighbors : da_csr_t ℚ :=
  { nrows := 2, ncols := 2, rowptr := some [0, 1, 2], colptr := none,
    rowind := some [1, 0], colind := none,
    rowval := some [1 / 2, 1 / 2], colval := none, rnorms := none, cnorms := none }

/-- A 2 x 1 sample matrix with a row view only, whose first row is empty and
whose last row is not: rows `{}` and `{f0:1}`. -/
def gapDocs : da_csr_t ℚ :=
  { nrows := 2, ncols := 1, rowptr := some [0, 0, 1], colptr := none,
    rowind := some [0], colind := none,
    rowval := some [1], colval := none, rnorms := none, cnorms := none }

/-- The 3 x 2 sample matrix with both views: rows `{f0:1, f1:2}`, `{f0:3}` and
`{f1:1}`, columns `{r0:1, r1:3}` and `{r0:2, r2:1}`. -/
def indexedDocs : da_csr_t ℚ :=
  { nrows := 3, ncols := 2, rowptr := some [0, 2, 3, 4], colptr := some [0, 2, 4],
    rowind := some [0, 1, 0, 1], colind := some [0, 1, 0, 2],
    rowval := some [1, 2, 3, 1], colval := some [1, 3, 2, 1], rnorms := none, cnorms := none }

/-- A 3 x 1 sample matrix with both views, as the preprocessing leaves it, whose
last row is empty: rows `{f0:1}`, `{f0:1}` and `{}`, column `{r0:1, r1:1}`. -/
def staleDocs : da_csr_t ℚ :=
  { nrows := 3, ncols := 1, rowptr := some [0, 1, 2, 2], colptr := some [0, 2],
    rowind := some [0, 0], colind := some [0, 1],
    rowval := some [1, 1], colval := some [1, 1], rnorms := none, cnorms := none }

/-- Rows `i` and `r` of the row view share a feature: some entry of row `i` and
some entry of row `r` are in the same column. -/
def sharesFeature {α : Type} [LinearOrderedCommRing α] (mat : da_csr_t α) (i r : Nat) : Bool :=
  (rowEntries mat i).any (fun x => (rowEntries mat r).any (fun y => decide (y.1 = x.1)))

/-- Number of distinct candidate rows of row `i`: the rows `r ≠ i` that share at
least one feature with row `i`. -/
def candidateCount {α : Type} [LinearOrderedCommRing α] (mat : da_csr_t α) (i : Nat) : Nat :=
  ((List.range mat.nrows).filter (fun r => decide (r ≠ i) && sharesFeature mat i r)).length

/-- A 7 x 1 sample matrix with a row view only, every row being `{f0:1}`; it has
more than `6 * ncols` entries. -/
def denseDocs : da_csr_t ℚ :=
  { nrows := 7, ncols := 1, rowptr := some [0, 1, 2, 3, 4, 5, 6, 7], colptr := none,
    rowind := some [0, 0, 0, 0, 0, 0, 0], colind := none,
    rowval := some [1, 1, 1, 1, 1, 1, 1], colval := none, rnorms := none, cnorms := none }

/-- The 4 x 3 matrix with both views that the preprocessing makes of the example
input: rows `{f0:a, f1:a}`, `{f0:a, f1:a}`, `{f2:b}` and an empty row. -/
def scenarioIndexed {α : Type} (a b : α) : da_csr_t α :=
  { nrows := 4, ncols := 3, rowptr := some [0, 2, 4, 5, 5], colptr := some [0, 2, 4, 5],
    rowind := some [0, 1, 0, 1, 2], colind := some [0, 1, 0, 1, 2],
    rowval := some [a, a, a, a, b], colval := some [a, a, a, a, b],
    rnorms := none, cnorms := none }

/-- A 5 x 2 input with a row view only: rows 0 to 3 are `{f0:1}` and row 4 is
`{f1:1}`, so that rows 0 to 3 have the same similarity to one another. -/
def tiedDocs (α : Type) [LinearOrderedField α] : da_csr_t α :=
  { nrows := 5, ncols := 2, rowptr := some [0, 1, 2, 3, 4, 5], colptr := none,
    rowind := some [0, 0, 0, 0, 1], colind := none,
    rowval := some [1, 1, 1, 1, 1], colval := none, rnorms := none, cnorms := none }

/-- The matrix `tiedDocs` after preprocessing, both views built, with `a` the
value of the entries of rows 0 to 3 and `b` the value of the entry of row 4. -/
def tiedIndexed {α : Type} (a b : α) : da_csr_t α :=
  { nrows := 5, ncols := 2, rowptr := some [0, 1, 2, 3, 4, 5], colptr := some [0, 4, 5],
    rowind := some [0, 0, 0, 0, 1], colind := some [0, 1, 2, 3, 4],
    rowval := some [a, a, a, a, b], colval := some [a, a, a, a, b],
    rnorms := none, cnorms := none }

/-- A 2 x 2 input with a row view only: rows `{f0:1}` and `{f1:1}`, which share no
column. -/
def apartDocs (α : Type) [LinearOrderedField α] : da_csr_t α :=
  { nrows := 2, ncols := 2, rowptr := some [0, 1, 2], colptr := none,
    rowind := some [0, 1], colind := none,
    rowval := some [1, 1], colval := none, rnorms := none, cnorms := none }

/-- The matrix `apartDocs` after preprocessing, both views built, with `a` the
value of its two entries. -/
def apartIndexed {α : Type} (a : α) : da_csr_t α :=
  { nrows := 2, ncols := 2, rowptr := some [0, 1, 2], colptr := some [0, 1, 2],
    rowind := some [0, 1], colind := some [0, 1],
    rowval := some [a, a], colval := some [a, a], rnorms := none, cnorms := none }

/-- A 4 x 3 input with a row view only: rows `{f0:1, f1:1}`, `{f0:1}`, `{f0:1}`
and `{f2:1}`; rows 1 and 2 are equal and row 0 shares one of its two columns
with them. -/
def mixedDocs (α : Type) [LinearOrderedField α] : da_csr_t α :=
  { nrows := 4, ncols := 3, rowptr := some [0, 2, 3, 4, 5], colptr := none,
    rowind := some [0, 1, 0, 0, 2], colind := none,
    rowval := some [1, 1, 1, 1, 1], colval := none, rnorms := none, cnorms := none }

/-- The matrix `mixedDocs` after preprocessing, both views built: row 0 is
`{f0:x, f1:y}`, rows 1 and 2 are `{f0:a}` and row 3 is `{f2:b}`. -/
def mixedIndexed {α : Type} (a b x y : α) : da_csr_t α :=
  { nrows := 4, ncols := 3, rowptr := some [0, 2, 3, 4, 5], colptr := some [0, 3, 4, 5],
    rowind := some [0, 1, 0, 0, 2], colind := some [0, 1, 2, 0, 3],
    rowval := some [x, y, a, a, b], colval := some [x, a, a, y, b],
    rnorms := none, cnorms := none }

/-! ## Array lemmas -/

section ArrayLemmas
variable {β : Type}

theorem getD_set_eq (l : List β) (i j : Nat) (a d : β) :
    (l.set i a).getD j d = if i = j ∧ i < l.length then a else l.getD j d := by
  simp only [List.getD_eq_getElem?_getD, List.getElem?_set]
  by_cases h : i = j
  · subst h
    by_cases h2 : i < l.length
    · simp [h2]
    · simp [h2, List.getElem?_eq_none (Nat.le_of_not_lt h2)]
  · simp [h]

theorem cons_set_perm (x a : β) : ∀ (t : List β) (j : Nat), t[j]? = some x →
    (x :: t.set j a).Perm (a :: t)
  | [], _, h => by simp at h
  | b :: t, 0, h => by
    simp only [List.getElem?_cons_zero, Option.some.injEq] at h
    subst h
    simpa using List.Perm.swap a b t
  | b :: t, j + 1, h => by
    simp only [List.getElem?_cons_succ] at h
    have ih := cons_set_perm x a t j h
    simp only [List.set_cons_succ]
    exact (List.Perm.swap b x _).trans ((ih.cons b).trans (List.Perm.swap a b t))

theorem set_set_perm_lt : ∀ (l : List β) (i j : Nat) (x y : β), i < j →
    l[i]? = some x → l[j]? = some y → ((l.set i y).set j x).Perm l
  | [], _, _, _, _, _, h, _ => by simp at h
  | a :: t, 0, j + 1, x, y, _, hi, hj => by
    simp only [List.getElem?_cons_zero, Option.some.injEq] at hi
    simp only [List.getElem?_cons_succ] at hj
    subst hi
    simpa using cons_set_perm y a t j hj
  | a :: t, i + 1, j + 1, x, y, hlt, hi, hj => by
    simp only [List.getElem?_cons_succ] at hi hj
    simpa using set_set_perm_lt t i j x y (by omega) hi hj

variable [Inhabited β]

theorem swap_length (a : List β) (i j : Nat) : (DA_QSSWAP a i j).length = a.length := by
  simp [DA_QSSWAP]

theorem swap_getD (a : List β) (i j p : Nat) (hi : i < a.length) (hj : j < a.length) :
    (DA_QSSWAP a i j).getD p default =
      if p = j then a.getD i default else if p = i then a.getD j default else a.getD p default := by
  simp only [DA_QSSWAP, getD_set_eq, List.length_set]
  by_cases h1 : p = j
  · subst h1; simp [hj]
  · by_cases h2 : p = i
    · subst h2
      have : ¬ (j = p) := fun h => h1 h.symm
      simp [this, hi, h1]
    · have h3 : ¬ (j = p) := fun h => h1 h.symm
      have h4 : ¬ (i = p) := fun h => h2 h.symm
      simp [h1, h2, h3, h4]

theorem swap_perm (a : List β) (i j : Nat) (hi : i < a.length) (hj : j < a.length) :
    (DA_QSSWAP a i j).Perm a := by
  have ei : a[i]? = some (a.getD i default) := by
    simp [List.getD_eq_getElem?_getD, List.getElem?_eq_getElem hi]
  have ej : a[j]? = some (a.getD j default) := by
    simp [List.getD_eq_getElem?_getD, List.getElem?_eq_getElem hj]
  simp only [DA_QSSWAP]
  rcases Nat.lt_trichotomy i j with h | h | h
  · exact set_set_perm_lt a i j _ _ h ei ej
  · subst h
    have : (a.set i (a.getD i default)).set i (a.getD i default) = a := by
      apply List.ext_getElem? 
      intro n
      simp only [List.getElem?_set, List.length_set]
      by_cases hn : i = n
      · subst hn
        rw [if_pos rfl, if_pos hi]
        exact ei.symm
      · rw [if_neg hn, if_neg hn]
    rw [this]
  · rw [List.set_comm _ _ _ (Nat.ne_of_gt h)]
    exact set_set_perm_lt a j i _ _ h ej ei

end ArrayLemmas

section Shuffle
variable {β : Type} [Inhabited β]

theorem ShuffledIn.refl (lo hi : Nat) (a : List β) : ShuffledIn lo hi a a :=
  ⟨rfl, List.Perm.refl _, fun _ _ => rfl, fun p h1 h2 => ⟨p, h1, h2, rfl⟩⟩

theorem ShuffledIn.trans {lo hi : Nat} {a b c : List β}
    (h1 : ShuffledIn lo hi a b) (h2 : ShuffledIn lo hi b c) : ShuffledIn lo hi a c := by
  obtain ⟨l1, p1, o1, w1⟩ := h1
  obtain ⟨l2, p2, o2, w2⟩ := h2
  refine ⟨l2.trans l1, p2.trans p1, fun p hp => (o2 p hp).trans (o1 p hp), ?_⟩
  intro p hlo hhi
  obtain ⟨q, hq1, hq2, e⟩ := w2 p hlo hhi
  obtain ⟨r, hr1, hr2, e2⟩ := w1 q hq1 hq2
  exact ⟨r, hr1, hr2, e.trans e2⟩

theorem ShuffledIn.mono {lo hi lo2 hi2 : Nat} {a b : List β}
    (h : ShuffledIn lo hi a b) (hlo : lo2 ≤ lo) (hhi : hi ≤ hi2) : ShuffledIn lo2 hi2 a b := by
  obtain ⟨l1, p1, o1, w1⟩ := h
  refine ⟨l1, p1, fun p hp => o1 p (by omega), ?_⟩
  intro p h1 h2
  by_cases hin : lo ≤ p ∧ p ≤ hi
  · obtain ⟨q, hq1, hq2, e⟩ := w1 p hin.1 hin.2
    exact ⟨q, by omega, by omega, e⟩
  · exact ⟨p, h1, h2, o1 p (by omega)⟩

theorem ShuffledIn.swap (lo hi : Nat) (a : List β) (i j : Nat)
    (hi1 : lo ≤ i) (hi2 : i ≤ hi) (hj1 : lo ≤ j) (hj2 : j ≤ hi) (hlen : hi < a.length) :
    ShuffledIn lo hi a (DA_QSSWAP a i j) := by
  have hil : i < a.length := by omega
  have hjl : j < a.length := by omega
  refine ⟨swap_length a i j, swap_perm a i j hil hjl, ?_, ?_⟩
  · intro p hp
    rw [swap_getD a i j p hil hjl, if_neg (by omega), if_neg (by omega)]
  · intro p h1 h2
    rw [swap_getD a i j p hil hjl]
    by_cases e1 : p = j
    · exact ⟨i, hi1, hi2, by rw [if_pos e1]⟩
    · by_cases e2 : p = i
      · exact ⟨j, hj1, hj2, by rw [if_neg e1, if_pos e2]⟩
      · exact ⟨p, h1, h2, by rw [if_neg e1, if_neg e2]⟩

end Shuffle

section SelectProofs
variable {α : Type} [LinearOrder α] [Zero α]

theorem valAt_natCast (cand : List (da_ivkv_t α)) (p : Nat) : valAt cand (p : Int) = vN cand p := by
  simp [valAt, vN]

theorem partitionD_spec (pivot : α) (lo hi : Nat) :
    ∀ (m s t : Nat) (cand : List (da_ivkv_t α)), lo ≤ s → s ≤ t → t + m = hi →
      hi < cand.length →
      (∀ p, lo ≤ p → p < s → pivot ≤ vN cand p) →
      (∀ p, s ≤ p → p < t → vN cand p < pivot) →
      ∃ (s2 : Nat) (out : List (da_ivkv_t α)),
        partitionD pivot m ((s : Int) - 1) (t : Int) cand = ((s2 : Int) - 1, out) ∧
        s ≤ s2 ∧ s2 ≤ hi ∧ ShuffledIn lo hi cand out ∧
        out.getD hi default = cand.getD hi default ∧
        (∀ p, lo ≤ p → p < s2 → pivot ≤ vN out p) ∧
        (∀ p, s2 ≤ p → p < hi → vN out p < pivot) := by
  intro m
  induction m with
  | zero =>
    intro s t cand h1 h2 h3 h4 h5 h6
    refine ⟨s, cand, rfl, le_refl _, by omega, ShuffledIn.refl _ _ _, rfl, h5, ?_⟩
    intro p hp1 hp2
    exact h6 p hp1 (by omega)
  | succ m ih =>
    intro s t cand h1 h2 h3 h4 h5 h6
    have e1 : ((s : Int) - 1 + 1).toNat = s := by omega
    have e2 : ((t : Int)).toNat = t := by omega
    have e3 : ((s : Int) - 1 + 1) = (((s + 1 : Nat) : Int) - 1) := by omega
    have e4 : ((t : Int) + 1) = ((t + 1 : Nat) : Int) := by omega
    have hsl : s < cand.length := by omega
    have htl : t < cand.length := by omega
    by_cases hc : pivot ≤ vN cand t
    · have hsw : ShuffledIn lo hi cand (DA_QSSWAP cand s t) :=
        ShuffledIn.swap lo hi cand s t h1 (by omega) (by omega) (by omega) h4
      obtain ⟨s2, out, e, g1, g2, g3, g4, g5, g6⟩ :=
        ih (s + 1) (t + 1) (DA_QSSWAP cand s t) (by omega) (by omega) (by omega)
          (by rw [swap_length]; exact h4)
          (by
            intro p hp1 hp2
            unfold vN
            rw [swap_getD cand s t p hsl htl]
            by_cases q1 : p = t
            · rw [if_pos q1]
              have : s = t := by omega
              subst this
              subst q1
              exact hc
            · rw [if_neg q1]
              by_cases q2 : p = s
              · rw [if_pos q2]; exact hc
              · rw [if_neg q2]; exact h5 p hp1 (by omega))
          (by
            intro p hp1 hp2
            unfold vN
            rw [swap_getD cand s t p hsl htl]
            by_cases q1 : p = t
            · rw [if_pos q1]
              exact h6 s (le_refl _) (by omega)
            · rw [if_neg q1, if_neg (by omega)]
              exact h6 p (by omega) (by omega))
      refine ⟨s2, out, ?_, by omega, g2, hsw.trans g3, ?_, g5, g6⟩
      · rw [partitionD, valAt_natCast, if_pos hc, e1, e2, e3, e4]
        exact e
      · rw [g4, swap_getD cand s t hi hsl htl, if_neg (by omega), if_neg (by omega)]
    · obtain ⟨s2, out, e, g1, g2, g3, g4, g5, g6⟩ :=
        ih s (t + 1) cand h1 (by omega) (by omega) h4 h5
          (by
            intro p hp1 hp2
            by_cases q1 : p = t
            · subst q1; exact lt_of_not_le hc
            · exact h6 p hp1 (by omega))
      refine ⟨s2, out, ?_, g1, g2, g3, g4, g5, g6⟩
      rw [partitionD, valAt_natCast, if_neg hc, e4]
      exact e


theorem selectMedianD_range (cand : List (da_ivkv_t α)) (lo hi : Nat) (h : lo ≤ hi) :
    ∃ mid : Nat, selectMedianD cand (lo : Int) (hi : Int) = (mid : Int) ∧ lo ≤ mid ∧ mid ≤ hi := by
  have hm : ((lo : Int) + ((hi : Int) - (lo : Int)) / 2) = ((lo + (hi - lo) / 2 : Nat) : Int) := by
    omega
  unfold selectMedianD
  simp only []
  split_ifs
  all_goals first
    | exact ⟨lo, rfl, le_refl _, h⟩
    | exact ⟨hi, rfl, h, le_refl _⟩
    | exact ⟨lo + (hi - lo) / 2, hm, by omega, by omega⟩

theorem TopSplit.of_shuffled {n lo hi k : Nat} {a b : List (da_ivkv_t α)}
    (hs : ShuffledIn lo hi a b) (hn : hi < n) (hk : k ≤ lo ∨ hi < k)
    (h : TopSplit n k a) : TopSplit n k b := by
  obtain ⟨_, _, o, w⟩ := hs
  intro p q hp hq hqn
  unfold vN
  have key : ∀ x, ∃ y, b.getD x default = a.getD y default ∧ (x < k ↔ y < k) ∧ (x < n ↔ y < n) := by
    intro x
    by_cases hx : lo ≤ x ∧ x ≤ hi
    · obtain ⟨y, hy1, hy2, e⟩ := w x hx.1 hx.2
      exact ⟨y, e, by omega, by omega⟩
    · exact ⟨x, o x (by omega), Iff.rfl, Iff.rfl⟩
  obtain ⟨p2, ep, hp2, _⟩ := key p
  obtain ⟨q2, eq, hq2, hq3⟩ := key q
  rw [ep, eq]
  exact h p2 q2 (hp2.1 hp) (by omega) (hq3.1 hqn)


theorem pivot_split (n lo hi s2 k : Nat) (pivot : α) (cand c2 : List (da_ivkv_t α))
    (sh : ShuffledIn lo hi cand c2) (hlo : lo ≤ s2) (hhi : s2 ≤ hi) (hn : hi < n)
    (hk : k = s2 ∨ k = s2 + 1)
    (hA : TopSplit n lo cand) (hB : TopSplit n (hi + 1) cand)
    (hge : ∀ p, lo ≤ p → p ≤ s2 → pivot ≤ vN c2 p)
    (hle : ∀ p, s2 ≤ p → p ≤ hi → vN c2 p ≤ pivot) : TopSplit n k c2 := by
  obtain ⟨_, _, o, w⟩ := sh
  intro p q hp hq hqn
  by_cases hpl : p < lo
  · have ep : vN c2 p = vN cand p := by unfold vN; rw [o p (Or.inl hpl)]
    rw [ep]
    by_cases hqw : q ≤ hi
    · obtain ⟨q2, h1, h2, e⟩ := w q (by omega) hqw
      have eq : vN c2 q = vN cand q2 := by unfold vN; rw [e]
      rw [eq]
      exact hA p q2 hpl h1 (by omega)
    · have eq : vN c2 q = vN cand q := by unfold vN; rw [o q (Or.inr (by omega))]
      rw [eq]
      exact hA p q hpl (by omega) hqn
  · have hp1 : pivot ≤ vN c2 p := hge p (by omega) (by omega)
    by_cases hqw : q ≤ hi
    · exact le_trans (hle q (by omega) hqw) hp1
    · obtain ⟨p2, h1, h2, e⟩ := w p (by omega) (by omega)
      have ep : vN c2 p = vN cand p2 := by unfold vN; rw [e]
      have eq : vN c2 q = vN cand q := by unfold vN; rw [o q (Or.inr (by omega))]
      rw [ep, eq]
      exact hB p2 q (by omega) (by omega) hqn

theorem kselectdLoop_spec (topk n : Nat) :
    ∀ (fuel lo hi : Nat) (cand : List (da_ivkv_t α)),
      hi < n → n ≤ cand.length → lo ≤ topk → topk ≤ hi + 1 → hi ≤ lo + fuel →
      TopSplit n lo cand → TopSplit n (hi + 1) cand →
      ∃ out, kselectdLoop (topk : Int) fuel (lo : Int) (hi : Int) cand = some out ∧
        ShuffledIn 0 (n - 1) cand out ∧ TopSplit n topk out := by
  intro fuel
  induction fuel with
  | zero =>
    intro lo hi cand h1 h2 h3 h4 h5 hA hB
    have hnlt : ¬ ((lo : Int) < (hi : Int)) := by omega
    refine ⟨cand, by rw [kselectdLoop, if_neg hnlt], ShuffledIn.refl _ _ _, ?_⟩
    have : topk = lo ∨ topk = hi + 1 := by omega
    rcases this with e | e
    · rw [e]; exact hA
    · rw [e]; exact hB
  | succ fuel ih =>
    intro lo hi cand h1 h2 h3 h4 h5 hA hB
    by_cases hlt : lo < hi
    · have hlt2 : (lo : Int) < (hi : Int) := by omega
      obtain ⟨mid, emid, hm1, hm2⟩ := selectMedianD_range cand lo hi (by omega)
      have sh1 : ShuffledIn lo hi cand (DA_QSSWAP cand mid hi) :=
        ShuffledIn.swap lo hi cand mid hi hm1 hm2 (by omega) (le_refl _) (by omega)
      obtain ⟨s2, out, epart, g1, g2, sh2, g4, g5, g6⟩ :=
        partitionD_spec (vN (DA_QSSWAP cand mid hi) hi) lo hi (hi - lo) lo lo
          (DA_QSSWAP cand mid hi) (le_refl _) (le_refl _) (by omega)
          (by rw [swap_length]; omega)
          (fun p hp1 hp2 => absurd hp2 (by omega))
          (fun p hp1 hp2 => absurd hp2 (by omega))
      have hlen_out : out.length = cand.length := by
        rw [sh2.1, swap_length]
      have sh3 : ShuffledIn lo hi out (DA_QSSWAP out s2 hi) :=
        ShuffledIn.swap lo hi out s2 hi g1 g2 (by omega) (le_refl _) (by omega)
      have sh : ShuffledIn lo hi cand (DA_QSSWAP out s2 hi) := (sh1.trans sh2).trans sh3
      have hs2l : s2 < out.length := by omega
      have hhil : hi < out.length := by omega
      have hge : ∀ p, lo ≤ p → p ≤ s2 →
          vN (DA_QSSWAP cand mid hi) hi ≤ vN (DA_QSSWAP out s2 hi) p := by
        intro p hp1 hp2
        show _ ≤ ((DA_QSSWAP out s2 hi).getD p default).val
        rw [swap_getD out s2 hi p hs2l hhil]
        by_cases q1 : p = hi
        · rw [if_pos q1]
          have : s2 = hi := by omega
          rw [this, g4]
          exact le_refl _
        · rw [if_neg q1]
          by_cases q2 : p = s2
          · rw [if_pos q2, g4]; exact le_refl _
          · rw [if_neg q2]; exact g5 p hp1 (by omega)
      have hle : ∀ p, s2 ≤ p → p ≤ hi →
          vN (DA_QSSWAP out s2 hi) p ≤ vN (DA_QSSWAP cand mid hi) hi := by
        intro p hp1 hp2
        show ((DA_QSSWAP out s2 hi).getD p default).val ≤ _
        rw [swap_getD out s2 hi p hs2l hhil]
        by_cases q1 : p = hi
        · rw [if_pos q1]
          by_cases q3 : s2 = hi
          · rw [q3, g4]; exact le_refl _
          · exact le_of_lt (g6 s2 (le_refl _) (by omega))
        · rw [if_neg q1]
          by_cases q2 : p = s2
          · rw [if_pos q2, g4]; exact le_refl _
          · rw [if_neg q2]; exact le_of_lt (g6 p hp1 (by omega))
      have em : ((mid : Int)).toNat = mid := by omega
      have eh : ((hi : Int)).toNat = hi := by omega
      have ed : ((hi : Int) - (lo : Int)).toNat = hi - lo := by omega
      have es : ((s2 : Int) - 1 + 1).toNat = s2 := by omega
      have hstep : kselectdLoop (topk : Int) (fuel + 1) (lo : Int) (hi : Int) cand =
          (if ((s2 : Int) - 1 + 1) > (topk : Int) then
            kselectdLoop (topk : Int) fuel (lo : Int) ((s2 : Int) - 1 + 1 - 1) (DA_QSSWAP out s2 hi)
          else if ((s2 : Int) - 1 + 1) < (topk : Int) then
            kselectdLoop (topk : Int) fuel ((s2 : Int) - 1 + 1 + 1) (hi : Int) (DA_QSSWAP out s2 hi)
          else some (DA_QSSWAP out s2 hi)) := by
        rw [kselectdLoop, if_pos hlt2]
        simp only [emid, em, eh, ed, valAt_natCast, epart, es]
      rw [hstep]
      by_cases c1 : s2 > topk
      · rw [if_pos (by omega)]
        have e5 : ((s2 : Int) - 1 + 1 - 1) = ((s2 - 1 : Nat) : Int) := by omega
        rw [e5]
        obtain ⟨res, r1, r2, r3⟩ := ih lo (s2 - 1) (DA_QSSWAP out s2 hi) (by omega)
          (by rw [swap_length]; omega) h3 (by omega) (by omega)
          (TopSplit.of_shuffled sh h1 (Or.inl (le_refl _)) hA)
          (by
            have : s2 - 1 + 1 = s2 := by omega
            rw [this]
            exact pivot_split n lo hi s2 s2 _ cand _ sh g1 g2 h1 (Or.inl rfl) hA hB hge hle)
        exact ⟨res, r1, (sh.mono (Nat.zero_le _) (by omega)).trans r2, r3⟩
      · rw [if_neg (by omega)]
        by_cases c2 : s2 < topk
        · rw [if_pos (by omega)]
          have e6 : ((s2 : Int) - 1 + 1 + 1) = ((s2 + 1 : Nat) : Int) := by omega
          rw [e6]
          obtain ⟨res, r1, r2, r3⟩ := ih (s2 + 1) hi (DA_QSSWAP out s2 hi) h1
            (by rw [swap_length]; omega) (by omega) h4 (by omega)
            (pivot_split n lo hi s2 (s2 + 1) _ cand _ sh g1 g2 h1 (Or.inr rfl) hA hB hge hle)
            (TopSplit.of_shuffled sh h1 (Or.inr (Nat.lt_succ_self _)) hB)
          exact ⟨res, r1, (sh.mono (Nat.zero_le _) (by omega)).trans r2, r3⟩
        · rw [if_neg (by omega)]
          have : topk = s2 := by omega
          subst this
          exact ⟨_, rfl, sh.mono (Nat.zero_le _) (by omega),
            pivot_split n lo hi topk topk _ cand _ sh g1 g2 h1 (Or.inl rfl) hA hB hge hle⟩
    · have hnlt : ¬ ((lo : Int) < (hi : Int)) := by omega
      refine ⟨cand, by rw [kselectdLoop, if_neg hnlt], ShuffledIn.refl _ _ _, ?_⟩
      have : topk = lo ∨ topk = hi + 1 := by omega
      rcases this with e | e
      · rw [e]; exact hA
      · rw [e]; exact hB

end SelectProofs
section SelectTheorems
variable {α : Type} [LinearOrder α] [Zero α]

theorem da_ivkvkselectd_spec (n topk : Nat) (cand : List (da_ivkv_t α))
    (hk : topk < n) (hn : n ≤ cand.length) :
    ∃ out, da_ivkvkselectd n (topk : Int) cand = some ((topk : Int), out) ∧
      ShuffledIn 0 (n - 1) cand out ∧ TopSplit n topk out := by
  obtain ⟨out, e, sh, ts⟩ := kselectdLoop_spec topk n n 0 (n - 1) cand (by omega) hn
    (Nat.zero_le _) (by omega) (by omega)
    (fun p q hp _ _ => absurd hp (Nat.not_lt_zero _))
    (fun p q _ hq hqn => absurd hqn (by omega))
  refine ⟨out, ?_, sh, ts⟩
  have e0 : ((0 : Nat) : Int) = 0 := rfl
  have e1 : ((n - 1 : Nat) : Int) = (n : Int) - 1 := by omega
  rw [e0, e1] at e
  rw [da_ivkvkselectd, if_neg (by omega), e]
  rfl

theorem mem_take_getD {β : Type} [Inhabited β] (l : List β) (k : Nat) (x : β)
    (h : x ∈ l.take k) : ∃ p, p < k ∧ p < l.length ∧ l.getD p default = x := by
  obtain ⟨i, hi, e⟩ := List.mem_iff_getElem.mp h
  rw [List.length_take] at hi
  refine ⟨i, by omega, by omega, ?_⟩
  rw [List.getD_eq_getElem?_getD, List.getElem?_eq_getElem (by omega)]
  simpa using e

theorem mem_drop_getD {β : Type} [Inhabited β] (l : List β) (k : Nat) (x : β)
    (h : x ∈ l.drop k) : ∃ q, k ≤ q ∧ q < l.length ∧ l.getD q default = x := by
  obtain ⟨i, hi, e⟩ := List.mem_iff_getElem.mp h
  rw [List.length_drop] at hi
  refine ⟨k + i, by omega, by omega, ?_⟩
  rw [List.getD_eq_getElem?_getD, List.getElem?_eq_getElem (by omega)]
  simpa using e

/-- When the first `k` values dominate the rest, sorting them gives the first `k`
entries of the sorted whole. -/
theorem sort_take_of_split (vs ws : List α) (k : Nat) (hlen : k ≤ vs.length)
    (hp : vs.Perm ws)
    (hsplit : ∀ a ∈ vs.take k, ∀ b ∈ vs.drop k, b ≤ a) :
    (vs.take k).insertionSort (· ≥ ·) = (ws.insertionSort (· ≥ ·)).take k := by
  have hs1 := List.sorted_insertionSort (· ≥ · : α → α → Prop) (vs.take k)
  have hs2 := List.sorted_insertionSort (· ≥ · : α → α → Prop) (vs.drop k)
  have hp1 := List.perm_insertionSort (· ≥ · : α → α → Prop) (vs.take k)
  have hp2 := List.perm_insertionSort (· ≥ · : α → α → Prop) (vs.drop k)
  have hsorted : List.Sorted (· ≥ · : α → α → Prop)
      ((vs.take k).insertionSort (· ≥ ·) ++ (vs.drop k).insertionSort (· ≥ ·)) := by
    unfold List.Sorted
    rw [List.pairwise_append]
    refine ⟨hs1, hs2, ?_⟩
    intro a ha b hb
    exact hsplit a (hp1.mem_iff.mp ha) b (hp2.mem_iff.mp hb)
  have hperm : ((vs.take k).insertionSort (· ≥ ·) ++ (vs.drop k).insertionSort (· ≥ ·)).Perm
      (ws.insertionSort (· ≥ ·)) := by
    have h1 : ((vs.take k).insertionSort (· ≥ ·) ++ (vs.drop k).insertionSort (· ≥ ·)).Perm
        (vs.take k ++ vs.drop k) := hp1.append hp2
    rw [List.take_append_drop] at h1
    exact h1.trans (hp.trans (List.perm_insertionSort _ ws).symm)
  have heq := List.eq_of_perm_of_sorted hperm hsorted (List.sorted_insertionSort _ ws)
  rw [← heq]
  have hl : ((vs.take k).insertionSort (· ≥ · : α → α → Prop)).length = k := by
    rw [List.length_insertionSort, List.length_take]; omega
  rw [List.take_left' hl]


/-- C9: for an array of `n` entries and `0 ≤ topk < n`, `da_ivkvkselectd` returns, and
leaves a permutation of the input in which every entry at a position in `[0, topk)`
has a value at least that of every entry at a position in `[topk, n)`; hence the
first `topk` values, sorted in decreasing order, are the first `topk` of the input
values sorted in decreasing order, that is, the `topk` largest. -/
theorem da_ivkvkselectd_topk (n : Nat) (topk : Int) (cand : List (da_ivkv_t α))
    (hlen : cand.length = n) (h0 : 0 ≤ topk) (hk : topk < n) :
    ∃ out, da_ivkvkselectd n topk cand = some (topk, out) ∧ out.Perm cand ∧
      (∀ p q : Nat, (p : Int) < topk → topk ≤ (q : Int) → q < n →
        (out.getD q default).val ≤ (out.getD p default).val) ∧
      ((out.take topk.toNat).map (fun e => e.val)).insertionSort (· ≥ ·) =
        ((cand.map (fun e => e.val)).insertionSort (· ≥ ·)).take topk.toNat := by
  obtain ⟨k, rfl⟩ := Int.eq_ofNat_of_zero_le h0
  have hk2 : k < n := by omega
  obtain ⟨out, e, sh, ts⟩ := da_ivkvkselectd_spec n k cand hk2 (by omega)
  have hol : out.length = n := by rw [sh.1, hlen]
  refine ⟨out, e, sh.2.1, ?_, ?_⟩
  · intro p q hp hq hqn
    exact ts p q (by omega) (by omega) hqn
  · rw [Int.toNat_ofNat, List.map_take]
    apply sort_take_of_split (out.map (fun e => e.val)) (cand.map (fun e => e.val)) k
      (by rw [List.length_map]; omega) (sh.2.1.map _)
    intro a ha b hb
    rw [← List.map_take] at ha
    rw [← List.map_drop] at hb
    obtain ⟨x, hx, rfl⟩ := List.mem_map.mp ha
    obtain ⟨y, hy, rfl⟩ := List.mem_map.mp hb
    obtain ⟨p, hp1, hp2, rfl⟩ := mem_take_getD out k x hx
    obtain ⟨q, hq1, hq2, rfl⟩ := mem_drop_getD out k y hy
    exact ts p q hp1 hq1 (by omega)

/-- Witness of C9: selecting the top 1 of the values 3, 1, 4. -/
theorem da_ivkvkselectd_topk_witness :
    ∃ out, da_ivkvkselectd 3 1 ([⟨0, 3⟩, ⟨1, 1⟩, ⟨2, 4⟩] : List (da_ivkv_t Int)) = some (1, out) ∧
      out.Perm [⟨0, 3⟩, ⟨1, 1⟩, ⟨2, 4⟩] ∧
      (∀ p q : Nat, (p : Int) < 1 → (1 : Int) ≤ (q : Int) → q < 3 →
        (out.getD q default).val ≤ (out.getD p default).val) ∧
      ((out.take (1 : Int).toNat).map (fun e => e.val)).insertionSort (· ≥ ·) =
        ((([⟨0, 3⟩, ⟨1, 1⟩, ⟨2, 4⟩] : List (da_ivkv_t Int)).map
          (fun e => e.val)).insertionSort (· ≥ ·)).take (1 : Int).toNat :=
  da_ivkvkselectd_topk 3 1 [⟨0, 3⟩, ⟨1, 1⟩, ⟨2, 4⟩] (by decide) (by decide) (by decide)

/-- C10: for an array holding at least `n` entries and `0 ≤ topk`,
`da_ivkvkselectd(n, topk, cand)` returns `min(topk, n)`, and when `topk ≥ n` the
array is returned unchanged. -/
theorem da_ivkvkselectd_returns_min (n : Nat) (topk : Int) (cand : List (da_ivkv_t α))
    (hlen : n ≤ cand.length) (h0 : 0 ≤ topk) :
    ∃ out, da_ivkvkselectd n topk cand = some (min topk (n : Int), out) ∧
      ((n : Int) ≤ topk → out = cand) := by
  by_cases h : (n : Int) ≤ topk
  · refine ⟨cand, ?_, fun _ => rfl⟩
    rw [da_ivkvkselectd, if_pos h, min_eq_right h]
  · obtain ⟨k, rfl⟩ := Int.eq_ofNat_of_zero_le h0
    obtain ⟨out, e, _, _⟩ := da_ivkvkselectd_spec n k cand (by omega) hlen
    refine ⟨out, ?_, fun h2 => absurd h2 h⟩
    rw [e, min_eq_left (by omega)]

/-- Witness of C10: `n = 2` entries and `topk = 5`. -/
theorem da_ivkvkselectd_returns_min_witness :
    ∃ out, da_ivkvkselectd 2 5 ([⟨0, 3⟩, ⟨1, 7⟩] : List (da_ivkv_t Int)) =
        some (min (5 : Int) ((2 : Nat) : Int), out) ∧
      (((2 : Nat) : Int) ≤ 5 → out = [⟨0, 3⟩, ⟨1, 7⟩]) :=
  da_ivkvkselectd_returns_min 2 5 [⟨0, 3⟩, ⟨1, 7⟩] (by decide) (by decide)

end SelectTheorems
/-! ## Counted loops -/

section Loops
variable {σ : Type}

theorem forLoop_succ_last (body : Nat → σ → σ) :
    ∀ (n start : Nat) (st : σ),
      forLoop body (n + 1) start st = body (start + n) (forLoop body n start st)
  | 0, start, st => by simp [forLoop]
  | n + 1, start, st => by
    have ih := forLoop_succ_last body n (start + 1) (body start st)
    rw [forLoop, ih]
    have e : start + 1 + n = start + (n + 1) := by omega
    rw [e]
    rfl

/-- Invariant rule for a counted loop: `P t` after `t` iterations. -/
theorem forLoop_invariant (P : Nat → σ → Prop) (body : Nat → σ → σ) (start : Nat) (st : σ) :
    ∀ n : Nat, P 0 st → (∀ t s, t < n → P t s → P (t + 1) (body (start + t) s)) →
      P n (forLoop body n start st)
  | 0, h0, _ => h0
  | n + 1, h0, hs => by
    rw [forLoop_succ_last]
    exact hs n _ (Nat.lt_succ_self n)
      (forLoop_invariant P body start st n h0 (fun t s ht hp => hs t s (by omega) hp))

end Loops

/-! ## The filter and the final sort of `da_getSimilarRows` -/

section ListHelpers
variable {β : Type}

theorem take_set_succ : ∀ (l : List β) (k : Nat) (x : β), k < l.length →
    (l.set k x).take (k + 1) = l.take k ++ [x]
  | [], _, _, h => by simp at h
  | _ :: _, 0, _, _ => by simp
  | a :: t, k + 1, x, h => by
    have ih := take_set_succ t k x (by simpa using h)
    simp only [List.set_cons_succ, List.take_succ_cons, List.cons_append, ih]

theorem take_set_ge (l : List β) (k m : Nat) (x : β) (h : m ≤ k) :
    (l.set k x).take m = l.take m := by
  apply List.ext_getElem?
  intro n
  simp only [List.getElem?_take, List.getElem?_set]
  by_cases hn : n < m
  · simp only [hn, if_true]
    rw [if_neg (by omega)]
  · simp [hn]

theorem getD_mem_take [Inhabited β] (l : List β) (p k : Nat) (hp : p < k) (hl : p < l.length) :
    l.getD p default ∈ l.take k := by
  rw [List.getD_eq_getElem?_getD, List.getElem?_eq_getElem hl]
  simp only [Option.getD_some]
  rw [List.mem_take_iff_getElem]
  exact ⟨p, by omega, rfl⟩

end ListHelpers

section FilterSort
variable {α : Type} [LinearOrderedCommRing α]

theorem filterHits_spec (cand : List (da_ivkv_t α)) (eps : α) (nsim : Nat)
    (hits : List (da_ivkv_t α)) (hc : nsim ≤ cand.length) (hh : nsim ≤ hits.length) :
    (filterHits cand eps nsim hits).1.take (filterHits cand eps nsim hits).2 =
        (cand.take nsim).filter (fun e => decide (eps ≤ e.val)) ∧
      (filterHits cand eps nsim hits).2 ≤ nsim ∧
      (filterHits cand eps nsim hits).1.length = hits.length := by
  unfold filterHits
  apply forLoop_invariant
    (fun t (st : List (da_ivkv_t α) × Nat) =>
      st.1.take st.2 = (cand.take t).filter (fun e => decide (eps ≤ e.val)) ∧ st.2 ≤ t ∧
        st.1.length = hits.length)
  · simp
  · intro t s ht ⟨h1, h2, h3⟩
    have hget : cand[t]? = some (cand.getD t default) := by
      rw [List.getD_eq_getElem?_getD, List.getElem?_eq_getElem (by omega)]
      rfl
    have htake : cand.take (t + 1) = cand.take t ++ [cand.getD t default] := by
      rw [List.take_succ, hget]
      rfl
    simp only [Nat.zero_add]
    by_cases hp : eps ≤ (cand.getD t default).val
    · rw [if_pos hp]
      refine ⟨?_, by simp; omega, by simpa using h3⟩
      show (s.1.set s.2 (cand.getD t default)).take (s.2 + 1) = _
      rw [take_set_succ _ _ _ (by omega), h1, htake, List.filter_append]
      simp only [List.filter_cons, hp, decide_True, if_true, List.filter_nil]
    · rw [if_neg hp]
      refine ⟨?_, by omega, h3⟩
      rw [h1, htake, List.filter_append]
      simp only [List.filter_cons, hp, decide_False, List.filter_nil, List.append_nil]
      simp

theorem da_ivkvsortd_take (n : Nat) (base : List (da_ivkv_t α)) (h : n ≤ base.length) :
    (da_ivkvsortd n base).take n =
      (base.take n).insertionSort (fun a b => decide (b.val > a.val) = false) := by
  unfold da_ivkvsortd DA_MKQSORT
  apply List.take_left'
  rw [List.length_insertionSort, List.length_take]
  omega

theorem da_ivkvsortd_length (n : Nat) (base : List (da_ivkv_t α)) :
    (da_ivkvsortd n base).length = base.length := by
  unfold da_ivkvsortd DA_MKQSORT
  rw [List.length_append, List.length_insertionSort, List.length_take, List.length_drop]
  omega

theorem da_ivkvsortd_perm (n : Nat) (base : List (da_ivkv_t α)) (h : n ≤ base.length) :
    ((da_ivkvsortd n base).take n).Perm (base.take n) := by
  rw [da_ivkvsortd_take n base h]
  exact List.perm_insertionSort _ _

theorem da_ivkvsortd_sorted (n : Nat) (base : List (da_ivkv_t α)) (h : n ≤ base.length) :
    List.Pairwise (fun a b => b.val ≤ a.val) ((da_ivkvsortd n base).take n) := by
  rw [da_ivkvsortd_take n base h]
  have : IsTotal (da_ivkv_t α) (fun a b => decide (b.val > a.val) = false) :=
    ⟨fun a b => by
      simp only [gt_iff_lt, decide_eq_false_iff_not, not_lt]
      exact le_total _ _⟩
  have : IsTrans (da_ivkv_t α) (fun a b => decide (b.val > a.val) = false) :=
    ⟨fun a b c h1 h2 => by
      simp only [gt_iff_lt, decide_eq_false_iff_not, not_lt] at h1 h2 ⊢
      exact le_trans h2 h1⟩
  have hs := List.sorted_insertionSort (fun a b : da_ivkv_t α => decide (b.val > a.val) = false)
    (base.take n)
  refine List.Pairwise.imp ?_ hs
  intro a b hab
  simpa using hab

end FilterSort
/-! ## The accumulation loop of `da_getSimilarRows` -/

section Accumulate
variable {α : Type} [LinearOrderedCommRing α]

theorem nodup_bounded_length (l : List Nat) (n : Nat) (hn : l.Nodup) (hb : ∀ x ∈ l, x < n) :
    l.length ≤ n := by
  have h1 : l.toFinset ⊆ Finset.range n := by
    intro x hx
    rw [List.mem_toFinset] at hx
    exact Finset.mem_range.mpr (hb x hx)
  have h2 := Finset.card_le_card h1
  rw [List.toFinset_card_of_nodup hn, Finset.card_range] at h2
  exact h2

theorem map_key_set_val (cand : List (da_ivkv_t α)) (slot : Nat) (v : α) :
    (cand.set slot { cand.getD slot default with val := v }).map (fun e => e.key) =
      cand.map (fun e => e.key) := by
  apply List.ext_getElem?
  intro n
  simp only [List.getElem?_map, List.getElem?_set]
  by_cases h : slot = n
  · subst h
    by_cases h2 : slot < cand.length
    · simp [h2, List.getD_eq_getElem?_getD, List.getElem?_eq_getElem h2]
    · simp [h2, List.getElem?_eq_none (Nat.le_of_not_lt h2)]
  · simp [h]

theorem markCandidate_inv (nrows k : Nat) (st : AccState α) (hk : k < nrows)
    (h : AccInv nrows st) : AccInv nrows (markCandidate k st) := by
  obtain ⟨h1, h2, h3, h4, h5⟩ := h
  unfold markCandidate
  by_cases hm : st.marker.getD k 0 = -1
  · rw [if_pos hm]
    have hnotin : k ∉ (st.cand.take st.ncand).map (fun e => e.key) :=
      fun hin => (h5 _ hin).2 hm
    have hnd : ((st.cand.take st.ncand).map (fun e => e.key) ++ [k]).Nodup := by
      rw [List.nodup_append]
      refine ⟨h4, List.nodup_singleton _, ?_⟩
      intro x hx hx2
      rw [List.mem_singleton] at hx2
      subst hx2
      exact hnotin hx
    have hlen := nodup_bounded_length _ nrows hnd (by
      intro x hx
      rw [List.mem_append] at hx
      rcases hx with hx | hx
      · exact (h5 x hx).1
      · rw [List.mem_singleton] at hx; subst hx; exact hk)
    rw [List.length_append, List.length_map, List.length_take, List.length_singleton] at hlen
    have hlt : st.ncand < nrows := by omega
    have hkeys : ((st.cand.set st.ncand ⟨k, 0⟩).take (st.ncand + 1)).map
        (fun e => e.key) = (st.cand.take st.ncand).map (fun e => e.key) ++ [k] := by
      rw [take_set_succ _ _ _ (by omega), List.map_append]
      rfl
    refine ⟨by simpa using h1, by simpa using h2, by show st.ncand + 1 ≤ nrows; omega, ?_, ?_⟩
    · show (((st.cand.set st.ncand ⟨k, 0⟩).take (st.ncand + 1)).map (fun e => e.key)).Nodup
      rw [hkeys]; exact hnd
    · intro x hx
      have hx' : x ∈ (st.cand.take st.ncand).map (fun e => e.key) ++ [k] := by
        rw [← hkeys]; exact hx
      show x < nrows ∧ (st.marker.set k (st.ncand : Int)).getD x 0 ≠ -1
      rw [getD_set_eq]
      rw [List.mem_append] at hx'
      rcases hx' with hx' | hx'
      · refine ⟨(h5 x hx').1, ?_⟩
        have hne : ¬ (k = x ∧ k < st.marker.length) := by
          intro hc
          exact hnotin (hc.1 ▸ hx')
        rw [if_neg hne]
        exact (h5 x hx').2
      · rw [List.mem_singleton] at hx'
        subst hx'
        refine ⟨hk, ?_⟩
        rw [if_pos ⟨rfl, by omega⟩]
        omega
  · rw [if_neg hm]; exact ⟨h1, h2, h3, h4, h5⟩

theorem accumEntry_inv (nrows : Nat) (colind : List Nat) (colval : List α) (rid : Nat) (qv : α)
    (j : Nat) (st : AccState α) (hk : colind.getD j 0 < nrows) (h : AccInv nrows st) :
    AccInv nrows (accumEntry colind colval rid qv j st) := by
  unfold accumEntry
  simp only []
  by_cases hr : colind.getD j 0 = rid
  · rw [if_pos hr]; exact h
  · rw [if_neg hr]
    have key := markCandidate_inv nrows (colind.getD j 0) st hk h
    generalize markCandidate (colind.getD j 0) st = st1 at key ⊢
    obtain ⟨k1, k2, k3, k4, k5⟩ := key
    refine ⟨k1, by simpa using k2, k3, ?_, ?_⟩
    · show (((st1.cand.set _ _).take st1.ncand).map (fun e => e.key)).Nodup
      rw [List.map_take, map_key_set_val, ← List.map_take]
      exact k4
    · intro x hx
      have hx' : x ∈ (st1.cand.take st1.ncand).map (fun e => e.key) := by
        have : x ∈ ((st1.cand.set _ _).take st1.ncand).map (fun e => e.key) := hx
        rw [List.map_take, map_key_set_val, ← List.map_take] at this
        exact this
      exact k5 x hx'

theorem accumulate_inv (mat : da_csr_t α) (rid qsz : Nat) (marker : List Int)
    (cand : List (da_ivkv_t α)) (hpos : 0 < mat.nrows)
    (hcol : ∀ x ∈ mat.colind.getD [], x < mat.nrows)
    (hm : marker.length = mat.nrows) (hc : cand.length = mat.nrows) :
    AccInv mat.nrows (accumulate mat rid qsz marker cand) := by
  have hget : ∀ j, (mat.colind.getD []).getD j 0 < mat.nrows := by
    intro j
    rw [List.getD_eq_getElem?_getD]
    by_cases hj : j < (mat.colind.getD []).length
    · rw [List.getElem?_eq_getElem hj]
      exact hcol _ (List.getElem_mem _)
    · rw [List.getElem?_eq_none (Nat.le_of_not_lt hj)]
      exact hpos
  unfold accumulate
  apply forLoop_invariant (fun _ st => AccInv mat.nrows st)
  · exact ⟨hm, hc, Nat.zero_le _, by simp, by simp⟩
  · intro t s _ hs
    unfold accumFeature
    simp only []
    split_ifs
    · apply forLoop_invariant (fun _ st => AccInv mat.nrows st)
      · exact hs
      · intro t2 s2 _ hs2
        exact accumEntry_inv _ _ _ _ _ _ _ (hget _) hs2
    · exact hs

end Accumulate
section SimilarRows
variable {α : Type} [LinearOrderedCommRing α]

theorem ShuffledIn.take_perm {β : Type} [Inhabited β] {lo hi n : Nat} {a b : List β}
    (h : ShuffledIn lo hi a b) (hn : hi < n) : (b.take n).Perm (a.take n) := by
  obtain ⟨hl, hp, ho, _⟩ := h
  have hd : b.drop n = a.drop n := by
    apply List.ext_getElem?
    intro i
    rw [List.getElem?_drop, List.getElem?_drop]
    have e := ho (n + i) (Or.inr (by omega))
    rw [List.getD_eq_getElem?_getD, List.getD_eq_getElem?_getD] at e
    by_cases hi2 : n + i < a.length
    · rw [List.getElem?_eq_getElem hi2, List.getElem?_eq_getElem (by omega)] at e ⊢
      simpa using e
    · rw [List.getElem?_eq_none (by omega), List.getElem?_eq_none (by omega)]
  have h2 : (b.take n ++ b.drop n).Perm (a.take n ++ a.drop n) := by
    rw [List.take_append_drop, List.take_append_drop]; exact hp
  rw [hd] at h2
  exact (List.perm_append_right_iff _).mp h2

theorem clearMarkers_length (cand : List (da_ivkv_t α)) (ncand : Nat) (marker : List Int) :
    (clearMarkers cand ncand marker).length = marker.length := by
  unfold clearMarkers
  apply forLoop_invariant (fun _ (m : List Int) => m.length = marker.length)
  · rfl
  · intro t s _ hs
    simpa using hs

/-- Selection, filter and sort of `da_getSimilarRows` on a candidate array whose
first `ncand` entries are in use. -/
theorem select_filter_sort (nsim : Int) (eps : α) (ncand : Nat)
    (cand hits : List (da_ivkv_t α)) (hc : ncand ≤ cand.length) (hh : ncand ≤ hits.length)
    (h0 : 0 ≤ nsim) (hlt : nsim < ncand) :
    ∃ out, da_ivkvkselectd ncand nsim cand = some (nsim, out) ∧ out.length = cand.length ∧
      (filterHits out eps nsim.toNat hits).2 ≤ nsim.toNat ∧
      ((da_ivkvsortd (filterHits out eps nsim.toNat hits).2
          (filterHits out eps nsim.toNat hits).1).take (filterHits out eps nsim.toNat hits).2).Perm
        ((out.take nsim.toNat).filter (fun e => decide (eps ≤ e.val))) ∧
      (out.take ncand).Perm (cand.take ncand) ∧ TopSplit ncand nsim.toNat out := by
  obtain ⟨k, rfl⟩ := Int.eq_ofNat_of_zero_le h0
  have hk : k < ncand := by omega
  obtain ⟨out, e, sh, ts⟩ := da_ivkvkselectd_spec ncand k cand hk hc
  have hol : out.length = cand.length := sh.1
  have hf := filterHits_spec out eps k hits (by omega) (by omega)
  refine ⟨out, e, hol, ?_, ?_, sh.take_perm (by omega), ?_⟩
  · simpa using hf.2.1
  · rw [Int.toNat_ofNat, ← hf.1]
    exact da_ivkvsortd_perm _ _ (by rw [hf.2.2]; omega)
  · simpa using ts


/-- Filter and sort of `da_getSimilarRows` over the first `m` entries of `arr`. -/
theorem emit_spec (arr hits : List (da_ivkv_t α)) (eps : α) (m : Nat)
    (hm1 : m ≤ arr.length) (hm2 : m ≤ hits.length) :
    (filterHits arr eps m hits).2 ≤ m ∧
      (da_ivkvsortd (filterHits arr eps m hits).2 (filterHits arr eps m hits).1).length =
        hits.length ∧
      ((da_ivkvsortd (filterHits arr eps m hits).2 (filterHits arr eps m hits).1).take
          (filterHits arr eps m hits).2).Perm
        ((arr.take m).filter (fun e => decide (eps ≤ e.val))) ∧
      List.Pairwise (fun a b => b.val ≤ a.val)
        ((da_ivkvsortd (filterHits arr eps m hits).2 (filterHits arr eps m hits).1).take
          (filterHits arr eps m hits).2) := by
  have hf := filterHits_spec arr eps m hits hm1 hm2
  have hle : (filterHits arr eps m hits).2 ≤ (filterHits arr eps m hits).1.length := by
    rw [hf.2.2]; omega
  refine ⟨hf.2.1, ?_, ?_, da_ivkvsortd_sorted _ _ hle⟩
  · rw [da_ivkvsortd_length, hf.2.2]
  · rw [← hf.1]
    exact da_ivkvsortd_perm _ _ hle

/-- What one call of `da_getSimilarRows` with caller-supplied scratch arrays
returns: it returns, the arrays keep their lengths, at most `nsim` hits are
reported, the reported hits are candidates with score at least `eps` in
non-increasing order of score, and a candidate with score at least `eps` that
is not reported is dominated by `nsim` reported ones. -/
theorem da_getSimilarRows_spec (mat : da_csr_t α) (rid : Nat) (nsim : Int) (eps : α)
    (hits cand : List (da_ivkv_t α)) (marker : List Int) (nc : Nat)
    (hpos : 0 < mat.nrows) (hcol : ∀ x ∈ mat.colind.getD [], x < mat.nrows)
    (hh : hits.length = mat.nrows) (hc : cand.length = mat.nrows)
    (hm : marker.length = mat.nrows) (hns : nsim = -1 ∨ 0 ≤ nsim) :
    ∃ r, da_getSimilarRows mat rid nsim eps hits (some cand) (some marker) nc = some r ∧
      r.hits.length = mat.nrows ∧ r.cand.length = mat.nrows ∧ r.marker.length = mat.nrows ∧
      r.k ≤ mat.nrows ∧ (0 ≤ nsim → (r.k : Int) ≤ nsim) ∧
      List.Pairwise (fun a b => b.val ≤ a.val) (r.hits.take r.k) ∧
      (∀ e ∈ r.hits.take r.k, eps ≤ e.val) ∧
      (∀ e ∈ r.hits.take r.k, e ∈ candidatesOf mat rid marker cand) ∧
      (∀ e ∈ candidatesOf mat rid marker cand, eps ≤ e.val → e ∉ r.hits.take r.k →
        (r.k : Int) = nsim ∧ ∀ h ∈ r.hits.take r.k, e.val ≤ h.val) := by
  unfold candidatesOf
  have hqs : querySize mat rid = (((mat.rowptr.getD []).getD (rid + 1) 0 : Nat) : Int) -
      (((mat.rowptr.getD []).getD rid 0 : Nat) : Int) := rfl
  unfold da_getSimilarRows
  simp only [Option.getD_some]
  rw [← hqs]
  by_cases hq : querySize mat rid = 0
  · rw [if_pos hq]
    refine ⟨_, rfl, hh, hc, hm, Nat.zero_le _, fun h => h, ?_, ?_, ?_, ?_⟩
    · simp
    · simp
    · simp
    · intro e he
      rw [hq] at he
      simp [accumulate, forLoop] at he
  · rw [if_neg hq]
    have inv := accumulate_inv mat rid (querySize mat rid).toNat marker cand hpos hcol hm hc
    generalize accumulate mat rid (querySize mat rid).toNat marker cand = st at inv ⊢
    obtain ⟨i1, i2, i3, i4, i5⟩ := inv
    by_cases hA : nsim = -1 ∨ nsim ≥ (st.ncand : Int)
    · rw [if_pos hA]
      obtain ⟨e1, e2, e3, e4⟩ := emit_spec st.cand hits eps st.ncand (by omega) (by omega)
      simp only [Option.map_some', Int.toNat_ofNat]
      refine ⟨_, rfl, ?_, i2, ?_, ?_, ?_, e4, ?_, ?_, ?_⟩
      · rw [e2, hh]
      · rw [clearMarkers_length, i1]
      · exact le_trans e1 i3
      · intro h0
        rcases hA with hA | hA
        · omega
        · have : ((filterHits st.cand eps st.ncand hits).2 : Int) ≤ (st.ncand : Int) := by
            exact_mod_cast e1
          exact le_trans this hA
      · intro e he
        have := (e3.mem_iff.mp he)
        rw [List.mem_filter] at this
        simpa using this.2
      · intro e he
        have := (e3.mem_iff.mp he)
        rw [List.mem_filter] at this
        exact this.1
      · intro e he hp hnot
        exfalso
        apply hnot
        apply e3.mem_iff.mpr
        rw [List.mem_filter]
        exact ⟨he, by simpa using hp⟩
    · rw [if_neg hA]
      have h0 : 0 ≤ nsim := by
        rcases hns with h | h
        · exact absurd (Or.inl h) hA
        · exact h
      have hlt : nsim < (st.ncand : Int) := by
        by_contra hcon
        exact hA (Or.inr (by omega))
      have hge : ¬ nsim ≥ (st.ncand : Int) := by omega
      simp only [if_neg hge]
      obtain ⟨out, eo, hol, f1, f2, f3, f4⟩ :=
        select_filter_sort nsim eps st.ncand st.cand hits (by omega) (by omega) h0 hlt
      obtain ⟨e1, e2, e3, e4⟩ := emit_spec out hits eps nsim.toNat (by omega) (by omega)
      have hsub : ∀ e ∈ out.take nsim.toNat, e ∈ st.cand.take st.ncand := by
        intro e he
        apply f3.mem_iff.mp
        have : out.take nsim.toNat = (out.take st.ncand).take nsim.toNat := by
          rw [List.take_take, min_eq_left (by omega)]
        rw [this] at he
        exact List.mem_of_mem_take he
      rw [eo]
      simp only [Option.map_some']
      refine ⟨_, rfl, ?_, ?_, ?_, ?_, ?_, e4, ?_, ?_, ?_⟩
      · rw [e2, hh]
      · rw [hol, i2]
      · rw [clearMarkers_length, i1]
      · exact le_trans e1 (by omega)
      · intro _
        have : ((filterHits out eps nsim.toNat hits).2 : Int) ≤ (nsim.toNat : Int) := by
          exact_mod_cast e1
        show ((filterHits out eps nsim.toNat hits).2 : Int) ≤ nsim
        omega
      · intro e he
        have := (e3.mem_iff.mp he)
        rw [List.mem_filter] at this
        simpa using this.2
      · intro e he
        have := (e3.mem_iff.mp he)
        rw [List.mem_filter] at this
        exact hsub e this.1
      · intro e he hp hnot
        have he2 : e ∈ out.take st.ncand := f3.mem_iff.mpr he
        obtain ⟨q, hq1, hq2, rfl⟩ := mem_take_getD out st.ncand e he2
        have hqge : nsim.toNat ≤ q := by
          by_contra hcon
          apply hnot
          apply e3.mem_iff.mpr
          rw [List.mem_filter]
          exact ⟨getD_mem_take out q nsim.toNat (by omega) hq2, by simpa using hp⟩
        have hdom : ∀ h ∈ out.take nsim.toNat, (out.getD q default).val ≤ h.val := by
          intro h hh2
          obtain ⟨p, hp1, hp2, rfl⟩ := mem_take_getD out nsim.toNat h hh2
          exact f4 p q hp1 hqge hq1
        have hall : (out.take nsim.toNat).filter (fun e => decide (eps ≤ e.val)) =
            out.take nsim.toNat := by
          rw [List.filter_eq_self]
          intro h hh2
          simpa using le_trans hp (hdom h hh2)
        rw [hall] at e3
        constructor
        · have hl := e3.length_eq
          rw [List.length_take, List.length_take, da_ivkvsortd_length] at hl
          have := filterHits_spec out eps nsim.toNat hits (by omega) (by omega)
          rw [this.2.2] at hl
          show ((filterHits out eps nsim.toNat hits).2 : Int) = nsim
          omega
        · intro h hh2
          exact hdom h (e3.mem_iff.mp hh2)

end SimilarRows
section MarkerReset
variable {α : Type} [LinearOrderedCommRing α]

theorem getD_set_val_key (cand : List (da_ivkv_t α)) (slot s : Nat) (v : α) :
    ((cand.set slot { cand.getD slot default with val := v }).getD s default).key =
      (cand.getD s default).key := by
  rw [getD_set_eq]
  by_cases h : slot = s ∧ slot < cand.length
  · rw [if_pos h, h.1]
  · rw [if_neg h]

theorem markCandidate_marker (nrows k : Nat) (st : AccState α) (hk : k < nrows)
    (h : AccInv nrows st) (hM : MarkerInv nrows st) : MarkerInv nrows (markCandidate k st) := by
  have hnew := markCandidate_inv nrows k st hk h
  obtain ⟨h1, h2, h3, h4, h5⟩ := h
  obtain ⟨m1, m2⟩ := hM
  unfold markCandidate at hnew ⊢
  by_cases hm : st.marker.getD k 0 = -1
  · rw [if_pos hm] at hnew ⊢
    have hlt : st.ncand < nrows := by
      have := hnew.2.2.1
      exact this
    constructor
    · intro s hs
      show ((st.cand.set st.ncand ⟨k, 0⟩).getD s default).key < nrows ∧
        (st.marker.set k (st.ncand : Int)).getD
          ((st.cand.set st.ncand ⟨k, 0⟩).getD s default).key 0 = (s : Int)
      have hs' : s < st.ncand + 1 := hs
      rw [getD_set_eq (st.cand)]
      by_cases hsn : st.ncand = s
      · rw [if_pos ⟨hsn, by omega⟩]
        refine ⟨hk, ?_⟩
        rw [getD_set_eq, if_pos ⟨rfl, by omega⟩, hsn]
      · rw [if_neg (fun hc => hsn hc.1)]
        have hs2 : s < st.ncand := by omega
        refine ⟨(m1 s hs2).1, ?_⟩
        rw [getD_set_eq]
        have hne : ¬ (k = (st.cand.getD s default).key ∧ k < st.marker.length) := by
          intro hc
          have := (m1 s hs2).2
          rw [← hc.1, hm] at this
          omega
        rw [if_neg hne]
        exact (m1 s hs2).2
    · intro x hx hne
      show ∃ s, s < st.ncand + 1 ∧ (st.marker.set k (st.ncand : Int)).getD x 0 = (s : Int) ∧
        ((st.cand.set st.ncand ⟨k, 0⟩).getD s default).key = x
      have hne' : (st.marker.set k (st.ncand : Int)).getD x 0 ≠ -1 := hne
      rw [getD_set_eq] at hne' ⊢
      by_cases hkx : k = x
      · refine ⟨st.ncand, by omega, ?_, ?_⟩
        · rw [if_pos ⟨hkx, by omega⟩]
        · rw [getD_set_eq, if_pos ⟨rfl, by omega⟩]
          exact hkx
      · rw [if_neg (fun hc => hkx hc.1)] at hne' ⊢
        obtain ⟨s, hs, e1, e2⟩ := m2 x hx hne'
        refine ⟨s, by omega, e1, ?_⟩
        rw [getD_set_eq, if_neg (by omega)]
        exact e2
  · rw [if_neg hm]; exact ⟨m1, m2⟩

theorem accumEntry_marker (nrows : Nat) (colind : List Nat) (colval : List α) (rid : Nat) (qv : α)
    (j : Nat) (st : AccState α) (hk : colind.getD j 0 < nrows) (h : AccInv nrows st)
    (hM : MarkerInv nrows st) : MarkerInv nrows (accumEntry colind colval rid qv j st) := by
  unfold accumEntry
  simp only []
  by_cases hr : colind.getD j 0 = rid
  · rw [if_pos hr]; exact hM
  · rw [if_neg hr]
    have key := markCandidate_marker nrows (colind.getD j 0) st hk h hM
    generalize markCandidate (colind.getD j 0) st = st1 at key ⊢
    obtain ⟨k1, k2⟩ := key
    constructor
    · intro s hs
      show ((st1.cand.set _ _).getD s default).key < nrows ∧
        st1.marker.getD ((st1.cand.set _ _).getD s default).key 0 = (s : Int)
      rw [getD_set_val_key]
      exact k1 s hs
    · intro x hx hne
      obtain ⟨s, hs, e1, e2⟩ := k2 x hx hne
      refine ⟨s, hs, e1, ?_⟩
      show ((st1.cand.set _ _).getD s default).key = x
      rw [getD_set_val_key]
      exact e2

theorem colind_getD_lt (mat : da_csr_t α) (hpos : 0 < mat.nrows)
    (hcol : ∀ x ∈ mat.colind.getD [], x < mat.nrows) (j : Nat) :
    (mat.colind.getD []).getD j 0 < mat.nrows := by
  rw [List.getD_eq_getElem?_getD]
  by_cases hj : j < (mat.colind.getD []).length
  · rw [List.getElem?_eq_getElem hj]
    exact hcol _ (List.getElem_mem _)
  · rw [List.getElem?_eq_none (Nat.le_of_not_lt hj)]
    exact hpos

theorem accumulate_marker (mat : da_csr_t α) (rid qsz : Nat) (cand : List (da_ivkv_t α))
    (hpos : 0 < mat.nrows) (hcol : ∀ x ∈ mat.colind.getD [], x < mat.nrows)
    (hc : cand.length = mat.nrows) :
    MarkerInv mat.nrows (accumulate mat rid qsz (List.replicate mat.nrows (-1)) cand) := by
  have hboth : AccInv mat.nrows (accumulate mat rid qsz (List.replicate mat.nrows (-1)) cand) ∧
      MarkerInv mat.nrows (accumulate mat rid qsz (List.replicate mat.nrows (-1)) cand) := by
    unfold accumulate
    apply forLoop_invariant (fun _ st => AccInv mat.nrows st ∧ MarkerInv mat.nrows st)
    · refine ⟨⟨by simp, hc, Nat.zero_le _, by simp, by simp⟩, ?_, ?_⟩
      · intro s hs
        exact absurd hs (Nat.not_lt_zero _)
      · intro x hx hne
        exfalso
        apply hne
        show (List.replicate mat.nrows (-1 : Int)).getD x 0 = -1
        rw [List.getD_eq_getElem?_getD, List.getElem?_eq_getElem (by simpa using hx)]
        simp
    · intro t s _ hs
      unfold accumFeature
      simp only []
      split_ifs
      · apply forLoop_invariant (fun _ st => AccInv mat.nrows st ∧ MarkerInv mat.nrows st)
        · exact hs
        · intro t2 s2 _ hs2
          exact ⟨accumEntry_inv _ _ _ _ _ _ _ (colind_getD_lt mat hpos hcol _) hs2.1,
            accumEntry_marker _ _ _ _ _ _ _ (colind_getD_lt mat hpos hcol _) hs2.1 hs2.2⟩
      · exact hs
  exact hboth.2

theorem clearMarkers_all (nrows : Nat) (st : AccState α) (hl : st.marker.length = nrows)
    (hM : MarkerInv nrows st) :
    clearMarkers st.cand st.ncand st.marker = List.replicate nrows (-1) := by
  have key : (clearMarkers st.cand st.ncand st.marker).length = nrows ∧
      ∀ x, x < nrows → (clearMarkers st.cand st.ncand st.marker).getD x 0 = -1 ∨
        ((clearMarkers st.cand st.ncand st.marker).getD x 0 = st.marker.getD x 0 ∧
          ∀ s, s < st.ncand → (st.cand.getD s default).key ≠ x) := by
    unfold clearMarkers
    apply forLoop_invariant (fun t (m : List Int) => m.length = nrows ∧
      ∀ x, x < nrows → m.getD x 0 = -1 ∨
        (m.getD x 0 = st.marker.getD x 0 ∧ ∀ s, s < t → (st.cand.getD s default).key ≠ x))
    · exact ⟨hl, fun x _ => Or.inr ⟨rfl, fun s hs => absurd hs (Nat.not_lt_zero _)⟩⟩
    · intro t m ht ⟨hm1, hm2⟩
      refine ⟨by simpa using hm1, ?_⟩
      intro x hx
      simp only [Nat.zero_add]
      rw [getD_set_eq]
      by_cases hkx : (st.cand.getD t default).key = x
      · left
        rw [if_pos ⟨hkx, by rw [hkx]; omega⟩]
      · rw [if_neg (fun hc => hkx hc.1)]
        rcases hm2 x hx with h | ⟨h, h2⟩
        · exact Or.inl h
        · right
          refine ⟨h, ?_⟩
          intro s hs
          by_cases hst : s = t
          · rw [hst]; exact hkx
          · exact h2 s (by omega)
  obtain ⟨k1, k2⟩ := key
  apply List.ext_getElem
  · rw [k1, List.length_replicate]
  · intro x hx1 hx2
    have hx : x < nrows := by rw [← k1]; exact hx1
    have hget : (clearMarkers st.cand st.ncand st.marker).getD x 0 =
        (clearMarkers st.cand st.ncand st.marker)[x] := by
      rw [List.getD_eq_getElem?_getD, List.getElem?_eq_getElem hx1]
      rfl
    rw [List.getElem_replicate, ← hget]
    rcases k2 x hx with h | ⟨h, h2⟩
    · exact h
    · by_contra hne
      rw [h] at hne
      obtain ⟨s, hs, _, e2⟩ := hM.2 x hx hne
      exact h2 s hs e2

/-- Marker reset of `da_getSimilarRows`: entered with every marker `-1`, it
returns with every marker `-1`. -/
theorem da_getSimilarRows_marker (mat : da_csr_t α) (rid : Nat) (nsim : Int) (eps : α)
    (hits cand : List (da_ivkv_t α)) (nc : Nat) (r : SimRows α)
    (hpos : 0 < mat.nrows) (hcol : ∀ x ∈ mat.colind.getD [], x < mat.nrows)
    (hc : cand.length = mat.nrows)
    (hr : da_getSimilarRows mat rid nsim eps hits (some cand)
      (some (List.replicate mat.nrows (-1))) nc = some r) :
    r.marker = List.replicate mat.nrows (-1) := by
  unfold da_getSimilarRows at hr
  simp only [Option.getD_some] at hr
  have hclear := clearMarkers_all mat.nrows
    (accumulate mat rid (querySize mat rid).toNat (List.replicate mat.nrows (-1)) cand)
    (accumulate_inv mat rid _ _ cand hpos hcol (by simp) hc).1
    (accumulate_marker mat rid _ cand hpos hcol hc)
  unfold querySize at hclear
  split_ifs at hr with h1 h2
  · simp only [Option.some.injEq] at hr
    rw [← hr]
  · simp only [Option.map_some', Option.some.injEq] at hr
    rw [← hr]
    exact hclear
  all_goals
    simp only [Option.map_map, Option.map_eq_some'] at hr
    obtain ⟨a, _, ha⟩ := hr
    rw [← ha]
    exact hclear

end MarkerReset
section JoinLoop
variable {α : Type} [LinearOrderedCommRing α]

theorem transfer_spec (hits : List (da_ivkv_t α)) (kk nsims : Nat) (rowind : List Nat)
    (rowval : List α) (h1 : nsims + kk ≤ rowind.length) (h2 : nsims + kk ≤ rowval.length) :
    ∀ out, out = forLoop (fun j (o : List Nat × List α × Nat) =>
          (o.1.set o.2.2 (hits.getD j default).key,
           o.2.1.set o.2.2 (hits.getD j default).val,
           o.2.2 + 1)) kk 0 (rowind, rowval, nsims) →
      out.2.2 = nsims + kk ∧ out.1.length = rowind.length ∧ out.2.1.length = rowval.length ∧
      (∀ p, p < nsims → out.1.getD p 0 = rowind.getD p 0 ∧ out.2.1.getD p 0 = rowval.getD p 0) ∧
      (∀ j, j < kk → out.1.getD (nsims + j) 0 = (hits.getD j default).key ∧
        out.2.1.getD (nsims + j) 0 = (hits.getD j default).val) := by
  intro out hout
  rw [hout]
  apply forLoop_invariant (fun t (o : List Nat × List α × Nat) =>
      o.2.2 = nsims + t ∧ o.1.length = rowind.length ∧ o.2.1.length = rowval.length ∧
      (∀ p, p < nsims → o.1.getD p 0 = rowind.getD p 0 ∧ o.2.1.getD p 0 = rowval.getD p 0) ∧
      (∀ j, j < t → o.1.getD (nsims + j) 0 = (hits.getD j default).key ∧
        o.2.1.getD (nsims + j) 0 = (hits.getD j default).val))
  · exact ⟨rfl, rfl, rfl, fun p _ => ⟨rfl, rfl⟩, fun j hj => absurd hj (Nat.not_lt_zero _)⟩
  · intro t o ht ⟨a1, a2, a3, a4, a5⟩
    simp only [Nat.zero_add]
    refine ⟨by omega, by simpa using a2, by simpa using a3, ?_, ?_⟩
    · intro p hp
      rw [getD_set_eq, getD_set_eq, if_neg (by omega), if_neg (by omega)]
      exact a4 p hp
    · intro j hj
      rw [getD_set_eq, getD_set_eq]
      by_cases hjt : j = t
      · subst hjt
        rw [if_pos ⟨a1, by omega⟩, if_pos ⟨a1, by omega⟩]
        exact ⟨rfl, rfl⟩
      · rw [if_neg (by omega), if_neg (by omega)]
        exact a5 j (by omega)

theorem map_take_eq_range' {β γ : Type} (l : List β) (k s : Nat) (d : β) (f : β → γ)
    (g : Nat → γ) (hk : k ≤ l.length) (hg : ∀ j, j < k → g (s + j) = f (l.getD j d)) :
    (List.range' s k).map g = (l.take k).map f := by
  apply List.ext_getElem
  · simp; omega
  · intro n h1 h2
    simp only [List.getElem_map, List.getElem_range', Nat.one_mul, List.getElem_take]
    have hn : n < k := by simpa using h1
    rw [hg n hn, List.getD_eq_getElem?_getD, List.getElem?_eq_getElem (by omega)]
    rfl

theorem outRow_congr (p1 p2 i1 i2 : List Nat) (v1 v2 : List α) (i : Nat)
    (hp : p1.getD i 0 = p2.getD i 0) (hp2 : p1.getD (i + 1) 0 = p2.getD (i + 1) 0)
    (hv : ∀ j, j < p1.getD (i + 1) 0 → i1.getD j 0 = i2.getD j 0 ∧ v1.getD j 0 = v2.getD j 0) :
    outRow p1 i1 v1 i = outRow p2 i2 v2 i := by
  unfold outRow
  rw [← hp, ← hp2]
  apply List.map_congr_left
  intro j hj
  rw [List.mem_range'_1] at hj
  have := hv j (by omega)
  rw [this.1, this.2]

end JoinLoop
section JoinRows
variable {α : Type} [LinearOrderedCommRing α]

/-- The search loop of `idxjoin` returns, and row `i` of its output is the answer
of the call of `da_getSimilarRows` for row `i`. -/
theorem idxjoinSearch_rows (docs : da_csr_t α) (k : Int) (eps : α) (ncand0 : Nat)
    (hcol : 0 < docs.nrows → ∀ x ∈ docs.colind.getD [], x < docs.nrows) (hk : 0 ≤ k) :
    ∃ s, idxjoinSearch docs k eps ncand0 = some s ∧
      ∀ i, i < docs.nrows → ∃ cand0, cand0.length = docs.nrows ∧
        IsRowAnswer docs k eps i cand0 (outRow s.rowptr s.rowind s.rowval i) := by
  obtain ⟨K, rfl⟩ := Int.eq_ofNat_of_zero_le hk
  have hnnz : ((K : Int) * (docs.nrows : Int)).toNat = K * docs.nrows := by
    rw [← Nat.cast_mul, Int.toNat_ofNat]
  unfold idxjoinSearch
  simp only [hnnz]
  have key := forLoop_invariant
    (fun t (so : Option (JoinState α)) => ∃ s, so = some s ∧
      s.hits.length = docs.nrows ∧ s.cand.length = docs.nrows ∧
      s.marker = List.replicate docs.nrows (-1) ∧ s.rowptr.length = docs.nrows + 1 ∧
      s.rowind.length = K * docs.nrows ∧ s.rowval.length = K * docs.nrows ∧
      s.nsims ≤ K * t ∧ s.rowptr.getD t 0 = s.nsims ∧
      (∀ i, i ≤ t → s.rowptr.getD i 0 ≤ s.nsims) ∧
      ∀ i, i < t → ∃ cand0, cand0.length = docs.nrows ∧
        IsRowAnswer docs (K : Int) eps i cand0 (outRow s.rowptr s.rowind s.rowval i))
    (idxjoinRow docs (K : Int) eps) 0
    (some { hits := List.replicate docs.nrows ⟨0, 0⟩, cand := List.replicate docs.nrows ⟨0, 0⟩,
            marker := List.replicate docs.nrows (-1), ncand := ncand0, ncands := 0, nsims := 0,
            rowptr := (List.replicate (docs.nrows + 1) 0).set 0 0,
            rowind := List.replicate (K * docs.nrows) 0,
            rowval := List.replicate (K * docs.nrows) 0 })
    docs.nrows
    (by
      refine ⟨_, rfl, by simp, by simp, rfl, by simp, by simp, by simp, by simp, ?_, ?_,
        fun i hi => absurd hi (Nat.not_lt_zero _)⟩
      · simp [getD_set_eq]
      · intro i hi
        have : i = 0 := by omega
        subst this
        simp [getD_set_eq])
    (by
      intro t so ht ⟨s, hs, a1, a2, a3, a4, a5, a6, a7, a8, a9, a10⟩
      have hpos : 0 < docs.nrows := by omega
      have hcol := hcol hpos
      obtain ⟨r, hr, b1, b2, b3, b4, b5, b6, b7, b8, b9⟩ :=
        da_getSimilarRows_spec docs t (K : Int) eps s.hits s.cand s.marker s.ncand hpos hcol a1 a2
          (by rw [a3]; simp) (Or.inr (by omega))
      have hmark : r.marker = List.replicate docs.nrows (-1) := by
        apply da_getSimilarRows_marker docs t (K : Int) eps s.hits s.cand s.ncand r hpos hcol a2
        rw [← a3]; exact hr
      have hrk : r.k ≤ K := by
        have := b5 (by omega)
        omega
      have hcap : s.nsims + r.k ≤ K * docs.nrows := by
        have h1 : K * t + K ≤ K * docs.nrows := by
          rw [← Nat.mul_succ]
          exact Nat.mul_le_mul_left K ht
        omega
      obtain ⟨c1, c2, c3, c4, c5⟩ := transfer_spec r.hits r.k s.nsims s.rowind s.rowval
        (by omega) (by omega) _ rfl
      simp only [Nat.zero_add]
      rw [hs]
      simp only [idxjoinRow, Option.some_bind, hr, Option.map_some']
      refine ⟨_, rfl, b1, b2, hmark, by simpa using a4, by rw [c2, a5], by rw [c3, a6], ?_, ?_,
        ?_, ?_⟩
      · dsimp only
        rw [c1, Nat.mul_succ]
        omega
      · dsimp only
        rw [getD_set_eq, if_pos ⟨rfl, by omega⟩]
      · intro i hi
        dsimp only
        rw [getD_set_eq]
        by_cases hit : t + 1 = i
        · rw [if_pos ⟨hit, by omega⟩]
        · rw [if_neg (fun hc => hit hc.1), c1]
          have := a9 i (by omega)
          omega
      · intro i hi
        by_cases hit : i = t
        · subst hit
          refine ⟨s.cand, a2, s.hits, s.ncand, r, a1, by rw [← a3]; exact hr, ?_⟩
          show outRow (s.rowptr.set (i + 1) _) _ _ i = _
          unfold outRow
          rw [getD_set_eq, if_neg (by omega), getD_set_eq, if_pos ⟨rfl, by omega⟩, a8, c1]
          have hsub : s.nsims + r.k - s.nsims = r.k := by omega
          rw [hsub]
          apply map_take_eq_range' r.hits r.k s.nsims default
          · omega
          · intro j hj
            rw [(c5 j hj).1, (c5 j hj).2]
        · have hi2 : i < t := by omega
          obtain ⟨cand0, hc0, ans⟩ := a10 i hi2
          refine ⟨cand0, hc0, ?_⟩
          have heq : outRow (s.rowptr.set (t + 1) (forLoop (fun j (o : List Nat × List α × Nat) =>
                (o.1.set o.2.2 (r.hits.getD j default).key,
                 o.2.1.set o.2.2 (r.hits.getD j default).val,
                 o.2.2 + 1)) r.k 0 (s.rowind, s.rowval, s.nsims)).2.2)
              (forLoop (fun j (o : List Nat × List α × Nat) =>
                (o.1.set o.2.2 (r.hits.getD j default).key,
                 o.2.1.set o.2.2 (r.hits.getD j default).val,
                 o.2.2 + 1)) r.k 0 (s.rowind, s.rowval, s.nsims)).1
              (forLoop (fun j (o : List Nat × List α × Nat) =>
                (o.1.set o.2.2 (r.hits.getD j default).key,
                 o.2.1.set o.2.2 (r.hits.getD j default).val,
                 o.2.2 + 1)) r.k 0 (s.rowind, s.rowval, s.nsims)).2.1 i =
              outRow s.rowptr s.rowind s.rowval i := by
            apply outRow_congr
            · rw [getD_set_eq, if_neg (by omega)]
            · rw [getD_set_eq, if_neg (by omega)]
            · intro j hj
              rw [getD_set_eq, if_neg (by omega)] at hj
              have := a9 (i + 1) (by omega)
              exact c4 j (by omega)
          show IsRowAnswer docs (K : Int) eps i cand0 (outRow _ _ _ i)
          rw [heq]
          exact ans)
  obtain ⟨s, hs, _, _, _, _, _, _, _, _, _, hrows⟩ := key
  exact ⟨s, hs, hrows⟩

end JoinRows
/-! ## Preprocessing: what the search needs from the column view -/

section Preprocess
variable {α : Type} [LinearOrderedField α]

theorem forEntries_invariant {σ : Type} (P : σ → Prop) (nf : Nat) (fptr : List Nat)
    (body : Nat → Nat → σ → σ) (st : σ) (h0 : P st)
    (hstep : ∀ i j s, i < nf → P s → P (body i j s)) : P (forEntries nf fptr body st) := by
  unfold forEntries
  apply forLoop_invariant (fun _ s => P s)
  · exact h0
  · intro t s ht hs
    apply forLoop_invariant (fun _ s => P s)
    · exact hs
    · intro t2 s2 _ hs2
      exact hstep _ _ _ (by omega) hs2

theorem mem_set_cases {β : Type} (l : List β) (i : Nat) (a x : β) (h : x ∈ l.set i a) :
    x = a ∨ x ∈ l := by
  rcases List.mem_or_eq_of_mem_set h with h | h
  · exact Or.inr h
  · exact Or.inl h

/-- Every row id stored by `createIndexView` in the reverse index array is below
`nf` (or is the initial zero). -/
theorem createIndexView_ind (nf nr : Nat) (fptr find : List Nat) (fval : Option (List α)) :
    ∀ x ∈ (createIndexView nf nr fptr find fval).2.1, x = 0 ∨ x < nf := by
  have hrep : ∀ n x, x ∈ List.replicate n (0 : Nat) → x = 0 ∨ x < nf := by
    intro n x hx
    exact Or.inl (List.eq_of_mem_replicate hx)
  have scatter2 : ∀ (rp : List Nat) (ri : List Nat), (∀ x ∈ ri, x = 0 ∨ x < nf) →
      ∀ x ∈ (forEntries nf fptr (fun i j (st : List Nat × List Nat) =>
        (st.1.set (find.getD j 0) (st.1.getD (find.getD j 0) 0 + 1),
         st.2.set (st.1.getD (find.getD j 0) 0) i)) (rp, ri)).2, x = 0 ∨ x < nf := by
    intro rp ri hri
    apply forEntries_invariant (fun (st : List Nat × List Nat) => ∀ x ∈ st.2, x = 0 ∨ x < nf)
    · exact hri
    · intro i j s hi hs x hx
      rcases mem_set_cases _ _ _ _ hx with h | h
      · exact Or.inr (h ▸ hi)
      · exact hs x h
  have scatter3 : ∀ (fv : List α) (rp : List Nat) (ri : List Nat) (rv : List α),
      (∀ x ∈ ri, x = 0 ∨ x < nf) →
      ∀ x ∈ (forEntries nf fptr (fun i j (st : List Nat × List Nat × List α) =>
        (st.1.set (find.getD j 0) (st.1.getD (find.getD j 0) 0 + 1),
         st.2.1.set (st.1.getD (find.getD j 0) 0) i,
         st.2.2.set (st.1.getD (find.getD j 0) 0) (fv.getD j 0))) (rp, ri, rv)).2.1,
        x = 0 ∨ x < nf := by
    intro fv rp ri rv hri
    apply forEntries_invariant
      (fun (st : List Nat × List Nat × List α) => ∀ x ∈ st.2.1, x = 0 ∨ x < nf)
    · exact hri
    · intro i j s hi hs x hx
      rcases mem_set_cases _ _ _ _ hx with h | h
      · exact Or.inr (h ▸ hi)
      · exact hs x h
  unfold createIndexView
  simp only []
  split_ifs
  · cases fval with
    | none => exact scatter2 _ _ (hrep _)
    | some fv => exact scatter2 _ _ (hrep _)
  · cases fval with
    | none => exact scatter2 _ _ (hrep _)
    | some fv => exact scatter3 fv _ _ _ (hrep _)

theorem da_csr_SortIndices_nrows (mat d : da_csr_t α) (what : Nat)
    (h : da_csr_SortIndices mat what = some d) : d.nrows = mat.nrows := by
  unfold da_csr_SortIndices at h
  split_ifs at h
  · cases hp : mat.rowptr with
    | none => rw [hp] at h; simp at h
    | some ptr =>
      rw [hp] at h
      simp only [Option.some.injEq] at h
      rw [← h]
  · cases hp : mat.colptr with
    | none => rw [hp] at h; simp at h
    | some ptr =>
      rw [hp] at h
      simp only [Option.some.injEq] at h
      rw [← h]

theorem da_csr_Normalize_nrows (sqrt : α → α) (mat : da_csr_t α) (what norm : Nat) :
    (da_csr_Normalize sqrt mat what norm).nrows = mat.nrows := by
  have h1 : ∀ m : da_csr_t α, (normalizeRows sqrt m what norm).nrows = m.nrows := by
    intro m
    unfold normalizeRows
    split
    · split_ifs <;> rfl
    · rfl
  have h2 : ∀ m : da_csr_t α, (normalizeCols sqrt m what norm).nrows = m.nrows := by
    intro m
    unfold normalizeCols
    split
    · split_ifs <;> rfl
    · rfl
  unfold da_csr_Normalize
  rw [h2, h1]

/-- The preprocessing returns whenever the row view exists; it keeps `nrows` and
leaves a column view whose stored row ids are below `nrows`. -/
theorem preprocess_spec (log sqrt : α → α) (docs : da_csr_t α) (ptr : List Nat)
    (hrow : docs.rowptr = some ptr) :
    ∃ d, preprocess log sqrt docs = some d ∧ d.nrows = docs.nrows ∧
      (0 < d.nrows → ∀ x ∈ d.colind.getD [], x < d.nrows) := by
  unfold preprocess
  have hs : ∃ d1, da_csr_SortIndices (da_csr_CompactColumns docs) DA_ROW = some d1 := by
    unfold da_csr_SortIndices
    have : (da_csr_CompactColumns docs).rowptr = some ptr := hrow
    rw [if_pos rfl, this]
    exact ⟨_, rfl⟩
  obtain ⟨d1, hd1⟩ := hs
  rw [hd1]
  have hn1 : d1.nrows = docs.nrows :=
    da_csr_SortIndices_nrows (da_csr_CompactColumns docs) d1 DA_ROW hd1
  simp only []
  unfold da_csr_CreateIndex
  rw [if_pos rfl]
  refine ⟨_, rfl, ?_, ?_⟩
  · show (da_csr_Normalize sqrt (da_csr_Scale log d1) DA_ROW 2).nrows = docs.nrows
    rw [da_csr_Normalize_nrows]
    exact hn1
  · intro hpos x hx
    have hx' := createIndexView_ind _ _ _ _ _ x hx
    show x < (da_csr_Normalize sqrt (da_csr_Scale log d1) DA_ROW 2).nrows
    have hn : (da_csr_Normalize sqrt (da_csr_Scale log d1) DA_ROW 2).nrows = docs.nrows := by
      rw [da_csr_Normalize_nrows]; exact hn1
    have hpos' : 0 < (da_csr_Normalize sqrt (da_csr_Scale log d1) DA_ROW 2).nrows := hpos
    rw [hn] at hx' hpos' ⊢
    omega


/-- The engine `idxjoin` returns whenever the input has a row view and `k ≥ 0`;
row `i` of its output is the answer of the call of `da_getSimilarRows` for row
`i` of the preprocessed matrix. -/
theorem idxjoin_rows (log sqrt : α → α) (params : params_t α) (ncand0 : Nat) (ptr : List Nat)
    (hrow : params.docs.rowptr = some ptr) (hk : 0 ≤ params.k) :
    ∃ docs s, idxjoin log sqrt params ncand0 = some (docs, s) ∧
      preprocess log sqrt params.docs = some docs ∧ docs.nrows = params.docs.nrows ∧
      (0 < docs.nrows → ∀ x ∈ docs.colind.getD [], x < docs.nrows) ∧
      ∀ i, i < params.docs.nrows → ∃ cand0, cand0.length = docs.nrows ∧
        IsRowAnswer docs params.k params.epsilon i cand0 (outRow s.rowptr s.rowind s.rowval i) := by
  obtain ⟨d, hd, hn, hcol⟩ := preprocess_spec log sqrt params.docs ptr hrow
  obtain ⟨s, hs, hrows⟩ := idxjoinSearch_rows d params.k params.epsilon ncand0 hcol hk
  refine ⟨d, s, ?_, hd, hn, hcol, ?_⟩
  · unfold idxjoin
    rw [hd]
    simp only [hs, Option.map_some']
  · intro i hi
    exact hrows i (by omega)

end Preprocess
section Independence
variable {α : Type} [LinearOrderedCommRing α]

theorem forLoop_rel {σ τ : Type} (R : σ → τ → Prop) (b1 : Nat → σ → σ) (b2 : Nat → τ → τ)
    (hstep : ∀ j s t, R s t → R (b1 j s) (b2 j t)) :
    ∀ (n start : Nat) (s : σ) (t : τ), R s t → R (forLoop b1 n start s) (forLoop b2 n start t)
  | 0, _, _, _, h => h
  | n + 1, start, s, t, h => by
    rw [forLoop, forLoop]
    exact forLoop_rel R b1 b2 hstep n (start + 1) _ _ (hstep start s t h)

theorem getD_of_take_eq {β : Type} (l1 l2 : List β) (n s : Nat) (d : β)
    (h : l1.take n = l2.take n) (hs : s < n) : l1.getD s d = l2.getD s d := by
  have h1 : (l1.take n)[s]? = (l2.take n)[s]? := by rw [h]
  rw [List.getElem?_take, List.getElem?_take, if_pos hs, if_pos hs] at h1
  rw [List.getD_eq_getElem?_getD, List.getD_eq_getElem?_getD, h1]

theorem markCandidate_ne (k : Nat) (st : AccState α) (hk : k < st.marker.length) :
    (markCandidate k st).marker.getD k 0 ≠ -1 := by
  unfold markCandidate
  by_cases hm : st.marker.getD k 0 = -1
  · rw [if_pos hm]
    show (st.marker.set k (st.ncand : Int)).getD k 0 ≠ -1
    rw [getD_set_eq, if_pos ⟨rfl, hk⟩]
    omega
  · rw [if_neg hm]; exact hm

theorem markCandidate_rel (nrows k : Nat) (s1 s2 : AccState α) (hk : k < nrows)
    (h : AccRel nrows s1 s2) : AccRel nrows (markCandidate k s1) (markCandidate k s2) := by
  obtain ⟨r1, r2, r3, r4, r5, r6⟩ := h
  have hi := markCandidate_inv nrows k s1 hk r5
  have hm := markCandidate_marker nrows k s1 hk r5 r6
  refine ⟨?_, ?_, ?_, ?_, hi, hm⟩
  all_goals
    unfold markCandidate at hi ⊢
    rw [← r1]
    by_cases hc : s1.marker.getD k 0 = -1
    · rw [if_pos hc] at hi
      simp only [if_pos hc]
      have hlt : s1.ncand + 1 ≤ nrows := hi.2.2.1
      first
        | (show (s1.cand.set s1.ncand ⟨k, 0⟩).take (s1.ncand + 1) =
             (s2.cand.set s2.ncand ⟨k, 0⟩).take (s2.ncand + 1)
           rw [← r2, take_set_succ _ _ _ (by rw [r5.2.1]; omega),
             take_set_succ _ _ _ (by rw [r4]; omega), r3, ← r2])
        | (show s1.ncand + 1 = s2.ncand + 1
           rw [r2])
        | (show (s2.cand.set s2.ncand ⟨k, 0⟩).length = nrows
           simpa using r4)
        | rw [r2]
    · simp only [if_neg hc]
      first | exact r1 | exact r2 | exact r3 | exact r4

theorem accumEntry_rel (nrows : Nat) (colind : List Nat) (colval : List α) (rid : Nat) (qv : α)
    (j : Nat) (s1 s2 : AccState α) (hk : colind.getD j 0 < nrows) (h : AccRel nrows s1 s2) :
    AccRel nrows (accumEntry colind colval rid qv j s1) (accumEntry colind colval rid qv j s2) := by
  have hi := accumEntry_inv nrows colind colval rid qv j s1 hk h.2.2.2.2.1
  have hm := accumEntry_marker nrows colind colval rid qv j s1 hk h.2.2.2.2.1 h.2.2.2.2.2
  unfold accumEntry at hi hm ⊢
  simp only [] at hi hm ⊢
  by_cases hr : colind.getD j 0 = rid
  · simp only [if_pos hr]; exact h
  · rw [if_neg hr] at hi hm
    simp only [if_neg hr]
    have hne := markCandidate_ne (colind.getD j 0) s1 (by rw [h.2.2.2.2.1.1]; exact hk)
    have key := markCandidate_rel nrows (colind.getD j 0) s1 s2 hk h
    generalize markCandidate (colind.getD j 0) s1 = t1 at key hi hm hne ⊢
    generalize markCandidate (colind.getD j 0) s2 = t2 at key ⊢
    obtain ⟨r1, r2, r3, r4, r5, r6⟩ := key
    obtain ⟨s, hs, e1, _⟩ := r6.2 (colind.getD j 0) hk hne
    have hslot : (t1.marker.getD (colind.getD j 0) 0).toNat = s := by rw [e1]; omega
    have hget : t1.cand.getD s default = t2.cand.getD s default :=
      getD_of_take_eq _ _ t1.ncand s default (by rw [r3, r2]) hs
    refine ⟨r1, r2, ?_, by simpa using r4, hi, hm⟩
    show (t1.cand.set _ _).take t1.ncand = (t2.cand.set _ _).take t2.ncand
    rw [← r1, hslot, hget, List.set_take, List.set_take, r3]

/-- The accumulated candidates do not depend on what the candidate array held on
entry. -/
theorem candidatesOf_indep (mat : da_csr_t α) (rid : Nat) (c1 c2 : List (da_ivkv_t α))
    (hpos : 0 < mat.nrows) (hcol : ∀ x ∈ mat.colind.getD [], x < mat.nrows)
    (h1 : c1.length = mat.nrows) (h2 : c2.length = mat.nrows) :
    candidatesOf mat rid (List.replicate mat.nrows (-1)) c1 =
      candidatesOf mat rid (List.replicate mat.nrows (-1)) c2 := by
  have key : AccRel mat.nrows
      (accumulate mat rid (querySize mat rid).toNat (List.replicate mat.nrows (-1)) c1)
      (accumulate mat rid (querySize mat rid).toNat (List.replicate mat.nrows (-1)) c2) := by
    unfold accumulate
    apply forLoop_rel (AccRel mat.nrows)
    · intro j s t hst
      unfold accumFeature
      simp only []
      split_ifs
      · apply forLoop_rel (AccRel mat.nrows)
        · intro j2 s2 t2 hst2
          exact accumEntry_rel _ _ _ _ _ _ _ _ (colind_getD_lt mat hpos hcol _) hst2
        · exact hst
      · exact hst
    · refine ⟨rfl, rfl, by simp, h2, ⟨by simp, h1, Nat.zero_le _, by simp, by simp⟩, ?_, ?_⟩
      · intro s hs
        exact absurd hs (Nat.not_lt_zero _)
      · intro x hx hne
        exfalso
        apply hne
        show (List.replicate mat.nrows (-1 : Int)).getD x 0 = -1
        rw [List.getD_eq_getElem?_getD, List.getElem?_eq_getElem (by simpa using hx)]
        simp
  unfold candidatesOf
  rw [key.2.2.1]

end Independence
/-! ## IdxJoin: the rows of the neighbour matrix -/

section JoinClaims
variable {α : Type} [LinearOrderedField α]

/-- What a row answer satisfies: at most `k` entries, non-increasing scores, every
score at least `eps`, every entry a candidate, and every candidate with score at
least `eps` that is missing is dominated by `k` entries. -/
theorem IsRowAnswer.facts (docs : da_csr_t α) (k : Int) (eps : α) (i : Nat)
    (cand0 : List (da_ivkv_t α)) (row : List (Nat × α))
    (hpos : 0 < docs.nrows) (hcol : ∀ x ∈ docs.colind.getD [], x < docs.nrows)
    (hc : cand0.length = docs.nrows) (hk : 0 ≤ k) (h : IsRowAnswer docs k eps i cand0 row) :
    (row.length : Int) ≤ k ∧ List.Pairwise (fun a b => b.2 ≤ a.2) row ∧
      (∀ e ∈ row, eps ≤ e.2) ∧ (∀ e ∈ row, (⟨e.1, e.2⟩ : da_ivkv_t α) ∈ candidates docs i) ∧
      (∀ c ∈ candidates docs i, eps ≤ c.val → (c.key, c.val) ∉ row →
        (row.length : Int) = k ∧ ∀ e ∈ row, c.val ≤ e.2) := by
  obtain ⟨hits, nc, r, hh, hr, hrow⟩ := h
  obtain ⟨r2, hr2, _, _, _, b4, b5, b6, b7, b8, b9⟩ :=
    da_getSimilarRows_spec docs i k eps hits cand0 (List.replicate docs.nrows (-1)) nc hpos hcol
      hh hc (by simp) (Or.inr hk)
  rw [hr] at hr2
  simp only [Option.some.injEq] at hr2
  subst hr2
  have hcand : candidatesOf docs i (List.replicate docs.nrows (-1)) cand0 = candidates docs i :=
    candidatesOf_indep docs i cand0 _ hpos hcol hc (by simp)
  rw [hcand] at b8 b9
  have hlen : row.length = r.k := by
    rw [hrow, List.length_map, List.length_take]
    have : r.k ≤ r.hits.length := by omega
    omega
  have hmem : ∀ e : Nat × α, e ∈ row ↔ (⟨e.1, e.2⟩ : da_ivkv_t α) ∈ r.hits.take r.k := by
    intro e
    rw [hrow, List.mem_map]
    constructor
    · rintro ⟨x, hx, rfl⟩
      exact hx
    · intro hx
      exact ⟨_, hx, rfl⟩
  refine ⟨?_, ?_, ?_, ?_, ?_⟩
  · rw [hlen]; exact b5 hk
  · rw [hrow, List.pairwise_map]
    exact b6
  · intro e he
    exact b7 _ ((hmem e).mp he)
  · intro e he
    exact b8 _ ((hmem e).mp he)
  · intro c hc1 hc2 hc3
    have hnot : c ∉ r.hits.take r.k := fun hin => hc3 ((hmem (c.key, c.val)).mpr hin)
    obtain ⟨e1, e2⟩ := b9 c hc1 hc2 hnot
    refine ⟨by rw [hlen]; exact e1, ?_⟩
    intro e he
    exact e2 _ ((hmem e).mp he)

/-- C1: for every document matrix with a row view, every `k ≥ 1` and every
threshold `eps`, `idxjoin` returns, and each row of the neighbour matrix it
builds has at most `k` entries, every emitted similarity value being at least
`eps`. -/
theorem idxjoin_row_bounds (log sqrt : α → α) (params : params_t α) (ncand0 : Nat)
    (ptr : List Nat) (hrow : params.docs.rowptr = some ptr) (hk : 1 ≤ params.k) :
    ∃ docs s, idxjoin log sqrt params ncand0 = some (docs, s) ∧
      ∀ i, i < params.docs.nrows →
        ((outRow s.rowptr s.rowind s.rowval i).length : Int) ≤ params.k ∧
        ∀ e ∈ outRow s.rowptr s.rowind s.rowval i, params.epsilon ≤ e.2 := by
  obtain ⟨docs, s, h1, _, hn, hcol, hrows⟩ :=
    idxjoin_rows log sqrt params ncand0 ptr hrow (by omega)
  refine ⟨docs, s, h1, ?_⟩
  intro i hi
  obtain ⟨cand0, hc, ans⟩ := hrows i hi
  have hpos : 0 < docs.nrows := by omega
  have f := IsRowAnswer.facts docs params.k params.epsilon i cand0 _ hpos (hcol hpos) hc
    (by omega) ans
  exact ⟨f.1, f.2.2.1⟩

/-- C4: for every input with a row view and every `k ≥ 1`, within each output row
of the IdxJoin neighbour matrix the similarity values are in non-increasing
order. -/
theorem idxjoin_rows_sorted (log sqrt : α → α) (params : params_t α) (ncand0 : Nat)
    (ptr : List Nat) (hrow : params.docs.rowptr = some ptr) (hk : 1 ≤ params.k) :
    ∃ docs s, idxjoin log sqrt params ncand0 = some (docs, s) ∧
      ∀ i, i < params.docs.nrows →
        List.Pairwise (fun a b => b.2 ≤ a.2) (outRow s.rowptr s.rowind s.rowval i) := by
  obtain ⟨docs, s, h1, _, hn, hcol, hrows⟩ :=
    idxjoin_rows log sqrt params ncand0 ptr hrow (by omega)
  refine ⟨docs, s, h1, ?_⟩
  intro i hi
  obtain ⟨cand0, hc, ans⟩ := hrows i hi
  have hpos : 0 < docs.nrows := by omega
  exact (IsRowAnswer.facts docs params.k params.epsilon i cand0 _ hpos (hcol hpos) hc
    (by omega) ans).2.1

/-- C2: IdxJoin top-k is exact.  For every query row `i`, every emitted entry is a
candidate of `i` with its accumulated score, and if a candidate with accumulated
score at least `eps` is not emitted in output row `i`, then row `i` has exactly
`k` emitted neighbours and the score of that candidate is at most every emitted
score of row `i`. -/
theorem idxjoin_topk_exact (log sqrt : α → α) (params : params_t α) (ncand0 : Nat)
    (ptr : List Nat) (hrow : params.docs.rowptr = some ptr) (hk : 1 ≤ params.k) :
    ∃ docs s, idxjoin log sqrt params ncand0 = some (docs, s) ∧
      ∀ i, i < params.docs.nrows →
        (∀ e ∈ outRow s.rowptr s.rowind s.rowval i,
          (⟨e.1, e.2⟩ : da_ivkv_t α) ∈ candidates docs i) ∧
        ∀ c ∈ candidates docs i, params.epsilon ≤ c.val →
          (c.key, c.val) ∉ outRow s.rowptr s.rowind s.rowval i →
          ((outRow s.rowptr s.rowind s.rowval i).length : Int) = params.k ∧
          ∀ e ∈ outRow s.rowptr s.rowind s.rowval i, c.val ≤ e.2 := by
  obtain ⟨docs, s, h1, _, hn, hcol, hrows⟩ :=
    idxjoin_rows log sqrt params ncand0 ptr hrow (by omega)
  refine ⟨docs, s, h1, ?_⟩
  intro i hi
  obtain ⟨cand0, hc, ans⟩ := hrows i hi
  have hpos : 0 < docs.nrows := by omega
  have f := IsRowAnswer.facts docs params.k params.epsilon i cand0 _ hpos (hcol hpos) hc
    (by omega) ans
  exact ⟨f.2.2.2.1, f.2.2.2.2⟩

end JoinClaims
/-! ## Inverted index: the output loop -/

section SetLemmas
variable {α : Type} [LinearOrderedCommRing α]

theorem pairGreater_iff (a b : α × Nat) : pairGreater a b = true ↔ PairBefore a b := by
  unfold pairGreater PairBefore
  simp

theorem pairBefore_trans {a b c : α × Nat} (h1 : PairBefore a b) (h2 : PairBefore b c) :
    PairBefore a c := by
  unfold PairBefore at *
  rcases h1 with h1 | ⟨h1, h1'⟩ <;> rcases h2 with h2 | ⟨h2, h2'⟩
  · exact Or.inl (lt_trans h2 h1)
  · exact Or.inl (lt_of_le_of_lt (not_lt.mp h2) h1)
  · exact Or.inl (lt_of_lt_of_le h2 (not_lt.mp h1))
  · exact Or.inr ⟨not_lt.mpr (le_trans (not_lt.mp h2) (not_lt.mp h1)), lt_trans h2' h1'⟩

theorem pairBefore_tri (a b : α × Nat) : PairBefore a b ∨ a = b ∨ PairBefore b a := by
  unfold PairBefore
  rcases lt_trichotomy a.1 b.1 with h | h | h
  · exact Or.inr (Or.inr (Or.inl h))
  · rcases lt_trichotomy a.2 b.2 with h2 | h2 | h2
    · exact Or.inr (Or.inr (Or.inr ⟨by rw [h]; exact lt_irrefl _, h2⟩))
    · exact Or.inr (Or.inl (Prod.ext h h2))
    · exact Or.inl (Or.inr ⟨by rw [h]; exact lt_irrefl _, h2⟩)
  · exact Or.inl (Or.inl h)

theorem pairBefore_val_le {a b : α × Nat} (h : PairBefore a b) : b.1 ≤ a.1 := by
  rcases h with h | ⟨h, _⟩
  · exact le_of_lt h
  · exact not_lt.mp h

theorem setInsert_mem (p x : α × Nat) : ∀ s : List (α × Nat),
    x ∈ setInsert p s ↔ x = p ∨ x ∈ s
  | [] => by simp [setInsert]
  | y :: ys => by
    unfold setInsert
    split_ifs with h1 h2
    · simp
    · rw [List.mem_cons, setInsert_mem p x ys, List.mem_cons]
      tauto
    · rw [pairGreater_iff] at h1 h2
      have : p = y := by
        rcases pairBefore_tri p y with h | h | h
        · exact absurd h h1
        · exact h
        · exact absurd h h2
      subst this
      simp

theorem setInsert_sorted (p : α × Nat) : ∀ s : List (α × Nat),
    List.Pairwise PairBefore s → List.Pairwise PairBefore (setInsert p s)
  | [], _ => by simp [setInsert]
  | y :: ys, h => by
    unfold setInsert
    rw [List.pairwise_cons] at h
    split_ifs with h1 h2
    · rw [pairGreater_iff] at h1
      rw [List.pairwise_cons]
      refine ⟨?_, List.pairwise_cons.mpr h⟩
      intro z hz
      rw [List.mem_cons] at hz
      rcases hz with hz | hz
      · rw [hz]; exact h1
      · exact pairBefore_trans h1 (h.1 z hz)
    · rw [pairGreater_iff] at h2
      rw [List.pairwise_cons]
      refine ⟨?_, setInsert_sorted p ys h.2⟩
      intro z hz
      rw [setInsert_mem] at hz
      rcases hz with hz | hz
      · rw [hz]; exact h2
      · exact h.1 z hz
    · exact List.pairwise_cons.mpr h

theorem pairBefore_irrefl (a : α × Nat) : ¬ PairBefore a a := by
  unfold PairBefore
  intro h
  rcases h with h | ⟨_, h⟩
  · exact lt_irrefl _ h
  · exact lt_irrefl _ h

theorem setInsert_length (p : α × Nat) : ∀ s : List (α × Nat), p ∉ s →
    (setInsert p s).length = s.length + 1
  | [], _ => by simp [setInsert]
  | y :: ys, h => by
    unfold setInsert
    rw [List.mem_cons, not_or] at h
    split_ifs with h1 h2
    · simp
    · simp [setInsert_length p ys h.2]
    · rw [pairGreater_iff] at h1 h2
      rcases pairBefore_tri p y with h3 | h3 | h3
      · exact absurd h3 h1
      · exact absurd h3 h.1
      · exact absurd h3 h2

/-- The set `candidatePairs` of a map with distinct keys: in iteration order,
with the entries of the map, each once. -/
theorem candidatePairs_spec (m : List (Nat × α)) (hm : MapSorted m) :
    List.Pairwise PairBefore (candidatePairs m) ∧
      (∀ x, x ∈ candidatePairs m ↔ (x.2, x.1) ∈ m) ∧
      (candidatePairs m).length = m.length := by
  have key : ∀ (l : List (Nat × α)) (acc : List (α × Nat)),
      List.Pairwise PairBefore acc → List.Pairwise (fun a b => a.1 < b.1) l →
      (∀ a ∈ acc, ∀ b ∈ l, a.2 < b.1) →
      List.Pairwise PairBefore
        (l.foldl (fun (set : List (α × Nat)) s => setInsert (s.2, s.1) set) acc) ∧
      (∀ x, x ∈ l.foldl (fun (set : List (α × Nat)) s => setInsert (s.2, s.1) set) acc ↔
        x ∈ acc ∨ (x.2, x.1) ∈ l) ∧
      (l.foldl (fun (set : List (α × Nat)) s => setInsert (s.2, s.1) set) acc).length =
        acc.length + l.length := by
    intro l
    induction l with
    | nil => intro acc h1 _ _; simp [h1]
    | cons a t ih =>
      intro acc h1 h2 h3
      rw [List.pairwise_cons] at h2
      have hnot : (a.2, a.1) ∉ acc := by
        intro hin
        have := h3 _ hin a (List.mem_cons_self _ _)
        exact lt_irrefl _ this
      obtain ⟨i1, i2, i3⟩ := ih (setInsert (a.2, a.1) acc) (setInsert_sorted _ _ h1) h2.2 (by
        intro x hx b hb
        rw [setInsert_mem] at hx
        rcases hx with hx | hx
        · rw [hx]; exact h2.1 b hb
        · exact h3 x hx b (List.mem_cons_of_mem _ hb))
      rw [List.foldl_cons]
      refine ⟨i1, ?_, ?_⟩
      · intro x
        rw [i2, setInsert_mem, List.mem_cons]
        constructor
        · rintro ((h | h) | h)
          · right; left; rw [h]
          · left; exact h
          · right; right; exact h
        · rintro (h | h | h)
          · left; right; exact h
          · left; left
            have := congrArg Prod.fst h
            have := congrArg Prod.snd h
            exact Prod.ext (by simp_all) (by simp_all)
          · right; exact h
      · rw [i3, setInsert_length _ _ hnot, List.length_cons]
        omega
  obtain ⟨k1, k2, k3⟩ := key m [] List.Pairwise.nil hm (by simp)
  refine ⟨k1, ?_, by simpa using k3⟩
  intro x
  unfold candidatePairs
  rw [k2]
  simp

end SetLemmas
section EmitLoop
variable {α : Type} [LinearOrderedCommRing α]

theorem emitFold_spec (K : Nat) : ∀ (ps : List (α × Nat)) (o : OutState α) (j : Nat),
    o.nsims + min ps.length (K - j) ≤ o.rowind.length →
    o.nsims + min ps.length (K - j) ≤ o.rowval.length →
    ∀ r, r = ps.foldl (fun (o : OutState α × Int) candidatePair =>
        if o.2 < (K : Int) then
          ({ o.1 with rowind := o.1.rowind.set o.1.nsims candidatePair.2,
                      rowval := o.1.rowval.set o.1.nsims candidatePair.1,
                      nsims := o.1.nsims + 1 }, o.2 + 1)
        else o) (o, (j : Int)) →
      r.1.nsims = o.nsims + min ps.length (K - j) ∧ r.1.rowptr = o.rowptr ∧
      r.1.rowind.length = o.rowind.length ∧ r.1.rowval.length = o.rowval.length ∧
      (∀ p, p < o.nsims → r.1.rowind.getD p 0 = o.rowind.getD p 0 ∧
        r.1.rowval.getD p 0 = o.rowval.getD p 0) ∧
      (∀ t, t < min ps.length (K - j) →
        r.1.rowind.getD (o.nsims + t) 0 = (ps.getD t (0, 0)).2 ∧
        r.1.rowval.getD (o.nsims + t) 0 = (ps.getD t (0, 0)).1)
  | [], o, j, _, _, r, hr => by
    subst hr
    simp
  | a :: t, o, j, h1, h2, r, hr => by
    rw [List.foldl_cons] at hr
    by_cases hj : (j : Int) < (K : Int)
    · rw [if_pos hj] at hr
      have hjK : j < K := by omega
      have hmin : min (a :: t).length (K - j) = 1 + min t.length (K - (j + 1)) := by
        simp only [List.length_cons]; omega
      rw [hmin] at h1 h2 ⊢
      have e : ((j : Int) + 1) = ((j + 1 : Nat) : Int) := by omega
      rw [e] at hr
      obtain ⟨q1, q2, q3, q4, q5, q6⟩ := emitFold_spec K t
        { o with rowind := o.rowind.set o.nsims a.2, rowval := o.rowval.set o.nsims a.1,
                 nsims := o.nsims + 1 } (j + 1)
        (by simp only [List.length_set]; omega) (by simp only [List.length_set]; omega) r hr
      simp only [List.length_set] at q3 q4
      dsimp only at q1 q2 q5 q6
      refine ⟨by rw [q1]; omega, q2, q3, q4, ?_, ?_⟩
      · intro p hp
        have := q5 p (by omega)
        rw [this.1, this.2]
        rw [getD_set_eq, getD_set_eq, if_neg (by omega), if_neg (by omega)]
        exact ⟨rfl, rfl⟩
      · intro u hu
        cases u with
        | zero =>
          have := q5 o.nsims (by omega)
          simp only [Nat.add_zero, List.getD_cons_zero]
          rw [this.1, this.2]
          rw [getD_set_eq, getD_set_eq, if_pos ⟨rfl, by omega⟩, if_pos ⟨rfl, by omega⟩]
          exact ⟨rfl, rfl⟩
        | succ u =>
          have := q6 u (by omega)
          simp only [List.getD_cons_succ]
          have e2 : o.nsims + (u + 1) = o.nsims + 1 + u := by omega
          rw [e2]
          exact this
    · rw [if_neg hj] at hr
      have hmin : ∀ l : List (α × Nat), min l.length (K - j) = 0 := by
        intro l; omega
      have hstay : ∀ (l : List (α × Nat)) (s : OutState α × Int), ¬ s.2 < (K : Int) →
          l.foldl (fun (o : OutState α × Int) candidatePair =>
            if o.2 < (K : Int) then
              ({ o.1 with rowind := o.1.rowind.set o.1.nsims candidatePair.2,
                          rowval := o.1.rowval.set o.1.nsims candidatePair.1,
                          nsims := o.1.nsims + 1 }, o.2 + 1)
            else o) s = s := by
        intro l
        induction l with
        | nil => intro s _; rfl
        | cons b l ih =>
          intro s hs
          rw [List.foldl_cons, if_neg hs]
          exact ih s hs
      rw [hstay t (o, (j : Int)) hj] at hr
      subst hr
      rw [hmin]
      exact ⟨rfl, rfl, rfl, rfl, fun p _ => ⟨rfl, rfl⟩, fun u hu => absurd hu (Nat.not_lt_zero _)⟩

end EmitLoop
section EmitRows
variable {α : Type} [LinearOrderedCommRing α]

/-- The output loop of `invertedidx`: row `i` of the output holds the first `K`
elements of `candidatePairs` of map `i`, as (id, value) pairs. -/
theorem emitLoop_rows (K : Nat) (maps : List (List (Nat × α))) :
    ∀ out, out = forLoop (emitRow (K : Int) maps) maps.length 0
        { rowptr := (List.replicate (maps.length + 1) 0).set 0 0,
          rowind := List.replicate (K * maps.length) 0,
          rowval := List.replicate (K * maps.length) 0, nsims := 0 } →
      ∀ i, i < maps.length → outRow out.rowptr out.rowind out.rowval i =
        ((candidatePairs (maps.getD i [])).take K).map (fun p => (p.2, p.1)) := by
  intro out hout
  have key := forLoop_invariant
    (fun t (s : OutState α) =>
      s.rowptr.length = maps.length + 1 ∧
      s.rowind.length = K * maps.length ∧ s.rowval.length = K * maps.length ∧
      s.nsims ≤ K * t ∧ s.rowptr.getD t 0 = s.nsims ∧
      (∀ i, i ≤ t → s.rowptr.getD i 0 ≤ s.nsims) ∧
      ∀ i, i < t → outRow s.rowptr s.rowind s.rowval i =
        ((candidatePairs (maps.getD i [])).take K).map (fun p => (p.2, p.1)))
    (emitRow (K : Int) maps) 0
    { rowptr := (List.replicate (maps.length + 1) 0).set 0 0,
      rowind := List.replicate (K * maps.length) 0,
      rowval := List.replicate (K * maps.length) 0, nsims := 0 }
    maps.length
    (by
      refine ⟨by simp, by simp, by simp, by simp, ?_, ?_,
        fun i hi => absurd hi (Nat.not_lt_zero _)⟩
      · simp [getD_set_eq]
      · intro i hi
        have : i = 0 := by omega
        subst this
        simp [getD_set_eq])
    (by
      intro t s ht ⟨a4, a5, a6, a7, a8, a9, a10⟩
      simp only [Nat.zero_add]
      have hcap : s.nsims + min (candidatePairs (maps.getD t [])).length (K - 0) ≤
          K * maps.length := by
        have h1 : K * t + K ≤ K * maps.length := by
          rw [← Nat.mul_succ]
          exact Nat.mul_le_mul_left K ht
        omega
      obtain ⟨q1, q2, q3, q4, q5, q6⟩ := emitFold_spec K (candidatePairs (maps.getD t [])) s 0
        (by rw [a5]; exact hcap) (by rw [a6]; exact hcap) _ rfl
      simp only [Nat.sub_zero] at q1 q6
      simp only [Nat.cast_zero] at q1 q2 q3 q4 q5 q6
      have hmin : min (candidatePairs (maps.getD t [])).length K ≤ K := Nat.min_le_right _ _
      unfold emitRow
      refine ⟨by simp only [List.length_set]; rw [q2]; exact a4, q3.trans a5, q4.trans a6,
        ?_, ?_, ?_, ?_⟩
      · dsimp only
        rw [q1, Nat.mul_succ]
        omega
      · dsimp only
        rw [getD_set_eq, if_pos ⟨rfl, by rw [q2]; omega⟩]
      · intro i hi
        dsimp only
        rw [getD_set_eq]
        by_cases hit : t + 1 = i
        · rw [if_pos ⟨hit, by rw [q2]; omega⟩]
        · rw [if_neg (fun hc => hit hc.1), q1, q2]
          have := a9 i (by omega)
          omega
      · intro i hi
        by_cases hit : i = t
        · subst hit
          dsimp only
          unfold outRow
          rw [getD_set_eq, if_neg (by omega), getD_set_eq, if_pos ⟨rfl, by rw [q2]; omega⟩,
            q2, a8, q1]
          have hsub : s.nsims + min (candidatePairs (maps.getD i [])).length K - s.nsims =
              min (candidatePairs (maps.getD i [])).length K := by omega
          rw [hsub]
          have htake : (candidatePairs (maps.getD i [])).take K =
              (candidatePairs (maps.getD i [])).take
                (min (candidatePairs (maps.getD i [])).length K) := by
            rcases Nat.le_total K (candidatePairs (maps.getD i [])).length with h | h
            · rw [Nat.min_eq_right h]
            · rw [Nat.min_eq_left h, List.take_of_length_le h, List.take_length]
          rw [htake]
          apply map_take_eq_range' (candidatePairs (maps.getD i [])) _ s.nsims (0, 0)
          · exact Nat.min_le_left _ _
          · intro j hj
            rw [(q6 j hj).1, (q6 j hj).2]
        · have hi2 : i < t := by omega
          rw [← a10 i hi2]
          dsimp only
          apply outRow_congr
          · rw [getD_set_eq, if_neg (by omega), q2]
          · rw [getD_set_eq, if_neg (by omega), q2]
          · intro j hj
            rw [getD_set_eq, if_neg (by omega), q2] at hj
            have := a9 (i + 1) (by omega)
            exact q5 j (by omega))
  rw [hout]
  exact key.2.2.2.2.2.2

end EmitRows
section MapLemmas
variable {α : Type} [LinearOrderedCommRing α]

theorem mapInsert_mem_keys (kv x : Nat × α) : ∀ m : List (Nat × α),
    x ∈ mapInsert kv m → x = kv ∨ x ∈ m
  | [], h => by
    simp [mapInsert] at h
    exact Or.inl h
  | y :: ys, h => by
    unfold mapInsert at h
    split_ifs at h with h1 h2
    · rw [List.mem_cons] at h
      exact h
    · rw [List.mem_cons] at h
      rcases h with h | h
      · exact Or.inr (h ▸ List.mem_cons_self _ _)
      · rcases mapInsert_mem_keys kv x ys h with h | h
        · exact Or.inl h
        · exact Or.inr (List.mem_cons_of_mem _ h)
    · exact Or.inr h

theorem mapInsert_sorted (kv : Nat × α) : ∀ m : List (Nat × α),
    MapSorted m → MapSorted (mapInsert kv m)
  | [], _ => by simp [mapInsert, MapSorted]
  | y :: ys, h => by
    unfold MapSorted at h ⊢
    unfold mapInsert
    rw [List.pairwise_cons] at h
    split_ifs with h1 h2
    · rw [List.pairwise_cons]
      refine ⟨?_, List.pairwise_cons.mpr h⟩
      intro z hz
      rw [List.mem_cons] at hz
      rcases hz with hz | hz
      · rw [hz]; exact h1
      · exact lt_trans h1 (h.1 z hz)
    · rw [List.pairwise_cons]
      refine ⟨?_, mapInsert_sorted kv ys h.2⟩
      intro z hz
      rcases mapInsert_mem_keys kv z ys hz with hz | hz
      · rw [hz]; exact h2
      · exact h.1 z hz
    · exact List.pairwise_cons.mpr h

/-- The similarity maps kept by the document loop: as many as rows, each with
strictly increasing keys. -/
theorem findMatches_maps (n doc_id : Nat) (idx : List (List (Nat × α))) (eps : α)
    (docs : da_csr_t α) (maps : List (List (Nat × α)))
    (h : maps.length = n ∧ ∀ x, MapSorted (maps.getD x [])) :
    (findMatches doc_id idx eps docs maps).1.length = n ∧
      ∀ x, MapSorted ((findMatches doc_id idx eps docs maps).1.getD x []) := by
  unfold findMatches
  simp only []
  apply forLoop_invariant (fun _ (st : List (List (Nat × α)) × Nat) =>
    st.1.length = n ∧ ∀ x, MapSorted (st.1.getD x []))
  · exact h
  · intro t s _ ⟨h1, h2⟩
    split_ifs
    · refine ⟨by simpa using h1, ?_⟩
      intro x
      dsimp only
      rw [getD_set_eq]
      split_ifs
      · apply mapInsert_sorted
        rw [getD_set_eq]
        split_ifs
        · exact mapInsert_sorted _ _ (h2 _)
        · exact h2 _
      · rw [getD_set_eq]
        split_ifs
        · exact mapInsert_sorted _ _ (h2 _)
        · exact h2 _
    · exact ⟨h1, h2⟩

theorem invertedScan_maps (docs : da_csr_t α) (eps : α) (n : Nat) :
    (invertedScan docs eps n).matchMaps.length = docs.nrows ∧
      ∀ x, MapSorted ((invertedScan docs eps n).matchMaps.getD x []) := by
  unfold invertedScan
  apply forLoop_invariant (fun _ (st : InvState α) =>
    st.matchMaps.length = docs.nrows ∧ ∀ x, MapSorted (st.matchMaps.getD x []))
  · refine ⟨by simp, ?_⟩
    intro x
    have : (List.replicate docs.nrows ([] : List (Nat × α))).getD x [] = [] := by
      rw [List.getD_eq_getElem?_getD]
      by_cases hx : x < docs.nrows
      · rw [List.getElem?_eq_getElem (by simpa using hx)]; simp
      · rw [List.getElem?_eq_none (by simpa using hx)]; rfl
    rw [this]
    exact List.Pairwise.nil
  · intro t s _ hs
    exact findMatches_maps docs.nrows _ _ _ _ _ hs

end MapLemmas

/-! ## Inverted index: posting lists and similarity maps -/

section Postings
variable {α : Type} [LinearOrderedCommRing α]

theorem replicate_getD_nil {β : Type} (n x : Nat) :
    (List.replicate n ([] : List β)).getD x [] = [] := by
  rw [List.getD_eq_getElem?_getD]
  by_cases hx : x < n
  · rw [List.getElem?_eq_getElem (by simpa using hx)]; simp
  · rw [List.getElem?_eq_none (by simpa using hx)]; rfl

theorem rowEntries_eq (mat : da_csr_t α) (a : Nat) :
    rowEntries mat a =
      (List.range' ((mat.rowptr.getD []).getD a 0)
        ((mat.rowptr.getD []).getD (a + 1) 0 - (mat.rowptr.getD []).getD a 0)).map
        (fun p => ((mat.rowind.getD []).getD p 0, (mat.rowval.getD []).getD p 0)) := rfl

/-- Appending the entries of row `i` to the posting lists. -/
theorem appendPostings_spec (docs : da_csr_t α) (i : Nat) (idx : List (List (Nat × α))) :
    ∀ r, r = forLoop (fun j (idx : List (List (Nat × α))) =>
        idx.set ((docs.rowind.getD []).getD j 0)
          (idx.getD ((docs.rowind.getD []).getD j 0) [] ++ [(i, (docs.rowval.getD []).getD j 0)]))
      ((docs.rowptr.getD []).getD (i + 1) 0 - (docs.rowptr.getD []).getD i 0)
      ((docs.rowptr.getD []).getD i 0) idx →
    r.length = idx.length ∧ ∀ f, f < idx.length → r.getD f [] = idx.getD f [] ++
      ((rowEntries docs i).filter (fun e => decide (e.1 = f))).map (fun e => (i, e.2)) := by
  intro r hr
  rw [hr, rowEntries_eq]
  apply forLoop_invariant (fun t (x : List (List (Nat × α))) =>
    x.length = idx.length ∧ ∀ f, f < idx.length → x.getD f [] = idx.getD f [] ++
      (((List.range' ((docs.rowptr.getD []).getD i 0) t).map
        (fun p => ((docs.rowind.getD []).getD p 0, (docs.rowval.getD []).getD p 0))).filter
          (fun e => decide (e.1 = f))).map (fun e => (i, e.2)))
  · exact ⟨rfl, fun f _ => by simp⟩
  · intro t s _ ⟨h1, h2⟩
    refine ⟨by simpa using h1, ?_⟩
    intro f hf
    rw [getD_set_eq, List.range'_1_concat, List.map_append, List.filter_append, List.map_append,
      ← List.append_assoc, ← h2 f hf]
    by_cases hc : (docs.rowind.getD []).getD ((docs.rowptr.getD []).getD i 0 + t) 0 = f
    · rw [if_pos ⟨hc, by rw [hc, h1]; exact hf⟩, hc]
      simp only [List.map_cons, List.map_nil, List.filter_cons, List.filter_nil, hc,
        decide_True, if_true]
    · rw [if_neg (fun h => hc h.1)]
      simp only [List.map_cons, List.map_nil, List.filter_cons, List.filter_nil, hc,
        decide_False, Bool.false_eq_true, if_false, List.append_nil]

end Postings
section Scores
variable {α : Type} [LinearOrderedCommRing α]

/-- The inner loop of `findMatches` over one posting list. -/
theorem accFold_spec (v : α) : ∀ (L : List (Nat × α)) (cs : List α),
    (L.foldl (fun (cs : List α) (cp : Nat × α) => cs.set cp.1 (cs.getD cp.1 0 + v * cp.2))
        cs).length = cs.length ∧
      ∀ c, c < cs.length →
        (L.foldl (fun (cs : List α) (cp : Nat × α) => cs.set cp.1 (cs.getD cp.1 0 + v * cp.2))
          cs).getD c 0 =
        cs.getD c 0 + ((L.filter (fun p => decide (p.1 = c))).map (fun p => v * p.2)).sum
  | [], cs => by simp
  | p :: L, cs => by
    obtain ⟨h1, h2⟩ := accFold_spec v L (cs.set p.1 (cs.getD p.1 0 + v * p.2))
    rw [List.foldl_cons]
    refine ⟨by rw [h1, List.length_set], ?_⟩
    intro c hc
    rw [h2 c (by rw [List.length_set]; exact hc), getD_set_eq]
    by_cases hpc : p.1 = c
    · rw [if_pos ⟨hpc, by rw [hpc]; exact hc⟩, List.filter_cons_of_pos (by simpa using hpc),
        List.map_cons, List.sum_cons, hpc, add_assoc]
    · rw [if_neg (fun h => hpc h.1), List.filter_cons_of_neg (by simpa using hpc)]

theorem postings_filter (mat : da_csr_t α) (f c : Nat) : ∀ d, c < d →
    (postingsUpTo mat f d).filter (fun p => decide (p.1 = c)) =
      ((rowEntries mat c).filter (fun e => decide (e.1 = f))).map (fun e => (c, e.2)) := by
  have hother : ∀ r, r ≠ c →
      (((rowEntries mat r).filter (fun e => decide (e.1 = f))).map (fun e => (r, e.2))).filter
        (fun p => decide (p.1 = c)) = [] := by
    intro r hr
    rw [List.filter_eq_nil_iff]
    intro p hp
    obtain ⟨e, _, rfl⟩ := List.mem_map.mp hp
    simpa using hr
  have hself : (((rowEntries mat c).filter (fun e => decide (e.1 = f))).map
        (fun e => (c, e.2))).filter (fun p => decide (p.1 = c)) =
      ((rowEntries mat c).filter (fun e => decide (e.1 = f))).map (fun e => (c, e.2)) := by
    rw [List.filter_eq_self]
    intro p hp
    obtain ⟨e, _, rfl⟩ := List.mem_map.mp hp
    simp
  have hbelow : ∀ d, d ≤ c → (postingsUpTo mat f d).filter (fun p => decide (p.1 = c)) = [] := by
    intro d
    induction d with
    | zero => intro _; simp [postingsUpTo]
    | succ d ih =>
      intro hd
      unfold postingsUpTo at ih ⊢
      rw [List.range_succ, List.flatMap_append, List.filter_append, ih (by omega)]
      simp only [List.flatMap_cons, List.flatMap_nil, List.append_nil, List.nil_append]
      exact hother d (by omega)
  intro d
  induction d with
  | zero => intro h; omega
  | succ d ih =>
    intro hd
    unfold postingsUpTo at ih hbelow ⊢
    rw [List.range_succ, List.flatMap_append, List.filter_append]
    simp only [List.flatMap_cons, List.flatMap_nil, List.append_nil]
    by_cases hcd : c = d
    · subst hcd
      rw [hbelow c (le_refl _), hself, List.nil_append]
    · rw [ih (by omega), hother d (fun h => hcd h.symm), List.append_nil]

end Scores
section Scores2
variable {α : Type} [LinearOrderedCommRing α]

theorem findMatches_eq (doc_id : Nat) (idx : List (List (Nat × α))) (eps : α)
    (docs : da_csr_t α) (maps : List (List (Nat × α))) :
    findMatches doc_id idx eps docs maps =
      forLoop (fun i (st : List (List (Nat × α)) × Nat) =>
        if eps ≤ (scoresOf doc_id idx docs).getD i 0 then
          let m1 := st.1.set i (mapInsert (doc_id, (scoresOf doc_id idx docs).getD i 0)
            (st.1.getD i []))
          let m2 := m1.set doc_id (mapInsert (i, (scoresOf doc_id idx docs).getD i 0)
            (m1.getD doc_id []))
          (m2, st.2 + 1)
        else st)
      (scoresOf doc_id idx docs).length 0 (maps, 0) := rfl

/-- The buffer `cosineSimilarities` of `findMatches` for document `d`, when the
posting lists hold the documents below `d`: entry `c` is the dot product of rows
`d` and `c`. -/
theorem scoresOf_spec (docs : da_csr_t α) (d : Nat) (idx : List (List (Nat × α)))
    (hidx : ∀ f, f < docs.ncols → idx.getD f [] = postingsUpTo docs f d)
    (hwf : ∀ e ∈ rowEntries docs d, e.1 < docs.ncols) :
    (scoresOf d idx docs).length = d ∧
      ∀ c, c < d → (scoresOf d idx docs).getD c 0 = dotRows docs d c := by
  unfold scoresOf dotRows
  rw [rowEntries_eq] at hwf
  rw [rowEntries_eq docs d]
  apply forLoop_invariant (fun t (cs : List α) =>
    cs.length = d ∧ ∀ c, c < d → cs.getD c 0 =
      (((List.range' ((docs.rowptr.getD []).getD d 0) t).map
        (fun p => ((docs.rowind.getD []).getD p 0, (docs.rowval.getD []).getD p 0))).map
        (fun x => (((rowEntries docs c).filter (fun y => decide (y.1 = x.1))).map
          (fun y => x.2 * y.2)).sum)).sum)
  · refine ⟨by simp, ?_⟩
    intro c hc
    rw [List.getD_eq_getElem?_getD, List.getElem?_eq_getElem (by simpa using hc)]
    simp
  · intro t cs ht ⟨h1, h2⟩
    have hx : (docs.rowind.getD []).getD ((docs.rowptr.getD []).getD d 0 + t) 0 < docs.ncols := by
      apply hwf ((docs.rowind.getD []).getD ((docs.rowptr.getD []).getD d 0 + t) 0,
        (docs.rowval.getD []).getD ((docs.rowptr.getD []).getD d 0 + t) 0)
      rw [List.mem_map]
      exact ⟨_, by rw [List.mem_range'_1]; omega, rfl⟩
    obtain ⟨a1, a2⟩ := accFold_spec
      ((docs.rowval.getD []).getD ((docs.rowptr.getD []).getD d 0 + t) 0)
      (idx.getD ((docs.rowind.getD []).getD ((docs.rowptr.getD []).getD d 0 + t) 0) []) cs
    refine ⟨a1.trans h1, ?_⟩
    intro c hc
    rw [a2 c (by omega), hidx _ hx, postings_filter docs _ c d hc, List.map_map, h2 c hc,
      List.range'_1_concat, List.map_append, List.map_append, List.sum_append]
    simp only [List.map_cons, List.map_nil, List.sum_cons, List.sum_nil, add_zero]
    rfl

end Scores2
section MapsInvariant
variable {α : Type} [LinearOrderedCommRing α]

theorem mapInsert_mem_iff (kv x : Nat × α) : ∀ m : List (Nat × α),
    (∀ y ∈ m, y.1 ≠ kv.1) → (x ∈ mapInsert kv m ↔ x = kv ∨ x ∈ m)
  | [], _ => by simp [mapInsert]
  | y :: ys, h => by
    unfold mapInsert
    have hy : y.1 ≠ kv.1 := h y (List.mem_cons_self _ _)
    split_ifs with h1 h2
    · simp
    · rw [List.mem_cons, mapInsert_mem_iff kv x ys (fun z hz => h z (List.mem_cons_of_mem _ hz)),
        List.mem_cons]
      tauto
    · exfalso
      have : y.1 = kv.1 := by omega
      exact hy this

/-- Second loop of `findMatches` for document `d`: the maps gain, for every `c < d`
with score at least `eps`, the entry `(d, score c)` in map `c` and the entry
`(c, score c)` in map `d`. -/
theorem findMatches_spec (d n : Nat) (idx : List (List (Nat × α))) (eps : α)
    (docs : da_csr_t α) (maps : List (List (Nat × α)))
    (hd : d < n) (hlen : maps.length = n) (hcs : (scoresOf d idx docs).length = d)
    (hold : ∀ a, ∀ x ∈ maps.getD a [], a < d ∧ x.1 < d) :
    (findMatches d idx eps docs maps).1.length = n ∧
      ∀ a x, x ∈ (findMatches d idx eps docs maps).1.getD a [] ↔
        (x ∈ maps.getD a [] ∨
          (a < d ∧ x = (d, (scoresOf d idx docs).getD a 0) ∧
            eps ≤ (scoresOf d idx docs).getD a 0) ∨
          (a = d ∧ x.1 < d ∧ x.2 = (scoresOf d idx docs).getD x.1 0 ∧ eps ≤ x.2)) := by
  rw [findMatches_eq, hcs]
  generalize scoresOf d idx docs = cs
  have key := forLoop_invariant
    (fun t (st : List (List (Nat × α)) × Nat) => st.1.length = n ∧
      ∀ a x, x ∈ st.1.getD a [] ↔
        (x ∈ maps.getD a [] ∨ (a < t ∧ x = (d, cs.getD a 0) ∧ eps ≤ cs.getD a 0) ∨
          (a = d ∧ x.1 < t ∧ x.2 = cs.getD x.1 0 ∧ eps ≤ x.2)))
    (fun i (st : List (List (Nat × α)) × Nat) =>
        if eps ≤ cs.getD i 0 then
          let m1 := st.1.set i (mapInsert (d, cs.getD i 0) (st.1.getD i []))
          let m2 := m1.set d (mapInsert (i, cs.getD i 0) (m1.getD d []))
          (m2, st.2 + 1)
        else st) 0 (maps, 0) d
    (by
      refine ⟨hlen, ?_⟩
      intro a x
      constructor
      · intro h; exact Or.inl h
      · rintro (h | ⟨h, _⟩ | ⟨_, h, _⟩)
        · exact h
        · exact absurd h (Nat.not_lt_zero _)
        · exact absurd h (Nat.not_lt_zero _))
    (by
      intro t st ht ⟨h1, h2⟩
      simp only [Nat.zero_add]
      by_cases he : eps ≤ cs.getD t 0
      · rw [if_pos he]
        dsimp only
        refine ⟨by simpa using h1, ?_⟩
        have hkey1 : ∀ y ∈ st.1.getD t [], y.1 ≠ (d, cs.getD t 0).1 := by
          intro y hy
          rcases (h2 t y).mp hy with h | ⟨h, _⟩ | ⟨h, _⟩
          · have := (hold t y h).2
            show y.1 ≠ d
            omega
          · omega
          · omega
        have hkey2 : ∀ y ∈ st.1.getD d [], y.1 ≠ (t, cs.getD t 0).1 := by
          intro y hy
          rcases (h2 d y).mp hy with h | ⟨h, _⟩ | ⟨_, h, _⟩
          · have := (hold d y h).1
            omega
          · omega
          · show y.1 ≠ t
            omega
        have hm1d : (st.1.set t (mapInsert (d, cs.getD t 0) (st.1.getD t []))).getD d [] =
            st.1.getD d [] := by
          rw [getD_set_eq, if_neg (by omega)]
        intro a x
        rw [getD_set_eq, hm1d]
        by_cases had : d = a
        · subst had
          rw [if_pos ⟨rfl, by simp only [List.length_set]; omega⟩,
            mapInsert_mem_iff _ _ _ hkey2, h2 d x]
          constructor
          · rintro (h | h | ⟨h, _⟩ | ⟨_, h3, h4, h5⟩)
            · right; right
              refine ⟨rfl, ?_, ?_, ?_⟩
              · rw [h]; show t < t + 1; omega
              · rw [h]
              · rw [h]; exact he
            · left; exact h
            · omega
            · right; right; exact ⟨rfl, by omega, h4, h5⟩
          · rintro (h | ⟨h, _⟩ | ⟨_, h3, h4, h5⟩)
            · right; left; exact h
            · omega
            · by_cases hxt : x.1 = t
              · left
                apply Prod.ext
                · exact hxt
                · show x.2 = cs.getD t 0
                  rw [h4, hxt]
              · right; right; right
                exact ⟨rfl, by omega, h4, h5⟩
        · rw [if_neg (fun h => had h.1), getD_set_eq]
          by_cases hat : t = a
          · subst hat
            rw [if_pos ⟨rfl, by omega⟩, mapInsert_mem_iff _ _ _ hkey1, h2 t x]
            constructor
            · rintro (h | h | ⟨h, _⟩ | ⟨h, _⟩)
              · right; left
                exact ⟨by omega, h, he⟩
              · left; exact h
              · omega
              · omega
            · rintro (h | ⟨_, h, _⟩ | ⟨h, _⟩)
              · right; left; exact h
              · left; exact h
              · omega
          · rw [if_neg (fun h => hat h.1), h2 a x]
            constructor
            · rintro (h | ⟨h3, h4, h5⟩ | ⟨h, _⟩)
              · left; exact h
              · right; left; exact ⟨by omega, h4, h5⟩
              · omega
            · rintro (h | ⟨h3, h4, h5⟩ | ⟨h, _⟩)
              · left; exact h
              · right; left; exact ⟨by omega, h4, h5⟩
              · omega
      · rw [if_neg he]
        refine ⟨h1, ?_⟩
        intro a x
        rw [h2 a x]
        constructor
        · rintro (h | ⟨h3, h4, h5⟩ | ⟨h3, h4, h5, h6⟩)
          · left; exact h
          · right; left; exact ⟨by omega, h4, h5⟩
          · right; right; exact ⟨h3, by omega, h5, h6⟩
        · rintro (h | ⟨h3, h4, h5⟩ | ⟨h3, h4, h5, h6⟩)
          · left; exact h
          · right; left
            refine ⟨?_, h4, h5⟩
            by_contra hc
            have : a = t := by omega
            rw [this] at h5
            exact he h5
          · right; right
            refine ⟨h3, ?_, h5, h6⟩
            by_contra hc
            have : x.1 = t := by omega
            rw [h5, this] at h6
            exact he h6)
  exact key

end MapsInvariant
section DotSymm
variable {α : Type} [LinearOrderedCommRing α]

theorem sum_filter_map {β : Type} (p : β → Bool) (g : β → α) : ∀ B : List β,
    ((B.filter p).map g).sum = (B.map (fun y => if p y = true then g y else 0)).sum
  | [] => by simp
  | b :: B => by
    rw [List.map_cons, List.sum_cons, ← sum_filter_map p g B]
    by_cases h : p b = true
    · rw [List.filter_cons_of_pos h, if_pos h, List.map_cons, List.sum_cons]
    · rw [List.filter_cons_of_neg h, if_neg h, zero_add]

theorem sum_sum_comm {β γ : Type} (f : β → γ → α) : ∀ (A : List β) (B : List γ),
    (A.map (fun x => (B.map (f x)).sum)).sum = (B.map (fun y => (A.map (fun x => f x y)).sum)).sum
  | [], B => by simp
  | a :: A, B => by
    rw [List.map_cons, List.sum_cons, sum_sum_comm f A B]
    simp only [List.map_cons, List.sum_cons]
    rw [List.sum_map_add]

theorem dotRows_comm (mat : da_csr_t α) (a b : Nat) : dotRows mat a b = dotRows mat b a := by
  unfold dotRows
  simp only [sum_filter_map]
  rw [sum_sum_comm]
  apply congrArg
  apply List.map_congr_left
  intro y _
  apply congrArg
  apply List.map_congr_left
  intro x _
  by_cases h : x.1 = y.1
  · simp [h, mul_comm]
  · have h2 : ¬ y.1 = x.1 := fun e => h e.symm
    simp [h, h2]

theorem postingsUpTo_succ (mat : da_csr_t α) (f d : Nat) :
    postingsUpTo mat f (d + 1) = postingsUpTo mat f d ++
      ((rowEntries mat d).filter (fun e => decide (e.1 = f))).map (fun e => (d, e.2)) := by
  unfold postingsUpTo
  rw [List.range_succ, List.flatMap_append]
  simp only [List.flatMap_cons, List.flatMap_nil, List.append_nil]

end DotSymm
section ScanSpec
variable {α : Type} [LinearOrderedCommRing α]

/-- State of the document loop of the inverted-index engine after `n ≤ nrows`
documents: the posting lists hold the documents below `n`, and map `a` holds
exactly the documents `b ≠ a` below `n` whose dot product with `a` is at least
`eps`, with that dot product. -/
theorem invertedScan_spec (docs : da_csr_t α) (eps : α) (hwf : RowsInRange docs) :
    ∀ n, n ≤ docs.nrows →
      (invertedScan docs eps n).invertedIndex.length = docs.ncols ∧
      (∀ f, f < docs.ncols →
        (invertedScan docs eps n).invertedIndex.getD f [] = postingsUpTo docs f n) ∧
      (invertedScan docs eps n).matchMaps.length = docs.nrows ∧
      ∀ a x, x ∈ (invertedScan docs eps n).matchMaps.getD a [] ↔
        (a < n ∧ x.1 < n ∧ x.1 ≠ a ∧ x.2 = dotRows docs a x.1 ∧ eps ≤ x.2) := by
  intro n hn
  unfold invertedScan
  apply forLoop_invariant (fun t (st : InvState α) =>
    st.invertedIndex.length = docs.ncols ∧
    (∀ f, f < docs.ncols → st.invertedIndex.getD f [] = postingsUpTo docs f t) ∧
    st.matchMaps.length = docs.nrows ∧
    ∀ a x, x ∈ st.matchMaps.getD a [] ↔
      (a < t ∧ x.1 < t ∧ x.1 ≠ a ∧ x.2 = dotRows docs a x.1 ∧ eps ≤ x.2))
  · refine ⟨by simp, ?_, by simp, ?_⟩
    · intro f _
      show (List.replicate docs.ncols ([] : List (Nat × α))).getD f [] = _
      rw [replicate_getD_nil]
      simp [postingsUpTo]
    · intro a x
      show x ∈ (List.replicate docs.nrows ([] : List (Nat × α))).getD a [] ↔ _
      rw [replicate_getD_nil]
      constructor
      · intro h; simp at h
      · rintro ⟨h, _⟩; omega
  · intro t st ht ⟨h1, h2, h3, h4⟩
    simp only [Nat.zero_add]
    have htn : t < docs.nrows := by omega
    obtain ⟨c1, c2⟩ := scoresOf_spec docs t st.invertedIndex h2 (hwf t htn)
    obtain ⟨m1, m2⟩ := findMatches_spec t docs.nrows st.invertedIndex eps docs st.matchMaps
      htn h3 c1 (fun a x hx => ⟨((h4 a x).mp hx).1, ((h4 a x).mp hx).2.1⟩)
    obtain ⟨p1, p2⟩ := appendPostings_spec docs t st.invertedIndex _ rfl
    unfold invertedDoc
    dsimp only
    refine ⟨p1.trans h1, ?_, m1, ?_⟩
    · intro f hf
      rw [p2 f (by omega), h2 f hf, postingsUpTo_succ]
    · intro a x
      rw [m2 a x, h4 a x]
      constructor
      · rintro (⟨g1, g2, g3, g4, g5⟩ | ⟨g1, g2, g3⟩ | ⟨g1, g2, g3, g4⟩)
        · exact ⟨by omega, by omega, g3, g4, g5⟩
        · rw [g2]
          refine ⟨by omega, by show t < t + 1; omega, by show t ≠ a; omega, ?_, g3⟩
          show (scoresOf t st.invertedIndex docs).getD a 0 = dotRows docs a t
          rw [c2 a g1, dotRows_comm]
        · refine ⟨by omega, by omega, by omega, ?_, g4⟩
          rw [g3, c2 _ g2, g1]
      · rintro ⟨g1, g2, g3, g4, g5⟩
        by_cases hat : a = t
        · right; right
          have hx : x.1 < t := by omega
          refine ⟨hat, hx, ?_, g5⟩
          rw [g4, c2 _ hx, hat]
        · by_cases hxt : x.1 = t
          · right; left
            have ha : a < t := by omega
            refine ⟨ha, ?_, ?_⟩
            · apply Prod.ext
              · exact hxt
              · show x.2 = (scoresOf t st.invertedIndex docs).getD a 0
                rw [g4, c2 a ha, hxt, dotRows_comm]
            · rw [c2 a ha, dotRows_comm, ← hxt, ← g4]
              exact g5
          · left
            exact ⟨by omega, by omega, g3, g4, g5⟩

/-- C8: in the inverted-index engine, after documents `0..nrows-1` of a matrix
whose rows store column ids below `ncols` have been processed, for all distinct
document ids `a`, `b` below `nrows`: `b` is a key of the map of `a` iff `a` is a
key of the map of `b` iff the dot product of rows `a` and `b` is at least `eps`,
and both maps store that dot product. -/
theorem invertedScan_symmetric (docs : da_csr_t α) (eps : α) (hwf : RowsInRange docs)
    (a b : Nat) (ha : a < docs.nrows) (hb : b < docs.nrows) (hab : a ≠ b) :
    (b ∈ ((invertedScan docs eps docs.nrows).matchMaps.getD a []).map Prod.fst ↔
        a ∈ ((invertedScan docs eps docs.nrows).matchMaps.getD b []).map Prod.fst) ∧
      (a ∈ ((invertedScan docs eps docs.nrows).matchMaps.getD b []).map Prod.fst ↔
        eps ≤ dotRows docs a b) ∧
      (∀ v, (b, v) ∈ (invertedScan docs eps docs.nrows).matchMaps.getD a [] →
        v = dotRows docs a b) ∧
      (∀ v, (a, v) ∈ (invertedScan docs eps docs.nrows).matchMaps.getD b [] →
        v = dotRows docs a b) := by
  obtain ⟨_, _, _, h⟩ := invertedScan_spec docs eps hwf docs.nrows (le_refl _)
  have key : ∀ p q, p < docs.nrows → q < docs.nrows → p ≠ q →
      (q ∈ ((invertedScan docs eps docs.nrows).matchMaps.getD p []).map Prod.fst ↔
        eps ≤ dotRows docs p q) := by
    intro p q hp hq hpq
    rw [List.mem_map]
    constructor
    · rintro ⟨x, hx, rfl⟩
      obtain ⟨_, _, _, g4, g5⟩ := (h p x).mp hx
      rw [← g4]; exact g5
    · intro he
      exact ⟨(q, dotRows docs p q), (h p _).mpr ⟨hp, hq, fun e => hpq e.symm, rfl, he⟩, rfl⟩
  refine ⟨?_, ?_, ?_, ?_⟩
  · rw [key a b ha hb hab, key b a hb ha (fun e => hab e.symm), dotRows_comm]
  · rw [key b a hb ha (fun e => hab e.symm), dotRows_comm]
  · intro v hv
    exact ((h a _).mp hv).2.2.2.1
  · intro v hv
    rw [dotRows_comm]
    exact ((h b _).mp hv).2.2.2.1

end ScanSpec
theorem sampleDocs_inRange : RowsInRange sampleDocs := by
  intro a ha e he
  have h3 : a < 3 := ha
  interval_cases a <;>
    simp [rowEntries, outRow, sampleDocs, List.range'] at he <;>
    rcases he with rfl | rfl <;> decide

/-- Witness of C8 on the 3 x 2 sample matrix with `eps = 1`, rows 0 and 1. -/
theorem invertedScan_symmetric_witness :
    (1 ∈ ((invertedScan sampleDocs 1 sampleDocs.nrows).matchMaps.getD 0 []).map Prod.fst ↔
        0 ∈ ((invertedScan sampleDocs 1 sampleDocs.nrows).matchMaps.getD 1 []).map Prod.fst) ∧
      (0 ∈ ((invertedScan sampleDocs 1 sampleDocs.nrows).matchMaps.getD 1 []).map Prod.fst ↔
        (1 : ℚ) ≤ dotRows sampleDocs 0 1) ∧
      (∀ v, (1, v) ∈ (invertedScan sampleDocs 1 sampleDocs.nrows).matchMaps.getD 0 [] →
        v = dotRows sampleDocs 0 1) ∧
      (∀ v, (0, v) ∈ (invertedScan sampleDocs 1 sampleDocs.nrows).matchMaps.getD 1 [] →
        v = dotRows sampleDocs 0 1) :=
  invertedScan_symmetric sampleDocs 1 sampleDocs_inRange 0 1 (by decide) (by decide) (by decide)
/-! ## Index construction (`da_csr_CreateIndex`) -/

section EntryList

theorem forLoop_eq_foldl {σ : Type} (body : Nat → σ → σ) :
    ∀ (n start : Nat) (st : σ),
      forLoop body n start st = (List.range' start n).foldl (fun s j => body j s) st
  | 0, _, _ => rfl
  | n + 1, start, st => by
    rw [forLoop, forLoop_eq_foldl body n (start + 1), List.range'_succ, List.foldl_cons]

theorem foldl_flatMap_eq {β γ σ : Type} (f : β → List γ) (g : σ → γ → σ) :
    ∀ (l : List β) (s : σ),
      (l.flatMap f).foldl g s = l.foldl (fun s x => (f x).foldl g s) s
  | [], _ => rfl
  | x :: l, s => by
    rw [List.flatMap_cons, List.foldl_append, List.foldl_cons, foldl_flatMap_eq f g l]

theorem forEntries_eq_foldl {σ : Type} (nf : Nat) (fptr : List Nat) (body : Nat → Nat → σ → σ)
    (st : σ) :
    forEntries nf fptr body st = (fwdEntries nf fptr).foldl (fun s e => body e.1 e.2 s) st := by
  unfold forEntries fwdEntries
  rw [forLoop_eq_foldl, ← List.range_eq_range', foldl_flatMap_eq]
  congr 1
  funext s i
  rw [forLoop_eq_foldl, List.foldl_map]

/-- For a well-formed view the positions visited by the nested loop are
`0, 1, ..., ptr[n]-1` in this order. -/
theorem fwdEntries_positions (n : Nat) (ptr : List Nat) (h0 : ptr.getD 0 0 = 0)
    (hmono : ∀ i, i < n → ptr.getD i 0 ≤ ptr.getD (i + 1) 0) :
    (fwdEntries n ptr).map Prod.snd = List.range (ptr.getD n 0) := by
  induction n with
  | zero =>
    unfold fwdEntries
    rw [h0]
    rfl
  | succ n ih =>
    have ih' := ih (fun i hi => hmono i (by omega))
    unfold fwdEntries at ih' ⊢
    rw [List.range_succ, List.flatMap_append, List.map_append, ih']
    simp only [List.flatMap_cons, List.flatMap_nil, List.append_nil, List.map_map]
    have hm := hmono n (Nat.lt_succ_self n)
    have : (Prod.snd ∘ fun j => (n, j)) = (fun j : Nat => j) := rfl
    rw [this, List.map_id']
    obtain ⟨b, hb⟩ : ∃ b, ptr.getD (n + 1) 0 = b + ptr.getD n 0 :=
      ⟨ptr.getD (n + 1) 0 - ptr.getD n 0, by omega⟩
    rw [hb, Nat.add_sub_cancel, List.range_eq_range', List.range_eq_range',
      ← List.range'_append_1]
    rw [Nat.zero_add]

end EntryList
section PointerArrays

theorem shiftLoop_spec (n : Nat) (a : List Nat) (ha : a.length = n + 1) :
    (forLoop (fun t (a : List Nat) => a.set (n - t) (a.getD (n - t - 1) 0)) n 0 a).length =
        n + 1 ∧
      ∀ i, i ≤ n →
        (forLoop (fun t (a : List Nat) => a.set (n - t) (a.getD (n - t - 1) 0)) n 0 a).getD i 0 =
          if i = 0 then a.getD 0 0 else a.getD (i - 1) 0 := by
  have key := forLoop_invariant (fun t (cur : List Nat) => cur.length = n + 1 ∧
      ∀ i, i ≤ n → cur.getD i 0 = if n - t < i then a.getD (i - 1) 0 else a.getD i 0)
    (fun t (a : List Nat) => a.set (n - t) (a.getD (n - t - 1) 0)) 0 a n
    (by
      refine ⟨ha, ?_⟩
      intro i hi
      rw [if_neg (by omega)])
    (by
      intro t cur ht ⟨h1, h2⟩
      simp only [Nat.zero_add]
      refine ⟨by simpa using h1, ?_⟩
      intro i hi
      rw [getD_set_eq]
      by_cases hit : n - t = i
      · rw [if_pos ⟨hit, by omega⟩, if_pos (by omega), h2 (n - t - 1) (by omega),
          if_neg (by omega), ← hit]
      · rw [if_neg (fun h => hit h.1), h2 i hi]
        by_cases hlt : n - t < i
        · rw [if_pos hlt, if_pos (by omega)]
        · rw [if_neg hlt, if_neg (by omega)])
  refine ⟨key.1, ?_⟩
  intro i hi
  rw [key.2 i hi]
  by_cases h0 : i = 0
  · rw [if_neg (by omega), if_pos h0, h0]
  · rw [if_pos (by omega), if_neg h0]

/-- Macro `CSRSHIFT`: entry `i > 0` receives the old entry `i - 1`, entry 0 becomes 0. -/
theorem CSRSHIFT_spec (n : Nat) (a : List Nat) (ha : a.length = n + 1) :
    (CSRSHIFT n a).length = n + 1 ∧
      ∀ i, i ≤ n → (CSRSHIFT n a).getD i 0 = if i = 0 then 0 else a.getD (i - 1) 0 := by
  obtain ⟨h1, h2⟩ := shiftLoop_spec n a ha
  unfold CSRSHIFT
  dsimp only
  refine ⟨by rw [List.length_set]; exact h1, ?_⟩
  intro i hi
  rw [getD_set_eq]
  by_cases h0 : i = 0
  · rw [if_pos h0, if_pos ⟨h0.symm, by omega⟩]
  · rw [if_neg h0, if_neg (fun h => h0 h.1.symm), h2 i hi, if_neg h0]

/-- Macro `CSRMAKE`: entry `i` becomes the sum of the old entries below `i`. -/
theorem CSRMAKE_spec (n : Nat) (a : List Nat) (ha : a.length = n + 1) :
    (CSRMAKE n a).length = n + 1 ∧
      ∀ i, i ≤ n → (CSRMAKE n a).getD i 0 = ((List.range i).map (fun c => a.getD c 0)).sum := by
  have key := forLoop_invariant (fun t (cur : List Nat) => cur.length = n + 1 ∧
      ∀ i, i ≤ n → cur.getD i 0 =
        if i ≤ t then ((List.range (i + 1)).map (fun c => a.getD c 0)).sum else a.getD i 0)
    (fun i (a : List Nat) => a.set i (a.getD i 0 + a.getD (i - 1) 0)) 1 a (n - 1)
    (by
      refine ⟨ha, ?_⟩
      intro i hi
      by_cases h0 : i = 0
      · subst h0
        rw [if_pos (le_refl _)]
        simp [List.range_succ]
      · rw [if_neg (by omega)])
    (by
      intro t cur ht ⟨h1, h2⟩
      refine ⟨by simpa using h1, ?_⟩
      intro i hi
      rw [getD_set_eq]
      by_cases hit : 1 + t = i
      · rw [if_pos ⟨hit, by omega⟩, if_pos (by omega), h2 (1 + t) (by omega), if_neg (by omega),
          h2 (1 + t - 1) (by omega), if_pos (by omega), ← hit]
        have e : 1 + t - 1 + 1 = 1 + t := by omega
        rw [e, List.range_succ (n := 1 + t), List.map_append, List.sum_append]
        simp only [List.map_cons, List.map_nil, List.sum_cons, List.sum_nil, add_zero]
        rw [Nat.add_comm]
      · rw [if_neg (fun h => hit h.1), h2 i hi]
        by_cases hlt : i ≤ t
        · rw [if_pos hlt, if_pos (by omega)]
        · rw [if_neg hlt, if_neg (by omega)])
  obtain ⟨k1, k2⟩ := key
  obtain ⟨s1, s2⟩ := shiftLoop_spec n _ k1
  unfold CSRMAKE
  dsimp only
  refine ⟨by rw [List.length_set]; exact s1, ?_⟩
  intro i hi
  rw [getD_set_eq]
  by_cases h0 : i = 0
  · rw [if_pos ⟨h0.symm, by omega⟩, h0]
    rfl
  · rw [if_neg (fun h => h0 h.1.symm), s2 i hi, if_neg h0, k2 (i - 1) (by omega),
      if_pos (by omega)]
    have e : i - 1 + 1 = i := by omega
    rw [e]

theorem countFold_spec (find : List Nat) : ∀ (L : List (Nat × Nat)) (rp : List Nat),
    (L.foldl (fun (rp : List Nat) (e : Nat × Nat) =>
        rp.set (find.getD e.2 0) (rp.getD (find.getD e.2 0) 0 + 1)) rp).length = rp.length ∧
      ∀ c, c < rp.length →
        (L.foldl (fun (rp : List Nat) (e : Nat × Nat) =>
          rp.set (find.getD e.2 0) (rp.getD (find.getD e.2 0) 0 + 1)) rp).getD c 0 =
        rp.getD c 0 + bucketCount find L c
  | [], rp => by simp [bucketCount]
  | e :: L, rp => by
    obtain ⟨h1, h2⟩ := countFold_spec find L
      (rp.set (find.getD e.2 0) (rp.getD (find.getD e.2 0) 0 + 1))
    rw [List.foldl_cons]
    refine ⟨by rw [h1, List.length_set], ?_⟩
    intro c hc
    rw [h2 c (by rw [List.length_set]; exact hc), getD_set_eq]
    unfold bucketCount
    by_cases hec : find.getD e.2 0 = c
    · rw [if_pos ⟨hec, by rw [hec]; exact hc⟩, List.filter_cons_of_pos (by simpa using hec),
        List.length_cons, hec]
      omega
    · rw [if_neg (fun h => hec h.1), List.filter_cons_of_neg (by simpa using hec)]

end PointerArrays
section Scatter

theorem bucketStart_succ (find : List Nat) (L : List (Nat × Nat)) (c : Nat) :
    bucketStart find L (c + 1) = bucketStart find L c + bucketCount find L c := by
  unfold bucketStart
  rw [List.range_succ, List.map_append, List.sum_append]
  simp

theorem bucketStart_mono (find : List Nat) (L : List (Nat × Nat)) :
    ∀ c c2, c ≤ c2 → bucketStart find L c ≤ bucketStart find L c2 := by
  intro c c2 h
  induction c2 with
  | zero =>
    have : c = 0 := by omega
    rw [this]
  | succ c2 ih =>
    by_cases hc : c = c2 + 1
    · rw [hc]
    · have := ih (by omega)
      rw [bucketStart_succ]
      omega

theorem bucketCount_append (find : List Nat) (L1 L2 : List (Nat × Nat)) (c : Nat) :
    bucketCount find (L1 ++ L2) c = bucketCount find L1 c + bucketCount find L2 c := by
  unfold bucketCount
  rw [List.filter_append, List.length_append]

theorem bucketCount_cons (find : List Nat) (e : Nat × Nat) (L : List (Nat × Nat)) (c : Nat) :
    bucketCount find (e :: L) c =
      (if find.getD e.2 0 = c then 1 else 0) + bucketCount find L c := by
  unfold bucketCount
  by_cases h : find.getD e.2 0 = c
  · rw [List.filter_cons_of_pos (by simpa using h), if_pos h, List.length_cons]
    omega
  · rw [List.filter_cons_of_neg (by simpa using h), if_neg h]
    omega

/-- The scatter pass of `da_csr_CreateIndex` with payload `pay`: when the pointers
start at the bucket starts, entry number `t` of bucket `c` lands at position
`start c + t`, and every pointer ends at the end of its bucket. -/
theorem scatterFold_spec {β : Type} (d : β) (find : List Nat) (pay : Nat → Nat → β) (nr : Nat)
    (E : List (Nat × Nat)) (hcol : ∀ e ∈ E, find.getD e.2 0 < nr) :
    ∀ (rest done : List (Nat × Nat)) (rp : List Nat) (arr : List β), done ++ rest = E →
      rp.length = nr + 1 → bucketStart find E nr ≤ arr.length →
      (∀ c, c < nr → rp.getD c 0 = bucketStart find E c + bucketCount find done c) →
      (∀ c, c < nr → ∀ t, t < bucketCount find done c →
        arr.getD (bucketStart find E c + t) d =
          pay ((done.filter (fun e => decide (find.getD e.2 0 = c))).getD t (0, 0)).1
            ((done.filter (fun e => decide (find.getD e.2 0 = c))).getD t (0, 0)).2) →
      ∀ r, r = rest.foldl (fun (st : List Nat × List β) (e : Nat × Nat) =>
          (st.1.set (find.getD e.2 0) (st.1.getD (find.getD e.2 0) 0 + 1),
           st.2.set (st.1.getD (find.getD e.2 0) 0) (pay e.1 e.2))) (rp, arr) →
        r.1.length = nr + 1 ∧ r.2.length = arr.length ∧
        (∀ c, c < nr → r.1.getD c 0 = bucketStart find E c + bucketCount find E c) ∧
        (∀ c, c < nr → ∀ t, t < bucketCount find E c →
          r.2.getD (bucketStart find E c + t) d =
            pay ((E.filter (fun e => decide (find.getD e.2 0 = c))).getD t (0, 0)).1
              ((E.filter (fun e => decide (find.getD e.2 0 = c))).getD t (0, 0)).2)
  | [], done, rp, arr, hE, h1, h2, h3, h4, r, hr => by
    rw [List.append_nil] at hE
    subst hE
    subst hr
    exact ⟨h1, rfl, h3, h4⟩
  | e :: rest, done, rp, arr, hE, h1, h2, h3, h4, r, hr => by
    rw [List.foldl_cons] at hr
    have hk : find.getD e.2 0 < nr := hcol e (by rw [← hE]; simp)
    have hcntE : ∀ c, bucketCount find E c =
        bucketCount find done c + ((if find.getD e.2 0 = c then 1 else 0) +
          bucketCount find rest c) := by
      intro c
      rw [← hE, bucketCount_append, bucketCount_cons]
    have hw : bucketStart find E (find.getD e.2 0) +
        bucketCount find done (find.getD e.2 0) < arr.length := by
      have a1 := hcntE (find.getD e.2 0)
      rw [if_pos rfl] at a1
      have a2 := bucketStart_succ find E (find.getD e.2 0)
      have a3 := bucketStart_mono find E (find.getD e.2 0 + 1) nr (by omega)
      omega
    refine scatterFold_spec d find pay nr E hcol rest (done ++ [e])
      (rp.set (find.getD e.2 0) (rp.getD (find.getD e.2 0) 0 + 1))
      (arr.set (rp.getD (find.getD e.2 0) 0) (pay e.1 e.2))
      (by rw [List.append_assoc]; exact hE) (by rw [List.length_set]; exact h1)
      (by rw [List.length_set]; exact h2) ?_ ?_ r ?_ |>.imp_right (fun h => ?_)
    · intro c hc
      rw [getD_set_eq, bucketCount_append, bucketCount_cons]
      by_cases hkc : find.getD e.2 0 = c
      · rw [if_pos ⟨hkc, by omega⟩, if_pos hkc, h3 _ hk, hkc]
        simp [bucketCount]
        omega
      · rw [if_neg (fun h => hkc h.1), if_neg hkc, h3 c hc]
        simp [bucketCount]
    · intro c hc t ht
      rw [bucketCount_append, bucketCount_cons] at ht
      have hnil : bucketCount find [] c = 0 := by simp [bucketCount]
      rw [hnil] at ht
      rw [getD_set_eq, h3 _ hk, List.filter_append]
      by_cases hnew : find.getD e.2 0 = c ∧ t = bucketCount find done c
      · obtain ⟨hkc, htc⟩ := hnew
        rw [if_pos ⟨by rw [hkc, htc], by rw [hkc]; rw [hkc] at hw; exact hw⟩]
        rw [List.filter_cons_of_pos (by simpa using hkc), List.filter_nil]
        have hlen : (done.filter (fun e => decide (find.getD e.2 0 = c))).length = t := by
          rw [htc]; rfl
        rw [List.getD_eq_getElem?_getD, List.getElem?_append_right (by omega), hlen,
          Nat.sub_self]
        rfl
      · have htold : t < bucketCount find done c := by
          by_cases hkc : find.getD e.2 0 = c
          · rw [if_pos hkc] at ht
            have : t ≠ bucketCount find done c := fun h => hnew ⟨hkc, h⟩
            omega
          · rw [if_neg hkc] at ht
            omega
        have hne : ¬ (bucketStart find E (find.getD e.2 0) +
            bucketCount find done (find.getD e.2 0) = bucketStart find E c + t ∧
            bucketStart find E (find.getD e.2 0) +
              bucketCount find done (find.getD e.2 0) < arr.length) := by
          intro hh
          have heq := hh.1
          rcases Nat.lt_trichotomy c (find.getD e.2 0) with h | h | h
          · have a1 := hcntE c
            have a2 := bucketStart_succ find E c
            have a3 := bucketStart_mono find E (c + 1) (find.getD e.2 0) (by omega)
            omega
          · rw [h] at htold heq
            omega
          · have a1 := hcntE (find.getD e.2 0)
            rw [if_pos rfl] at a1
            have a2 := bucketStart_succ find E (find.getD e.2 0)
            have a3 := bucketStart_mono find E (find.getD e.2 0 + 1) c (by omega)
            omega
        rw [if_neg hne, h4 c hc t htold]
        have hlt : t < (done.filter (fun e => decide (find.getD e.2 0 = c))).length := htold
        rw [List.getD_eq_getElem?_getD, List.getD_eq_getElem?_getD,
          List.getElem?_append_left hlt]
    · exact hr
    · rw [List.length_set] at h
      exact h

end Scatter
section IndexSpec
variable {α : Type} [LinearOrderedField α]

theorem filter_lt_succ_length (find : List Nat) (n : Nat) : ∀ L : List (Nat × Nat),
    (L.filter (fun e => decide (find.getD e.2 0 < n + 1))).length =
      (L.filter (fun e => decide (find.getD e.2 0 < n))).length +
        (L.filter (fun e => decide (find.getD e.2 0 = n))).length := by
  intro L
  induction L with
  | nil => simp
  | cons e L ihL =>
    simp only [List.filter_cons, decide_eq_true_eq]
    split_ifs with a b c <;> (try simp only [List.length_cons]) <;> omega

theorem bucketStart_eq_filter (find : List Nat) (L : List (Nat × Nat)) : ∀ n,
    bucketStart find L n = (L.filter (fun e => decide (find.getD e.2 0 < n))).length := by
  intro n
  induction n with
  | zero => simp [bucketStart]
  | succ n ih =>
    rw [bucketStart_succ, ih, filter_lt_succ_length]
    rfl

theorem bucketStart_total (find : List Nat) (L : List (Nat × Nat)) (nr : Nat)
    (hcol : ∀ e ∈ L, find.getD e.2 0 < nr) : bucketStart find L nr = L.length := by
  rw [bucketStart_eq_filter, List.filter_eq_self.mpr]
  intro e he
  simpa using hcol e he

/-- What a well-formed forward view gives the entry list: its positions are
`0..nnz-1`, so every index value met is below `nr` and there are `nnz` entries. -/
theorem fwdEntries_wf (nf nr : Nat) (fptr find : List Nat) (h : WellFormedView nf nr fptr find) :
    (∀ e ∈ fwdEntries nf fptr, find.getD e.2 0 < nr) ∧
      (fwdEntries nf fptr).length = fptr.getD nf 0 := by
  obtain ⟨_, h0, hm, hl, hb⟩ := h
  have hp := fwdEntries_positions nf fptr h0 hm
  constructor
  · intro e he
    have : e.2 ∈ (fwdEntries nf fptr).map Prod.snd := List.mem_map.mpr ⟨e, he, rfl⟩
    rw [hp, List.mem_range] at this
    rw [List.getD_eq_getElem?_getD, List.getElem?_eq_getElem (by omega)]
    exact hb _ (List.getElem_mem _)
  · have := congrArg List.length hp
    rw [List.length_map, List.length_range] at this
    exact this

end IndexSpec
section IndexAssembly
variable {α : Type} [LinearOrderedField α]

/-- One scatter pass started from the bucket starts, followed by `CSRSHIFT`. -/
theorem scatter_pass {β : Type} (d : β) (find : List Nat) (pay : Nat → Nat → β) (nr : Nat)
    (E : List (Nat × Nat)) (hcol : ∀ e ∈ E, find.getD e.2 0 < nr)
    (rp : List Nat) (arr : List β) (h1 : rp.length = nr + 1)
    (h2 : bucketStart find E nr ≤ arr.length)
    (h3 : ∀ c, c ≤ nr → rp.getD c 0 = bucketStart find E c) :
    ∀ r, r = E.foldl (fun (st : List Nat × List β) (e : Nat × Nat) =>
          (st.1.set (find.getD e.2 0) (st.1.getD (find.getD e.2 0) 0 + 1),
           st.2.set (st.1.getD (find.getD e.2 0) 0) (pay e.1 e.2))) (rp, arr) →
      (CSRSHIFT nr r.1).length = nr + 1 ∧
      (∀ i, i ≤ nr → (CSRSHIFT nr r.1).getD i 0 = bucketStart find E i) ∧
      r.2.length = arr.length ∧
      (∀ c, c < nr → ∀ t, t < bucketCount find E c →
          r.2.getD (bucketStart find E c + t) d =
            pay ((E.filter (fun e => decide (find.getD e.2 0 = c))).getD t (0, 0)).1
              ((E.filter (fun e => decide (find.getD e.2 0 = c))).getD t (0, 0)).2) := by
  intro r hr
  obtain ⟨q1, q2, q3, q4⟩ := scatterFold_spec d find pay nr E hcol E [] rp arr rfl h1 h2
    (by intro c hc; rw [h3 c (by omega)]; simp [bucketCount])
    (by intro c hc t ht; simp [bucketCount] at ht) r hr
  obtain ⟨s1, s2⟩ := CSRSHIFT_spec nr r.1 q1
  refine ⟨s1, ?_, q2, q4⟩
  intro i hi
  rw [s2 i hi]
  by_cases h0 : i = 0
  · rw [if_pos h0, h0]; rfl
  · rw [if_neg h0, q3 (i - 1) (by omega), ← bucketStart_succ]
    have e : i - 1 + 1 = i := by omega
    rw [e]

/-- The single-pass scatter of indices and values is the pair of the two
separate scatters. -/
theorem tripleFold_proj (find : List Nat) (fv : List α) :
    ∀ (L : List (Nat × Nat)) (rp ri : List Nat) (rv : List α),
      L.foldl (fun (st : List Nat × List Nat × List α) (e : Nat × Nat) =>
          (st.1.set (find.getD e.2 0) (st.1.getD (find.getD e.2 0) 0 + 1),
           st.2.1.set (st.1.getD (find.getD e.2 0) 0) e.1,
           st.2.2.set (st.1.getD (find.getD e.2 0) 0) (fv.getD e.2 0))) (rp, ri, rv) =
        ((L.foldl (fun (st : List Nat × List Nat) (e : Nat × Nat) =>
            (st.1.set (find.getD e.2 0) (st.1.getD (find.getD e.2 0) 0 + 1),
             st.2.set (st.1.getD (find.getD e.2 0) 0) e.1)) (rp, ri)).1,
         (L.foldl (fun (st : List Nat × List Nat) (e : Nat × Nat) =>
            (st.1.set (find.getD e.2 0) (st.1.getD (find.getD e.2 0) 0 + 1),
             st.2.set (st.1.getD (find.getD e.2 0) 0) e.1)) (rp, ri)).2,
         (L.foldl (fun (st : List Nat × List α) (e : Nat × Nat) =>
            (st.1.set (find.getD e.2 0) (st.1.getD (find.getD e.2 0) 0 + 1),
             st.2.set (st.1.getD (find.getD e.2 0) 0) (fv.getD e.2 0))) (rp, rv)).2) ∧
      (L.foldl (fun (st : List Nat × List α) (e : Nat × Nat) =>
            (st.1.set (find.getD e.2 0) (st.1.getD (find.getD e.2 0) 0 + 1),
             st.2.set (st.1.getD (find.getD e.2 0) 0) (fv.getD e.2 0))) (rp, rv)).1 =
        (L.foldl (fun (st : List Nat × List Nat) (e : Nat × Nat) =>
            (st.1.set (find.getD e.2 0) (st.1.getD (find.getD e.2 0) 0 + 1),
             st.2.set (st.1.getD (find.getD e.2 0) 0) e.1)) (rp, ri)).1
  | [], rp, ri, rv => ⟨rfl, rfl⟩
  | e :: L, rp, ri, rv => by
    simp only [List.foldl_cons]
    exact tripleFold_proj find fv L _ _ _

/-- Function `createIndexView` on a well-formed forward view builds the index of
that view, in both of its branches. -/
theorem createIndexView_spec (nf nr : Nat) (fptr find : List Nat) (fval : Option (List α))
    (h : WellFormedView nf nr fptr find) :
    IsIndexOf nf nr fptr find fval (createIndexView nf nr fptr find fval) := by
  obtain ⟨hcol, hlen⟩ := fwdEntries_wf nf nr fptr find h
  have htot := bucketStart_total find (fwdEntries nf fptr) nr hcol
  -- counting and prefix sums
  obtain ⟨c1, c2⟩ := countFold_spec find (fwdEntries nf fptr) (List.replicate (nr + 1) 0)
  rw [List.length_replicate] at c1 c2
  obtain ⟨m1, m2⟩ := CSRMAKE_spec nr _ c1
  have hstart : ∀ c, c ≤ nr → (CSRMAKE nr ((fwdEntries nf fptr).foldl
      (fun (rp : List Nat) (e : Nat × Nat) =>
        rp.set (find.getD e.2 0) (rp.getD (find.getD e.2 0) 0 + 1))
      (List.replicate (nr + 1) 0))).getD c 0 = bucketStart find (fwdEntries nf fptr) c := by
    intro c hc
    rw [m2 c hc]
    unfold bucketStart
    congr 1
    apply List.map_congr_left
    intro x hx
    rw [List.mem_range] at hx
    rw [c2 x (by omega)]
    have hz : (List.replicate (nr + 1) 0).getD x 0 = 0 := by
      rw [List.getD_eq_getElem?_getD, List.getElem?_replicate]
      split_ifs <;> rfl
    rw [hz, Nat.zero_add]
  have hi := scatter_pass (0 : Nat) find (fun i _ => i) nr (fwdEntries nf fptr) hcol _
    (List.replicate (fptr.getD nf 0) 0) m1 (by rw [List.length_replicate, htot, hlen]) hstart
    _ rfl
  obtain ⟨i1, i2, i3, i4⟩ := hi
  rw [List.length_replicate] at i3
  unfold createIndexView IsIndexOf
  simp only [forEntries_eq_foldl]
  split_ifs with hbig
  · cases fval with
    | none => exact ⟨i1, i2, i3, i4, rfl⟩
    | some fv =>
      have hv := scatter_pass (0 : α) find (fun _ j => fv.getD j 0) nr (fwdEntries nf fptr) hcol _
        (List.replicate (fptr.getD nf 0) 0) i1 (by rw [List.length_replicate, htot, hlen]) i2
        _ rfl
      obtain ⟨v1, v2, v3, v4⟩ := hv
      rw [List.length_replicate] at v3
      exact ⟨v1, v2, i3, i4, _, rfl, v3, v4⟩
  · cases fval with
    | none => exact ⟨i1, i2, i3, i4, rfl⟩
    | some fv =>
      have hv := scatter_pass (0 : α) find (fun _ j => fv.getD j 0) nr (fwdEntries nf fptr) hcol _
        (List.replicate (fptr.getD nf 0) 0) m1 (by rw [List.length_replicate, htot, hlen]) hstart
        _ rfl
      obtain ⟨v1, v2, v3, v4⟩ := hv
      rw [List.length_replicate] at v3
      obtain ⟨p1, p2⟩ := tripleFold_proj find fv (fwdEntries nf fptr)
        (CSRMAKE nr ((fwdEntries nf fptr).foldl
          (fun (rp : List Nat) (e : Nat × Nat) =>
            rp.set (find.getD e.2 0) (rp.getD (find.getD e.2 0) 0 + 1))
          (List.replicate (nr + 1) 0)))
        (List.replicate (fptr.getD nf 0) 0) (List.replicate (fptr.getD nf 0) 0)
      dsimp only
      rw [p1]
      exact ⟨i1, i2, i3, i4, _, rfl, v3, v4⟩

end IndexAssembly
section IndexTriples
variable {α : Type} [LinearOrderedField α]

theorem filter_lt_append_perm (find : List Nat) (n : Nat) : ∀ L : List (Nat × Nat),
    (L.filter (fun e => decide (find.getD e.2 0 < n)) ++
      L.filter (fun e => decide (find.getD e.2 0 = n))).Perm
      (L.filter (fun e => decide (find.getD e.2 0 < n + 1)))
  | [] => by simp
  | e :: L => by
    have ih := filter_lt_append_perm find n L
    by_cases h1 : find.getD e.2 0 < n
    · have h2 : ¬ find.getD e.2 0 = n := by omega
      have h3 : find.getD e.2 0 < n + 1 := by omega
      rw [List.filter_cons_of_pos (by simpa using h1), List.filter_cons_of_neg (by simpa using h2),
        List.filter_cons_of_pos (by simpa using h3)]
      exact List.Perm.cons _ ih
    · by_cases h2 : find.getD e.2 0 = n
      · have h3 : find.getD e.2 0 < n + 1 := by omega
        rw [List.filter_cons_of_neg (by simpa using h1),
          List.filter_cons_of_pos (by simpa using h2),
          List.filter_cons_of_pos (by simpa using h3)]
        exact (List.perm_middle).trans (List.Perm.cons _ ih)
      · have h3 : ¬ find.getD e.2 0 < n + 1 := by omega
        rw [List.filter_cons_of_neg (by simpa using h1),
          List.filter_cons_of_neg (by simpa using h2),
          List.filter_cons_of_neg (by simpa using h3)]
        exact ih

/-- Concatenating the buckets in increasing order of the key rearranges the list. -/
theorem bucket_perm (find : List Nat) (L : List (Nat × Nat)) (n : Nat)
    (hcol : ∀ e ∈ L, find.getD e.2 0 < n) :
    ((List.range n).flatMap (fun c => L.filter (fun e => decide (find.getD e.2 0 = c)))).Perm L := by
  have key : ∀ m, ((List.range m).flatMap
      (fun c => L.filter (fun e => decide (find.getD e.2 0 = c)))).Perm
      (L.filter (fun e => decide (find.getD e.2 0 < m))) := by
    intro m
    induction m with
    | zero => simp
    | succ m ih =>
      rw [List.range_succ, List.flatMap_append]
      simp only [List.flatMap_cons, List.flatMap_nil, List.append_nil]
      exact (List.Perm.append_right _ ih).trans (filter_lt_append_perm find m L)
  have e : L.filter (fun e => decide (find.getD e.2 0 < n)) = L := by
    rw [List.filter_eq_self]
    intro x hx
    simpa using hcol x hx
  have := key n
  rwa [e] at this

/-- Segment `c` of an index lists, in loop order, the forward entries whose index
value is `c`: each with the forward segment it came from and its value. -/
theorem IsIndexOf.segment {nf nr : Nat} {fptr find : List Nat} {fval : Option (List α)}
    {r : List Nat × List Nat × Option (List α)} (h : IsIndexOf nf nr fptr find fval r)
    (c : Nat) (hc : c < nr) :
    (List.range' (r.1.getD c 0) (r.1.getD (c + 1) 0 - r.1.getD c 0)).map
        (fun p => (r.2.1.getD p 0, (r.2.2.getD []).getD p 0)) =
      ((fwdEntries nf fptr).filter (fun e => decide (find.getD e.2 0 = c))).map
        (fun e => (e.1, (fval.getD []).getD e.2 0)) := by
  obtain ⟨h1, h2, h3, h4, h5⟩ := h
  rw [h2 c (by omega), h2 (c + 1) (by omega), bucketStart_succ, Nat.add_sub_cancel_left]
  have hk : bucketCount find (fwdEntries nf fptr) c =
      ((fwdEntries nf fptr).filter (fun e => decide (find.getD e.2 0 = c))).length := rfl
  have := map_take_eq_range' ((fwdEntries nf fptr).filter (fun e => decide (find.getD e.2 0 = c)))
    (bucketCount find (fwdEntries nf fptr) c) (bucketStart find (fwdEntries nf fptr) c) (0, 0)
    (fun e => (e.1, (fval.getD []).getD e.2 0))
    (fun p => (r.2.1.getD p 0, (r.2.2.getD []).getD p 0)) (by rw [hk])
    (by
      intro j hj
      dsimp only
      rw [h4 c hc j hj]
      cases fval with
      | none =>
        dsimp only at h5
        rw [h5]
        simp
      | some fv =>
        obtain ⟨rv, e1, e2, e3⟩ := h5
        rw [e1]
        simp only [Option.getD_some]
        rw [e3 c hc j hj])
  rw [this, hk, List.take_length]

theorem IsIndexOf.triples_perm {nf nr : Nat} {fptr find : List Nat} {fval : Option (List α)}
    {r : List Nat × List Nat × Option (List α)} (h : IsIndexOf nf nr fptr find fval r)
    (hcol : ∀ e ∈ fwdEntries nf fptr, find.getD e.2 0 < nr) :
    (colTriples nr r.1 r.2.1 (r.2.2.getD [])).Perm (rowTriples nf fptr find (fval.getD [])) := by
  have e1 : colTriples nr r.1 r.2.1 (r.2.2.getD []) =
      ((List.range nr).flatMap (fun c =>
        (fwdEntries nf fptr).filter (fun e => decide (find.getD e.2 0 = c)))).map
        (fun e => (e.1, find.getD e.2 0, (fval.getD []).getD e.2 0)) := by
    unfold colTriples
    rw [fwdEntries, List.map_flatMap, List.map_flatMap]
    apply List.flatMap_congr
    intro c hc
    rw [List.mem_range] at hc
    have hs := h.segment c hc
    rw [List.map_map]
    have e2 : (List.range' (r.1.getD c 0) (r.1.getD (c + 1) 0 - r.1.getD c 0)).map
        ((fun e : Nat × Nat => (r.2.1.getD e.2 0, e.1, (r.2.2.getD []).getD e.2 0)) ∘
          fun j => (c, j)) =
        ((List.range' (r.1.getD c 0) (r.1.getD (c + 1) 0 - r.1.getD c 0)).map
          (fun p => (r.2.1.getD p 0, (r.2.2.getD []).getD p 0))).map
          (fun x => (x.1, c, x.2)) := by
      rw [List.map_map]
      rfl
    rw [e2, hs, List.map_map]
    apply List.map_congr_left
    intro x hx
    have := (List.mem_filter.mp hx).2
    simp only [decide_eq_true_eq] at this
    simp only [Function.comp, this]
  rw [e1]
  exact (bucket_perm find _ nr hcol).map _

end IndexTriples
section CreateIndexClaims
variable {α : Type} [LinearOrderedField α]

/-- C11: for a matrix whose row view is well-formed (`row_ptr` of length
`nrows + 1`, starting at 0, non-decreasing, ending at `nnz`; column indices below
`ncols`), `da_csr_CreateIndex(mat, DA_COL)` returns a matrix with a column view
such that `col_ptr[0] = 0`, `col_ptr` is non-decreasing, `col_ptr[ncols] = nnz`,
the (row, column, value) triples of the column view are a rearrangement of those
of the row view (values are present in the column view exactly when the row view
has them), and the dimensions and the row view are the ones of the input. -/
theorem da_csr_CreateIndex_col (mat : da_csr_t α) (rp ri : List Nat)
    (h1 : mat.rowptr = some rp) (h2 : mat.rowind = some ri)
    (hwf : WellFormedView mat.nrows mat.ncols rp ri) :
    ∃ m cp ci, da_csr_CreateIndex mat DA_COL = some m ∧
      m.colptr = some cp ∧ m.colind = some ci ∧
      cp.length = mat.ncols + 1 ∧ cp.getD 0 0 = 0 ∧
      (∀ c, c < mat.ncols → cp.getD c 0 ≤ cp.getD (c + 1) 0) ∧
      cp.getD mat.ncols 0 = rp.getD mat.nrows 0 ∧
      ci.length = rp.getD mat.nrows 0 ∧
      m.colval.isSome = mat.rowval.isSome ∧
      (colTriples mat.ncols cp ci (m.colval.getD [])).Perm
        (rowTriples mat.nrows rp ri (mat.rowval.getD [])) ∧
      m.nrows = mat.nrows ∧ m.ncols = mat.ncols ∧
      m.rowptr = mat.rowptr ∧ m.rowind = mat.rowind ∧ m.rowval = mat.rowval := by
  have hs := createIndexView_spec mat.nrows mat.ncols rp ri mat.rowval hwf
  obtain ⟨hcol, hlen⟩ := fwdEntries_wf mat.nrows mat.ncols rp ri hwf
  have hp := hs.triples_perm hcol
  obtain ⟨s1, s2, s3, s4, s5⟩ := hs
  refine ⟨{ mat with
      colptr := some (createIndexView mat.nrows mat.ncols rp ri mat.rowval).1,
      colind := some (createIndexView mat.nrows mat.ncols rp ri mat.rowval).2.1,
      colval := (createIndexView mat.nrows mat.ncols rp ri mat.rowval).2.2 }, _, _, ?_, rfl, rfl,
    ?_, ?_, ?_, ?_, ?_, ?_, ?_, rfl, rfl, rfl, rfl, rfl⟩
  · unfold da_csr_CreateIndex
    rw [if_pos rfl, h1, h2]
    rfl
  · exact s1
  · rw [s2 0 (Nat.zero_le _)]
    rfl
  · intro c hc
    rw [s2 c (by omega), s2 (c + 1) (by omega)]
    exact bucketStart_mono ri _ c (c + 1) (by omega)
  · rw [s2 _ (le_refl _), bucketStart_total ri _ _ hcol, hlen]
  · exact s3
  · show (createIndexView mat.nrows mat.ncols rp ri mat.rowval).2.2.isSome = mat.rowval.isSome
    cases hv : mat.rowval with
    | none =>
      rw [hv] at s5
      dsimp only at s5
      rw [s5]
    | some fv =>
      rw [hv] at s5
      obtain ⟨rv, e, _⟩ := s5
      rw [e]
      rfl
  · exact hp

theorem sampleDocs_wellFormed : WellFormedView sampleDocs.nrows sampleDocs.ncols
    [0, 2, 3, 4] [0, 1, 0, 1] := by
  refine ⟨rfl, rfl, ?_, rfl, ?_⟩
  · intro i hi
    have h3 : i < 3 := hi
    interval_cases i <;> decide
  · intro x hx
    have hx2 : x = 0 ∨ x = 1 := by
      simp only [List.mem_cons, List.mem_singleton, List.not_mem_nil, or_false] at hx
      omega
    rcases hx2 with rfl | rfl <;> decide

/-- Witness of C11 on the 3 x 2 sample matrix. -/
theorem da_csr_CreateIndex_col_witness :
    ∃ m cp ci, da_csr_CreateIndex sampleDocs DA_COL = some m ∧
      m.colptr = some cp ∧ m.colind = some ci ∧
      cp.length = sampleDocs.ncols + 1 ∧ cp.getD 0 0 = 0 ∧
      (∀ c, c < sampleDocs.ncols → cp.getD c 0 ≤ cp.getD (c + 1) 0) ∧
      cp.getD sampleDocs.ncols 0 = [0, 2, 3, 4].getD sampleDocs.nrows 0 ∧
      ci.length = [0, 2, 3, 4].getD sampleDocs.nrows 0 ∧
      m.colval.isSome = sampleDocs.rowval.isSome ∧
      (colTriples sampleDocs.ncols cp ci (m.colval.getD [])).Perm
        (rowTriples sampleDocs.nrows [0, 2, 3, 4] [0, 1, 0, 1] (sampleDocs.rowval.getD [])) ∧
      m.nrows = sampleDocs.nrows ∧ m.ncols = sampleDocs.ncols ∧
      m.rowptr = sampleDocs.rowptr ∧ m.rowind = sampleDocs.rowind ∧
      m.rowval = sampleDocs.rowval :=
  da_csr_CreateIndex_col sampleDocs [0, 2, 3, 4] [0, 1, 0, 1] rfl rfl sampleDocs_wellFormed

end CreateIndexClaims
/-! ## Sorting the indices of a view (`da_csr_SortIndices`) -/

section SortIndicesErrors
variable {α : Type} [LinearOrderedField α]

/-- C14: `da_csr_SortIndices(mat, what)` leaves through `da_errexit` (result
`none`, reached before any assignment to the matrix) exactly when `what` is
`DA_ROW` and `rowptr` is absent, or `what` is `DA_COL` and `colptr` is absent, or
`what` is neither of the two; so with the requested view present it returns a
matrix. -/
theorem da_csr_SortIndices_error_iff (mat : da_csr_t α) (what : Nat) :
    da_csr_SortIndices mat what = none ↔
      (what = DA_ROW ∧ mat.rowptr = none) ∨ (what = DA_COL ∧ mat.colptr = none) ∨
        (what ≠ DA_ROW ∧ what ≠ DA_COL) := by
  unfold da_csr_SortIndices
  by_cases h1 : what = DA_ROW
  · rw [if_pos h1]
    have h2 : what ≠ DA_COL := by rw [h1]; decide
    cases hp : mat.rowptr with
    | none => simp [h1]
    | some p =>
      have h3 : DA_ROW ≠ DA_COL := by decide
      simp [h1, h3]
  · rw [if_neg h1]
    by_cases h2 : what = DA_COL
    · rw [if_pos h2]
      cases hp : mat.colptr with
      | none => simp [h2]
      | some p =>
        have h3 : DA_COL ≠ DA_ROW := by decide
        simp [h2, h3]
    · rw [if_neg h2]
      simp [h1, h2]

end SortIndicesErrors
section SortIndicesRows
variable {α : Type} [LinearOrderedField α]

/-- A loop that writes `g j` at every position `j` of `[s, s + len)`. -/
theorem forLoop_set_spec {β : Type} (g : Nat → β) (d : β) (len s : Nat) (a : List β) :
    (forLoop (fun j (a : List β) => a.set j (g j)) len s a).length = a.length ∧
      ∀ j, (forLoop (fun j (a : List β) => a.set j (g j)) len s a).getD j d =
        if s ≤ j ∧ j < s + len ∧ j < a.length then g j else a.getD j d := by
  have key := forLoop_invariant (fun t (cur : List β) => cur.length = a.length ∧
      ∀ j, cur.getD j d = if s ≤ j ∧ j < s + t ∧ j < a.length then g j else a.getD j d)
    (fun j (a : List β) => a.set j (g j)) s a len
    (by
      refine ⟨rfl, ?_⟩
      intro j
      rw [if_neg (by omega)])
    (by
      intro t cur ht ⟨h1, h2⟩
      refine ⟨by simpa using h1, ?_⟩
      intro j
      rw [getD_set_eq, h1]
      by_cases hj : s + t = j
      · by_cases hl : j < a.length
        · rw [if_pos ⟨hj, by omega⟩, if_pos ⟨by omega, by omega, hl⟩, hj]
        · rw [if_neg (by omega), h2 j, if_neg (by omega), if_neg (by omega)]
      · rw [if_neg (fun h => hj h.1), h2 j]
        by_cases hc : s ≤ j ∧ j < s + t ∧ j < a.length
        · rw [if_pos hc, if_pos ⟨hc.1, by omega, hc.2.2⟩]
        · rw [if_neg hc, if_neg (by omega)])
  exact key

/-- The scan of one row in `da_csr_SortIndices`: `cand[u] = (u, ind[s+u])`,
`tval[u] = val[s+u]`, and the flag tells whether an inversion was met. -/
theorem sortScan_spec (ind : List Nat) (val : Option (List α)) (s len : Nat)
    (cand : List da_pikv_t) (tval : List α) (hc : len ≤ cand.length) (ht : len ≤ tval.length) :
    ∀ r, r = forLoop (fun j (c : Bool × List da_pikv_t × List α) =>
        ((if j > s ∧ ind.getD j 0 < ind.getD (j - 1) 0 then true else c.1),
          c.2.1.set (j - s) ⟨j - s, ind.getD j 0⟩,
          match val with
          | some v => c.2.2.set (j - s) (v.getD j 0)
          | none => c.2.2)) len s (false, cand, tval) →
      r.2.1.length = cand.length ∧ r.2.2.length = tval.length ∧
      (∀ u, u < len → r.2.1.getD u default = ⟨u, ind.getD (s + u) 0⟩) ∧
      (∀ v, val = some v → ∀ u, u < len → r.2.2.getD u 0 = v.getD (s + u) 0) ∧
      (r.1 = true ↔ ∃ j, s < j ∧ j < s + len ∧ ind.getD j 0 < ind.getD (j - 1) 0) := by
  have key := forLoop_invariant (fun t (c : Bool × List da_pikv_t × List α) =>
      c.2.1.length = cand.length ∧ c.2.2.length = tval.length ∧
      (∀ u, u < t → c.2.1.getD u default = ⟨u, ind.getD (s + u) 0⟩) ∧
      (∀ v, val = some v → ∀ u, u < t → c.2.2.getD u 0 = v.getD (s + u) 0) ∧
      (c.1 = true ↔ ∃ j, s < j ∧ j < s + t ∧ ind.getD j 0 < ind.getD (j - 1) 0))
    (fun j (c : Bool × List da_pikv_t × List α) =>
        ((if j > s ∧ ind.getD j 0 < ind.getD (j - 1) 0 then true else c.1),
          c.2.1.set (j - s) ⟨j - s, ind.getD j 0⟩,
          match val with
          | some v => c.2.2.set (j - s) (v.getD j 0)
          | none => c.2.2)) s (false, cand, tval) len
    (by
      refine ⟨rfl, rfl, ?_, ?_, ?_⟩
      · intro u hu; omega
      · intro v _ u hu; omega
      · constructor
        · intro h; cases h
        · rintro ⟨j, h1, h2, _⟩; omega)
    (by
      intro t c ht2 ⟨h1, h2, h3, h4, h5⟩
      have e : s + t - s = t := by omega
      refine ⟨?_, ?_, ?_, ?_, ?_⟩
      · dsimp only
        rw [List.length_set]; exact h1
      · dsimp only
        cases val with
        | none => exact h2
        | some v => dsimp only; rw [List.length_set]; exact h2
      · intro u hu
        dsimp only
        rw [getD_set_eq, e]
        by_cases hut : t = u
        · rw [if_pos ⟨hut, by omega⟩, hut]
        · rw [if_neg (fun h => hut h.1)]
          exact h3 u (by omega)
      · intro v hv u hu
        subst hv
        dsimp only
        rw [getD_set_eq, e]
        by_cases hut : t = u
        · rw [if_pos ⟨hut, by omega⟩, hut]
        · rw [if_neg (fun h => hut h.1)]
          exact h4 v rfl u (by omega)
      · dsimp only
        by_cases hinv : s + t > s ∧ ind.getD (s + t) 0 < ind.getD (s + t - 1) 0
        · rw [if_pos hinv]
          simp only [true_iff]
          exact ⟨s + t, hinv.1, by omega, hinv.2⟩
        · rw [if_neg hinv, h5]
          constructor
          · rintro ⟨j, a1, a2, a3⟩
            exact ⟨j, a1, by omega, a3⟩
          · rintro ⟨j, a1, a2, a3⟩
            by_cases hjt : j = s + t
            · subst hjt
              exact absurd ⟨a1, a3⟩ hinv
            · exact ⟨j, a1, by omega, a3⟩)
  intro r hr
  rw [hr]
  exact key

end SortIndicesRows
section SortIndicesRow2
variable {α : Type} [LinearOrderedField α]

theorem sorted_range_of_adjacent (f : Nat → Nat) (s len : Nat)
    (h : ∀ j, s < j → j < s + len → f (j - 1) ≤ f j) :
    ((List.range' s len).map f).Sorted (· ≤ ·) := by
  have mono : ∀ b a, s ≤ a → a ≤ b → b < s + len → f a ≤ f b := by
    intro b
    induction b with
    | zero =>
      intro a h1 h2 _
      have : a = 0 := by omega
      rw [this]
    | succ b ih =>
      intro a h1 h2 h3
      by_cases hab : a = b + 1
      · rw [hab]
      · have := h (b + 1) (by omega) h3
        simp only [Nat.add_sub_cancel] at this
        exact le_trans (ih a h1 (by omega) (by omega)) this
  unfold List.Sorted
  rw [List.pairwise_iff_getElem]
  intro i j hi hj hij
  simp only [List.length_map, List.length_range'] at hi hj
  simp only [List.getElem_map, List.getElem_range', Nat.one_mul]
  exact mono _ _ (by omega) (by omega) (by omega)

theorem adjacent_of_sorted_range (f : Nat → Nat) (s len : Nat)
    (h : ((List.range' s len).map f).Sorted (· ≤ ·)) :
    ∀ j, s < j → j < s + len → f (j - 1) ≤ f j := by
  intro j h1 h2
  unfold List.Sorted at h
  rw [List.pairwise_iff_getElem] at h
  have := h (j - 1 - s) (j - s) (by simp; omega) (by simp; omega) (by omega)
  simp only [List.getElem_map, List.getElem_range', Nat.one_mul] at this
  have e1 : s + (j - 1 - s) = j - 1 := by omega
  have e2 : s + (j - s) = j := by omega
  rw [e1, e2] at this
  exact this

theorem outRow_fst (ptr ind : List Nat) (val : List α) (i : Nat) :
    (outRow ptr ind val i).map Prod.fst =
      (List.range' (ptr.getD i 0) (ptr.getD (i + 1) 0 - ptr.getD i 0)).map
        (fun j => ind.getD j 0) := by
  unfold outRow
  rw [List.map_map]
  rfl

theorem range'_eq_map_add (s len : Nat) :
    List.range' s len = (List.range len).map (fun u => s + u) := by
  apply List.ext_getElem
  · simp
  · intro n h1 h2
    simp

end SortIndicesRow2
section SortIndicesRow3
variable {α : Type} [LinearOrderedField α]

/-- Effect of one iteration of the row loop of `da_csr_SortIndices`. -/
theorem sortIndicesRow_spec (ptr : List Nat) (i : Nat) (st : SortIdxState α) (L : Nat)
    (hs : ptr.getD i 0 ≤ ptr.getD (i + 1) 0) (hL : ptr.getD (i + 1) 0 ≤ L)
    (h1 : st.ind.length = L) (h2 : ∀ v, st.val = some v → v.length = L)
    (h3 : ptr.getD (i + 1) 0 - ptr.getD i 0 ≤ st.cand.length)
    (h4 : ptr.getD (i + 1) 0 - ptr.getD i 0 ≤ st.tval.length) :
    (sortIndicesRow ptr i st).ind.length = L ∧
    (sortIndicesRow ptr i st).val.isSome = st.val.isSome ∧
    (∀ v, (sortIndicesRow ptr i st).val = some v → v.length = L) ∧
    (sortIndicesRow ptr i st).cand.length = st.cand.length ∧
    (sortIndicesRow ptr i st).tval.length = st.tval.length ∧
    (∀ j, j < ptr.getD i 0 ∨ ptr.getD (i + 1) 0 ≤ j →
      (sortIndicesRow ptr i st).ind.getD j 0 = st.ind.getD j 0 ∧
      ((sortIndicesRow ptr i st).val.getD []).getD j 0 = (st.val.getD []).getD j 0) ∧
    ((outRow ptr (sortIndicesRow ptr i st).ind ((sortIndicesRow ptr i st).val.getD []) i).map
      Prod.fst).Sorted (· ≤ ·) ∧
    (outRow ptr (sortIndicesRow ptr i st).ind ((sortIndicesRow ptr i st).val.getD []) i).Perm
      (outRow ptr st.ind (st.val.getD []) i) ∧
    (((outRow ptr st.ind (st.val.getD []) i).map Prod.fst).Sorted (· ≤ ·) →
      (sortIndicesRow ptr i st).ind = st.ind ∧ (sortIndicesRow ptr i st).val = st.val) := by
  have hsl : ptr.getD i 0 + (ptr.getD (i + 1) 0 - ptr.getD i 0) = ptr.getD (i + 1) 0 := by omega
  obtain ⟨q1, q2, q3, q4, q5⟩ := sortScan_spec st.ind st.val (ptr.getD i 0)
    (ptr.getD (i + 1) 0 - ptr.getD i 0) st.cand st.tval h3 h4 _ rfl
  rw [hsl] at q5
  unfold sortIndicesRow
  dsimp only
  generalize hsc : forLoop _ (ptr.getD (i + 1) 0 - ptr.getD i 0) (ptr.getD i 0)
    (false, st.cand, st.tval) = scan at q1 q2 q3 q4 q5 ⊢
  by_cases hk : scan.1 = true
  · rw [if_pos hk]
    dsimp only
    obtain ⟨jinv, a1, a2, a3⟩ := q5.mp hk
    -- the sorted candidates
    have hC0 : scan.2.1.take (ptr.getD (i + 1) 0 - ptr.getD i 0) =
        (List.range (ptr.getD (i + 1) 0 - ptr.getD i 0)).map
          (fun u => (⟨u, st.ind.getD (ptr.getD i 0 + u) 0⟩ : da_pikv_t)) := by
      apply List.ext_getElem
      · rw [List.length_take, List.length_map, List.length_range, q1]
        exact Nat.min_eq_left h3
      · intro n e1 e2
        simp only [List.length_map, List.length_range] at e2
        simp only [List.getElem_take, List.getElem_map, List.getElem_range]
        have := q3 n e2
        rw [List.getD_eq_getElem?_getD, List.getElem?_eq_getElem (by omega)] at this
        exact this
    have hlen0 : (scan.2.1.take (ptr.getD (i + 1) 0 - ptr.getD i 0)).length =
        ptr.getD (i + 1) 0 - ptr.getD i 0 := by
      rw [List.length_take, q1]
      exact Nat.min_eq_left h3
    have hperm := List.perm_insertionSort
      (fun a b : da_pikv_t => decide (b.val < a.val) = false)
      (scan.2.1.take (ptr.getD (i + 1) 0 - ptr.getD i 0))
    have : IsTotal da_pikv_t (fun a b => decide (b.val < a.val) = false) :=
      ⟨fun a b => by
        simp only [decide_eq_false_iff_not, not_lt]
        exact le_total _ _⟩
    have : IsTrans da_pikv_t (fun a b => decide (b.val < a.val) = false) :=
      ⟨fun a b c h1 h2 => by
        simp only [decide_eq_false_iff_not, not_lt] at h1 h2 ⊢
        exact le_trans h1 h2⟩
    have hsorted := List.sorted_insertionSort
      (fun a b : da_pikv_t => decide (b.val < a.val) = false)
      (scan.2.1.take (ptr.getD (i + 1) 0 - ptr.getD i 0))
    have hSlen := List.length_insertionSort
      (fun a b : da_pikv_t => decide (b.val < a.val) = false)
      (scan.2.1.take (ptr.getD (i + 1) 0 - ptr.getD i 0))
    rw [hlen0] at hSlen
    have hcd : da_pikvsorti (ptr.getD (i + 1) 0 - ptr.getD i 0) scan.2.1 =
        (scan.2.1.take (ptr.getD (i + 1) 0 - ptr.getD i 0)).insertionSort
          (fun a b : da_pikv_t => decide (b.val < a.val) = false) ++
          scan.2.1.drop (ptr.getD (i + 1) 0 - ptr.getD i 0) := rfl
    rw [hcd]
    rw [hC0] at hperm hsorted hSlen ⊢
    generalize ((List.range (ptr.getD (i + 1) 0 - ptr.getD i 0)).map
      (fun u => (⟨u, st.ind.getD (ptr.getD i 0 + u) 0⟩ : da_pikv_t))).insertionSort
      (fun a b : da_pikv_t => decide (b.val < a.val) = false) = S at hperm hsorted hSlen ⊢
    have hc2 : ∀ u, u < ptr.getD (i + 1) 0 - ptr.getD i 0 →
        (S ++ scan.2.1.drop (ptr.getD (i + 1) 0 - ptr.getD i 0)).getD u default =
          S.getD u default := by
      intro u hu
      rw [List.getD_append _ _ _ _ (by omega)]
    have hkeys : ∀ c ∈ S, c.key < ptr.getD (i + 1) 0 - ptr.getD i 0 := by
      intro c hc
      have := hperm.subset hc
      rw [List.mem_map] at this
      obtain ⟨u, hu, rfl⟩ := this
      exact List.mem_range.mp hu
    obtain ⟨f1, f2⟩ := forLoop_set_spec
      (fun j => ((S ++ scan.2.1.drop (ptr.getD (i + 1) 0 - ptr.getD i 0)).getD
        (j - ptr.getD i 0) default).val) 0
      (ptr.getD (i + 1) 0 - ptr.getD i 0) (ptr.getD i 0) st.ind
    have g12 : ∀ v : List α, (forLoop (fun j (a : List α) => a.set j (scan.2.2.getD
          ((S ++ scan.2.1.drop (ptr.getD (i + 1) 0 - ptr.getD i 0)).getD
            (j - ptr.getD i 0) default).key 0))
        (ptr.getD (i + 1) 0 - ptr.getD i 0) (ptr.getD i 0) v).length = v.length ∧
        ∀ j, (forLoop (fun j (a : List α) => a.set j (scan.2.2.getD
          ((S ++ scan.2.1.drop (ptr.getD (i + 1) 0 - ptr.getD i 0)).getD
            (j - ptr.getD i 0) default).key 0))
        (ptr.getD (i + 1) 0 - ptr.getD i 0) (ptr.getD i 0) v).getD j 0 =
          if ptr.getD i 0 ≤ j ∧ j < ptr.getD i 0 + (ptr.getD (i + 1) 0 - ptr.getD i 0) ∧
              j < v.length then
            scan.2.2.getD ((S ++ scan.2.1.drop (ptr.getD (i + 1) 0 - ptr.getD i 0)).getD
              (j - ptr.getD i 0) default).key 0
          else v.getD j 0 := fun v => forLoop_set_spec
      (fun j => scan.2.2.getD ((S ++ scan.2.1.drop (ptr.getD (i + 1) 0 - ptr.getD i 0)).getD
        (j - ptr.getD i 0) default).key 0) 0
      (ptr.getD (i + 1) 0 - ptr.getD i 0) (ptr.getD i 0) v
    have hrow : outRow ptr st.ind (st.val.getD []) i =
        ((List.range (ptr.getD (i + 1) 0 - ptr.getD i 0)).map
          (fun u => (⟨u, st.ind.getD (ptr.getD i 0 + u) 0⟩ : da_pikv_t))).map
          (fun c => (c.val, (st.val.getD []).getD (ptr.getD i 0 + c.key) 0)) := by
      unfold outRow
      rw [range'_eq_map_add, List.map_map, List.map_map]
      rfl
    have hrow2 : outRow ptr
        (forLoop (fun j (a : List Nat) => a.set j
          ((S ++ scan.2.1.drop (ptr.getD (i + 1) 0 - ptr.getD i 0)).getD
            (j - ptr.getD i 0) default).val)
          (ptr.getD (i + 1) 0 - ptr.getD i 0) (ptr.getD i 0) st.ind)
        ((st.val.map (fun v => forLoop (fun j (a : List α) => a.set j (scan.2.2.getD
          ((S ++ scan.2.1.drop (ptr.getD (i + 1) 0 - ptr.getD i 0)).getD
            (j - ptr.getD i 0) default).key 0))
          (ptr.getD (i + 1) 0 - ptr.getD i 0) (ptr.getD i 0) v)).getD []) i =
        S.map (fun c => (c.val, (st.val.getD []).getD (ptr.getD i 0 + c.key) 0)) := by
      unfold outRow
      have := map_take_eq_range' S (ptr.getD (i + 1) 0 - ptr.getD i 0) (ptr.getD i 0) default
        (fun c => (c.val, (st.val.getD []).getD (ptr.getD i 0 + c.key) 0))
        (fun j => ((forLoop (fun j (a : List Nat) => a.set j
          ((S ++ scan.2.1.drop (ptr.getD (i + 1) 0 - ptr.getD i 0)).getD
            (j - ptr.getD i 0) default).val)
          (ptr.getD (i + 1) 0 - ptr.getD i 0) (ptr.getD i 0) st.ind).getD j 0,
          ((st.val.map (fun v => forLoop (fun j (a : List α) => a.set j (scan.2.2.getD
          ((S ++ scan.2.1.drop (ptr.getD (i + 1) 0 - ptr.getD i 0)).getD
            (j - ptr.getD i 0) default).key 0))
          (ptr.getD (i + 1) 0 - ptr.getD i 0) (ptr.getD i 0) v)).getD []).getD j 0))
        (by omega)
        (by
          intro j hj
          have e : ptr.getD i 0 + j - ptr.getD i 0 = j := by omega
          have hmem : S.getD j default ∈ S := by
            rw [List.getD_eq_getElem?_getD, List.getElem?_eq_getElem (by omega)]
            exact List.getElem_mem _
          apply Prod.ext
          · show (forLoop _ _ _ st.ind).getD _ 0 = _
            rw [f2, if_pos ⟨by omega, by omega, by omega⟩]
            dsimp only
            rw [e, hc2 j hj]
          · dsimp only
            cases hv : st.val with
            | none => simp
            | some v =>
              simp only [Option.map_some', Option.getD_some]
              rw [(g12 v).2, if_pos ⟨by omega, by omega, by rw [h2 v hv]; omega⟩, e, hc2 j hj,
                q4 v hv _ (hkeys _ hmem)])
      rw [this, ← hSlen, List.take_length]
    refine ⟨by rw [f1]; exact h1, ?_, ?_, ?_, q2, ?_, ?_, ?_, ?_⟩
    · cases st.val <;> rfl
    · intro v hv
      cases hv2 : st.val with
      | none => rw [hv2] at hv; simp at hv
      | some w =>
        rw [hv2] at hv
        simp only [Option.map_some', Option.some.injEq] at hv
        rw [← hv, (g12 w).1]
        exact h2 w hv2
    · rw [List.length_append, List.length_drop, hSlen, q1]
      omega
    · intro j hj
      constructor
      · rw [f2, if_neg (by omega)]
      · cases hv2 : st.val with
        | none => rfl
        | some w =>
          simp only [Option.map_some', Option.getD_some]
          rw [(g12 w).2, if_neg (by omega)]
    · rw [hrow2, List.map_map]
      have : (S.map ((Prod.fst : Nat × α → Nat) ∘
          fun c => (c.val, (st.val.getD []).getD (ptr.getD i 0 + c.key) 0))) =
          S.map (fun c => c.val) := rfl
      rw [this]
      unfold List.Sorted at hsorted ⊢
      rw [List.pairwise_map]
      apply hsorted.imp
      intro a b hab
      simpa using hab
    · rw [hrow2, hrow]
      exact hperm.map _
    · intro hso
      rw [outRow_fst] at hso
      have := adjacent_of_sorted_range (fun j => st.ind.getD j 0) _ _ hso jinv a1 (by omega)
      dsimp only at this
      omega
  · rw [if_neg hk]
    dsimp only
    have hno : ∀ j, ptr.getD i 0 < j → j < ptr.getD (i + 1) 0 →
        st.ind.getD (j - 1) 0 ≤ st.ind.getD j 0 := by
      intro j b1 b2
      by_contra hc
      exact hk (q5.mpr ⟨j, b1, b2, by omega⟩)
    refine ⟨h1, rfl, h2, q1, q2, fun j _ => ⟨rfl, rfl⟩, ?_, List.Perm.refl _, fun _ => ⟨rfl, rfl⟩⟩
    rw [outRow_fst]
    apply sorted_range_of_adjacent
    intro j b1 b2
    exact hno j b1 (by omega)

end SortIndicesRow3
section SortIndicesView
variable {α : Type} [LinearOrderedField α]

theorem ptr_mono (ptr : List Nat) (n : Nat) (hmono : ∀ i, i < n → ptr.getD i 0 ≤ ptr.getD (i + 1) 0) :
    ∀ b a, a ≤ b → b ≤ n → ptr.getD a 0 ≤ ptr.getD b 0 := by
  intro b
  induction b with
  | zero =>
    intro a h1 _
    have : a = 0 := by omega
    rw [this]
  | succ b ih =>
    intro a h1 h2
    by_cases hab : a = b + 1
    · rw [hab]
    · exact le_trans (ih a (by omega) (by omega)) (hmono b (by omega))

theorem outRow_congr_seg (p : List Nat) (i1 i2 : List Nat) (v1 v2 : List α) (i : Nat)
    (hv : ∀ j, p.getD i 0 ≤ j → j < p.getD (i + 1) 0 →
      i1.getD j 0 = i2.getD j 0 ∧ v1.getD j 0 = v2.getD j 0) :
    outRow p i1 v1 i = outRow p i2 v2 i := by
  unfold outRow
  apply List.map_congr_left
  intro j hj
  rw [List.mem_range'_1] at hj
  have := hv j hj.1 (by omega)
  rw [this.1, this.2]

theorem maxRowLen_spec (ptr : List Nat) (n : Nat) :
    ∀ i, i < n → ptr.getD (i + 1) 0 - ptr.getD i 0 ≤
      forLoop (fun i (nn : Nat) =>
        if nn ≥ ptr.getD (i + 1) 0 - ptr.getD i 0 then nn
        else ptr.getD (i + 1) 0 - ptr.getD i 0) n 0 0 := by
  have key := forLoop_invariant (fun t (nn : Nat) =>
      ∀ i, i < t → ptr.getD (i + 1) 0 - ptr.getD i 0 ≤ nn)
    (fun i (nn : Nat) =>
        if nn ≥ ptr.getD (i + 1) 0 - ptr.getD i 0 then nn
        else ptr.getD (i + 1) 0 - ptr.getD i 0) 0 0 n
    (by intro i hi; omega)
    (by
      intro t nn ht h i hi
      simp only [Nat.zero_add]
      by_cases hit : i = t
      · subst hit
        split_ifs with hc
        · exact hc
        · exact le_refl _
      · have := h i (by omega)
        split_ifs with hc
        · exact this
        · omega)
  exact key

/-- The row loop of `da_csr_SortIndices` on a view whose pointer array is
non-decreasing and stays within the index array: every row ends sorted by index,
with the pairs it had, and a row that was sorted keeps its arrays. -/
theorem sortIndicesView_spec (n : Nat) (ptr ind : List Nat) (val : Option (List α))
    (hmono : ∀ i, i < n → ptr.getD i 0 ≤ ptr.getD (i + 1) 0)
    (hlen : ptr.getD n 0 ≤ ind.length) (hval : ∀ v, val = some v → v.length = ind.length) :
    (sortIndicesView n ptr ind val).1.length = ind.length ∧
    (sortIndicesView n ptr ind val).2.isSome = val.isSome ∧
    (∀ v, (sortIndicesView n ptr ind val).2 = some v → v.length = ind.length) ∧
    ∀ i, i < n →
      ((outRow ptr (sortIndicesView n ptr ind val).1
        ((sortIndicesView n ptr ind val).2.getD []) i).map Prod.fst).Sorted (· ≤ ·) ∧
      (outRow ptr (sortIndicesView n ptr ind val).1
        ((sortIndicesView n ptr ind val).2.getD []) i).Perm (outRow ptr ind (val.getD []) i) ∧
      (((outRow ptr ind (val.getD []) i).map Prod.fst).Sorted (· ≤ ·) →
        outRow ptr (sortIndicesView n ptr ind val).1
          ((sortIndicesView n ptr ind val).2.getD []) i = outRow ptr ind (val.getD []) i) := by
  have hnn := maxRowLen_spec ptr n
  unfold sortIndicesView
  dsimp only
  generalize forLoop (fun i (nn : Nat) =>
        if nn ≥ ptr.getD (i + 1) 0 - ptr.getD i 0 then nn
        else ptr.getD (i + 1) 0 - ptr.getD i 0) n 0 0 = nn at hnn ⊢
  have key := forLoop_invariant (fun t (st : SortIdxState α) =>
      st.ind.length = ind.length ∧ st.val.isSome = val.isSome ∧
      (∀ v, st.val = some v → v.length = ind.length) ∧
      st.cand.length = nn ∧ st.tval.length = nn ∧
      (∀ j, ptr.getD t 0 ≤ j →
        st.ind.getD j 0 = ind.getD j 0 ∧ (st.val.getD []).getD j 0 = (val.getD []).getD j 0) ∧
      ∀ i, i < t →
        ((outRow ptr st.ind (st.val.getD []) i).map Prod.fst).Sorted (· ≤ ·) ∧
        (outRow ptr st.ind (st.val.getD []) i).Perm (outRow ptr ind (val.getD []) i) ∧
        (((outRow ptr ind (val.getD []) i).map Prod.fst).Sorted (· ≤ ·) →
          outRow ptr st.ind (st.val.getD []) i = outRow ptr ind (val.getD []) i))
    (sortIndicesRow ptr) 0
    { ind := ind, val := val, cand := List.replicate nn default, tval := List.replicate nn 0 } n
    (by
      refine ⟨rfl, rfl, hval, by simp, by simp, fun j _ => ⟨rfl, rfl⟩, ?_⟩
      intro i hi; omega)
    (by
      intro t st ht ⟨a1, a2, a3, a4, a5, a6, a7⟩
      simp only [Nat.zero_add]
      have hL : ptr.getD (t + 1) 0 ≤ ind.length :=
        le_trans (ptr_mono ptr n hmono n (t + 1) (by omega) (le_refl _)) hlen
      obtain ⟨b1, b2, b3, b4, b5, b6, b7, b8, b9⟩ := sortIndicesRow_spec ptr t st ind.length
        (hmono t ht) hL a1 a3 (by rw [a4]; exact hnn t ht) (by rw [a5]; exact hnn t ht)
      have hrow : outRow ptr st.ind (st.val.getD []) t = outRow ptr ind (val.getD []) t :=
        outRow_congr_seg ptr _ _ _ _ t (fun j h1 _ => a6 j h1)
      refine ⟨b1, by rw [b2, a2], b3, by rw [b4, a4], by rw [b5, a5], ?_, ?_⟩
      · intro j hj
        have := b6 j (Or.inr hj)
        have h2 := a6 j (le_trans (hmono t ht) hj)
        exact ⟨this.1.trans h2.1, this.2.trans h2.2⟩
      · intro i hi
        by_cases hit : i = t
        · subst hit
          refine ⟨b7, by rw [← hrow]; exact b8, ?_⟩
          intro hso
          rw [← hrow] at hso
          obtain ⟨e1, e2⟩ := b9 hso
          rw [e1, e2, hrow]
        · have hlt : i < t := by omega
          have hrow2 : outRow ptr (sortIndicesRow ptr t st).ind
              ((sortIndicesRow ptr t st).val.getD []) i = outRow ptr st.ind (st.val.getD []) i :=
            outRow_congr_seg ptr _ _ _ _ i (fun j _ h2 => b6 j (Or.inl
              (lt_of_lt_of_le h2 (ptr_mono ptr n hmono t (i + 1) (by omega) (by omega)))))
          rw [hrow2]
          exact a7 i hlt)
  obtain ⟨k1, k2, k3, _, _, _, k7⟩ := key
  exact ⟨k1, k2, k3, k7⟩

end SortIndicesView
section SortIndicesClaim
variable {α : Type} [LinearOrderedField α]

/-- C13: for a matrix holding the view `(n, ptr, ind, val)` requested by `what`
(pointer array non-decreasing and within the index array, values as long as the
indices when present), `da_csr_SortIndices(mat, what)` returns a matrix whose
requested view has the same dimension and pointer array, and in which every row
(or column) `i < n` has its indices in non-decreasing order, holds a
rearrangement of the (index, value) pairs it had, and is exactly the old row
when the old row was already in non-decreasing order. -/
theorem da_csr_SortIndices_sorts (mat : da_csr_t α) (what n : Nat) (ptr ind : List Nat)
    (val : Option (List α)) (hw : what = DA_ROW ∨ what = DA_COL)
    (hv : viewOf mat what = (n, some ptr, some ind, val))
    (hmono : ∀ i, i < n → ptr.getD i 0 ≤ ptr.getD (i + 1) 0)
    (hlen : ptr.getD n 0 ≤ ind.length) (hval : ∀ v, val = some v → v.length = ind.length) :
    ∃ m ind2 val2, da_csr_SortIndices mat what = some m ∧
      viewOf m what = (n, some ptr, some ind2, val2) ∧ val2.isSome = val.isSome ∧
      ∀ i, i < n →
        ((outRow ptr ind2 (val2.getD []) i).map Prod.fst).Sorted (· ≤ ·) ∧
        (outRow ptr ind2 (val2.getD []) i).Perm (outRow ptr ind (val.getD []) i) ∧
        (((outRow ptr ind (val.getD []) i).map Prod.fst).Sorted (· ≤ ·) →
          outRow ptr ind2 (val2.getD []) i = outRow ptr ind (val.getD []) i) := by
  obtain ⟨s1, s2, s3, s4⟩ := sortIndicesView_spec n ptr ind val hmono hlen hval
  have hne : DA_COL ≠ DA_ROW := by decide
  rcases hw with rfl | rfl
  · unfold viewOf at hv
    rw [if_pos rfl] at hv
    simp only [Prod.mk.injEq] at hv
    obtain ⟨e1, e2, e3, e4⟩ := hv
    refine ⟨{ mat with rowind := mat.rowind.map (fun _ => (sortIndicesView n ptr ind val).1),
                       rowval := (sortIndicesView n ptr ind val).2 },
      (sortIndicesView n ptr ind val).1, (sortIndicesView n ptr ind val).2, ?_, ?_, s2, s4⟩
    · unfold da_csr_SortIndices
      rw [if_pos rfl, e2, e3, e4, e1]
      rfl
    · unfold viewOf
      rw [if_pos rfl]
      simp only [e1, e2, e3, Option.map_some']
  · unfold viewOf at hv
    rw [if_neg hne] at hv
    simp only [Prod.mk.injEq] at hv
    obtain ⟨e1, e2, e3, e4⟩ := hv
    refine ⟨{ mat with colind := mat.colind.map (fun _ => (sortIndicesView n ptr ind val).1),
                       colval := (sortIndicesView n ptr ind val).2 },
      (sortIndicesView n ptr ind val).1, (sortIndicesView n ptr ind val).2, ?_, ?_, s2, s4⟩
    · unfold da_csr_SortIndices
      rw [if_neg hne, if_pos rfl, e2, e3, e4, e1]
      rfl
    · unfold viewOf
      rw [if_neg hne]
      simp only [e1, e2, e3, Option.map_some']

/-- Witness of C13 on the 2 x 2 sample matrix whose first row is out of order. -/
theorem da_csr_SortIndices_sorts_witness :
    ∃ m ind2 val2, da_csr_SortIndices shuffledDocs DA_ROW = some m ∧
      viewOf m DA_ROW = (2, some [0, 2, 3], some ind2, val2) ∧
      val2.isSome = (some [(2 : ℚ), 1, 3]).isSome ∧
      ∀ i, i < 2 →
        ((outRow [0, 2, 3] ind2 (val2.getD []) i).map Prod.fst).Sorted (· ≤ ·) ∧
        (outRow [0, 2, 3] ind2 (val2.getD []) i).Perm
          (outRow [0, 2, 3] [1, 0, 0] ((some [(2 : ℚ), 1, 3]).getD []) i) ∧
        (((outRow [0, 2, 3] [1, 0, 0] ((some [(2 : ℚ), 1, 3]).getD []) i).map
            Prod.fst).Sorted (· ≤ ·) →
          outRow [0, 2, 3] ind2 (val2.getD []) i =
            outRow [0, 2, 3] [1, 0, 0] ((some [(2 : ℚ), 1, 3]).getD []) i) :=
  da_csr_SortIndices_sorts shuffledDocs DA_ROW 2 [0, 2, 3] [1, 0, 0] (some [2, 1, 3])
    (Or.inl rfl) rfl
    (by intro i hi; interval_cases i <;> decide)
    (by decide) (by intro v hv; cases hv; rfl)

end SortIndicesClaim
/-! ## IDF scaling (`da_csr_Scale`) -/

section ScaleSpec
variable {α : Type} [LinearOrderedField α]

/-- A fold that multiplies position `p` by `g p` once for every `p` of a list
without repetition. -/
theorem scaleFold_spec (g : Nat → α) : ∀ (P : List Nat) (rv : List α), P.Nodup →
    (P.foldl (fun (rv : List α) p => rv.set p (rv.getD p 0 * g p)) rv).length = rv.length ∧
    ∀ j, (P.foldl (fun (rv : List α) p => rv.set p (rv.getD p 0 * g p)) rv).getD j 0 =
      if j ∈ P then rv.getD j 0 * g j else rv.getD j 0
  | [], rv, _ => by simp
  | p :: P, rv, hnd => by
    rw [List.nodup_cons] at hnd
    obtain ⟨h1, h2⟩ := scaleFold_spec g P (rv.set p (rv.getD p 0 * g p)) hnd.2
    rw [List.foldl_cons]
    refine ⟨by rw [h1, List.length_set], ?_⟩
    intro j
    rw [h2 j]
    by_cases hjp : p = j
    · subst hjp
      rw [if_neg hnd.1, if_pos (List.mem_cons_self _ _), getD_set_eq]
      by_cases hl : p < rv.length
      · rw [if_pos ⟨rfl, hl⟩]
      · rw [if_neg (fun h => hl h.2), List.getD_eq_default _ _ (by omega), zero_mul]
    · have hX : (rv.set p (rv.getD p 0 * g p)).getD j 0 = rv.getD j 0 := by
        rw [getD_set_eq, if_neg (fun h => hjp h.1)]
      rw [hX]
      by_cases hm : j ∈ P
      · rw [if_pos hm, if_pos (List.mem_cons_of_mem _ hm)]
      · rw [if_neg hm, if_neg (by
          intro h
          rcases List.mem_cons.mp h with h | h
          · exact hjp h.symm
          · exact hm h)]

/-- The number of forward entries with index value `c` is the number of
occurrences of `c` in the index array of a well-formed view. -/
theorem bucketCount_eq_count (nf nr : Nat) (fptr find : List Nat)
    (h : WellFormedView nf nr fptr find) (c : Nat) :
    bucketCount find (fwdEntries nf fptr) c = find.count c := by
  obtain ⟨_, h0, hm, hl, _⟩ := h
  have hp := fwdEntries_positions nf fptr h0 hm
  unfold bucketCount
  have e1 : ((fwdEntries nf fptr).filter (fun e => decide (find.getD e.2 0 = c))).length =
      (((fwdEntries nf fptr).map Prod.snd).filter (fun p => decide (find.getD p 0 = c))).length := by
    rw [List.filter_map, List.length_map]
    rfl
  rw [e1, hp, ← hl]
  have e2 : ∀ l : List Nat, ((List.range l.length).filter
      (fun p => decide (l.getD p 0 = c))).length = l.count c := by
    intro l
    induction l using List.reverseRecOn with
    | nil => rfl
    | append_singleton l a ih =>
      rw [List.length_append, List.length_singleton, List.range_succ, List.filter_append,
        List.length_append, List.count_append]
      have e3 : (List.range l.length).filter (fun p => decide ((l ++ [a]).getD p 0 = c)) =
          (List.range l.length).filter (fun p => decide (l.getD p 0 = c)) := by
        apply List.filter_congr
        intro x hx
        rw [List.mem_range] at hx
        rw [List.getD_append _ _ _ _ hx]
      rw [e3, ih]
      congr 1
      have e4 : (l ++ [a]).getD l.length 0 = a := by
        rw [List.getD_append_right _ _ _ _ (le_refl _)]
        simp
      by_cases hac : a = c
      · simp [e4, hac]
      · have hca : ¬ c = a := fun h => hac h.symm
        simp [e4, hac, hca, List.count_cons]
  exact e2 find

end ScaleSpec
section ScaleClaim
variable {α : Type} [LinearOrderedField α]

/-- What `da_csr_Scale` computes on a well-formed row view with values: the value
at position `j` is multiplied by `log (nrows / df)`, with `df` the number of
stored entries whose column is the column of position `j`; nothing else
changes. -/
theorem da_csr_Scale_spec (log : α → α) (mat : da_csr_t α) (rp ri : List Nat) (rv : List α)
    (h1 : mat.rowptr = some rp) (h2 : mat.rowind = some ri) (h3 : mat.rowval = some rv)
    (hwf : WellFormedView mat.nrows mat.ncols rp ri) :
    ∃ rv2, (da_csr_Scale log mat).rowval = some rv2 ∧ rv2.length = rv.length ∧
      (∀ j, j < ri.length → rv2.getD j 0 =
        rv.getD j 0 * log ((mat.nrows : α) / ((ri.count (ri.getD j 0) : Nat) : α))) ∧
      (da_csr_Scale log mat).nrows = mat.nrows ∧ (da_csr_Scale log mat).ncols = mat.ncols ∧
      (da_csr_Scale log mat).rowptr = mat.rowptr ∧ (da_csr_Scale log mat).rowind = mat.rowind ∧
      (da_csr_Scale log mat).colptr = mat.colptr ∧ (da_csr_Scale log mat).colind = mat.colind ∧
      (da_csr_Scale log mat).colval = mat.colval := by
  have hwf2 := hwf
  obtain ⟨w1, w2, w3, w4, w5⟩ := hwf
  have hpos := fwdEntries_positions mat.nrows rp w2 w3
  obtain ⟨c1, c2⟩ := countFold_spec ri (fwdEntries mat.nrows rp) (List.replicate mat.ncols 0)
  rw [List.length_replicate] at c1 c2
  obtain ⟨s1, s2⟩ := forLoop_set_spec
    (fun i => if ((fwdEntries mat.nrows rp).foldl (fun (cl : List Nat) (e : Nat × Nat) =>
        cl.set (ri.getD e.2 0) (cl.getD (ri.getD e.2 0) 0 + 1))
        (List.replicate mat.ncols 0)).getD i 0 > 0
      then log ((mat.nrows : α) / (((fwdEntries mat.nrows rp).foldl
        (fun (cl : List Nat) (e : Nat × Nat) =>
          cl.set (ri.getD e.2 0) (cl.getD (ri.getD e.2 0) 0 + 1))
        (List.replicate mat.ncols 0)).getD i 0 : α)) else 0) (0 : α) mat.ncols 0
    (List.replicate mat.ncols 0)
  obtain ⟨f1, f2⟩ := scaleFold_spec (fun p => (forLoop (fun i (cs : List α) => cs.set i
      (if ((fwdEntries mat.nrows rp).foldl (fun (cl : List Nat) (e : Nat × Nat) =>
        cl.set (ri.getD e.2 0) (cl.getD (ri.getD e.2 0) 0 + 1))
        (List.replicate mat.ncols 0)).getD i 0 > 0
      then log ((mat.nrows : α) / (((fwdEntries mat.nrows rp).foldl
        (fun (cl : List Nat) (e : Nat × Nat) =>
          cl.set (ri.getD e.2 0) (cl.getD (ri.getD e.2 0) 0 + 1))
        (List.replicate mat.ncols 0)).getD i 0 : α)) else 0)) mat.ncols 0
      (List.replicate mat.ncols 0)).getD (ri.getD p 0) 0)
    (List.range (rp.getD mat.nrows 0)) rv (List.nodup_range _)
  have hres : (da_csr_Scale log mat).rowval = some ((List.range (rp.getD mat.nrows 0)).foldl
      (fun (rv : List α) p => rv.set p (rv.getD p 0 * (forLoop (fun i (cs : List α) => cs.set i
      (if ((fwdEntries mat.nrows rp).foldl (fun (cl : List Nat) (e : Nat × Nat) =>
        cl.set (ri.getD e.2 0) (cl.getD (ri.getD e.2 0) 0 + 1))
        (List.replicate mat.ncols 0)).getD i 0 > 0
      then log ((mat.nrows : α) / (((fwdEntries mat.nrows rp).foldl
        (fun (cl : List Nat) (e : Nat × Nat) =>
          cl.set (ri.getD e.2 0) (cl.getD (ri.getD e.2 0) 0 + 1))
        (List.replicate mat.ncols 0)).getD i 0 : α)) else 0)) mat.ncols 0
      (List.replicate mat.ncols 0)).getD (ri.getD p 0) 0)) rv) := by
    unfold da_csr_Scale
    simp only [forEntries_eq_foldl, h1, h2, h3, Option.getD_some, Option.map_some']
    rw [← hpos, List.foldl_map]
  refine ⟨_, hres, f1, ?_, rfl, rfl, rfl, rfl, rfl, rfl, rfl⟩
  intro j hj
  have hjn : j < rp.getD mat.nrows 0 := by rw [← w4]; exact hj
  have hc : ri.getD j 0 < mat.ncols := by
    rw [List.getD_eq_getElem?_getD, List.getElem?_eq_getElem hj]
    exact w5 _ (List.getElem_mem _)
  have hcnt : ((fwdEntries mat.nrows rp).foldl (fun (cl : List Nat) (e : Nat × Nat) =>
        cl.set (ri.getD e.2 0) (cl.getD (ri.getD e.2 0) 0 + 1))
        (List.replicate mat.ncols 0)).getD (ri.getD j 0) 0 = ri.count (ri.getD j 0) := by
    rw [c2 _ hc, bucketCount_eq_count mat.nrows mat.ncols rp ri hwf2]
    have hz : (List.replicate mat.ncols 0).getD (ri.getD j 0) 0 = 0 := by
      rw [List.getD_eq_getElem?_getD, List.getElem?_replicate]
      split_ifs <;> rfl
    rw [hz, Nat.zero_add]
  have hge : 0 < ri.count (ri.getD j 0) := by
    rw [List.count_pos_iff]
    rw [List.getD_eq_getElem?_getD, List.getElem?_eq_getElem hj]
    exact List.getElem_mem _
  rw [f2 j, if_pos (List.mem_range.mpr hjn), s2, List.length_replicate,
    if_pos ⟨Nat.zero_le _, by omega, hc⟩]
  rw [hcnt, if_pos hge]

/-- C20: for a matrix with a well-formed row view with values,
`da_csr_Scale` multiplies the stored value at every position `j` by
`log (nrows / df)`, where `df` is the number of stored entries of the row view
whose column is the column of position `j`; `nrows`, `ncols`, `row_ptr`,
`row_ind` and the column view are the ones of the input. -/
theorem da_csr_Scale_values (log : α → α) (mat : da_csr_t α) (rp ri : List Nat) (rv : List α)
    (h1 : mat.rowptr = some rp) (h2 : mat.rowind = some ri) (h3 : mat.rowval = some rv)
    (hwf : WellFormedView mat.nrows mat.ncols rp ri) :
    ∃ rv2, (da_csr_Scale log mat).rowval = some rv2 ∧ rv2.length = rv.length ∧
      (∀ j, j < ri.length → rv2.getD j 0 =
        rv.getD j 0 * log ((mat.nrows : α) / ((ri.count (ri.getD j 0) : Nat) : α))) ∧
      (da_csr_Scale log mat).nrows = mat.nrows ∧ (da_csr_Scale log mat).ncols = mat.ncols ∧
      (da_csr_Scale log mat).rowptr = mat.rowptr ∧ (da_csr_Scale log mat).rowind = mat.rowind ∧
      (da_csr_Scale log mat).colptr = mat.colptr ∧ (da_csr_Scale log mat).colind = mat.colind ∧
      (da_csr_Scale log mat).colval = mat.colval :=
  da_csr_Scale_spec log mat rp ri rv h1 h2 h3 hwf

/-- Witness of C20 on the 3 x 2 sample matrix, with the identity in place of the
logarithm. -/
theorem da_csr_Scale_values_witness :
    ∃ rv2, (da_csr_Scale (fun x : ℚ => x) sampleDocs).rowval = some rv2 ∧
      rv2.length = [(1 : ℚ), 2, 3, 1].length ∧
      (∀ j, j < [0, 1, 0, 1].length → rv2.getD j 0 =
        [(1 : ℚ), 2, 3, 1].getD j 0 *
          ((sampleDocs.nrows : ℚ) / (([0, 1, 0, 1].count ([0, 1, 0, 1].getD j 0) : Nat) : ℚ))) ∧
      (da_csr_Scale (fun x : ℚ => x) sampleDocs).nrows = sampleDocs.nrows ∧
      (da_csr_Scale (fun x : ℚ => x) sampleDocs).ncols = sampleDocs.ncols ∧
      (da_csr_Scale (fun x : ℚ => x) sampleDocs).rowptr = sampleDocs.rowptr ∧
      (da_csr_Scale (fun x : ℚ => x) sampleDocs).rowind = sampleDocs.rowind ∧
      (da_csr_Scale (fun x : ℚ => x) sampleDocs).colptr = sampleDocs.colptr ∧
      (da_csr_Scale (fun x : ℚ => x) sampleDocs).colind = sampleDocs.colind ∧
      (da_csr_Scale (fun x : ℚ => x) sampleDocs).colval = sampleDocs.colval :=
  da_csr_Scale_values (fun x : ℚ => x) sampleDocs [0, 2, 3, 4] [0, 1, 0, 1] [1, 2, 3, 1]
    rfl rfl rfl sampleDocs_wellFormed

end ScaleClaim
/-! ## Cosine similarity (`da_csr_ComputeSimilarity`) -/

section SimilarityLoop
variable {α : Type} [LinearOrderedField α]

/-- Under the loop condition a round advances at least one cursor and keeps both
within their rows. -/
theorem simStep_cursors (ind : List Nat) (val : List α) (p1 p2 n1 n2 : Nat) (s : SimState α)
    (h1 : s.i1 < n1) (h2 : s.i2 < n2) :
    (simStep ind val p1 p2 n1 n2 s).i1 ≤ n1 ∧ (simStep ind val p1 p2 n1 n2 s).i2 ≤ n2 ∧
      s.i1 ≤ (simStep ind val p1 p2 n1 n2 s).i1 ∧ s.i2 ≤ (simStep ind val p1 p2 n1 n2 s).i2 ∧
      s.i1 + s.i2 < (simStep ind val p1 p2 n1 n2 s).i1 + (simStep ind val p1 p2 n1 n2 s).i2 := by
  unfold simStep
  rw [if_neg (by omega), if_neg (by omega)]
  split_ifs <;> dsimp only <;> omega

/-- The merge loop returns when the bound covers the entries still to read. -/
theorem simLoop_returns (ind : List Nat) (val : List α) (p1 p2 n1 n2 : Nat) :
    ∀ (fuel : Nat) (s : SimState α), s.i1 ≤ n1 → s.i2 ≤ n2 →
      (n1 - s.i1) + (n2 - s.i2) ≤ fuel →
      ∃ r, simLoop ind val p1 p2 n1 n2 fuel s = some r
  | 0, s, h1, h2, hf => by
    unfold simLoop
    rw [if_neg (by omega)]
    exact ⟨s, rfl⟩
  | f + 1, s, h1, h2, hf => by
    unfold simLoop
    by_cases hc : s.i1 < n1 ∧ s.i2 < n2
    · rw [if_pos hc]
      obtain ⟨a1, a2, a3, a4, a5⟩ := simStep_cursors ind val p1 p2 n1 n2 s hc.1 hc.2
      exact simLoop_returns ind val p1 p2 n1 n2 f _ a1 a2 (by omega)
    · rw [if_neg hc]
      exact ⟨s, rfl⟩

/-- Loop-invariant rule for the merge loop: a property kept by every round that
runs under the loop condition holds of the state returned. -/
theorem simLoop_invariant (P : SimState α → Prop) (ind : List Nat) (val : List α)
    (p1 p2 n1 n2 : Nat)
    (hstep : ∀ s, s.i1 < n1 → s.i2 < n2 → P s → P (simStep ind val p1 p2 n1 n2 s)) :
    ∀ (fuel : Nat) (s r : SimState α), P s → simLoop ind val p1 p2 n1 n2 fuel s = some r →
      P r ∧ ¬ (r.i1 < n1 ∧ r.i2 < n2)
  | 0, s, r, hs, hr => by
    unfold simLoop at hr
    by_cases hc : s.i1 < n1 ∧ s.i2 < n2
    · rw [if_pos hc] at hr
      cases hr
    · rw [if_neg hc] at hr
      cases hr
      exact ⟨hs, hc⟩
  | f + 1, s, r, hs, hr => by
    unfold simLoop at hr
    by_cases hc : s.i1 < n1 ∧ s.i2 < n2
    · rw [if_pos hc] at hr
      exact simLoop_invariant P ind val p1 p2 n1 n2 hstep f _ r (hstep s hc.1 hc.2 hs) hr
    · rw [if_neg hc] at hr
      cases hr
      exact ⟨hs, hc⟩

end SimilarityLoop
section SimilaritySymmetry
variable {α : Type} [LinearOrderedField α]

/-- A round of the merge on the two rows in the other order is the mirror image
of the round on the rows as given. -/
theorem simStep_swap (ind : List Nat) (val : List α) (p1 p2 n1 n2 : Nat) (s : SimState α)
    (h1 : s.i1 < n1) (h2 : s.i2 < n2) :
    simStep ind val p2 p1 n2 n1
        { i1 := s.i2, i2 := s.i1, sim := s.sim, stat1 := s.stat2, stat2 := s.stat1 } =
      { i1 := (simStep ind val p1 p2 n1 n2 s).i2, i2 := (simStep ind val p1 p2 n1 n2 s).i1,
        sim := (simStep ind val p1 p2 n1 n2 s).sim,
        stat1 := (simStep ind val p1 p2 n1 n2 s).stat2,
        stat2 := (simStep ind val p1 p2 n1 n2 s).stat1 } := by
  have e1 : ¬ s.i1 = n1 := by omega
  have e2 : ¬ s.i2 = n2 := by omega
  unfold simStep
  simp only [e1, e2, if_false]
  rcases lt_trichotomy (ind.getD (p1 + s.i1) 0) (ind.getD (p2 + s.i2) 0) with h | h | h
  · have hn : ¬ ind.getD (p2 + s.i2) 0 < ind.getD (p1 + s.i1) 0 := by omega
    simp only [gt_iff_lt, h, hn, if_true, if_false]
  · have hn1 : ¬ ind.getD (p2 + s.i2) 0 < ind.getD (p1 + s.i1) 0 := by omega
    have hn2 : ¬ ind.getD (p1 + s.i1) 0 < ind.getD (p2 + s.i2) 0 := by omega
    simp only [gt_iff_lt, hn1, hn2, if_false, SimState.mk.injEq, and_true, true_and]
    rw [mul_comm]
  · have hn : ¬ ind.getD (p1 + s.i1) 0 < ind.getD (p2 + s.i2) 0 := by omega
    simp only [gt_iff_lt, h, hn, if_true, if_false]

theorem simLoop_swap (ind : List Nat) (val : List α) (p1 p2 n1 n2 : Nat) :
    ∀ (fuel : Nat) (s : SimState α),
      simLoop ind val p2 p1 n2 n1 fuel
          { i1 := s.i2, i2 := s.i1, sim := s.sim, stat1 := s.stat2, stat2 := s.stat1 } =
        (simLoop ind val p1 p2 n1 n2 fuel s).map (fun r =>
          { i1 := r.i2, i2 := r.i1, sim := r.sim, stat1 := r.stat2, stat2 := r.stat1 })
  | 0, s => by
    unfold simLoop
    dsimp only
    by_cases hc : s.i1 < n1 ∧ s.i2 < n2
    · rw [if_pos hc, if_pos ⟨hc.2, hc.1⟩]
      rfl
    · rw [if_neg hc, if_neg (fun h => hc ⟨h.2, h.1⟩)]
      rfl
  | f + 1, s => by
    unfold simLoop
    dsimp only
    by_cases hc : s.i1 < n1 ∧ s.i2 < n2
    · rw [if_pos hc, if_pos ⟨hc.2, hc.1⟩, simStep_swap ind val p1 p2 n1 n2 s hc.1 hc.2]
      exact simLoop_swap ind val p1 p2 n1 n2 f _
    · rw [if_neg hc, if_neg (fun h => hc ⟨h.2, h.1⟩)]
      rfl

theorem similarityView_comm (sqrt : α → α) (ptr ind : List Nat) (val : List α) (a b : Nat) :
    similarityView sqrt ptr ind val a b = similarityView sqrt ptr ind val b a := by
  unfold similarityView
  dsimp only
  have h := simLoop_swap ind val (ptr.getD a 0) (ptr.getD b 0)
    (ptr.getD (a + 1) 0 - ptr.getD a 0) (ptr.getD (b + 1) 0 - ptr.getD b 0)
    ((ptr.getD (a + 1) 0 - ptr.getD a 0) + (ptr.getD (b + 1) 0 - ptr.getD b 0))
    { i1 := 0, i2 := 0, sim := 0, stat1 := 0, stat2 := 0 }
  rw [Nat.add_comm (ptr.getD (b + 1) 0 - ptr.getD b 0), h]
  cases simLoop ind val (ptr.getD a 0) (ptr.getD b 0)
    (ptr.getD (a + 1) 0 - ptr.getD a 0) (ptr.getD (b + 1) 0 - ptr.getD b 0)
    ((ptr.getD (a + 1) 0 - ptr.getD a 0) + (ptr.getD (b + 1) 0 - ptr.getD b 0))
    { i1 := 0, i2 := 0, sim := 0, stat1 := 0, stat2 := 0 } with
  | none => rfl
  | some r =>
    simp only [Option.map_some']
    rw [mul_comm r.stat2 r.stat1]

/-- The merge of `da_csr_ComputeSimilarity` returns on every view. -/
theorem similarityView_returns (sqrt : α → α) (ptr ind : List Nat) (val : List α) (a b : Nat) :
    ∃ v, similarityView sqrt ptr ind val a b = some v := by
  unfold similarityView
  dsimp only
  obtain ⟨r, hr⟩ := simLoop_returns ind val (ptr.getD a 0) (ptr.getD b 0)
    (ptr.getD (a + 1) 0 - ptr.getD a 0) (ptr.getD (b + 1) 0 - ptr.getD b 0)
    ((ptr.getD (a + 1) 0 - ptr.getD a 0) + (ptr.getD (b + 1) 0 - ptr.getD b 0))
    { i1 := 0, i2 := 0, sim := 0, stat1 := 0, stat2 := 0 } (Nat.zero_le _) (Nat.zero_le _)
    (by dsimp only; omega)
  rw [hr]
  exact ⟨_, rfl⟩

/-- C22: for every matrix holding a row view and all row ids `i`, `j`,
`da_csr_ComputeSimilarity(mat, i, j, DA_ROW)` returns a value, and it is the
value returned by `da_csr_ComputeSimilarity(mat, j, i, DA_ROW)`. -/
theorem da_csr_ComputeSimilarity_comm (sqrt : α → α) (mat : da_csr_t α) (ptr : List Nat)
    (hp : mat.rowptr = some ptr) (i j : Nat) :
    (∃ v, da_csr_ComputeSimilarity sqrt mat i j DA_ROW = some v) ∧
      da_csr_ComputeSimilarity sqrt mat i j DA_ROW =
        da_csr_ComputeSimilarity sqrt mat j i DA_ROW := by
  unfold da_csr_ComputeSimilarity
  rw [if_pos rfl, if_pos rfl, hp]
  exact ⟨similarityView_returns sqrt ptr _ _ i j, similarityView_comm sqrt ptr _ _ i j⟩

/-- Witness of C22 on the 3 x 2 sample matrix, rows 0 and 2. -/
theorem da_csr_ComputeSimilarity_comm_witness :
    (∃ v, da_csr_ComputeSimilarity (fun x : ℚ => x) sampleDocs 0 2 DA_ROW = some v) ∧
      da_csr_ComputeSimilarity (fun x : ℚ => x) sampleDocs 0 2 DA_ROW =
        da_csr_ComputeSimilarity (fun x : ℚ => x) sampleDocs 2 0 DA_ROW :=
  da_csr_ComputeSimilarity_comm (fun x : ℚ => x) sampleDocs [0, 2, 3, 4] rfl 0 2

end SimilaritySymmetry
section SimilarityRange
variable {α : Type} [LinearOrderedField α]

theorem getD_nonneg (val : List α) (hnn : ∀ x ∈ val, 0 ≤ x) (j : Nat) : 0 ≤ val.getD j 0 := by
  rw [List.getD_eq_getElem?_getD]
  by_cases hj : j < val.length
  · rw [List.getElem?_eq_getElem hj]
    exact hnn _ (List.getElem_mem _)
  · rw [List.getElem?_eq_none (by omega)]
    exact le_refl _

theorem cauchy_step (sim s1 s2 a b : α) (h0 : 0 ≤ sim) (h1 : 0 ≤ s1) (h2 : 0 ≤ s2)
    (ha : 0 ≤ a) (hb : 0 ≤ b) (h : sim * sim ≤ s1 * s2) :
    (sim + a * b) * (sim + a * b) ≤ (s1 + a * a) * (s2 + b * b) := by
  have key : 2 * (sim * (a * b)) ≤ s1 * (b * b) + s2 * (a * a) := by
    by_contra hc
    push_neg at hc
    have hpos : 0 ≤ s1 * (b * b) + s2 * (a * a) :=
      add_nonneg (mul_nonneg h1 (mul_nonneg hb hb)) (mul_nonneg h2 (mul_nonneg ha ha))
    have hlt := mul_self_lt_mul_self hpos hc
    have hab : 0 ≤ (a * b) * (a * b) := mul_self_nonneg _
    have h4 : (a * b) * (a * b) * (sim * sim) ≤ (a * b) * (a * b) * (s1 * s2) :=
      mul_le_mul_of_nonneg_left h hab
    nlinarith [sq_nonneg (s1 * (b * b) - s2 * (a * a))]
  nlinarith

/-- The merge keeps `sim`, `stat1`, `stat2` non-negative and `sim² ≤ stat1·stat2`
when the values are non-negative. -/
theorem simStep_cauchy (ind : List Nat) (val : List α) (hnn : ∀ x ∈ val, 0 ≤ x)
    (p1 p2 n1 n2 : Nat) (s : SimState α)
    (h : 0 ≤ s.sim ∧ 0 ≤ s.stat1 ∧ 0 ≤ s.stat2 ∧ s.sim * s.sim ≤ s.stat1 * s.stat2) :
    0 ≤ (simStep ind val p1 p2 n1 n2 s).sim ∧ 0 ≤ (simStep ind val p1 p2 n1 n2 s).stat1 ∧
      0 ≤ (simStep ind val p1 p2 n1 n2 s).stat2 ∧
      (simStep ind val p1 p2 n1 n2 s).sim * (simStep ind val p1 p2 n1 n2 s).sim ≤
        (simStep ind val p1 p2 n1 n2 s).stat1 * (simStep ind val p1 p2 n1 n2 s).stat2 := by
  obtain ⟨h0, h1, h2, h3⟩ := h
  have ha := getD_nonneg val hnn (p1 + s.i1)
  have hb := getD_nonneg val hnn (p2 + s.i2)
  have haa := mul_nonneg ha ha
  have hbb := mul_nonneg hb hb
  have g1 : s.sim * s.sim ≤ (s.stat1 + val.getD (p1 + s.i1) 0 * val.getD (p1 + s.i1) 0) *
      s.stat2 := by
    rw [add_mul]
    exact le_trans h3 (le_add_of_nonneg_right (mul_nonneg haa h2))
  have g2 : s.sim * s.sim ≤ s.stat1 *
      (s.stat2 + val.getD (p2 + s.i2) 0 * val.getD (p2 + s.i2) 0) := by
    rw [mul_add]
    exact le_trans h3 (le_add_of_nonneg_right (mul_nonneg h1 hbb))
  unfold simStep
  split_ifs
  · exact ⟨h0, h1, add_nonneg h2 hbb, g2⟩
  · exact ⟨h0, add_nonneg h1 haa, h2, g1⟩
  · exact ⟨h0, add_nonneg h1 haa, h2, g1⟩
  · exact ⟨h0, h1, add_nonneg h2 hbb, g2⟩
  · exact ⟨add_nonneg h0 (mul_nonneg ha hb), add_nonneg h1 haa, add_nonneg h2 hbb,
      cauchy_step _ _ _ _ _ h0 h1 h2 ha hb h3⟩

theorem similarityView_range (sqrt : α → α)
    (hsqrt : ∀ x, 0 < x → 0 < sqrt x ∧ sqrt x * sqrt x = x)
    (ptr ind : List Nat) (val : List α) (hnn : ∀ x ∈ val, 0 ≤ x) (a b : Nat) :
    ∃ v, similarityView sqrt ptr ind val a b = some v ∧ 0 ≤ v ∧ v ≤ 1 := by
  unfold similarityView
  dsimp only
  obtain ⟨r, hr⟩ := simLoop_returns ind val (ptr.getD a 0) (ptr.getD b 0)
    (ptr.getD (a + 1) 0 - ptr.getD a 0) (ptr.getD (b + 1) 0 - ptr.getD b 0)
    ((ptr.getD (a + 1) 0 - ptr.getD a 0) + (ptr.getD (b + 1) 0 - ptr.getD b 0))
    { i1 := 0, i2 := 0, sim := 0, stat1 := 0, stat2 := 0 } (Nat.zero_le _) (Nat.zero_le _)
    (by dsimp only; omega)
  have hinv := (simLoop_invariant
    (fun s : SimState α => 0 ≤ s.sim ∧ 0 ≤ s.stat1 ∧ 0 ≤ s.stat2 ∧
      s.sim * s.sim ≤ s.stat1 * s.stat2) ind val _ _ _ _
    (fun s _ _ hs => simStep_cauchy ind val hnn _ _ _ _ s hs) _ _ r
    (by simp) hr).1
  obtain ⟨h0, h1, h2, h3⟩ := hinv
  rw [hr]
  refine ⟨_, rfl, ?_, ?_⟩
  · split_ifs with hp
    · exact div_nonneg h0 (le_of_lt (hsqrt _ hp).1)
    · exact le_refl _
  · split_ifs with hp
    · obtain ⟨q1, q2⟩ := hsqrt _ hp
      rw [div_le_one q1]
      by_contra hc
      push_neg at hc
      have := mul_self_lt_mul_self (le_of_lt q1) hc
      rw [q2] at this
      exact absurd h3 (not_le.mpr this)
    · exact zero_le_one

/-- C24: for a square root with `sqrt x > 0` and `sqrt x * sqrt x = x` on the
positive `x` (the real square root is one), for every matrix holding a row view
whose stored values are all non-negative and all row ids `r1`, `r2`,
`da_csr_ComputeSimilarity(mat, r1, r2, DA_ROW)` returns a value in `[0, 1]`. -/
theorem da_csr_ComputeSimilarity_range (sqrt : α → α)
    (hsqrt : ∀ x, 0 < x → 0 < sqrt x ∧ sqrt x * sqrt x = x)
    (mat : da_csr_t α) (ptr : List Nat) (hp : mat.rowptr = some ptr)
    (hnn : ∀ x ∈ mat.rowval.getD [], 0 ≤ x) (r1 r2 : Nat) :
    ∃ v, da_csr_ComputeSimilarity sqrt mat r1 r2 DA_ROW = some v ∧ 0 ≤ v ∧ v ≤ 1 := by
  unfold da_csr_ComputeSimilarity
  rw [if_pos rfl, hp]
  exact similarityView_range sqrt hsqrt ptr _ _ hnn r1 r2

theorem real_sqrt_spec : ∀ x : ℝ, 0 < x → 0 < Real.sqrt x ∧ Real.sqrt x * Real.sqrt x = x :=
  fun x hx => ⟨Real.sqrt_pos.mpr hx, Real.mul_self_sqrt (le_of_lt hx)⟩

/-- Witness of C24 over the reals on the 2 x 2 sample matrix, rows 0 and 1. -/
theorem da_csr_ComputeSimilarity_range_witness :
    ∃ v, da_csr_ComputeSimilarity Real.sqrt (tailDocs ℝ) 0 1 DA_ROW = some v ∧ 0 ≤ v ∧ v ≤ 1 :=
  da_csr_ComputeSimilarity_range Real.sqrt real_sqrt_spec (tailDocs ℝ) [0, 1, 3] rfl
    (by
      intro x hx
      simp [tailDocs] at hx
      rw [hx]
      exact zero_le_one) 0 1

end SimilarityRange
section SimilaritySelf
variable {α : Type} [LinearOrderedField α]

/-- Merging a row with itself reads the whole row in the equal branch. -/
theorem simStep_diag (ind : List Nat) (val : List α) (p n : Nat) (s : SimState α)
    (h1 : s.i1 < n)
    (h : s.i1 = s.i2 ∧ s.i1 ≤ n ∧ s.sim = s.stat1 ∧ s.stat2 = s.stat1 ∧
      s.stat1 = ((List.range s.i1).map (fun t => val.getD (p + t) 0 * val.getD (p + t) 0)).sum) :
    (simStep ind val p p n n s).i1 = (simStep ind val p p n n s).i2 ∧
      (simStep ind val p p n n s).i1 ≤ n ∧
      (simStep ind val p p n n s).sim = (simStep ind val p p n n s).stat1 ∧
      (simStep ind val p p n n s).stat2 = (simStep ind val p p n n s).stat1 ∧
      (simStep ind val p p n n s).stat1 = ((List.range (simStep ind val p p n n s).i1).map
        (fun t => val.getD (p + t) 0 * val.getD (p + t) 0)).sum := by
  obtain ⟨a1, a2, a3, a4, a5⟩ := h
  have e1 : ¬ s.i1 = n := by omega
  have e2 : ¬ s.i2 = n := by omega
  have e3 : ¬ ind.getD (p + s.i1) 0 < ind.getD (p + s.i2) 0 := by rw [a1]; omega
  have e4 : ¬ ind.getD (p + s.i2) 0 < ind.getD (p + s.i1) 0 := by rw [a1]; omega
  unfold simStep
  simp only [gt_iff_lt, e1, e2, e3, e4, if_false]
  refine ⟨by omega, by omega, ?_, ?_, ?_⟩
  · rw [a3, ← a1]
  · rw [a4, ← a1]
  · rw [List.range_succ, List.map_append, List.sum_append, ← a5]
    simp

theorem similarityView_self (sqrt : α → α)
    (hsqrt : ∀ x, 0 < x → 0 < sqrt x ∧ sqrt x * sqrt x = x)
    (ptr ind : List Nat) (val : List α) (i : Nat) :
    similarityView sqrt ptr ind val i i =
      some (if ((rowVals ptr val i).map (fun x => x * x)).sum *
            ((rowVals ptr val i).map (fun x => x * x)).sum > 0 then
          ((rowVals ptr val i).map (fun x => x * x)).sum /
            sqrt (((rowVals ptr val i).map (fun x => x * x)).sum *
              ((rowVals ptr val i).map (fun x => x * x)).sum)
        else 0) := by
  unfold similarityView
  dsimp only
  obtain ⟨r, hr⟩ := simLoop_returns ind val (ptr.getD i 0) (ptr.getD i 0)
    (ptr.getD (i + 1) 0 - ptr.getD i 0) (ptr.getD (i + 1) 0 - ptr.getD i 0)
    ((ptr.getD (i + 1) 0 - ptr.getD i 0) + (ptr.getD (i + 1) 0 - ptr.getD i 0))
    { i1 := 0, i2 := 0, sim := 0, stat1 := 0, stat2 := 0 } (Nat.zero_le _) (Nat.zero_le _)
    (by dsimp only; omega)
  have hinv := simLoop_invariant
    (fun s : SimState α => s.i1 = s.i2 ∧ s.i1 ≤ ptr.getD (i + 1) 0 - ptr.getD i 0 ∧
      s.sim = s.stat1 ∧ s.stat2 = s.stat1 ∧
      s.stat1 = ((List.range s.i1).map
        (fun t => val.getD (ptr.getD i 0 + t) 0 * val.getD (ptr.getD i 0 + t) 0)).sum)
    ind val _ _ _ _
    (fun s h1 _ hs => simStep_diag ind val _ _ s h1 hs) _ _ r
    (by simp) hr
  obtain ⟨⟨a1, a2, a3, a4, a5⟩, hstop⟩ := hinv
  have hend : r.i1 = ptr.getD (i + 1) 0 - ptr.getD i 0 := by
    by_contra hc
    exact hstop ⟨by omega, by omega⟩
  have hsum : r.stat1 = ((rowVals ptr val i).map (fun x => x * x)).sum := by
    rw [a5, hend]
    unfold rowVals
    rw [range'_eq_map_add, List.map_map, List.map_map]
    rfl
  rw [hr]
  dsimp only
  rw [a3, a4, hsum]

/-- C23: for a square root with `sqrt x > 0` and `sqrt x * sqrt x = x` on the
positive `x` (the real square root is one), for a matrix holding a row view and a
row `i` that is normalised (its squares sum to 1 as soon as one of its values is
not zero), `da_csr_ComputeSimilarity(mat, i, i, DA_ROW)` returns 1 when row `i`
has a non-zero value and 0 when all its values are zero (an empty row included). -/
theorem da_csr_ComputeSimilarity_self (sqrt : α → α)
    (hsqrt : ∀ x, 0 < x → 0 < sqrt x ∧ sqrt x * sqrt x = x)
    (mat : da_csr_t α) (ptr : List Nat) (hp : mat.rowptr = some ptr) (i : Nat)
    (hnorm : (∃ x ∈ rowVals ptr (mat.rowval.getD []) i, x ≠ 0) →
      ((rowVals ptr (mat.rowval.getD []) i).map (fun x => x * x)).sum = 1) :
    ((∃ x ∈ rowVals ptr (mat.rowval.getD []) i, x ≠ 0) →
        da_csr_ComputeSimilarity sqrt mat i i DA_ROW = some 1) ∧
      ((∀ x ∈ rowVals ptr (mat.rowval.getD []) i, x = 0) →
        da_csr_ComputeSimilarity sqrt mat i i DA_ROW = some 0) := by
  unfold da_csr_ComputeSimilarity
  rw [if_pos rfl, hp]
  dsimp only
  rw [similarityView_self sqrt hsqrt]
  constructor
  · intro hx
    rw [hnorm hx, mul_one, if_pos zero_lt_one]
    obtain ⟨q1, q2⟩ := hsqrt 1 zero_lt_one
    have : sqrt 1 = 1 := by
      have h0 : (sqrt 1 - 1) * (sqrt 1 + 1) = 0 := by ring_nf; rw [sq, q2]; ring
      rcases mul_eq_zero.mp h0 with h | h
      · exact sub_eq_zero.mp h
      · exfalso; linarith
    rw [this, div_one]
  · intro hz
    have hs : ((rowVals ptr (mat.rowval.getD []) i).map (fun x => x * x)).sum = 0 := by
      apply List.sum_eq_zero
      intro y hy
      rw [List.mem_map] at hy
      obtain ⟨x, hx, rfl⟩ := hy
      rw [hz x hx, mul_zero]
    rw [hs, mul_zero, if_neg (lt_irrefl _)]

/-- Witness of C23 over the reals: row 0 of the 2 x 2 sample matrix, `{f0:1}`. -/
theorem da_csr_ComputeSimilarity_self_witness :
    ((∃ x ∈ rowVals [0, 1, 3] ((tailDocs ℝ).rowval.getD []) 0, x ≠ 0) →
        da_csr_ComputeSimilarity Real.sqrt (tailDocs ℝ) 0 0 DA_ROW = some 1) ∧
      ((∀ x ∈ rowVals [0, 1, 3] ((tailDocs ℝ).rowval.getD []) 0, x = 0) →
        da_csr_ComputeSimilarity Real.sqrt (tailDocs ℝ) 0 0 DA_ROW = some 0) :=
  da_csr_ComputeSimilarity_self Real.sqrt real_sqrt_spec (tailDocs ℝ) [0, 1, 3] rfl 0
    (by
      intro _
      simp [rowVals, tailDocs])

end SimilaritySelf
section SimilarityTail

/-- C21 (failing input): on rows `{f0:1}` and `{f0:1, f1:1}` the merge stops when
the first row is exhausted, the entry `f1:1` of the second row never reaches
`stat2`, and `da_csr_ComputeSimilarity` returns 1, while the cosine of the two
rows is `1 / (1 * sqrt 2)`, which is not 1. -/
theorem da_csr_ComputeSimilarity_tail :
    da_csr_ComputeSimilarity Real.sqrt (tailDocs ℝ) 0 1 DA_ROW = some 1 ∧
      dotRows (tailDocs ℝ) 0 1 /
        (Real.sqrt (dotRows (tailDocs ℝ) 0 0) * Real.sqrt (dotRows (tailDocs ℝ) 1 1)) ≠ 1 := by
  have d01 : dotRows (tailDocs ℝ) 0 1 = 1 := by
    norm_num [dotRows, rowEntries, outRow, tailDocs, List.range']
  have d00 : dotRows (tailDocs ℝ) 0 0 = 1 := by
    norm_num [dotRows, rowEntries, outRow, tailDocs, List.range']
  have d11 : dotRows (tailDocs ℝ) 1 1 = 2 := by
    norm_num [dotRows, rowEntries, outRow, tailDocs, List.range']
  constructor
  · norm_num [da_csr_ComputeSimilarity, similarityView, simLoop, simStep, DA_ROW, tailDocs]
  · rw [d01, d00, d11, Real.sqrt_one, one_mul]
    intro h
    have h2 : Real.sqrt 2 = 1 := by
      have hpos : (0 : ℝ) < Real.sqrt 2 := Real.sqrt_pos.mpr (by norm_num)
      field_simp at h
      linarith
    have := Real.mul_self_sqrt (show (0 : ℝ) ≤ 2 by norm_num)
    rw [h2] at this
    norm_num at this

end SimilarityTail
/-! ## Matrix comparison (`da_csr_Compare`) -/

section CompareSpec
variable {α : Type} [LinearOrderedField α]

theorem arrScan_eq_one (bad : Nat → Bool) : ∀ (n i : Nat),
    arrScan bad n i = 1 ↔ ∀ t, t < n → bad (i + t) = false
  | 0, i => by simp [arrScan]
  | n + 1, i => by
    rw [arrScan]
    by_cases hb : bad i = true
    · rw [if_pos hb]
      constructor
      · intro h; cases h
      · intro h
        have := h 0 (by omega)
        rw [Nat.add_zero, hb] at this
        cases this
    · rw [if_neg hb, arrScan_eq_one bad n (i + 1)]
      constructor
      · intro h t ht
        by_cases h0 : t = 0
        · subst h0
          simpa using hb
        · have := h (t - 1) (by omega)
          have e : i + 1 + (t - 1) = i + t := by omega
          rwa [e] at this
      · intro h t ht
        have := h (t + 1) (by omega)
        have e : i + (t + 1) = i + 1 + t := by omega
        rwa [e] at this

theorem arrScan_ne_one (bad : Nat → Bool) : ∀ (n i : Nat), arrScan bad n i ≠ 1 →
    arrScan bad n i = 0
  | 0, i => by simp [arrScan]
  | n + 1, i => by
    rw [arrScan]
    split_ifs
    · intro _; rfl
    · exact arrScan_ne_one bad n (i + 1)

theorem da_iarreq_eq_zero (n : Nat) (x y : List Nat) :
    da_iarreq n x y = 0 ↔ ¬ ∀ t, t < n → x.getD t 0 = y.getD t 0 := by
  unfold da_iarreq
  have h := arrScan_eq_one (fun i => decide (x.getD i 0 ≠ y.getD i 0)) n 0
  simp only [Nat.zero_add, decide_eq_false_iff_not, not_not, ne_eq] at h
  rw [← h]
  constructor
  · intro h0 h1
    simp only [ne_eq] at h0
    rw [h0] at h1
    cases h1
  · intro h1
    exact arrScan_ne_one _ _ _ h1

theorem da_parreq_eq_zero (n : Nat) (x y : List Nat) :
    da_parreq n x y = 0 ↔ ¬ ∀ t, t < n → x.getD t 0 = y.getD t 0 :=
  da_iarreq_eq_zero n x y

theorem da_varreq_p_eq_zero (n : Nat) (x y : List α) (p : α) :
    da_varreq_p n x y p = 0 ↔ ¬ ∀ t, t < n → |x.getD t 0 - y.getD t 0| ≤ p := by
  have habs : ∀ z : α, (if z ≥ 0 then z else -z) = |z| := by
    intro z
    split_ifs with hz
    · exact (abs_of_nonneg hz).symm
    · exact (abs_of_neg (not_le.mp hz)).symm
  unfold da_varreq_p
  simp only [habs, gt_iff_lt]
  have h := arrScan_eq_one (fun i => decide (p < |x.getD i 0 - y.getD i 0|)) n 0
  simp only [Nat.zero_add, decide_eq_false_iff_not, not_lt] at h
  rw [← h]
  constructor
  · intro h0 h1
    rw [h0] at h1
    cases h1
  · intro h1
    exact arrScan_ne_one _ _ _ h1

theorem list_ext_getD (x y : List Nat) (n : Nat) (hx : x.length = n) (hy : y.length = n)
    (h : ∀ t, t < n → x.getD t 0 = y.getD t 0) : x = y := by
  apply List.ext_getElem (by rw [hx, hy])
  intro t h1 h2
  have := h t (by omega)
  rw [List.getD_eq_getElem?_getD, List.getD_eq_getElem?_getD, List.getElem?_eq_getElem h1,
    List.getElem?_eq_getElem h2] at this
  exact this

end CompareSpec
section CompareClaims
variable {α : Type} [LinearOrderedField α]

/-- C26: for matrices `a` and `b` that both hold a row view with values
(`row_ptr` of length `nrows + 1`, `row_ind` of length `nnz`), `da_csr_Compare(a,
b, p)` returns 0 or 1, and it returns 1 iff `nrows` and `ncols` are equal, the
`row_ptr` arrays are equal, the `row_ind` arrays are equal and
`|a.row_val[t] - b.row_val[t]| ≤ p` for every `t < nnz`. -/
theorem da_csr_Compare_rows (a b : da_csr_t α) (p : α) (pa pb ia ib : List Nat)
    (va vb : List α)
    (ha1 : a.rowptr = some pa) (ha2 : a.rowind = some ia) (ha3 : a.rowval = some va)
    (hb1 : b.rowptr = some pb) (hb2 : b.rowind = some ib) (hb3 : b.rowval = some vb)
    (la : pa.length = a.nrows + 1) (lb : pb.length = b.nrows + 1)
    (lia : ia.length = pa.getD a.nrows 0) (lib : ib.length = pb.getD b.nrows 0) :
    (da_csr_Compare a b p = some 0 ∨ da_csr_Compare a b p = some 1) ∧
      (da_csr_Compare a b p = some 1 ↔
        a.nrows = b.nrows ∧ a.ncols = b.ncols ∧ pa = pb ∧ ia = ib ∧
          ∀ t, t < pa.getD a.nrows 0 → |va.getD t 0 - vb.getD t 0| ≤ p) := by
  unfold da_csr_Compare
  by_cases hd : a.ncols ≠ b.ncols ∨ a.nrows ≠ b.nrows
  · rw [if_pos hd]
    refine ⟨Or.inl rfl, ?_⟩
    constructor
    · intro h; cases h
    · rintro ⟨h1, h2, _⟩
      rcases hd with hd | hd
      · exact absurd h2 hd
      · exact absurd h1 hd
  · rw [if_neg hd]
    push_neg at hd
    obtain ⟨hc, hr⟩ := hd
    rw [if_neg (by rw [ha1, hb1]; simp)]
    simp only [ha1, hb1, ha2, hb2, ha3, hb3, Option.getD_some, Option.isSome_some,
      Option.isNone_some, true_and, and_false, false_and, or_false, Bool.false_eq_true,
      if_false]
    by_cases hn : pa.getD a.nrows 0 ≠ pb.getD b.nrows 0
    · rw [if_pos hn]
      refine ⟨Or.inl rfl, ?_⟩
      constructor
      · intro h; cases h
      · rintro ⟨_, _, h3, _⟩
        rw [h3, hr] at hn
        exact absurd rfl hn
    · rw [if_neg hn]
      push_neg at hn
      by_cases hpp : da_parreq (a.nrows + 1) pa pb = 0
      · rw [if_pos hpp]
        refine ⟨Or.inl rfl, ?_⟩
        constructor
        · intro h; cases h
        · rintro ⟨_, _, h3, _⟩
          rw [da_parreq_eq_zero] at hpp
          exact absurd (fun t _ => by rw [h3]) hpp
      · rw [if_neg hpp]
        rw [da_parreq_eq_zero, not_not] at hpp
        have hpeq : pa = pb := list_ext_getD pa pb (a.nrows + 1) la (by rw [lb, hr]) hpp
        by_cases hii : da_iarreq (pa.getD a.nrows 0) ia ib = 0
        · rw [if_pos hii]
          refine ⟨Or.inl rfl, ?_⟩
          constructor
          · intro h; cases h
          · rintro ⟨_, _, _, h4, _⟩
            rw [da_iarreq_eq_zero] at hii
            exact absurd (fun t _ => by rw [h4]) hii
        · rw [if_neg hii]
          rw [da_iarreq_eq_zero, not_not] at hii
          have hieq : ia = ib := list_ext_getD ia ib _ lia (by rw [lib, ← hn]) hii
          by_cases hvv : da_varreq_p (pa.getD a.nrows 0) va vb p = 0
          · rw [if_pos hvv]
            refine ⟨Or.inl rfl, ?_⟩
            constructor
            · intro h; cases h
            · rintro ⟨_, _, _, _, h5⟩
              rw [da_varreq_p_eq_zero] at hvv
              exact absurd h5 hvv
          · rw [if_neg hvv]
            rw [da_varreq_p_eq_zero, not_not] at hvv
            exact ⟨Or.inr rfl, fun _ => ⟨hr, hc, hpeq, hieq, hvv⟩, fun _ => rfl⟩

/-- Witness of C26: the 3 x 2 sample matrix compared with itself at `p = 0`. -/
theorem da_csr_Compare_rows_witness :
    (da_csr_Compare sampleDocs sampleDocs 0 = some 0 ∨
        da_csr_Compare sampleDocs sampleDocs 0 = some 1) ∧
      (da_csr_Compare sampleDocs sampleDocs 0 = some 1 ↔
        sampleDocs.nrows = sampleDocs.nrows ∧ sampleDocs.ncols = sampleDocs.ncols ∧
          [0, 2, 3, 4] = [0, 2, 3, 4] ∧ [0, 1, 0, 1] = [0, 1, 0, 1] ∧
          ∀ t, t < [0, 2, 3, 4].getD sampleDocs.nrows 0 →
            |[(1 : ℚ), 2, 3, 1].getD t 0 - [(1 : ℚ), 2, 3, 1].getD t 0| ≤ 0) :=
  da_csr_Compare_rows sampleDocs sampleDocs 0 [0, 2, 3, 4] [0, 2, 3, 4] [0, 1, 0, 1]
    [0, 1, 0, 1] [1, 2, 3, 1] [1, 2, 3, 1] rfl rfl rfl rfl rfl rfl rfl rfl rfl rfl

/-- C27 (failing input): two 1 x 1 matrices that hold only a column view, with
the values 1 and 5, compare equal at `p = 0`: in the column branch the test on
the values is guarded by `a->rowval && b->rowval`, which is false here, so
`da_varreq_p` is never called on the column values. -/
theorem da_csr_Compare_cols_skips_values :
    da_csr_Compare (colOnlyDocs 1) (colOnlyDocs 5) 0 = some 1 ∧
      ¬ |((colOnlyDocs 1).colval.getD []).getD 0 0 -
          ((colOnlyDocs 5).colval.getD []).getD 0 0| ≤ 0 := by
  constructor
  · simp [da_csr_Compare, colOnlyDocs, da_parreq, da_iarreq, arrScan]
  · norm_num [colOnlyDocs]

end CompareClaims
/-! ## Transposition (`da_csr_Transpose`) -/

section TransposeSpec
variable {α : Type} [LinearOrderedField α]

theorem rowTriples_eq_colTriples_swap (n : Nat) (ptr ind : List Nat) (val : List α) :
    rowTriples n ptr ind val =
      (colTriples n ptr ind val).map (fun t => (t.2.1, t.1, t.2.2)) := by
  unfold rowTriples colTriples
  rw [List.map_map]
  rfl

/-- C25: for a matrix holding a well-formed row view and either no column view
or a column view that stores the same (row, column, value) triples,
`da_csr_Transpose` returns a matrix with `nrows` and `ncols` exchanged, whose
column view is the row view of the input and whose row view stores, as a
multiset, the triples `(j, i, v)` for the triples `(i, j, v)` of the row view of
the input. -/
theorem da_csr_Transpose_spec (mat : da_csr_t α) (rp ri : List Nat)
    (h1 : mat.rowptr = some rp) (h2 : mat.rowind = some ri)
    (hwf : WellFormedView mat.nrows mat.ncols rp ri)
    (hc : mat.colptr = none ∨ ∃ cp ci, mat.colptr = some cp ∧ mat.colind = some ci ∧
      (colTriples mat.ncols cp ci (mat.colval.getD [])).Perm
        (rowTriples mat.nrows rp ri (mat.rowval.getD []))) :
    ∃ t tp ti, da_csr_Transpose mat = some t ∧
      t.nrows = mat.ncols ∧ t.ncols = mat.nrows ∧
      t.colptr = mat.rowptr ∧ t.colind = mat.rowind ∧ t.colval = mat.rowval ∧
      t.rowptr = some tp ∧ t.rowind = some ti ∧
      (rowTriples t.nrows tp ti (t.rowval.getD [])).Perm
        ((rowTriples mat.nrows rp ri (mat.rowval.getD [])).map
          (fun x => (x.2.1, x.1, x.2.2))) := by
  rcases hc with hc | ⟨cp, ci, c1, c2, c3⟩
  · have hs := createIndexView_spec mat.nrows mat.ncols rp ri mat.rowval hwf
    obtain ⟨hcol, _⟩ := fwdEntries_wf mat.nrows mat.ncols rp ri hwf
    have hp := hs.triples_perm hcol
    refine ⟨{
        nrows := mat.ncols, ncols := mat.nrows,
        rowptr := some (createIndexView mat.nrows mat.ncols rp ri mat.rowval).1,
        rowind := some (createIndexView mat.nrows mat.ncols rp ri mat.rowval).2.1,
        rowval := (createIndexView mat.nrows mat.ncols rp ri mat.rowval).2.2,
        rnorms := mat.cnorms, colptr := mat.rowptr, colind := mat.rowind,
        colval := mat.rowval, cnorms := mat.rnorms }, _, _, ?_, rfl, rfl, rfl, rfl, rfl, rfl, rfl,
      ?_⟩
    · unfold da_csr_Transpose da_csr_CreateIndex
      rw [hc, h1, h2]
      rfl
    · dsimp only
      rw [rowTriples_eq_colTriples_swap]
      exact hp.map _
  · refine ⟨{
        nrows := mat.ncols, ncols := mat.nrows,
        rowptr := mat.colptr, rowind := mat.colind, rowval := mat.colval,
        rnorms := mat.cnorms, colptr := mat.rowptr, colind := mat.rowind,
        colval := mat.rowval, cnorms := mat.rnorms }, cp, ci, ?_, rfl, rfl, rfl, rfl, rfl, c1, c2,
      ?_⟩
    · unfold da_csr_Transpose
      simp [c1]
    · dsimp only
      rw [rowTriples_eq_colTriples_swap]
      exact c3.map _

/-- Witness of C25 on the 3 x 2 sample matrix, which has no column view. -/
theorem da_csr_Transpose_spec_witness :
    ∃ t tp ti, da_csr_Transpose sampleDocs = some t ∧
      t.nrows = sampleDocs.ncols ∧ t.ncols = sampleDocs.nrows ∧
      t.colptr = sampleDocs.rowptr ∧ t.colind = sampleDocs.rowind ∧
      t.colval = sampleDocs.rowval ∧
      t.rowptr = some tp ∧ t.rowind = some ti ∧
      (rowTriples t.nrows tp ti (t.rowval.getD [])).Perm
        ((rowTriples sampleDocs.nrows [0, 2, 3, 4] [0, 1, 0, 1]
          (sampleDocs.rowval.getD [])).map (fun x => (x.2.1, x.1, x.2.2))) :=
  da_csr_Transpose_spec sampleDocs [0, 2, 3, 4] [0, 1, 0, 1] rfl rfl sampleDocs_wellFormed
    (Or.inl rfl)

end TransposeSpec
/-! ## Recall check (`verify_knng_results`) -/

section VerifyLoops
variable {α : Type} [LinearOrderedField α]

/-- The first loop of a row writes only at the ids of the row. -/
theorem knngFill_spec (ind : List Nat) (val : List α) (s len : Nat) (fltMax : α)
    (row : List α) :
    (knngFill ind val s len fltMax row).1.length = row.length ∧
      ∀ x, (∀ j, s ≤ j → j < s + len → ind.getD j 0 ≠ x) →
        (knngFill ind val s len fltMax row).1.getD x 0 = row.getD x 0 := by
  unfold knngFill
  have key := forLoop_invariant (fun t (st : List α × α) =>
      st.1.length = row.length ∧
      ∀ x, (∀ j, s ≤ j → j < s + t → ind.getD j 0 ≠ x) → st.1.getD x 0 = row.getD x 0)
    (fun j (st : List α × α) =>
      (st.1.set (ind.getD j 0) (val.getD j 0),
       if val.getD j 0 < st.2 then val.getD j 0 else st.2)) s (row, fltMax) len
    ⟨rfl, fun _ _ => rfl⟩
    (by
      intro t st ht ⟨h1, h2⟩
      refine ⟨by dsimp only; rw [List.length_set]; exact h1, ?_⟩
      intro x hx
      dsimp only
      rw [getD_set_eq, if_neg (fun h => hx (s + t) (by omega) (by omega) h.1)]
      exact h2 x (fun j a b => hx j a (by omega)))
  exact key

/-- A round over a true neighbour changes the scratch array only where it holds
a value above `-1`. -/
theorem knngCheckStep_row (ind2 : List Nat) (val2 : List α) (pe : Nat) (lv : α) (j : Nat)
    (st : KnngRowState α) :
    (knngCheckStep ind2 val2 pe lv j st).row.length = st.row.length ∧
      ∀ x, x < st.row.length → st.row.getD x 0 = -1 →
        (knngCheckStep ind2 val2 pe lv j st).row.getD x 0 = -1 := by
  have hset : st.row.getD (ind2.getD j 0) 0 > -1 →
      (st.row.set (ind2.getD j 0) 1).length = st.row.length ∧
      ∀ x, x < st.row.length → st.row.getD x 0 = -1 →
        (st.row.set (ind2.getD j 0) 1).getD x 0 = -1 := by
    intro h1
    refine ⟨by rw [List.length_set], ?_⟩
    intro x hxl hx
    rw [getD_set_eq]
    by_cases hc : ind2.getD j 0 = x
    · rw [hc, hx] at h1
      exact absurd h1 (lt_irrefl _)
    · rw [if_neg (fun h => hc h.1)]
      exact hx
  unfold knngCheckStep
  dsimp only
  split_ifs with h1
  all_goals first
    | exact hset h1
    | exact ⟨rfl, fun x _ hx => hx⟩

theorem knngCheck_row (ind2 : List Nat) (val2 : List α) (s2 cnt pe : Nat) (lv fltMax : α)
    (row : List α) :
    (knngCheck ind2 val2 s2 cnt pe lv fltMax row).row.length = row.length ∧
      ∀ x, x < row.length → row.getD x 0 = -1 →
        (knngCheck ind2 val2 s2 cnt pe lv fltMax row).row.getD x 0 = -1 := by
  unfold knngCheck
  have key := forLoop_invariant (fun _ (st : KnngRowState α) =>
      st.row.length = row.length ∧
      ∀ x, x < row.length → row.getD x 0 = -1 → st.row.getD x 0 = -1)
    (knngCheckStep ind2 val2 pe lv) s2
    { row := row, c := 0, cc := 0, err := 0, lv2 := fltMax } cnt
    ⟨rfl, fun _ _ h => h⟩
    (by
      intro t st _ ⟨h1, h2⟩
      obtain ⟨a1, a2⟩ := knngCheckStep_row ind2 val2 pe lv (s2 + t) st
      refine ⟨by rw [a1, h1], ?_⟩
      intro x hx hv
      exact a2 x (by rw [h1]; exact hx) (h2 x hx hv))
  exact key

/-- The last loop of a row puts `-1` at every id of the row and nothing else. -/
theorem knngReset_spec (ind : List Nat) (s len nsz pe : Nat) (st : List α × Nat × Nat) :
    (knngReset ind s len nsz pe st).1.length = st.1.length ∧
      (∀ x, x < st.1.length → (∃ j, s ≤ j ∧ j < s + len ∧ ind.getD j 0 = x) →
        (knngReset ind s len nsz pe st).1.getD x 0 = -1) ∧
      (∀ x, (∀ j, s ≤ j → j < s + len → ind.getD j 0 ≠ x) →
        (knngReset ind s len nsz pe st).1.getD x 0 = st.1.getD x 0) := by
  unfold knngReset
  have key := forLoop_invariant (fun t (cur : List α × Nat × Nat) =>
      cur.1.length = st.1.length ∧
      (∀ x, x < st.1.length → (∃ j, s ≤ j ∧ j < s + t ∧ ind.getD j 0 = x) →
        cur.1.getD x 0 = -1) ∧
      (∀ x, (∀ j, s ≤ j → j < s + t → ind.getD j 0 ≠ x) → cur.1.getD x 0 = st.1.getD x 0))
    (fun j (st : List α × Nat × Nat) =>
      let st1 : List α × Nat × Nat :=
        if pe > 2 ∧ st.2.2 < nsz ∧ st.1.getD (ind.getD j 0) 0 ≠ 1 then
          (st.1, st.2.1 + 1, st.2.2 + 1)
        else st
      (st1.1.set (ind.getD j 0) (-1), st1.2.1, st1.2.2)) s st len
    (by
      refine ⟨rfl, ?_, fun _ _ => rfl⟩
      rintro x _ ⟨j, a, b, _⟩
      omega)
    (by
      intro t cur ht ⟨h1, h2, h3⟩
      have hrow : ∀ c : List α × Nat × Nat,
          (if pe > 2 ∧ c.2.2 < nsz ∧ c.1.getD (ind.getD (s + t) 0) 0 ≠ 1 then
            (c.1, c.2.1 + 1, c.2.2 + 1) else c).1 = c.1 := by
        intro c
        split_ifs <;> rfl
      dsimp only
      rw [hrow cur]
      refine ⟨by rw [List.length_set]; exact h1, ?_, ?_⟩
      · rintro x hx ⟨j, a, b, c⟩
        rw [getD_set_eq, h1]
        by_cases hc : ind.getD (s + t) 0 = x
        · rw [if_pos ⟨hc, by rw [hc]; exact hx⟩]
        · rw [if_neg (fun h => hc h.1)]
          apply h2 x hx
          refine ⟨j, a, ?_, c⟩
          by_contra hj
          have : j = s + t := by omega
          subst this
          exact hc c
      · intro x hx
        rw [getD_set_eq, if_neg (fun h => hx (s + t) (by omega) (by omega) h.1)]
        exact h3 x (fun j a b => hx j a (by omega)))
  exact key

theorem replicate_getD_neg (n x : Nat) (h : x < n) :
    (List.replicate n (-1 : α)).getD x 0 = -1 := by
  rw [List.getD_eq_getElem?_getD, List.getElem?_replicate, if_pos h]
  rfl

theorem eq_replicate_neg (row : List α) (n : Nat) (hl : row.length = n)
    (h : ∀ x, x < n → row.getD x 0 = -1) : row = List.replicate n (-1) := by
  apply List.ext_getElem
  · rw [hl, List.length_replicate]
  · intro x h1 h2
    have := h x (by omega)
    rw [List.getD_eq_getElem?_getD, List.getElem?_eq_getElem h1] at this
    simpa using this

end VerifyLoops
section VerifyRow
variable {α : Type} [LinearOrderedField α]

/-- One row of `verify_knng_results` leaves the scratch array as it found it,
all `-1`. -/
theorem knngRow_row (ptr ind : List Nat) (val : List α) (ptr2 ind2 : List Nat) (val2 : List α)
    (nsz pe : Nat) (fltMax : α) (i nrows : Nat) (st : KnngState α)
    (hrow : st.row = List.replicate nrows (-1)) :
    (knngRow ptr ind val ptr2 ind2 val2 nsz pe fltMax i st).row = List.replicate nrows (-1) := by
  by_cases he : ptr.getD (i + 1) 0 = ptr.getD i 0
  · unfold knngRow
    rw [if_pos he]; exact hrow
  · obtain ⟨f1, f2⟩ := knngFill_spec ind val (ptr.getD i 0) (ptr.getD (i + 1) 0 - ptr.getD i 0)
      fltMax st.row
    obtain ⟨c1, c2⟩ := knngCheck_row ind2 val2 (ptr2.getD i 0)
      (min (ptr2.getD (i + 1) 0 - ptr2.getD i 0) nsz) pe
      (knngFill ind val (ptr.getD i 0) (ptr.getD (i + 1) 0 - ptr.getD i 0) fltMax st.row).2 fltMax
      (knngFill ind val (ptr.getD i 0) (ptr.getD (i + 1) 0 - ptr.getD i 0) fltMax st.row).1
    obtain ⟨r1, r2, r3⟩ := knngReset_spec ind (ptr.getD i 0)
      (ptr.getD (i + 1) 0 - ptr.getD i 0) nsz pe
      ((knngCheck ind2 val2 (ptr2.getD i 0) (min (ptr2.getD (i + 1) 0 - ptr2.getD i 0) nsz) pe
        (knngFill ind val (ptr.getD i 0) (ptr.getD (i + 1) 0 - ptr.getD i 0) fltMax st.row).2
        fltMax
        (knngFill ind val (ptr.getD i 0) (ptr.getD (i + 1) 0 - ptr.getD i 0) fltMax
          st.row).1).row,
       (knngCheck ind2 val2 (ptr2.getD i 0) (min (ptr2.getD (i + 1) 0 - ptr2.getD i 0) nsz) pe
        (knngFill ind val (ptr.getD i 0) (ptr.getD (i + 1) 0 - ptr.getD i 0) fltMax st.row).2
        fltMax
        (knngFill ind val (ptr.getD i 0) (ptr.getD (i + 1) 0 - ptr.getD i 0) fltMax
          st.row).1).err,
       min (ptr2.getD (i + 1) 0 - ptr2.getD i 0) nsz -
        (knngCheck ind2 val2 (ptr2.getD i 0) (min (ptr2.getD (i + 1) 0 - ptr2.getD i 0) nsz) pe
        (knngFill ind val (ptr.getD i 0) (ptr.getD (i + 1) 0 - ptr.getD i 0) fltMax st.row).2
        fltMax
        (knngFill ind val (ptr.getD i 0) (ptr.getD (i + 1) 0 - ptr.getD i 0) fltMax
          st.row).1).err)
    have hl : st.row.length = nrows := by rw [hrow, List.length_replicate]
    dsimp only at r1 r2 r3
    have key := eq_replicate_neg _ nrows (by rw [r1, c1, f1, hl]) (by
      intro x hx
      by_cases hc : ∃ j, ptr.getD i 0 ≤ j ∧
          j < ptr.getD i 0 + (ptr.getD (i + 1) 0 - ptr.getD i 0) ∧ ind.getD j 0 = x
      · exact r2 x (by rw [c1, f1, hl]; exact hx) hc
      · have hn : ∀ j, ptr.getD i 0 ≤ j →
            j < ptr.getD i 0 + (ptr.getD (i + 1) 0 - ptr.getD i 0) →
            ind.getD j 0 ≠ x := fun j a b c => hc ⟨j, a, b, c⟩
        rw [r3 x hn]
        apply c2 x (by rw [f1, hl]; exact hx)
        rw [f2 x hn, hrow]
        exact replicate_getD_neg nrows x hx)
    unfold knngRow
    rw [if_neg he]
    dsimp only
    split_ifs <;> exact key

/-- One row of `verify_knng_results` adds to `crecall` and `n` amounts that
depend on the scratch array only. -/
theorem knngRow_acc (ptr ind : List Nat) (val : List α) (ptr2 ind2 : List Nat) (val2 : List α)
    (nsz pe : Nat) (fltMax : α) (i nrows : Nat) (st : KnngState α)
    (hrow : st.row = List.replicate nrows (-1)) :
    (knngRow ptr ind val ptr2 ind2 val2 nsz pe fltMax i st).crecall =
        st.crecall + (if knngCounted ptr ptr2 nsz i = true then
          rowCorrected nrows ptr ind val ptr2 ind2 val2 nsz pe fltMax i else 0) ∧
      (knngRow ptr ind val ptr2 ind2 val2 nsz pe fltMax i st).n =
        st.n + (if knngCounted ptr ptr2 nsz i = true then 1 else 0) := by
  unfold rowCorrected knngCounted
  by_cases he : ptr.getD (i + 1) 0 = ptr.getD i 0
  · have hk : decide (ptr.getD (i + 1) 0 ≠ ptr.getD i 0 ∧
        da_min nsz (ptr2.getD (i + 1) 0 - ptr2.getD i 0) > 0) = false :=
      decide_eq_false (fun h => h.1 he)
    rw [hk]
    simp only [Bool.false_eq_true, if_false, add_zero]
    unfold knngRow
    rw [if_pos he]
    exact ⟨rfl, rfl⟩
  · by_cases hln : da_min nsz (ptr2.getD (i + 1) 0 - ptr2.getD i 0) > 0
    · have hk : decide (ptr.getD (i + 1) 0 ≠ ptr.getD i 0 ∧
          da_min nsz (ptr2.getD (i + 1) 0 - ptr2.getD i 0) > 0) = true :=
        decide_eq_true ⟨he, hln⟩
      rw [hk]
      simp only [if_true]
      unfold knngRow
      rw [if_neg he, if_neg he]
      dsimp only
      rw [if_pos hln, if_pos hln]
      dsimp only
      rw [hrow, zero_add]
      exact ⟨rfl, rfl⟩
    · have hk : decide (ptr.getD (i + 1) 0 ≠ ptr.getD i 0 ∧
          da_min nsz (ptr2.getD (i + 1) 0 - ptr2.getD i 0) > 0) = false :=
        decide_eq_false (fun h => hln h.2)
      rw [hk]
      simp only [Bool.false_eq_true, if_false, add_zero]
      unfold knngRow
      rw [if_neg he]
      dsimp only
      rw [if_neg hln]
      exact ⟨rfl, rfl⟩

end VerifyRow
section VerifyRecall
variable {α : Type} [LinearOrderedField α]

/-- The row loop of `verify_knng_results`: after `t` rows the scratch array is
all `-1` again, `n` counts the rows that entered the averages and `crecall` is
the sum of their corrected recalls. -/
theorem knngLoop_spec (nrows : Nat) (ptr ind : List Nat) (val : List α) (ptr2 ind2 : List Nat)
    (val2 : List α) (nsz pe : Nat) (fltMax : α) (t : Nat) :
    (forLoop (knngRow ptr ind val ptr2 ind2 val2 nsz pe fltMax) t 0
        { row := List.replicate nrows (-1), recallAcc := 0, crecall := 0, n := 0 }).row =
      List.replicate nrows (-1) ∧
    (forLoop (knngRow ptr ind val ptr2 ind2 val2 nsz pe fltMax) t 0
        { row := List.replicate nrows (-1), recallAcc := 0, crecall := 0, n := 0 }).crecall =
      (((List.range t).filter (knngCounted ptr ptr2 nsz)).map
        (rowCorrected nrows ptr ind val ptr2 ind2 val2 nsz pe fltMax)).sum ∧
    (forLoop (knngRow ptr ind val ptr2 ind2 val2 nsz pe fltMax) t 0
        { row := List.replicate nrows (-1), recallAcc := 0, crecall := 0, n := 0 }).n =
      ((List.range t).filter (knngCounted ptr ptr2 nsz)).length := by
  have key := forLoop_invariant (fun t (st : KnngState α) =>
      st.row = List.replicate nrows (-1) ∧
      st.crecall = (((List.range t).filter (knngCounted ptr ptr2 nsz)).map
        (rowCorrected nrows ptr ind val ptr2 ind2 val2 nsz pe fltMax)).sum ∧
      st.n = ((List.range t).filter (knngCounted ptr ptr2 nsz)).length)
    (knngRow ptr ind val ptr2 ind2 val2 nsz pe fltMax) 0
    { row := List.replicate nrows (-1), recallAcc := 0, crecall := 0, n := 0 } t
    ⟨rfl, rfl, rfl⟩
    (by
      intro u st _ ⟨h1, h2, h3⟩
      rw [Nat.zero_add]
      obtain ⟨a1, a2⟩ := knngRow_acc ptr ind val ptr2 ind2 val2 nsz pe fltMax u nrows st h1
      refine ⟨knngRow_row ptr ind val ptr2 ind2 val2 nsz pe fltMax u nrows st h1, ?_, ?_⟩
      · rw [a1, h2, List.range_succ, List.filter_append, List.map_append, List.sum_append]
        congr 1
        by_cases hc : knngCounted ptr ptr2 nsz u = true
        · rw [if_pos hc, List.filter_cons_of_pos hc]
          simp
        · rw [if_neg hc, List.filter_cons_of_neg hc]
          simp
      · rw [a2, h3, List.range_succ, List.filter_append, List.length_append]
        congr 1
        by_cases hc : knngCounted ptr ptr2 nsz u = true
        · rw [if_pos hc, List.filter_cons_of_pos hc]
          simp
        · rw [if_neg hc, List.filter_cons_of_neg hc]
          simp)
  exact key

/-- C30 (as amended): when the two matrices have the same number of rows,
`verify_knng_results` returns; the denominator `n` is the number of rows whose
candidate row is not empty and for which `ln = min(nsz, length of the truth row)`
is positive, `crecall` is the sum of the corrected recalls of exactly those rows,
and the recall reported is their quotient.  A row whose candidate row is empty
enters neither. -/
theorem verify_knng_results_mean (ngbrs1 ngbrs2 : da_csr_t α) (nsz pe : Nat) (fltMax : α)
    (h : ngbrs1.nrows = ngbrs2.nrows) :
    ∃ st, verify_knng_results ngbrs1 ngbrs2 nsz pe fltMax = some st ∧
      st.n = ((List.range ngbrs1.nrows).filter
        (knngCounted (ngbrs1.rowptr.getD []) (ngbrs2.rowptr.getD []) nsz)).length ∧
      st.crecall = (((List.range ngbrs1.nrows).filter
        (knngCounted (ngbrs1.rowptr.getD []) (ngbrs2.rowptr.getD []) nsz)).map
        (rowCorrected ngbrs1.nrows (ngbrs1.rowptr.getD []) (ngbrs1.rowind.getD [])
          (ngbrs1.rowval.getD []) (ngbrs2.rowptr.getD []) (ngbrs2.rowind.getD [])
          (ngbrs2.rowval.getD []) nsz pe fltMax)).sum ∧
      reportedRecall st = (((List.range ngbrs1.nrows).filter
        (knngCounted (ngbrs1.rowptr.getD []) (ngbrs2.rowptr.getD []) nsz)).map
        (rowCorrected ngbrs1.nrows (ngbrs1.rowptr.getD []) (ngbrs1.rowind.getD [])
          (ngbrs1.rowval.getD []) (ngbrs2.rowptr.getD []) (ngbrs2.rowind.getD [])
          (ngbrs2.rowval.getD []) nsz pe fltMax)).sum /
        (((List.range ngbrs1.nrows).filter
          (knngCounted (ngbrs1.rowptr.getD []) (ngbrs2.rowptr.getD []) nsz)).length : α) := by
  obtain ⟨k1, k2, k3⟩ := knngLoop_spec ngbrs1.nrows (ngbrs1.rowptr.getD [])
    (ngbrs1.rowind.getD []) (ngbrs1.rowval.getD []) (ngbrs2.rowptr.getD [])
    (ngbrs2.rowind.getD []) (ngbrs2.rowval.getD []) nsz pe fltMax ngbrs1.nrows
  unfold verify_knng_results
  rw [if_neg (by rw [h]; exact fun k => k rfl)]
  refine ⟨_, rfl, k3, k2, ?_⟩
  unfold reportedRecall
  rw [k2, k3]

/-- Witness of the amended C30: candidate with an empty row 1, truth with two
non-empty rows. -/
theorem verify_knng_results_mean_witness :
    ∃ st, verify_knng_results halfNeighbors fullNeighbors 1 0 1000 = some st ∧
      st.n = ((List.range halfNeighbors.nrows).filter
        (knngCounted (halfNeighbors.rowptr.getD []) (fullNeighbors.rowptr.getD []) 1)).length ∧
      st.crecall = (((List.range halfNeighbors.nrows).filter
        (knngCounted (halfNeighbors.rowptr.getD []) (fullNeighbors.rowptr.getD []) 1)).map
        (rowCorrected halfNeighbors.nrows (halfNeighbors.rowptr.getD [])
          (halfNeighbors.rowind.getD []) (halfNeighbors.rowval.getD [])
          (fullNeighbors.rowptr.getD []) (fullNeighbors.rowind.getD [])
          (fullNeighbors.rowval.getD []) 1 0 1000)).sum ∧
      reportedRecall st = (((List.range halfNeighbors.nrows).filter
        (knngCounted (halfNeighbors.rowptr.getD []) (fullNeighbors.rowptr.getD []) 1)).map
        (rowCorrected halfNeighbors.nrows (halfNeighbors.rowptr.getD [])
          (halfNeighbors.rowind.getD []) (halfNeighbors.rowval.getD [])
          (fullNeighbors.rowptr.getD []) (fullNeighbors.rowind.getD [])
          (fullNeighbors.rowval.getD []) 1 0 1000)).sum /
        (((List.range halfNeighbors.nrows).filter
          (knngCounted (halfNeighbors.rowptr.getD []) (fullNeighbors.rowptr.getD []) 1)).length
            : ℚ) :=
  verify_knng_results_mean halfNeighbors fullNeighbors 1 0 1000 rfl

/-- C30 (counterexample): with a candidate whose row 1 is empty and a truth
matrix whose two rows are non-empty, the denominator is 1 and the recall
reported is 1, although two rows have a non-empty truth row. -/
theorem verify_knng_results_skips_rows :
    (∃ st, verify_knng_results halfNeighbors fullNeighbors 1 0 1000 = some st ∧
      st.n = 1 ∧ reportedRecall st = 1) ∧
    ((List.range fullNeighbors.nrows).filter (fun i =>
      decide ((fullNeighbors.rowptr.getD []).getD (i + 1) 0 ≠
        (fullNeighbors.rowptr.getD []).getD i 0))).length = 2 := by
  constructor
  · refine ⟨_, rfl, ?_, ?_⟩
    · norm_num [knngRow, knngFill, knngCheck, knngCheckStep, knngReset,
        forLoop, halfNeighbors, fullNeighbors, da_min, da_abs]
    · norm_num [reportedRecall, knngRow, knngFill, knngCheck, knngCheckStep, knngReset,
        forLoop, halfNeighbors, fullNeighbors, da_min, da_abs]
  · decide

end VerifyRecall
section VerifySelf
variable {α : Type} [LinearOrderedField α]

/-- With distinct ids in the row, the first loop leaves `row[ind[j]] = val[j]`
for every position `j` of the row. -/
theorem knngFill_distinct (ind : List Nat) (val : List α) (s len : Nat) (fltMax : α)
    (row : List α)
    (hid : ∀ j, s ≤ j → j < s + len → ind.getD j 0 < row.length)
    (hdist : ∀ j k, s ≤ j → j < s + len → s ≤ k → k < s + len →
      ind.getD j 0 = ind.getD k 0 → j = k) :
    ∀ j, s ≤ j → j < s + len →
      (knngFill ind val s len fltMax row).1.getD (ind.getD j 0) 0 = val.getD j 0 := by
  unfold knngFill
  have key := forLoop_invariant (fun t (st : List α × α) =>
      st.1.length = row.length ∧
      ∀ j, s ≤ j → j < s + t → st.1.getD (ind.getD j 0) 0 = val.getD j 0)
    (fun j (st : List α × α) =>
      (st.1.set (ind.getD j 0) (val.getD j 0),
       if val.getD j 0 < st.2 then val.getD j 0 else st.2)) s (row, fltMax) len
    ⟨rfl, fun j a b => by omega⟩
    (by
      intro t st ht ⟨h1, h2⟩
      refine ⟨by dsimp only; rw [List.length_set]; exact h1, ?_⟩
      intro j a b
      dsimp only
      rw [getD_set_eq, h1]
      by_cases hj : j = s + t
      · subst hj
        rw [if_pos ⟨rfl, hid _ a (by omega)⟩]
      · have hne : ¬ ind.getD (s + t) 0 = ind.getD j 0 := fun h =>
          hj (hdist _ _ (by omega) (by omega) a (by omega) h).symm
        rw [if_neg (fun h => hne h.1)]
        exact h2 j a (by omega))
  exact key.2

theorem da_abs_zero : da_abs (0 : α) = 0 := by
  unfold da_abs
  rw [if_pos (le_refl _)]

/-- A round of the check on a true neighbour that the scratch array holds with
its own value counts it in `c` and in `cc`. -/
theorem knngCheckStep_hit (ind : List Nat) (val : List α) (pe : Nat) (lv : α) (j : Nat)
    (st : KnngRowState α) (h1 : st.row.getD (ind.getD j 0) 0 = val.getD j 0)
    (h2 : val.getD j 0 > -1) :
    (knngCheckStep ind val pe lv j st).c = st.c + 1 ∧
      (knngCheckStep ind val pe lv j st).cc = st.cc + 1 ∧
      (knngCheckStep ind val pe lv j st).row = st.row.set (ind.getD j 0) 1 := by
  have h3 : st.row.getD (ind.getD j 0) 0 > -1 := by rw [h1]; exact h2
  have h4 : da_abs (st.row.getD (ind.getD j 0) 0 - val.getD j 0) < 1 / 10000 := by
    rw [h1, sub_self, da_abs_zero]
    norm_num
  unfold knngCheckStep
  simp only [h3, h4, if_true]
  exact ⟨trivial, trivial, trivial⟩

theorem knngCheck_self (ind : List Nat) (val : List α) (s len cnt pe : Nat) (lv fltMax : α)
    (row : List α) (hcnt : cnt ≤ len)
    (hrow : ∀ j, s ≤ j → j < s + len → row.getD (ind.getD j 0) 0 = val.getD j 0)
    (hval : ∀ j, s ≤ j → j < s + len → val.getD j 0 > -1)
    (hdist : ∀ j k, s ≤ j → j < s + len → s ≤ k → k < s + len →
      ind.getD j 0 = ind.getD k 0 → j = k) :
    (knngCheck ind val s cnt pe lv fltMax row).cc = cnt := by
  unfold knngCheck
  have key := forLoop_invariant (fun t (st : KnngRowState α) =>
      st.cc = t ∧
      ∀ j, s + t ≤ j → j < s + len → st.row.getD (ind.getD j 0) 0 = val.getD j 0)
    (knngCheckStep ind val pe lv) s
    { row := row, c := 0, cc := 0, err := 0, lv2 := fltMax } cnt
    ⟨rfl, fun j a b => hrow j (by omega) b⟩
    (by
      intro t st ht ⟨a1, a2⟩
      obtain ⟨b1, b2, b3⟩ := knngCheckStep_hit ind val pe lv (s + t) st
        (a2 _ (le_refl _) (by omega)) (hval _ (by omega) (by omega))
      refine ⟨by rw [b2, a1], ?_⟩
      intro j c d
      rw [b3, getD_set_eq]
      have hne : ¬ ind.getD (s + t) 0 = ind.getD j 0 := fun h => by
        have := hdist _ _ (by omega) (by omega) (by omega) d h
        omega
      rw [if_neg (fun h => hne h.1)]
      exact a2 j (by omega) d)
  exact key.1

end VerifySelf
section VerifySelfClaim
variable {α : Type} [LinearOrderedField α]

theorem sum_map_one {β : Type} (f : β → α) : ∀ L : List β, (∀ x ∈ L, f x = 1) →
    (L.map f).sum = (L.length : α)
  | [], _ => by simp
  | x :: L, h => by
    rw [List.map_cons, List.sum_cons, h x (List.mem_cons_self _ _),
      sum_map_one f L (fun y hy => h y (List.mem_cons_of_mem _ hy)), List.length_cons]
    push_cast
    ring

/-- Checking a neighbour matrix against itself: a non-empty row with distinct
ids below `nrows` and values above `-1` has corrected recall 1. -/
theorem rowCorrected_self (nrows : Nat) (ptr ind : List Nat) (val : List α) (nsz pe : Nat)
    (fltMax : α) (i : Nat) (hnsz : 1 ≤ nsz) (hne : ptr.getD i 0 < ptr.getD (i + 1) 0)
    (hid : ∀ j, ptr.getD i 0 ≤ j → j < ptr.getD (i + 1) 0 → ind.getD j 0 < nrows)
    (hdist : ∀ j k, ptr.getD i 0 ≤ j → j < ptr.getD (i + 1) 0 → ptr.getD i 0 ≤ k →
      k < ptr.getD (i + 1) 0 → ind.getD j 0 = ind.getD k 0 → j = k)
    (hval : ∀ j, ptr.getD i 0 ≤ j → j < ptr.getD (i + 1) 0 → val.getD j 0 > -1) :
    rowCorrected nrows ptr ind val ptr ind val nsz pe fltMax i = 1 := by
  have hsl : ptr.getD i 0 + (ptr.getD (i + 1) 0 - ptr.getD i 0) = ptr.getD (i + 1) 0 := by omega
  have hmin : da_min nsz (ptr.getD (i + 1) 0 - ptr.getD i 0) =
      min (ptr.getD (i + 1) 0 - ptr.getD i 0) nsz := by
    unfold da_min
    split_ifs with h
    · exact (Nat.min_eq_left h).symm
    · exact (Nat.min_eq_right (by omega)).symm
  have hpos : 0 < min (ptr.getD (i + 1) 0 - ptr.getD i 0) nsz := by
    rw [Nat.lt_min]
    omega
  have hfill := knngFill_distinct ind val (ptr.getD i 0) (ptr.getD (i + 1) 0 - ptr.getD i 0)
    fltMax (List.replicate nrows (-1))
    (by intro j a b; rw [List.length_replicate]; exact hid j a (by omega))
    (by intro j k a b c d; exact hdist j k a (by omega) c (by omega))
  have hcc := knngCheck_self ind val (ptr.getD i 0) (ptr.getD (i + 1) 0 - ptr.getD i 0)
    (min (ptr.getD (i + 1) 0 - ptr.getD i 0) nsz) pe
    (knngFill ind val (ptr.getD i 0) (ptr.getD (i + 1) 0 - ptr.getD i 0) fltMax
      (List.replicate nrows (-1))).2 fltMax
    (knngFill ind val (ptr.getD i 0) (ptr.getD (i + 1) 0 - ptr.getD i 0) fltMax
      (List.replicate nrows (-1))).1 (Nat.min_le_left _ _) hfill
    (by intro j a b; exact hval j a (by omega))
    (by intro j k a b c d; exact hdist j k a (by omega) c (by omega))
  unfold rowCorrected knngRow
  rw [if_neg (by omega)]
  dsimp only
  rw [hmin, if_pos hpos]
  dsimp only
  rw [hcc, zero_add]
  exact div_self (Nat.cast_ne_zero.mpr (by omega))

/-- C29: for a neighbour matrix `m` whose rows hold distinct neighbour ids below
`nrows` with values above `-1` (row pointer non-decreasing) and `nsz ≥ 1`,
`verify_knng_results(m, m, nsz, ...)` returns; every non-empty row has corrected
recall 1, and the recall reported is 1 as soon as one row is non-empty. -/
theorem verify_knng_results_self (m : da_csr_t α) (nsz pe : Nat) (fltMax : α)
    (ptr ind : List Nat) (val : List α)
    (h1 : m.rowptr = some ptr) (h2 : m.rowind = some ind) (h3 : m.rowval = some val)
    (hnsz : 1 ≤ nsz)
    (hmono : ∀ i, i < m.nrows → ptr.getD i 0 ≤ ptr.getD (i + 1) 0)
    (hid : ∀ i, i < m.nrows → ∀ j, ptr.getD i 0 ≤ j → j < ptr.getD (i + 1) 0 →
      ind.getD j 0 < m.nrows)
    (hdist : ∀ i, i < m.nrows → ∀ j k, ptr.getD i 0 ≤ j → j < ptr.getD (i + 1) 0 →
      ptr.getD i 0 ≤ k → k < ptr.getD (i + 1) 0 → ind.getD j 0 = ind.getD k 0 → j = k)
    (hval : ∀ i, i < m.nrows → ∀ j, ptr.getD i 0 ≤ j → j < ptr.getD (i + 1) 0 →
      val.getD j 0 > -1) :
    ∃ st, verify_knng_results m m nsz pe fltMax = some st ∧
      (∀ i, i < m.nrows → ptr.getD i 0 < ptr.getD (i + 1) 0 →
        rowCorrected m.nrows ptr ind val ptr ind val nsz pe fltMax i = 1) ∧
      ((∃ i, i < m.nrows ∧ ptr.getD i 0 < ptr.getD (i + 1) 0) → reportedRecall st = 1) := by
  have hrows : ∀ i, i < m.nrows → ptr.getD i 0 < ptr.getD (i + 1) 0 →
      rowCorrected m.nrows ptr ind val ptr ind val nsz pe fltMax i = 1 :=
    fun i hi hne => rowCorrected_self m.nrows ptr ind val nsz pe fltMax i hnsz hne
      (hid i hi) (hdist i hi) (hval i hi)
  obtain ⟨k1, k2, k3⟩ := knngLoop_spec m.nrows ptr ind val ptr ind val nsz pe fltMax m.nrows
  unfold verify_knng_results
  rw [if_neg (fun k => k rfl), h1, h2, h3]
  simp only [Option.getD_some]
  refine ⟨_, rfl, hrows, ?_⟩
  rintro ⟨i, hi, hne⟩
  unfold reportedRecall
  have hmem : ∀ x ∈ (List.range m.nrows).filter (knngCounted ptr ptr nsz),
      rowCorrected m.nrows ptr ind val ptr ind val nsz pe fltMax x = 1 := by
    intro x hx
    rw [List.mem_filter, List.mem_range] at hx
    obtain ⟨hx1, hx2⟩ := hx
    unfold knngCounted at hx2
    have := of_decide_eq_true hx2
    have hm := hmono x hx1
    exact hrows x hx1 (by omega)
  have hin : i ∈ (List.range m.nrows).filter (knngCounted ptr ptr nsz) := by
    rw [List.mem_filter, List.mem_range]
    refine ⟨hi, ?_⟩
    unfold knngCounted
    apply decide_eq_true
    refine ⟨by omega, ?_⟩
    unfold da_min
    split_ifs <;> omega
  have hlen : 0 < ((List.range m.nrows).filter (knngCounted ptr ptr nsz)).length :=
    List.length_pos_of_mem hin
  rw [k2, k3, sum_map_one _ _ hmem]
  exact div_self (Nat.cast_ne_zero.mpr (by omega))

/-- Witness of C29 on the 2 x 2 neighbour matrix with two non-empty rows. -/
theorem verify_knng_results_self_witness :
    ∃ st, verify_knng_results fullNeighbors fullNeighbors 1 0 1000 = some st ∧
      (∀ i, i < fullNeighbors.nrows → [0, 1, 2].getD i 0 < [0, 1, 2].getD (i + 1) 0 →
        rowCorrected fullNeighbors.nrows [0, 1, 2] [1, 0] [(1 / 2 : ℚ), 1 / 2]
          [0, 1, 2] [1, 0] [(1 / 2 : ℚ), 1 / 2] 1 0 1000 i = 1) ∧
      ((∃ i, i < fullNeighbors.nrows ∧ [0, 1, 2].getD i 0 < [0, 1, 2].getD (i + 1) 0) →
        reportedRecall st = 1) :=
  verify_knng_results_self fullNeighbors 1 0 1000 [0, 1, 2] [1, 0] [1 / 2, 1 / 2] rfl rfl rfl
    (le_refl _)
    (by intro i hi; have h2 : i < 2 := hi; interval_cases i <;> decide)
    (by
      intro i hi j a b
      have h2 : i < 2 := hi
      interval_cases i
      · have : j = 0 := by simp at a b; omega
        subst this; decide
      · have : j = 1 := by simp at a b; omega
        subst this; decide)
    (by
      intro i hi j k a b c d _
      have h2 : i < 2 := hi
      interval_cases i <;> simp at a b c d <;> omega)
    (by
      intro i hi j a b
      have h2 : i < 2 := hi
      interval_cases i
      · have : j = 0 := by simp at a b; omega
        subst this; norm_num
      · have : j = 1 := by simp at a b; omega
        subst this; norm_num)

end VerifySelfClaim
/-! ## Difference count (`da_csrCompare`) -/

section CsrCompareSelf
variable {α : Type} [LinearOrderedField α]

/-- Merging a row with itself walks it in the equal branch and counts nothing
when `eps ≥ 0`. -/
theorem cmpMerge_same (ind : List Nat) (val : List α) (e : Nat) (eps : α) (heps : 0 ≤ eps)
    (cv : Nat) : ∀ (fuel j nd : Nat), e - j ≤ fuel →
      cmpMerge ind ind val val e e eps cv fuel j j nd = some (max j e, max j e, nd)
  | 0, j, nd, h => by
    unfold cmpMerge
    rw [if_neg (by omega), Nat.max_eq_left (by omega)]
  | f + 1, j, nd, h => by
    unfold cmpMerge
    by_cases hj : j < e ∧ j < e
    · rw [if_pos hj]
      dsimp only
      rw [if_pos rfl]
      have hz : ¬ (cv ≠ 0 ∧ da_abs (val.getD j 0 - val.getD j 0) > eps) := by
        rintro ⟨_, h2⟩
        rw [sub_self, da_abs_zero] at h2
        exact absurd h2 (not_lt.mpr heps)
      rw [if_neg hz, cmpMerge_same ind val e eps heps cv f (j + 1) nd (by omega),
        Nat.max_eq_right (by omega), Nat.max_eq_right (by omega)]
    · rw [if_neg hj, Nat.max_eq_left (by omega)]

theorem cmpIndRow_same (ptr ind : List Nat) (val : List α) (eps : α) (heps : 0 ≤ eps)
    (cv i nd : Nat) : cmpIndRow ptr ind val ptr ind val eps cv i nd = some nd := by
  unfold cmpIndRow
  dsimp only
  rw [cmpMerge_same ind val _ eps heps cv _ _ nd (by omega)]
  dsimp only
  congr 1
  omega

theorem cmpIndRows_same (ptr ind : List Nat) (val : List α) (eps : α) (heps : 0 ≤ eps)
    (cv : Nat) : ∀ (m i nd : Nat),
      cmpIndRows ptr ind val ptr ind val eps cv m i nd = some nd
  | 0, _, _ => rfl
  | m + 1, i, nd => by
    rw [cmpIndRows, cmpIndRow_same ptr ind val eps heps cv i nd]
    exact cmpIndRows_same ptr ind val eps heps cv m (i + 1) nd

/-- C28: for every matrix `a` holding a row view and every `eps ≥ 0`,
`da_csrCompare(a, a, eps, 1, 1)` runs to its end and its count of differences
is 0. -/
theorem da_csrCompare_self (a : da_csr_t α) (eps : α) (ptr : List Nat)
    (hp : a.rowptr = some ptr) (heps : 0 ≤ eps) :
    da_csrCompare a a eps 1 1 = some 0 := by
  have hcp : (da_csr_Copy a).rowptr =
      some (da_pcopy (a.nrows + 1) ptr (List.replicate (a.nrows + 1) 0)) := by
    unfold da_csr_Copy
    rw [hp]
    rfl
  obtain ⟨s, hs⟩ : ∃ s, da_csr_SortIndices (da_csr_Copy a) DA_ROW = some s := by
    unfold da_csr_SortIndices
    rw [if_pos rfl, hcp]
    exact ⟨_, rfl⟩
  unfold da_csrCompare
  rw [if_neg (by rw [hp]; simp)]
  simp only [hs, ne_eq, one_ne_zero, not_false_eq_true, if_true, not_true_eq_false, and_false,
    if_false, Nat.min_self]
  rw [cmpIndRows_same _ _ _ eps heps]
  simp only [cmpRest, Nat.sub_self, forLoop]

/-- Witness of C28 on the 2 x 2 sample matrix whose first row is out of order,
at `eps = 0`. -/
theorem da_csrCompare_self_witness : da_csrCompare shuffledDocs shuffledDocs 0 1 1 = some 0 :=
  da_csrCompare_self shuffledDocs 0 [0, 2, 3] rfl (le_refl _)

end CsrCompareSelf
/-! ## Row compaction (`da_csr_CompactRows`) -/

section CompactRowsEval

/-- C18 (failing input): on the rows `{}`, `{f0:1}` the function leaves
`nrows = 1` and `row_ptr = [0, 0]`: the only row of the result is empty and
`row_ptr[nrows]` is 0, while the first non-empty row of the input is `[(0, 1)]`
and `nnz` is 1.  The end pointer is written to `rowptr[j+1]`, one place after
the entry that the reallocation keeps. -/
theorem da_csr_CompactRows_drops_last :
    (da_csr_CompactRows gapDocs).nrows = 1 ∧
      (da_csr_CompactRows gapDocs).rowptr = some [0, 0] ∧
      rowEntries (da_csr_CompactRows gapDocs) 0 = [] ∧
      rowEntries gapDocs 1 = [(0, 1)] ∧
      ((da_csr_CompactRows gapDocs).rowptr.getD []).getD (da_csr_CompactRows gapDocs).nrows 0
        ≠ (gapDocs.rowptr.getD []).getD gapDocs.nrows 0 := by
  have h1 : (da_csr_CompactRows gapDocs).nrows = 1 := by
    simp [da_csr_CompactRows, gapDocs, forLoop]
  have h2 : (da_csr_CompactRows gapDocs).rowptr = some [0, 0] := by
    simp [da_csr_CompactRows, gapDocs, forLoop]
  refine ⟨h1, h2, ?_, ?_, ?_⟩
  · unfold rowEntries outRow
    rw [h2]
    rfl
  · simp [rowEntries, outRow, gapDocs, List.range']
  · rw [h1, h2]
    decide

end CompactRowsEval
/-! ## Normalisation (`da_csr_Normalize`) -/

section NormalizeSpec
variable {α : Type} [LinearOrderedField α]

theorem foldl_add_eq_sum {β : Type} (f : β → α) : ∀ (L : List β) (a : α),
    L.foldl (fun s j => s + f j) a = a + (L.map f).sum
  | [], a => by simp
  | x :: L, a => by
    rw [List.foldl_cons, foldl_add_eq_sum f L, List.map_cons, List.sum_cons, add_assoc]

/-- The loop that multiplies the values of one row by `c`. -/
theorem scaleRow_spec (c : α) (s len : Nat) (val : List α) :
    (forLoop (fun j (val : List α) => val.set j (val.getD j 0 * c)) len s val).length =
        val.length ∧
      ∀ j, (forLoop (fun j (val : List α) => val.set j (val.getD j 0 * c)) len s val).getD j 0 =
        if s ≤ j ∧ j < s + len then val.getD j 0 * c else val.getD j 0 := by
  rw [forLoop_eq_foldl]
  obtain ⟨h1, h2⟩ := scaleFold_spec (fun _ => c) (List.range' s len) val
    (List.nodup_range' s len)
  refine ⟨h1, ?_⟩
  intro j
  rw [h2 j]
  by_cases hj : j ∈ List.range' s len
  · rw [if_pos hj, if_pos (by rw [List.mem_range'_1] at hj; exact hj)]
  · rw [if_neg hj, if_neg (by rw [List.mem_range'_1] at hj; exact hj)]

theorem rowVals_congr (ptr : List Nat) (v1 v2 : List α) (i : Nat)
    (h : ∀ j, ptr.getD i 0 ≤ j → j < ptr.getD (i + 1) 0 → v1.getD j 0 = v2.getD j 0) :
    rowVals ptr v1 i = rowVals ptr v2 i := by
  unfold rowVals
  apply List.map_congr_left
  intro j hj
  rw [List.mem_range'_1] at hj
  exact h j hj.1 (by omega)

theorem sum_map_mul_right (c : α) : ∀ L : List α, (L.map (fun x => x * c)).sum = L.sum * c
  | [] => by simp
  | x :: L => by
    rw [List.map_cons, List.sum_cons, List.sum_cons, sum_map_mul_right c L, add_mul]

theorem sum_nonneg_pos (L : List α) (h0 : ∀ x ∈ L, 0 ≤ x) (h1 : ∃ x ∈ L, x ≠ 0) : 0 < L.sum := by
  induction L with
  | nil => obtain ⟨x, hx, _⟩ := h1; cases hx
  | cons a L ih =>
    rw [List.sum_cons]
    have ha := h0 a (List.mem_cons_self _ _)
    have hL : 0 ≤ L.sum := List.sum_nonneg (fun x hx => h0 x (List.mem_cons_of_mem _ hx))
    obtain ⟨x, hx, hne⟩ := h1
    rcases List.mem_cons.mp hx with rfl | hx
    · exact add_pos_of_pos_of_nonneg (lt_of_le_of_ne ha (Ne.symm hne)) hL
    · exact add_pos_of_nonneg_of_pos ha
        (ih (fun y hy => h0 y (List.mem_cons_of_mem _ hy)) ⟨x, hx, hne⟩)

theorem sum_sq_pos (L : List α) (h1 : ∃ x ∈ L, x ≠ 0) : 0 < (L.map (fun x => x * x)).sum := by
  apply sum_nonneg_pos
  · intro y hy
    rw [List.mem_map] at hy
    obtain ⟨x, _, rfl⟩ := hy
    exact mul_self_nonneg x
  · obtain ⟨x, hx, hne⟩ := h1
    exact ⟨x * x, List.mem_map.mpr ⟨x, hx, rfl⟩, mul_self_ne_zero.mpr hne⟩

theorem sum_zero_of_all_zero (L : List α) (h : ∀ x ∈ L, x = 0) : L.sum = 0 :=
  List.sum_eq_zero h

end NormalizeSpec
section NormalizeRow
variable {α : Type} [LinearOrderedField α]

/-- Effect of one iteration of the row loop of `da_csr_Normalize` for
`norm ∈ {1, 2}`. -/
theorem normalizeRow_spec (sqrt : α → α)
    (hsqrt : ∀ x, 0 < x → 0 < sqrt x ∧ sqrt x * sqrt x = x)
    (ptr : List Nat) (norm : Nat) (hn : norm = 1 ∨ norm = 2) (i : Nat) (val : List α)
    (hs : ptr.getD i 0 ≤ ptr.getD (i + 1) 0)
    (hpos : norm = 1 → ∀ x ∈ rowVals ptr val i, 0 ≤ x) :
    (normalizeRow sqrt ptr norm i val).length = val.length ∧
    (∀ j, j < ptr.getD i 0 ∨ ptr.getD (i + 1) 0 ≤ j →
      (normalizeRow sqrt ptr norm i val).getD j 0 = val.getD j 0) ∧
    ((∃ x ∈ rowVals ptr val i, x ≠ 0) →
      (norm = 1 → (rowVals ptr (normalizeRow sqrt ptr norm i val) i).sum = 1) ∧
      (norm = 2 →
        ((rowVals ptr (normalizeRow sqrt ptr norm i val) i).map (fun x => x * x)).sum = 1)) ∧
    ((∀ x ∈ rowVals ptr val i, x = 0) → normalizeRow sqrt ptr norm i val = val) := by
  have hsl : ptr.getD i 0 + (ptr.getD (i + 1) 0 - ptr.getD i 0) = ptr.getD (i + 1) 0 := by omega
  -- the sum computed by the first inner loop
  have hsum : forLoop (fun j (sum : α) =>
      if norm = 2 then sum + val.getD j 0 * val.getD j 0
      else if norm = 1 then sum + val.getD j 0
      else sum) (ptr.getD (i + 1) 0 - ptr.getD i 0) (ptr.getD i 0) 0 =
      if norm = 2 then ((rowVals ptr val i).map (fun x => x * x)).sum
      else (rowVals ptr val i).sum := by
    rw [forLoop_eq_foldl]
    unfold rowVals
    rcases hn with hn | hn
    · subst hn
      simp only [show ¬ (1 = 2) by decide, if_false, if_true]
      rw [foldl_add_eq_sum (fun j => val.getD j 0), zero_add]
    · subst hn
      simp only [if_true]
      rw [foldl_add_eq_sum (fun j => val.getD j 0 * val.getD j 0), zero_add, List.map_map]
      rfl
  have hscaled : ∀ c : α, rowVals ptr (forLoop (fun j (val : List α) =>
      val.set j (val.getD j 0 * c)) (ptr.getD (i + 1) 0 - ptr.getD i 0) (ptr.getD i 0) val) i =
      (rowVals ptr val i).map (fun x => x * c) := by
    intro c
    unfold rowVals
    rw [List.map_map]
    apply List.map_congr_left
    intro j hj
    rw [List.mem_range'_1] at hj
    rw [(scaleRow_spec c _ _ val).2 j, if_pos ⟨hj.1, hj.2⟩]
    rfl
  unfold normalizeRow
  dsimp only
  rw [hsum]
  by_cases hS : (if norm = 2 then ((rowVals ptr val i).map (fun x => x * x)).sum
      else (rowVals ptr val i).sum) > 0
  · rw [if_pos hS]
    refine ⟨(scaleRow_spec _ _ _ val).1, ?_, ?_, ?_⟩
    · intro j hj
      rw [(scaleRow_spec _ _ _ val).2 j, if_neg (by omega)]
    · intro _
      rw [hscaled]
      rcases hn with hn | hn
      · subst hn
        simp only [show ¬ (1 = 2) by decide, if_false, if_true] at hS ⊢
        refine ⟨fun _ => ?_, fun h => absurd h (by decide)⟩
        rw [sum_map_mul_right, mul_one_div, div_self (ne_of_gt hS)]
      · subst hn
        simp only [if_true] at hS ⊢
        refine ⟨fun h => absurd h (by decide), fun _ => ?_⟩
        obtain ⟨q1, q2⟩ := hsqrt _ hS
        rw [List.map_map]
        have e : (fun x : α => x * x) ∘ (fun x => x *
            (1 / sqrt ((rowVals ptr val i).map (fun x => x * x)).sum)) =
            fun x => (x * x) * (1 / ((rowVals ptr val i).map (fun x => x * x)).sum) := by
          funext x
          simp only [Function.comp]
          have hq : sqrt ((rowVals ptr val i).map (fun x => x * x)).sum ≠ 0 := ne_of_gt q1
          have : (1 / sqrt ((rowVals ptr val i).map (fun x => x * x)).sum) *
              (1 / sqrt ((rowVals ptr val i).map (fun x => x * x)).sum) =
              1 / ((rowVals ptr val i).map (fun x => x * x)).sum := by
            rw [div_mul_div_comm, one_mul, q2]
          calc x * (1 / sqrt _) * (x * (1 / sqrt _))
              = (x * x) * ((1 / sqrt ((rowVals ptr val i).map (fun x => x * x)).sum) *
                (1 / sqrt ((rowVals ptr val i).map (fun x => x * x)).sum)) := by ring
            _ = _ := by rw [this]
        rw [e]
        have e2 : (rowVals ptr val i).map (fun x => (x * x) *
            (1 / ((rowVals ptr val i).map (fun x => x * x)).sum)) =
            ((rowVals ptr val i).map (fun x => x * x)).map (fun y => y *
              (1 / ((rowVals ptr val i).map (fun x => x * x)).sum)) := by
          rw [List.map_map]
          rfl
        rw [e2, sum_map_mul_right, mul_one_div, div_self (ne_of_gt hS)]
    · intro hz
      exfalso
      rcases hn with hn | hn
      · subst hn
        simp only [show ¬ (1 = 2) by decide, if_false] at hS
        rw [sum_zero_of_all_zero _ hz] at hS
        exact lt_irrefl _ hS
      · subst hn
        simp only [if_true] at hS
        rw [List.sum_eq_zero (by
          intro y hy
          rw [List.mem_map] at hy
          obtain ⟨x, hx, rfl⟩ := hy
          rw [hz x hx, mul_zero])] at hS
        exact lt_irrefl _ hS
  · rw [if_neg hS]
    refine ⟨rfl, fun _ _ => rfl, ?_, fun _ => rfl⟩
    intro hx
    exfalso
    apply hS
    rcases hn with hn | hn
    · subst hn
      simp only [show ¬ (1 = 2) by decide, if_false]
      exact sum_nonneg_pos _ (hpos rfl) hx
    · subst hn
      simp only [if_true]
      exact sum_sq_pos _ hx

end NormalizeRow
section NormalizeClaim
variable {α : Type} [LinearOrderedField α]

/-- The row loop of `da_csr_Normalize` on a view whose pointer array is
non-decreasing. -/
theorem normalizeView_spec (sqrt : α → α)
    (hsqrt : ∀ x, 0 < x → 0 < sqrt x ∧ sqrt x * sqrt x = x)
    (n : Nat) (ptr : List Nat) (norm : Nat) (hn : norm = 1 ∨ norm = 2) (val : List α)
    (hmono : ∀ i, i < n → ptr.getD i 0 ≤ ptr.getD (i + 1) 0)
    (hpos : norm = 1 → ∀ x ∈ val, 0 ≤ x) :
    (normalizeView sqrt n ptr norm val).length = val.length ∧
    ∀ i, i < n →
      ((∃ x ∈ rowVals ptr val i, x ≠ 0) →
        (norm = 1 → (rowVals ptr (normalizeView sqrt n ptr norm val) i).sum = 1) ∧
        (norm = 2 → ((rowVals ptr (normalizeView sqrt n ptr norm val) i).map
          (fun x => x * x)).sum = 1)) ∧
      ((∀ x ∈ rowVals ptr val i, x = 0) →
        rowVals ptr (normalizeView sqrt n ptr norm val) i = rowVals ptr val i) := by
  unfold normalizeView
  have key := forLoop_invariant (fun t (cur : List α) =>
      cur.length = val.length ∧
      (∀ j, ptr.getD t 0 ≤ j → cur.getD j 0 = val.getD j 0) ∧
      ∀ i, i < t →
        ((∃ x ∈ rowVals ptr val i, x ≠ 0) →
          (norm = 1 → (rowVals ptr cur i).sum = 1) ∧
          (norm = 2 → ((rowVals ptr cur i).map (fun x => x * x)).sum = 1)) ∧
        ((∀ x ∈ rowVals ptr val i, x = 0) → rowVals ptr cur i = rowVals ptr val i))
    (normalizeRow sqrt ptr norm) 0 val n
    ⟨rfl, fun _ _ => rfl, fun i hi => by omega⟩
    (by
      intro t cur ht ⟨a1, a2, a3⟩
      rw [Nat.zero_add]
      have hrow : rowVals ptr cur t = rowVals ptr val t :=
        rowVals_congr ptr cur val t (fun j h1 _ => a2 j h1)
      obtain ⟨b1, b2, b3, b4⟩ := normalizeRow_spec sqrt hsqrt ptr norm hn t cur (hmono t ht)
        (by
          intro h1 x hx
          rw [hrow] at hx
          unfold rowVals at hx
          rw [List.mem_map] at hx
          obtain ⟨j, _, rfl⟩ := hx
          exact getD_nonneg val (hpos h1) j)
      refine ⟨by rw [b1, a1], ?_, ?_⟩
      · intro j hj
        rw [b2 j (Or.inr hj)]
        exact a2 j (le_trans (hmono t ht) hj)
      · intro i hi
        by_cases hit : i = t
        · subst hit
          rw [← hrow]
          refine ⟨b3, ?_⟩
          intro hz
          rw [b4 hz]
        · have hlt : i < t := by omega
          have hsame : rowVals ptr (normalizeRow sqrt ptr norm t cur) i = rowVals ptr cur i :=
            rowVals_congr ptr _ _ i (fun j _ h2 => b2 j (Or.inl
              (lt_of_lt_of_le h2 (ptr_mono ptr n hmono t (i + 1) (by omega) (by omega)))))
          rw [hsame]
          exact a3 i hlt)
  exact ⟨key.1, key.2.2⟩

/-- C19: for a square root with `sqrt x > 0` and `sqrt x * sqrt x = x` on the
positive `x` (the real square root is one), `norm ∈ {1, 2}` and a matrix with a
row view with values (row pointer non-decreasing; values non-negative when
`norm = 1`), after `da_csr_Normalize(mat, DA_ROW, norm)` every row that has a
non-zero value has its values summing to 1 (`norm = 1`) or its squares summing
to 1 (`norm = 2`), every row whose values are all zero keeps its values, and the
dimensions, pointers, indices and the column view are those of the input. -/
theorem da_csr_Normalize_rows (sqrt : α → α)
    (hsqrt : ∀ x, 0 < x → 0 < sqrt x ∧ sqrt x * sqrt x = x)
    (mat : da_csr_t α) (norm : Nat) (hn : norm = 1 ∨ norm = 2) (rp : List Nat) (rv : List α)
    (h1 : mat.rowptr = some rp) (h3 : mat.rowval = some rv)
    (hmono : ∀ i, i < mat.nrows → rp.getD i 0 ≤ rp.getD (i + 1) 0)
    (hpos : norm = 1 → ∀ x ∈ rv, 0 ≤ x) :
    ∃ rv2, (da_csr_Normalize sqrt mat DA_ROW norm).rowval = some rv2 ∧
      rv2.length = rv.length ∧
      (∀ i, i < mat.nrows →
        ((∃ x ∈ rowVals rp rv i, x ≠ 0) →
          (norm = 1 → (rowVals rp rv2 i).sum = 1) ∧
          (norm = 2 → ((rowVals rp rv2 i).map (fun x => x * x)).sum = 1)) ∧
        ((∀ x ∈ rowVals rp rv i, x = 0) → rowVals rp rv2 i = rowVals rp rv i)) ∧
      (da_csr_Normalize sqrt mat DA_ROW norm).nrows = mat.nrows ∧
      (da_csr_Normalize sqrt mat DA_ROW norm).ncols = mat.ncols ∧
      (da_csr_Normalize sqrt mat DA_ROW norm).rowptr = mat.rowptr ∧
      (da_csr_Normalize sqrt mat DA_ROW norm).rowind = mat.rowind ∧
      (da_csr_Normalize sqrt mat DA_ROW norm).colptr = mat.colptr ∧
      (da_csr_Normalize sqrt mat DA_ROW norm).colind = mat.colind ∧
      (da_csr_Normalize sqrt mat DA_ROW norm).colval = mat.colval := by
  obtain ⟨v1, v2⟩ := normalizeView_spec sqrt hsqrt mat.nrows rp norm hn rv hmono hpos
  have hcol : ∀ m : da_csr_t α, normalizeCols sqrt m DA_ROW norm = m := by
    intro m
    unfold normalizeCols
    cases m.colval with
    | none => rfl
    | some v =>
      dsimp only
      rw [if_neg (by decide)]
  have hrowsEq : normalizeRows sqrt mat DA_ROW norm =
      { mat with rowval := some (normalizeView sqrt mat.nrows rp norm rv) } := by
    unfold normalizeRows
    rw [h3]
    dsimp only
    rw [if_pos (by decide), h1]
    rfl
  unfold da_csr_Normalize
  rw [hcol, hrowsEq]
  exact ⟨_, rfl, v1, v2, rfl, rfl, rfl, rfl, rfl, rfl, rfl⟩

/-- Witness of C19 over the reals: the 2-norm on the 2 x 2 sample matrix with
rows `{f0:1}` and `{f0:1, f1:1}`. -/
theorem da_csr_Normalize_rows_witness :
    ∃ rv2, (da_csr_Normalize Real.sqrt (tailDocs ℝ) DA_ROW 2).rowval = some rv2 ∧
      rv2.length = [(1 : ℝ), 1, 1].length ∧
      (∀ i, i < (tailDocs ℝ).nrows →
        ((∃ x ∈ rowVals [0, 1, 3] [(1 : ℝ), 1, 1] i, x ≠ 0) →
          (2 = 1 → (rowVals [0, 1, 3] rv2 i).sum = 1) ∧
          (2 = 2 → ((rowVals [0, 1, 3] rv2 i).map (fun x => x * x)).sum = 1)) ∧
        ((∀ x ∈ rowVals [0, 1, 3] [(1 : ℝ), 1, 1] i, x = 0) →
          rowVals [0, 1, 3] rv2 i = rowVals [0, 1, 3] [(1 : ℝ), 1, 1] i)) ∧
      (da_csr_Normalize Real.sqrt (tailDocs ℝ) DA_ROW 2).nrows = (tailDocs ℝ).nrows ∧
      (da_csr_Normalize Real.sqrt (tailDocs ℝ) DA_ROW 2).ncols = (tailDocs ℝ).ncols ∧
      (da_csr_Normalize Real.sqrt (tailDocs ℝ) DA_ROW 2).rowptr = (tailDocs ℝ).rowptr ∧
      (da_csr_Normalize Real.sqrt (tailDocs ℝ) DA_ROW 2).rowind = (tailDocs ℝ).rowind ∧
      (da_csr_Normalize Real.sqrt (tailDocs ℝ) DA_ROW 2).colptr = (tailDocs ℝ).colptr ∧
      (da_csr_Normalize Real.sqrt (tailDocs ℝ) DA_ROW 2).colind = (tailDocs ℝ).colind ∧
      (da_csr_Normalize Real.sqrt (tailDocs ℝ) DA_ROW 2).colval = (tailDocs ℝ).colval :=
  da_csr_Normalize_rows Real.sqrt real_sqrt_spec (tailDocs ℝ) 2 (Or.inr rfl) [0, 1, 3]
    [1, 1, 1] rfl rfl
    (by intro i hi; have h2 : i < 2 := hi; interval_cases i <;> decide)
    (by intro h; exact absurd h (by decide))

end NormalizeClaim
/-! ## Column compaction (`da_csr_CompactColumns`) -/

section CompactColumnsLoops
variable {α : Type} [LinearOrderedField α]

/-- The two loops that fill `clens`: entry `c` ends as `(c, number of stored
entries with column c)`. -/
theorem clensFill_spec (ncols : Nat) (ri : List Nat) (hri : ∀ x ∈ ri, x < ncols) :
    forLoop (fun i (c : List da_iikv_t) =>
        c.set (ri.getD i 0) { c.getD (ri.getD i 0) default with
          val := (c.getD (ri.getD i 0) default).val + 1 }) ri.length 0
      (forLoop (fun i (c : List da_iikv_t) => c.set i ⟨i, 0⟩) ncols 0
        (List.replicate ncols default)) =
      (List.range ncols).map (fun c => (⟨c, ri.count c⟩ : da_iikv_t)) := by
  obtain ⟨i1, i2⟩ := forLoop_set_spec (fun i => (⟨i, 0⟩ : da_iikv_t)) default ncols 0
    (List.replicate ncols default)
  rw [List.length_replicate] at i1 i2
  have key := forLoop_invariant (fun t (c : List da_iikv_t) =>
      c.length = ncols ∧ ∀ x, x < ncols → c.getD x default = ⟨x, (ri.take t).count x⟩)
    (fun i (c : List da_iikv_t) =>
        c.set (ri.getD i 0) { c.getD (ri.getD i 0) default with
          val := (c.getD (ri.getD i 0) default).val + 1 }) 0
    (forLoop (fun i (c : List da_iikv_t) => c.set i ⟨i, 0⟩) ncols 0
        (List.replicate ncols default)) ri.length
    (by
      refine ⟨i1, ?_⟩
      intro x hx
      rw [i2 x, if_pos ⟨Nat.zero_le _, by omega, hx⟩]
      simp)
    (by
      intro t c ht ⟨h1, h2⟩
      rw [Nat.zero_add]
      have hget : ri.getD t 0 = ri[t] := by
        rw [List.getD_eq_getElem?_getD, List.getElem?_eq_getElem ht]; rfl
      have hlt : ri.getD t 0 < ncols := by rw [hget]; exact hri _ (List.getElem_mem _)
      have htake : ri.take (t + 1) = ri.take t ++ [ri.getD t 0] := by
        rw [List.take_succ, List.getElem?_eq_getElem ht, hget]; rfl
      refine ⟨by rw [List.length_set]; exact h1, ?_⟩
      intro x hx
      rw [getD_set_eq, h1, htake, List.count_append]
      by_cases hc : ri.getD t 0 = x
      · rw [if_pos ⟨hc, hlt⟩, h2 _ hlt, hc]
        simp
      · rw [if_neg (fun h => hc h.1), h2 x hx]
        have hz : List.count x [ri.getD t 0] = 0 := by
          rw [List.count_cons, List.count_nil]
          have : (ri.getD t 0 == x) = false := by simpa using hc
          rw [this]
          rfl
        rw [hz, Nat.add_zero])
  obtain ⟨k1, k2⟩ := key
  apply List.ext_getElem
  · rw [k1, List.length_map, List.length_range]
  · intro x hx1 hx2
    have hx : x < ncols := by rw [k1] at hx1; exact hx1
    have := k2 x hx
    rw [List.getD_eq_getElem?_getD, List.getElem?_eq_getElem hx1, List.take_length] at this
    simp only [Option.getD_some] at this
    rw [this]
    simp

/-- The loop that renumbers the stored column ids through `colmap`. -/
theorem remap_spec (cm : List Nat) (ri : List Nat) :
    forLoop (fun i (r : List Nat) => r.set i (cm.getD (r.getD i 0) 0)) ri.length 0 ri =
      ri.map (fun c => cm.getD c 0) := by
  have key := forLoop_invariant (fun t (cur : List Nat) =>
      cur.length = ri.length ∧
      ∀ j, j < ri.length → cur.getD j 0 =
        if j < t then cm.getD (ri.getD j 0) 0 else ri.getD j 0)
    (fun i (r : List Nat) => r.set i (cm.getD (r.getD i 0) 0)) 0 ri ri.length
    ⟨rfl, fun j _ => by rw [if_neg (by omega)]⟩
    (by
      intro t cur ht ⟨h1, h2⟩
      rw [Nat.zero_add]
      refine ⟨by rw [List.length_set]; exact h1, ?_⟩
      intro j hj
      rw [getD_set_eq, h1]
      by_cases hjt : t = j
      · subst hjt
        rw [if_pos ⟨rfl, ht⟩, if_pos (by omega), h2 t ht, if_neg (by omega)]
      · rw [if_neg (fun h => hjt h.1), h2 j hj]
        by_cases hlt : j < t
        · rw [if_pos hlt, if_pos (by omega)]
        · rw [if_neg hlt, if_neg (by omega)])
  obtain ⟨k1, k2⟩ := key
  apply List.ext_getElem
  · rw [k1, List.length_map]
  · intro x hx1 hx2
    have hx : x < ri.length := by rw [k1] at hx1; exact hx1
    have := k2 x hx
    rw [if_pos hx, List.getD_eq_getElem?_getD, List.getElem?_eq_getElem hx1,
      List.getD_eq_getElem?_getD (l := ri), List.getElem?_eq_getElem hx] at this
    simp only [Option.getD_some] at this
    rw [this]
    simp

end CompactColumnsLoops
section CompactMapSpec

/-- The numbering loop of `da_csr_CompactColumns` on a list sorted by
non-increasing count with distinct keys: it numbers the entries with a positive
count, which form a prefix, by their position. -/
theorem compactMap_spec (S : List da_iikv_t) (L : Nat)
    (hkeys : ∀ p q, p < S.length → q < S.length →
      (S.getD p default).key = (S.getD q default).key → p = q)
    (hkl : ∀ p, p < S.length → (S.getD p default).key < L)
    (hdesc : ∀ p q, p ≤ q → q < S.length → (S.getD q default).val ≤ (S.getD p default).val) :
    ∀ (m i : Nat) (cm : List Nat), i + m = S.length → cm.length = L →
      (∀ p, p < i → 0 < (S.getD p default).val) →
      (∀ p, p < i → cm.getD (S.getD p default).key 0 = p) →
      (compactMap S m i (cm, i)).2 ≤ S.length ∧
      (∀ p, p < (compactMap S m i (cm, i)).2 → 0 < (S.getD p default).val) ∧
      (∀ p, (compactMap S m i (cm, i)).2 ≤ p → p < S.length → (S.getD p default).val = 0) ∧
      (∀ p, p < (compactMap S m i (cm, i)).2 →
        (compactMap S m i (cm, i)).1.getD (S.getD p default).key 0 = p)
  | 0, i, cm, hi, hl, h1, h2 => by
    rw [compactMap]
    exact ⟨by dsimp only; omega, h1, fun p a b => by dsimp only at a; omega, h2⟩
  | m + 1, i, cm, hi, hl, h1, h2 => by
    rw [compactMap]
    by_cases hv : (S.getD i default).val > 0
    · rw [if_pos hv]
      dsimp only
      apply compactMap_spec S L hkeys hkl hdesc m (i + 1) _ (by omega)
        (by rw [List.length_set]; exact hl)
      · intro p hp
        by_cases hpi : p = i
        · subst hpi; exact hv
        · exact h1 p (by omega)
      · intro p hp
        rw [getD_set_eq, hl]
        by_cases hpi : p = i
        · subst hpi
          rw [if_pos ⟨rfl, hkl p (by omega)⟩]
        · have hne : ¬ (S.getD i default).key = (S.getD p default).key := fun h =>
            hpi (hkeys i p (by omega) (by omega) h).symm
          rw [if_neg (fun h => hne h.1)]
          exact h2 p (by omega)
    · rw [if_neg hv]
      dsimp only
      refine ⟨by omega, h1, ?_, h2⟩
      intro p a b
      have := hdesc i p a b
      omega

end CompactMapSpec
section CompactColumnsCore
variable {α : Type} [LinearOrderedField α]

/-- What `da_csr_CompactColumns` computes on a well-formed row view: a list `S`
of the `(column, count)` pairs in non-increasing order of count, the number `P`
of pairs with a positive count, and a map `cm` that sends the column of the
`p`-th pair to `p` for `p < P`; the new index array is the old one seen through
`cm` and the new `ncols` is `P`. -/
theorem compactColumns_core (mat : da_csr_t α) (rp ri : List Nat)
    (h1 : mat.rowptr = some rp) (h2 : mat.rowind = some ri)
    (hwf : WellFormedView mat.nrows mat.ncols rp ri) :
    ∃ (S : List da_iikv_t) (cm : List Nat) (P : Nat),
      (da_csr_CompactColumns mat).rowind = some (ri.map (fun c => cm.getD c 0)) ∧
      (da_csr_CompactColumns mat).ncols = P ∧
      S.length = mat.ncols ∧ P ≤ mat.ncols ∧
      S.Perm ((List.range mat.ncols).map (fun c => (⟨c, ri.count c⟩ : da_iikv_t))) ∧
      (∀ p q, p < S.length → q < S.length →
        (S.getD p default).key = (S.getD q default).key → p = q) ∧
      (∀ p q, p ≤ q → q < S.length → (S.getD q default).val ≤ (S.getD p default).val) ∧
      (∀ p, p < P → 0 < (S.getD p default).val) ∧
      (∀ p, P ≤ p → p < S.length → (S.getD p default).val = 0) ∧
      (∀ p, p < P → cm.getD (S.getD p default).key 0 = p) := by
  obtain ⟨w1, w2, w3, w4, w5⟩ := hwf
  have : IsTotal da_iikv_t (fun a b => decide (a.val > b.val) = false → True ∧
      decide (b.val > a.val) = false) := ⟨fun a b => by
        simp only [gt_iff_lt, decide_eq_false_iff_not, not_lt, true_and]
        rcases le_total a.val b.val with h | h
        · exact Or.inr (fun _ => h)
        · exact Or.inl (fun _ => h)⟩
  have hT : IsTotal da_iikv_t (fun a b => decide (b.val > a.val) = false) :=
    ⟨fun a b => by
      simp only [gt_iff_lt, decide_eq_false_iff_not, not_lt]
      exact le_total _ _⟩
  have hTr : IsTrans da_iikv_t (fun a b => decide (b.val > a.val) = false) :=
    ⟨fun a b c h1 h2 => by
      simp only [gt_iff_lt, decide_eq_false_iff_not, not_lt] at h1 h2 ⊢
      exact le_trans h2 h1⟩
  have hperm := List.perm_insertionSort (fun a b : da_iikv_t => decide (b.val > a.val) = false)
    ((List.range mat.ncols).map (fun c => (⟨c, ri.count c⟩ : da_iikv_t)))
  have hsorted := List.sorted_insertionSort
    (fun a b : da_iikv_t => decide (b.val > a.val) = false)
    ((List.range mat.ncols).map (fun c => (⟨c, ri.count c⟩ : da_iikv_t)))
  have hlen := List.length_insertionSort
    (fun a b : da_iikv_t => decide (b.val > a.val) = false)
    ((List.range mat.ncols).map (fun c => (⟨c, ri.count c⟩ : da_iikv_t)))
  rw [List.length_map, List.length_range] at hlen
  have hsortEq : da_iikvsortd mat.ncols
      ((List.range mat.ncols).map (fun c => (⟨c, ri.count c⟩ : da_iikv_t))) =
      ((List.range mat.ncols).map (fun c => (⟨c, ri.count c⟩ : da_iikv_t))).insertionSort
        (fun a b : da_iikv_t => decide (b.val > a.val) = false) := by
    unfold da_iikvsortd DA_MKQSORT
    rw [List.take_of_length_le (by simp), List.drop_of_length_le (by simp), List.append_nil]
  generalize hS : ((List.range mat.ncols).map
    (fun c => (⟨c, ri.count c⟩ : da_iikv_t))).insertionSort
      (fun a b : da_iikv_t => decide (b.val > a.val) = false) = S at hperm hsorted hlen hsortEq
  -- facts on S read through getD
  have hget : ∀ p (hp : p < S.length), S.getD p default = S[p] := by
    intro p hp
    rw [List.getD_eq_getElem?_getD, List.getElem?_eq_getElem hp]
    rfl
  have hnd : (S.map (fun e => e.key)).Nodup := by
    have : (S.map (fun e => e.key)).Perm (List.range mat.ncols) := by
      have h0 := hperm.map (fun e => e.key)
      rw [List.map_map] at h0
      have e0 : ((fun e : da_iikv_t => e.key) ∘ fun c => (⟨c, ri.count c⟩ : da_iikv_t)) = id :=
        rfl
      rw [e0, List.map_id] at h0
      exact h0
    exact this.nodup_iff.mpr (List.nodup_range _)
  have hkeys : ∀ p q, p < S.length → q < S.length →
      (S.getD p default).key = (S.getD q default).key → p = q := by
    intro p q hp hq h
    rw [hget p hp, hget q hq] at h
    have hp2 : p < (S.map (fun e => e.key)).length := by simpa using hp
    have hq2 : q < (S.map (fun e => e.key)).length := by simpa using hq
    have h2 : (S.map (fun e => e.key))[p] = (S.map (fun e => e.key))[q] := by simpa using h
    exact (List.Nodup.getElem_inj_iff hnd).mp h2
  have hkl : ∀ p, p < S.length → (S.getD p default).key < mat.ncols := by
    intro p hp
    rw [hget p hp]
    have hm : S[p] ∈ (List.range mat.ncols).map (fun c => (⟨c, ri.count c⟩ : da_iikv_t)) :=
      hperm.subset (List.getElem_mem _)
    rw [List.mem_map] at hm
    obtain ⟨c, hc, he⟩ := hm
    rw [← he]
    exact List.mem_range.mp hc
  have hdesc : ∀ p q, p ≤ q → q < S.length →
      (S.getD q default).val ≤ (S.getD p default).val := by
    intro p q hpq hq
    by_cases hpe : p = q
    · rw [hpe]
    · rw [hget p (by omega), hget q hq]
      have hpw := (List.pairwise_iff_getElem.mp hsorted) p q (by omega) hq (by omega)
      simpa using hpw
  obtain ⟨c1, c2, c3, c4⟩ := compactMap_spec S mat.ncols hkeys hkl hdesc mat.ncols 0
    (List.replicate mat.ncols 0) (by rw [hlen, Nat.zero_add]) (List.length_replicate _ _)
    (fun p hp => by omega) (fun p hp => by omega)
  refine ⟨S, (compactMap S mat.ncols 0 (List.replicate mat.ncols 0, 0)).1,
    (compactMap S mat.ncols 0 (List.replicate mat.ncols 0, 0)).2, ?_, ?_, hlen,
    by rw [hlen] at c1; exact c1, hperm, hkeys, hdesc, c2, c3, c4⟩
  · unfold da_csr_CompactColumns
    simp only [h1, h2, Option.getD_some, Option.map_some']
    rw [← w4, clensFill_spec mat.ncols ri w5, hsortEq, remap_spec]
  · unfold da_csr_CompactColumns
    simp only [h1, h2, Option.getD_some]
    rw [← w4, clensFill_spec mat.ncols ri w5, hsortEq]

end CompactColumnsCore
section CompactColumnsClaims
variable {α : Type} [LinearOrderedField α]

/-- Reading of the sorted `(column, count)` list: every stored column sits at a
position below `P` and is mapped to it; every position below `P` holds a stored
column with its count. -/
theorem compactColumns_positions (ncols : Nat) (ri : List Nat) (hri : ∀ x ∈ ri, x < ncols)
    (S : List da_iikv_t) (cm : List Nat) (P : Nat)
    (hperm : S.Perm ((List.range ncols).map (fun c => (⟨c, ri.count c⟩ : da_iikv_t))))
    (hpos : ∀ p, p < P → 0 < (S.getD p default).val)
    (hzero : ∀ p, P ≤ p → p < S.length → (S.getD p default).val = 0)
    (hP : P ≤ S.length)
    (hcm : ∀ p, p < P → cm.getD (S.getD p default).key 0 = p) :
    (∀ c ∈ ri, ∃ p, p < P ∧ (S.getD p default).key = c ∧ cm.getD c 0 = p) ∧
      (∀ p, p < P → (S.getD p default).key ∈ ri ∧
        (S.getD p default).val = ri.count (S.getD p default).key) := by
  have hget : ∀ p (hp : p < S.length), S.getD p default = S[p] := by
    intro p hp
    rw [List.getD_eq_getElem?_getD, List.getElem?_eq_getElem hp]
    rfl
  constructor
  · intro c hc
    have hm : (⟨c, ri.count c⟩ : da_iikv_t) ∈ S := by
      apply hperm.symm.subset
      rw [List.mem_map]
      exact ⟨c, List.mem_range.mpr (hri c hc), rfl⟩
    obtain ⟨p, hp, he⟩ := List.getElem_of_mem hm
    have hcnt : 0 < ri.count c := List.count_pos_iff.mpr hc
    have hpP : p < P := by
      by_contra hge
      have := hzero p (by omega) hp
      rw [hget p hp, he] at this
      dsimp only at this
      omega
    refine ⟨p, hpP, by rw [hget p hp, he], ?_⟩
    have := hcm p hpP
    rw [hget p hp, he] at this
    exact this
  · intro p hp
    have hpl : p < S.length := by omega
    have hm : S[p] ∈ (List.range ncols).map (fun c => (⟨c, ri.count c⟩ : da_iikv_t)) :=
      hperm.subset (List.getElem_mem _)
    rw [List.mem_map] at hm
    obtain ⟨c, _, he⟩ := hm
    have hv := hpos p hp
    rw [hget p hpl, ← he] at hv ⊢
    dsimp only at hv ⊢
    exact ⟨List.count_pos_iff.mp hv, rfl⟩

/-- C16: for a matrix with a well-formed row view, after
`da_csr_CompactColumns` the new `ncols` is the number of distinct column indices
stored in the original row view, and every column index below the new `ncols` is
stored in the new row view. -/
theorem da_csr_CompactColumns_ncols (mat : da_csr_t α) (rp ri : List Nat)
    (h1 : mat.rowptr = some rp) (h2 : mat.rowind = some ri)
    (hwf : WellFormedView mat.nrows mat.ncols rp ri) :
    ∃ ri2, (da_csr_CompactColumns mat).rowind = some ri2 ∧
      (da_csr_CompactColumns mat).ncols = ri.dedup.length ∧
      ∀ c, c < (da_csr_CompactColumns mat).ncols → c ∈ ri2 := by
  obtain ⟨S, cm, P, a1, a2, a3, a4, a5, a6, a7, a8, a9, a10⟩ :=
    compactColumns_core mat rp ri h1 h2 hwf
  obtain ⟨f1, f2⟩ := compactColumns_positions mat.ncols ri hwf.2.2.2.2 S cm P a5 a8 a9
    (by rw [a3]; exact a4) a10
  refine ⟨_, a1, ?_, ?_⟩
  · rw [a2]
    have hnd : ((List.range P).map (fun p => (S.getD p default).key)).Nodup := by
      apply List.Nodup.map_on _ (List.nodup_range P)
      intro p hp q hq h
      rw [List.mem_range] at hp hq
      exact a6 p q (by omega) (by omega) h
    have hpm : ((List.range P).map (fun p => (S.getD p default).key)).Perm ri.dedup := by
      rw [List.perm_ext_iff_of_nodup hnd (List.nodup_dedup ri)]
      intro c
      rw [List.mem_map, List.mem_dedup]
      constructor
      · rintro ⟨p, hp, rfl⟩
        exact (f2 p (List.mem_range.mp hp)).1
      · intro hc
        obtain ⟨p, hp, hk, _⟩ := f1 c hc
        exact ⟨p, List.mem_range.mpr hp, hk⟩
    have := hpm.length_eq
    rw [List.length_map, List.length_range] at this
    exact this
  · intro c hc
    rw [a2] at hc
    obtain ⟨g1, _⟩ := f2 c hc
    obtain ⟨p, hp, hk, hf⟩ := f1 _ g1
    have hpc : p = c := a6 p c (by omega) (by omega) hk
    rw [List.mem_map]
    exact ⟨(S.getD c default).key, g1, by rw [hf, hpc]⟩

/-- Witness of C16 on the 4 x 5 example input, which stores three of its five
columns. -/
theorem da_csr_CompactColumns_ncols_witness :
    ∃ ri2, (da_csr_CompactColumns (scenarioDocs ℚ)).rowind = some ri2 ∧
      (da_csr_CompactColumns (scenarioDocs ℚ)).ncols = [0, 1, 0, 1, 2].dedup.length ∧
      ∀ c, c < (da_csr_CompactColumns (scenarioDocs ℚ)).ncols → c ∈ ri2 :=
  da_csr_CompactColumns_ncols (scenarioDocs ℚ) [0, 2, 4, 5, 5] [0, 1, 0, 1, 2] rfl rfl
    ⟨rfl, rfl, by intro i hi; have h4 : i < 4 := hi; interval_cases i <;> decide, rfl,
      by decide⟩

end CompactColumnsClaims
/-! ## Sorting the values of a view (`da_csr_SortValues`) -/

section SortValuesLoops
variable {α : Type} [LinearOrderedField α]

/-- The scan of one row in `da_csr_SortValues`: it stops at the first inversion,
and the keys of the positions it passed are set. -/
theorem sortValScan_spec (how : Nat) (ind : List Nat) (val : List α) (s : Nat) :
    ∀ (m j : Nat) (cand : List (da_ivkv_t α)), s < j → j + m - s ≤ cand.length →
      (∀ t, t < j - s → (cand.getD t default).key = ind.getD (s + t) 0) →
      (sortValScan how ind val s m j cand).2.2.length = cand.length ∧
      j ≤ (sortValScan how ind val s m j cand).2.1 ∧
      (sortValScan how ind val s m j cand).2.1 ≤ j + m ∧
      (∀ t, t < (sortValScan how ind val s m j cand).2.1 - s →
        ((sortValScan how ind val s m j cand).2.2.getD t default).key = ind.getD (s + t) 0) ∧
      ((sortValScan how ind val s m j cand).1 = true ↔
        ∃ k, j ≤ k ∧ k < j + m ∧
          (if how = DA_SORT_I then val.getD k 0 < val.getD (k - 1) 0
           else val.getD k 0 > val.getD (k - 1) 0))
  | 0, j, cand, hj, hl, hk => by
    rw [sortValScan]
    refine ⟨rfl, le_refl _, le_refl _, hk, ?_⟩
    constructor
    · intro h; cases h
    · rintro ⟨k, a, b, _⟩; omega
  | m + 1, j, cand, hj, hl, hk => by
    rw [sortValScan]
    by_cases hinv : (if how = DA_SORT_I then val.getD j 0 < val.getD (j - 1) 0
        else val.getD j 0 > val.getD (j - 1) 0)
    · rw [if_pos hinv]
      refine ⟨rfl, le_refl _, by dsimp only; omega, hk, ?_⟩
      simp only [true_iff]
      exact ⟨j, le_refl _, by omega, hinv⟩
    · rw [if_neg hinv]
      obtain ⟨a1, a2, a3, a4, a5⟩ := sortValScan_spec how ind val s m (j + 1)
        (cand.set (j - s) { cand.getD (j - s) default with key := ind.getD j 0 })
        (by omega) (by rw [List.length_set]; omega)
        (by
          intro t ht
          rw [getD_set_eq]
          by_cases htj : j - s = t
          · rw [if_pos ⟨htj, by omega⟩]
            have : s + t = j := by omega
            rw [this]
          · rw [if_neg (fun h => htj h.1)]
            exact hk t (by omega))
      rw [List.length_set] at a1
      refine ⟨a1, by omega, by omega, a4, ?_⟩
      rw [a5]
      constructor
      · rintro ⟨k, b1, b2, b3⟩
        exact ⟨k, by omega, by omega, b3⟩
      · rintro ⟨k, b1, b2, b3⟩
        by_cases hkj : k = j
        · subst hkj
          exact absurd b3 hinv
        · exact ⟨k, by omega, by omega, b3⟩

/-- The loop that completes the keys of `cand` from position `jb` on. -/
theorem sortValKeys_spec (ind : List Nat) (s jb cnt : Nat) (cand : List (da_ivkv_t α))
    (hj : s ≤ jb) (hl : jb + cnt - s ≤ cand.length)
    (hk : ∀ t, t < jb - s → (cand.getD t default).key = ind.getD (s + t) 0) :
    (forLoop (fun j (c : List (da_ivkv_t α)) =>
        c.set (j - s) { c.getD (j - s) default with key := ind.getD j 0 }) cnt jb cand).length =
      cand.length ∧
    ∀ t, t < jb + cnt - s →
      ((forLoop (fun j (c : List (da_ivkv_t α)) =>
        c.set (j - s) { c.getD (j - s) default with key := ind.getD j 0 }) cnt jb cand).getD t
          default).key = ind.getD (s + t) 0 := by
  have key := forLoop_invariant (fun u (c : List (da_ivkv_t α)) =>
      c.length = cand.length ∧
      ∀ t, t < jb + u - s → (c.getD t default).key = ind.getD (s + t) 0)
    (fun j (c : List (da_ivkv_t α)) =>
        c.set (j - s) { c.getD (j - s) default with key := ind.getD j 0 }) jb cand cnt
    ⟨rfl, fun t ht => hk t (by omega)⟩
    (by
      intro u c hu ⟨h1, h2⟩
      refine ⟨by rw [List.length_set]; exact h1, ?_⟩
      intro t ht
      rw [getD_set_eq, h1]
      by_cases htj : jb + u - s = t
      · rw [if_pos ⟨htj, by omega⟩]
        have : s + t = jb + u := by omega
        rw [this]
      · rw [if_neg (fun h => htj h.1)]
        exact h2 t (by omega))
  exact key

/-- The loop that writes the values of the row into `cand`. -/
theorem sortValVals_spec (ind : List Nat) (val : List α) (s len : Nat)
    (cand : List (da_ivkv_t α)) (hl : len ≤ cand.length)
    (hk : ∀ t, t < len → (cand.getD t default).key = ind.getD (s + t) 0) :
    (forLoop (fun j (c : List (da_ivkv_t α)) =>
        c.set (j - s) { c.getD (j - s) default with val := val.getD j 0 }) len s cand).length =
      cand.length ∧
    ∀ t, t < len →
      (forLoop (fun j (c : List (da_ivkv_t α)) =>
        c.set (j - s) { c.getD (j - s) default with val := val.getD j 0 }) len s cand).getD t
          default = ⟨ind.getD (s + t) 0, val.getD (s + t) 0⟩ := by
  have key := forLoop_invariant (fun u (c : List (da_ivkv_t α)) =>
      c.length = cand.length ∧
      (∀ t, t < len → (c.getD t default).key = ind.getD (s + t) 0) ∧
      ∀ t, t < u → (c.getD t default).val = val.getD (s + t) 0)
    (fun j (c : List (da_ivkv_t α)) =>
        c.set (j - s) { c.getD (j - s) default with val := val.getD j 0 }) s cand len
    ⟨rfl, hk, fun t ht => by omega⟩
    (by
      intro u c hu ⟨h1, h2, h3⟩
      have e : s + u - s = u := by omega
      refine ⟨by rw [List.length_set]; exact h1, ?_, ?_⟩
      · intro t ht
        rw [getD_set_eq, h1, e]
        by_cases htu : u = t
        · subst htu
          rw [if_pos ⟨rfl, by omega⟩]
          exact h2 u ht
        · rw [if_neg (fun h => htu h.1)]
          exact h2 t ht
      · intro t ht
        rw [getD_set_eq, h1, e]
        by_cases htu : u = t
        · subst htu
          rw [if_pos ⟨rfl, by omega⟩]
        · rw [if_neg (fun h => htu h.1)]
          exact h3 t (by omega))
  obtain ⟨k1, k2, k3⟩ := key
  refine ⟨k1, ?_⟩
  intro t ht
  have a := k2 t ht
  have b := k3 t ht
  cases hc : (forLoop (fun j (c : List (da_ivkv_t α)) =>
        c.set (j - s) { c.getD (j - s) default with val := val.getD j 0 }) len s cand).getD t
          default with
  | mk kk vv =>
    rw [hc] at a b
    dsimp only at a b
    rw [a, b]

end SortValuesLoops
/-! ## Scratch-array and posting-list invariants of the two engines -/

section EngineInvariants
variable {α : Type} [LinearOrderedField α]

/-- C34: when `da_getSimilarRows` is entered with caller-supplied scratch arrays
of length `nrows` and every marker `-1` (column view with row ids below `nrows`,
`nsim = -1` or `nsim ≥ 0`), it returns, for every query row `rid`, empty or not,
and every marker is `-1` again in the state it returns. -/
theorem da_getSimilarRows_marker_reset (mat : da_csr_t α) (rid : Nat) (nsim : Int) (eps : α)
    (hits cand : List (da_ivkv_t α)) (nc : Nat)
    (hpos : 0 < mat.nrows) (hcol : ∀ x ∈ mat.colind.getD [], x < mat.nrows)
    (hh : hits.length = mat.nrows) (hc : cand.length = mat.nrows)
    (hns : nsim = -1 ∨ 0 ≤ nsim) :
    ∃ r, da_getSimilarRows mat rid nsim eps hits (some cand)
        (some (List.replicate mat.nrows (-1))) nc = some r ∧
      r.marker = List.replicate mat.nrows (-1) := by
  obtain ⟨r, hr, _⟩ := da_getSimilarRows_spec mat rid nsim eps hits cand
    (List.replicate mat.nrows (-1)) nc hpos hcol hh hc (List.length_replicate _ _) hns
  exact ⟨r, hr, da_getSimilarRows_marker mat rid nsim eps hits cand nc r hpos hcol hc hr⟩

/-- Witness of C34 on the 3 x 2 sample matrix with both views, query row 0. -/
theorem da_getSimilarRows_marker_reset_witness :
    ∃ r, da_getSimilarRows indexedDocs 0 2 (1 / 2) (List.replicate 3 default)
        (some (List.replicate 3 default)) (some (List.replicate indexedDocs.nrows (-1))) 0 =
          some r ∧
      r.marker = List.replicate indexedDocs.nrows (-1) :=
  da_getSimilarRows_marker_reset indexedDocs 0 2 (1 / 2) (List.replicate 3 default)
    (List.replicate 3 default) 0 (by decide) (by decide) rfl rfl (Or.inr (by decide))

theorem postingsUpTo_rows (mat : da_csr_t α) (f : Nat) : ∀ d,
    (∀ e ∈ postingsUpTo mat f d, e.1 < d) ∧
      ((postingsUpTo mat f d).map Prod.fst).Sorted (· ≤ ·)
  | 0 => by simp [postingsUpTo]
  | d + 1 => by
    obtain ⟨h1, h2⟩ := postingsUpTo_rows mat f d
    rw [postingsUpTo_succ]
    constructor
    · intro e he
      rcases List.mem_append.mp he with he | he
      · exact Nat.lt_succ_of_lt (h1 e he)
      · rw [List.mem_map] at he
        obtain ⟨x, _, rfl⟩ := he
        exact Nat.lt_succ_self d
    · rw [List.map_append, List.map_map]
      unfold List.Sorted at h2 ⊢
      rw [List.pairwise_append]
      refine ⟨h2, ?_, ?_⟩
      · rw [List.pairwise_map]
        exact List.pairwise_of_forall (fun _ _ => le_refl _)
      · intro a ha b hb
        rw [List.mem_map] at ha hb
        obtain ⟨x, hx, rfl⟩ := ha
        obtain ⟨y, _, rfl⟩ := hb
        exact le_of_lt (h1 x hx)

/-- C36: in the inverted-index engine, for a matrix whose rows store column ids
below `ncols`, when `findMatches` is called for document `d < nrows` (after the
documents `0..d-1` were processed) the posting list of every feature `f` is the
list of the (row, value) entries of column `f` with row below `d`, in increasing
row order; so every posting id is below `d`, the length of the accumulation
buffer. -/
theorem invertedScan_postings (docs : da_csr_t α) (eps : α) (hwf : RowsInRange docs)
    (d : Nat) (hd : d < docs.nrows) (f : Nat) (hf : f < docs.ncols) :
    (invertedScan docs eps d).invertedIndex.getD f [] = postingsUpTo docs f d ∧
      (((invertedScan docs eps d).invertedIndex.getD f []).map Prod.fst).Sorted (· ≤ ·) ∧
      ∀ e ∈ (invertedScan docs eps d).invertedIndex.getD f [],
        e.1 < (List.replicate d (0 : α)).length := by
  obtain ⟨_, h2, _, _⟩ := invertedScan_spec docs eps hwf d (le_of_lt hd)
  obtain ⟨p1, p2⟩ := postingsUpTo_rows docs f d
  rw [h2 f hf, List.length_replicate]
  exact ⟨rfl, p2, p1⟩

/-- Witness of C36 on the 3 x 2 sample matrix: document 2, feature 0. -/
theorem invertedScan_postings_witness :
    (invertedScan sampleDocs (1 / 2) 2).invertedIndex.getD 0 [] = postingsUpTo sampleDocs 0 2 ∧
      (((invertedScan sampleDocs (1 / 2) 2).invertedIndex.getD 0 []).map Prod.fst).Sorted
        (· ≤ ·) ∧
      ∀ e ∈ (invertedScan sampleDocs (1 / 2) 2).invertedIndex.getD 0 [],
        e.1 < (List.replicate 2 (0 : ℚ)).length :=
  invertedScan_postings sampleDocs (1 / 2) sampleDocs_inRange 2 (by decide) 0 (by decide)

end EngineInvariants
section CompactColumnsFrame
variable {α : Type} [LinearOrderedField α]

/-- C37: for a matrix with a well-formed row view, `da_csr_CompactColumns`
leaves `nrows`, `row_ptr`, `row_val` and the column-view arrays as they are and
replaces `row_ind` by an array of the same length in which two positions hold
the same column index iff they held the same column index before, every entry
being below the new `ncols`. -/
theorem da_csr_CompactColumns_renames (mat : da_csr_t α) (rp ri : List Nat)
    (h1 : mat.rowptr = some rp) (h2 : mat.rowind = some ri)
    (hwf : WellFormedView mat.nrows mat.ncols rp ri) :
    ∃ ri2, (da_csr_CompactColumns mat).rowind = some ri2 ∧ ri2.length = ri.length ∧
      (∀ i j, i < ri.length → j < ri.length →
        (ri2.getD i 0 = ri2.getD j 0 ↔ ri.getD i 0 = ri.getD j 0)) ∧
      (∀ x ∈ ri2, x < (da_csr_CompactColumns mat).ncols) ∧
      (da_csr_CompactColumns mat).nrows = mat.nrows ∧
      (da_csr_CompactColumns mat).rowptr = mat.rowptr ∧
      (da_csr_CompactColumns mat).rowval = mat.rowval ∧
      (da_csr_CompactColumns mat).colptr = mat.colptr ∧
      (da_csr_CompactColumns mat).colind = mat.colind ∧
      (da_csr_CompactColumns mat).colval = mat.colval := by
  obtain ⟨S, cm, P, a1, a2, a3, a4, a5, a6, a7, a8, a9, a10⟩ :=
    compactColumns_core mat rp ri h1 h2 hwf
  obtain ⟨f1, f2⟩ := compactColumns_positions mat.ncols ri hwf.2.2.2.2 S cm P a5 a8 a9
    (by rw [a3]; exact a4) a10
  have hmapget : ∀ i, i < ri.length →
      (ri.map (fun c => cm.getD c 0)).getD i 0 = cm.getD (ri.getD i 0) 0 := by
    intro i hi
    rw [List.getD_eq_getElem?_getD, List.getElem?_eq_getElem (by simpa using hi),
      List.getD_eq_getElem?_getD (l := ri), List.getElem?_eq_getElem hi]
    simp
  have hmem : ∀ i, i < ri.length → ri.getD i 0 ∈ ri := by
    intro i hi
    rw [List.getD_eq_getElem?_getD, List.getElem?_eq_getElem hi]
    exact List.getElem_mem _
  refine ⟨_, a1, by simp, ?_, ?_, rfl, rfl, rfl, rfl, rfl, rfl⟩
  · intro i j hi hj
    rw [hmapget i hi, hmapget j hj]
    obtain ⟨p, hp, hk, hf⟩ := f1 _ (hmem i hi)
    obtain ⟨q, hq, hk2, hf2⟩ := f1 _ (hmem j hj)
    rw [hf, hf2]
    constructor
    · intro h
      rw [← hk, ← hk2, h]
    · intro h
      exact a6 p q (by omega) (by omega) (by rw [hk, hk2, h])
  · intro x hx
    rw [List.mem_map] at hx
    obtain ⟨c, hc, rfl⟩ := hx
    obtain ⟨p, hp, _, hf⟩ := f1 c hc
    rw [a2, hf]
    exact hp

/-- Witness of C37 on the 4 x 5 example input. -/
theorem da_csr_CompactColumns_renames_witness :
    ∃ ri2, (da_csr_CompactColumns (scenarioDocs ℚ)).rowind = some ri2 ∧
      ri2.length = [0, 1, 0, 1, 2].length ∧
      (∀ i j, i < [0, 1, 0, 1, 2].length → j < [0, 1, 0, 1, 2].length →
        (ri2.getD i 0 = ri2.getD j 0 ↔ [0, 1, 0, 1, 2].getD i 0 = [0, 1, 0, 1, 2].getD j 0)) ∧
      (∀ x ∈ ri2, x < (da_csr_CompactColumns (scenarioDocs ℚ)).ncols) ∧
      (da_csr_CompactColumns (scenarioDocs ℚ)).nrows = (scenarioDocs ℚ).nrows ∧
      (da_csr_CompactColumns (scenarioDocs ℚ)).rowptr = (scenarioDocs ℚ).rowptr ∧
      (da_csr_CompactColumns (scenarioDocs ℚ)).rowval = (scenarioDocs ℚ).rowval ∧
      (da_csr_CompactColumns (scenarioDocs ℚ)).colptr = (scenarioDocs ℚ).colptr ∧
      (da_csr_CompactColumns (scenarioDocs ℚ)).colind = (scenarioDocs ℚ).colind ∧
      (da_csr_CompactColumns (scenarioDocs ℚ)).colval = (scenarioDocs ℚ).colval :=
  da_csr_CompactColumns_renames (scenarioDocs ℚ) [0, 2, 4, 5, 5] [0, 1, 0, 1, 2] rfl rfl
    ⟨rfl, rfl, by intro i hi; have h4 : i < 4 := hi; interval_cases i <;> decide, rfl,
      by decide⟩

end CompactColumnsFrame
section ScaleFull
variable {α : Type} [LinearOrderedField α]

end ScaleFull
section VerifyDenominator
variable {α : Type} [LinearOrderedField α]

/-- C31 (as amended): for a row that enters the averages of
`verify_knng_results`, the amounts added to `recall` and `crecall` are `c / ln`
and `cc / ln`, where `c` and `cc` are the counters of the loop over the true
neighbours and `ln` is the smaller of `nsz` and the length of the truth row; `ln`
is `nsz` when the truth row has at least `nsz` entries. -/
theorem knngRow_recall (ptr ind : List Nat) (val : List α) (ptr2 ind2 : List Nat)
    (val2 : List α) (nsz pe : Nat) (fltMax : α) (i : Nat) (st : KnngState α)
    (hc : knngCounted ptr ptr2 nsz i = true) :
    (knngRow ptr ind val ptr2 ind2 val2 nsz pe fltMax i st).recallAcc =
        st.recallAcc +
          ((knngCheck ind2 val2 (ptr2.getD i 0) (min (ptr2.getD (i + 1) 0 - ptr2.getD i 0) nsz)
            pe (knngFill ind val (ptr.getD i 0) (ptr.getD (i + 1) 0 - ptr.getD i 0) fltMax
              st.row).2 fltMax
            (knngFill ind val (ptr.getD i 0) (ptr.getD (i + 1) 0 - ptr.getD i 0) fltMax
              st.row).1).c : α) /
          ((min nsz (ptr2.getD (i + 1) 0 - ptr2.getD i 0) : Nat) : α) ∧
      (knngRow ptr ind val ptr2 ind2 val2 nsz pe fltMax i st).crecall =
        st.crecall +
          ((knngCheck ind2 val2 (ptr2.getD i 0) (min (ptr2.getD (i + 1) 0 - ptr2.getD i 0) nsz)
            pe (knngFill ind val (ptr.getD i 0) (ptr.getD (i + 1) 0 - ptr.getD i 0) fltMax
              st.row).2 fltMax
            (knngFill ind val (ptr.getD i 0) (ptr.getD (i + 1) 0 - ptr.getD i 0) fltMax
              st.row).1).cc : α) /
          ((min nsz (ptr2.getD (i + 1) 0 - ptr2.getD i 0) : Nat) : α) ∧
      (nsz ≤ ptr2.getD (i + 1) 0 - ptr2.getD i 0 →
        min nsz (ptr2.getD (i + 1) 0 - ptr2.getD i 0) = nsz) := by
  unfold knngCounted at hc
  obtain ⟨h1, h2⟩ := of_decide_eq_true hc
  have hmin : da_min nsz (ptr2.getD (i + 1) 0 - ptr2.getD i 0) =
      min nsz (ptr2.getD (i + 1) 0 - ptr2.getD i 0) := by
    unfold da_min
    split_ifs with h
    · exact (Nat.min_eq_right h).symm
    · exact (Nat.min_eq_left (by omega)).symm
  unfold knngRow
  rw [if_neg h1]
  dsimp only
  rw [if_pos h2, hmin]
  exact ⟨rfl, rfl, fun h => Nat.min_eq_left h⟩

/-- Witness of the amended C31: row 0 of the candidate with an empty row 1,
checked at width 2 against the truth matrix whose rows have one entry. -/
theorem knngRow_recall_witness :
    (knngRow (halfNeighbors.rowptr.getD []) (halfNeighbors.rowind.getD []) (halfNeighbors.rowval.getD []) (fullNeighbors.rowptr.getD []) (fullNeighbors.rowind.getD []) (fullNeighbors.rowval.getD []) 2 0 1000 0
        ({ row := [-1, -1], recallAcc := 0, crecall := 0, n := 0 } : KnngState ℚ)).recallAcc =
        ({ row := [-1, -1], recallAcc := 0, crecall := 0, n := 0 } : KnngState ℚ).recallAcc +
          ((knngCheck (fullNeighbors.rowind.getD []) (fullNeighbors.rowval.getD []) ((fullNeighbors.rowptr.getD []).getD 0 0)
            (min ((fullNeighbors.rowptr.getD []).getD (0 + 1) 0 - (fullNeighbors.rowptr.getD []).getD 0 0) 2) 0
            (knngFill (halfNeighbors.rowind.getD []) (halfNeighbors.rowval.getD []) ((halfNeighbors.rowptr.getD []).getD 0 0)
              ((halfNeighbors.rowptr.getD []).getD (0 + 1) 0 - (halfNeighbors.rowptr.getD []).getD 0 0) 1000
              ({ row := [-1, -1], recallAcc := 0, crecall := 0, n := 0 } : KnngState ℚ).row).2
            1000
            (knngFill (halfNeighbors.rowind.getD []) (halfNeighbors.rowval.getD []) ((halfNeighbors.rowptr.getD []).getD 0 0)
              ((halfNeighbors.rowptr.getD []).getD (0 + 1) 0 - (halfNeighbors.rowptr.getD []).getD 0 0) 1000
              ({ row := [-1, -1], recallAcc := 0, crecall := 0, n := 0 } : KnngState ℚ).row).1).c
              : ℚ) /
          ((min 2 ((fullNeighbors.rowptr.getD []).getD (0 + 1) 0 - (fullNeighbors.rowptr.getD []).getD 0 0) : Nat) : ℚ) ∧
      (knngRow (halfNeighbors.rowptr.getD []) (halfNeighbors.rowind.getD []) (halfNeighbors.rowval.getD []) (fullNeighbors.rowptr.getD []) (fullNeighbors.rowind.getD []) (fullNeighbors.rowval.getD []) 2 0 1000 0
        ({ row := [-1, -1], recallAcc := 0, crecall := 0, n := 0 } : KnngState ℚ)).crecall =
        ({ row := [-1, -1], recallAcc := 0, crecall := 0, n := 0 } : KnngState ℚ).crecall +
          ((knngCheck (fullNeighbors.rowind.getD []) (fullNeighbors.rowval.getD []) ((fullNeighbors.rowptr.getD []).getD 0 0)
            (min ((fullNeighbors.rowptr.getD []).getD (0 + 1) 0 - (fullNeighbors.rowptr.getD []).getD 0 0) 2) 0
            (knngFill (halfNeighbors.rowind.getD []) (halfNeighbors.rowval.getD []) ((halfNeighbors.rowptr.getD []).getD 0 0)
              ((halfNeighbors.rowptr.getD []).getD (0 + 1) 0 - (halfNeighbors.rowptr.getD []).getD 0 0) 1000
              ({ row := [-1, -1], recallAcc := 0, crecall := 0, n := 0 } : KnngState ℚ).row).2
            1000
            (knngFill (halfNeighbors.rowind.getD []) (halfNeighbors.rowval.getD []) ((halfNeighbors.rowptr.getD []).getD 0 0)
              ((halfNeighbors.rowptr.getD []).getD (0 + 1) 0 - (halfNeighbors.rowptr.getD []).getD 0 0) 1000
              ({ row := [-1, -1], recallAcc := 0, crecall := 0, n := 0 } : KnngState ℚ).row).1).cc
              : ℚ) /
          ((min 2 ((fullNeighbors.rowptr.getD []).getD (0 + 1) 0 - (fullNeighbors.rowptr.getD []).getD 0 0) : Nat) : ℚ) ∧
      (2 ≤ (fullNeighbors.rowptr.getD []).getD (0 + 1) 0 - (fullNeighbors.rowptr.getD []).getD 0 0 →
        min 2 ((fullNeighbors.rowptr.getD []).getD (0 + 1) 0 - (fullNeighbors.rowptr.getD []).getD 0 0) = 2) :=
  knngRow_recall (halfNeighbors.rowptr.getD []) (halfNeighbors.rowind.getD []) (halfNeighbors.rowval.getD []) (fullNeighbors.rowptr.getD []) (fullNeighbors.rowind.getD []) (fullNeighbors.rowval.getD []) 2 0 1000 0
    ({ row := [-1, -1], recallAcc := 0, crecall := 0, n := 0 } : KnngState ℚ) (by decide)

/-- C31 (counterexample): at check width 2, row 0 of the truth matrix has one
entry, which the candidate row holds with the same value; the row is counted,
`cc = 1`, and the corrected recall added is 1, not `cc / 2`. -/
theorem knngRow_recall_not_width :
    knngCounted [0, 1, 1] [0, 1, 2] 2 0 = true ∧
      (knngCheck [1, 0] [(1 / 2 : ℚ), 1 / 2] 0 1 0
        (knngFill [1] [(1 / 2 : ℚ)] 0 1 1000 [-1, -1]).2 1000
        (knngFill [1] [(1 / 2 : ℚ)] 0 1 1000 [-1, -1]).1).cc = 1 ∧
      rowCorrected 2 [0, 1, 1] [1] [(1 / 2 : ℚ)] [0, 1, 2] [1, 0] [(1 / 2 : ℚ), 1 / 2] 2 0 1000 0
        = 1 ∧
      rowCorrected 2 [0, 1, 1] [1] [(1 / 2 : ℚ)] [0, 1, 2] [1, 0] [(1 / 2 : ℚ), 1 / 2] 2 0 1000 0
        ≠ ((1 : Nat) : ℚ) / ((2 : Nat) : ℚ) := by
  have h3 : rowCorrected 2 [0, 1, 1] [1] [(1 / 2 : ℚ)] [0, 1, 2] [1, 0] [(1 / 2 : ℚ), 1 / 2]
      2 0 1000 0 = 1 := by
    norm_num [rowCorrected, knngRow, knngFill, knngCheck, knngCheckStep, knngReset, forLoop,
      da_min, da_abs]
  refine ⟨by decide, ?_, h3, ?_⟩
  · norm_num [knngFill, knngCheck, knngCheckStep, forLoop, da_abs]
  · rw [h3]
    norm_num

end VerifyDenominator
section VerifyCount
variable {α : Type} [LinearOrderedField α]

/-- The register `lv` after the first loop of a row is at most every value of
the row and at most `FLT_MAX`, and it is `FLT_MAX` or one of the values. -/
theorem knngFill_lv (ind : List Nat) (val : List α) (s len : Nat) (fltMax : α) (row : List α) :
    (∀ j, s ≤ j → j < s + len → (knngFill ind val s len fltMax row).2 ≤ val.getD j 0) ∧
      ((knngFill ind val s len fltMax row).2 = fltMax ∨
        ∃ j, s ≤ j ∧ j < s + len ∧ (knngFill ind val s len fltMax row).2 = val.getD j 0) := by
  unfold knngFill
  have key := forLoop_invariant (fun t (st : List α × α) =>
      (∀ j, s ≤ j → j < s + t → st.2 ≤ val.getD j 0) ∧
      (st.2 = fltMax ∨ ∃ j, s ≤ j ∧ j < s + t ∧ st.2 = val.getD j 0))
    (fun j (st : List α × α) =>
      (st.1.set (ind.getD j 0) (val.getD j 0),
       if val.getD j 0 < st.2 then val.getD j 0 else st.2)) s (row, fltMax) len
    ⟨fun j a b => by omega, Or.inl rfl⟩
    (by
      intro t st ht ⟨h1, h2⟩
      dsimp only
      by_cases hlt : val.getD (s + t) 0 < st.2
      · rw [if_pos hlt]
        refine ⟨?_, Or.inr ⟨s + t, by omega, by omega, rfl⟩⟩
        intro j a b
        by_cases hj : j = s + t
        · rw [hj]
        · exact le_trans (le_of_lt hlt) (h1 j a (by omega))
      · rw [if_neg hlt]
        refine ⟨?_, ?_⟩
        · intro j a b
          by_cases hj : j = s + t
          · rw [hj]; exact not_lt.mp hlt
          · exact h1 j a (by omega)
        · rcases h2 with h2 | ⟨j, a, b, c⟩
          · exact Or.inl h2
          · exact Or.inr ⟨j, a, by omega, c⟩)
  exact key

/-- One round of the loop over the true neighbours adds one to `cc` exactly when
the neighbour is held with a value within `1e-4`, or not held (scratch entry not
above `-1`) and within `1e-4` of `lv`; the scratch array changes at most at the
neighbour's id. -/
theorem knngCheckStep_cc (ind2 : List Nat) (val2 : List α) (pe : Nat) (lv : α) (j : Nat)
    (st : KnngRowState α) :
    (knngCheckStep ind2 val2 pe lv j st).cc =
        st.cc + (if (st.row.getD (ind2.getD j 0) 0 > -1 ∧
            da_abs (st.row.getD (ind2.getD j 0) 0 - val2.getD j 0) < 1 / 10000) ∨
          (¬ st.row.getD (ind2.getD j 0) 0 > -1 ∧ da_abs (lv - val2.getD j 0) < 1 / 10000)
          then 1 else 0) ∧
      ∀ x, x ≠ ind2.getD j 0 →
        (knngCheckStep ind2 val2 pe lv j st).row.getD x 0 = st.row.getD x 0 := by
  by_cases h1 : st.row.getD (ind2.getD j 0) 0 > -1
  · by_cases h2 : da_abs (st.row.getD (ind2.getD j 0) 0 - val2.getD j 0) < 1 / 10000
    · have hc : (st.row.getD (ind2.getD j 0) 0 > -1 ∧
            da_abs (st.row.getD (ind2.getD j 0) 0 - val2.getD j 0) < 1 / 10000) ∨
          (¬ st.row.getD (ind2.getD j 0) 0 > -1 ∧ da_abs (lv - val2.getD j 0) < 1 / 10000) :=
        Or.inl ⟨h1, h2⟩
      rw [if_pos hc]
      unfold knngCheckStep
      dsimp only
      rw [if_pos h1]
      dsimp only
      rw [if_pos h2]
      refine ⟨rfl, ?_⟩
      intro x hx
      rw [getD_set_eq, if_neg (fun h => hx h.1.symm)]
    · have hc : ¬ ((st.row.getD (ind2.getD j 0) 0 > -1 ∧
            da_abs (st.row.getD (ind2.getD j 0) 0 - val2.getD j 0) < 1 / 10000) ∨
          (¬ st.row.getD (ind2.getD j 0) 0 > -1 ∧ da_abs (lv - val2.getD j 0) < 1 / 10000)) := by
        rintro (⟨_, b⟩ | ⟨a, _⟩)
        · exact h2 b
        · exact a h1
      rw [if_neg hc]
      unfold knngCheckStep
      dsimp only
      rw [if_pos h1]
      dsimp only
      rw [if_neg h2]
      refine ⟨rfl, ?_⟩
      intro x hx
      rw [getD_set_eq, if_neg (fun h => hx h.1.symm)]
  · by_cases h2 : da_abs (lv - val2.getD j 0) < 1 / 10000
    · have hc : (st.row.getD (ind2.getD j 0) 0 > -1 ∧
            da_abs (st.row.getD (ind2.getD j 0) 0 - val2.getD j 0) < 1 / 10000) ∨
          (¬ st.row.getD (ind2.getD j 0) 0 > -1 ∧ da_abs (lv - val2.getD j 0) < 1 / 10000) :=
        Or.inr ⟨h1, h2⟩
      rw [if_pos hc]
      unfold knngCheckStep
      dsimp only
      rw [if_neg h1, if_pos h2]
      exact ⟨rfl, fun _ _ => rfl⟩
    · have hc : ¬ ((st.row.getD (ind2.getD j 0) 0 > -1 ∧
            da_abs (st.row.getD (ind2.getD j 0) 0 - val2.getD j 0) < 1 / 10000) ∨
          (¬ st.row.getD (ind2.getD j 0) 0 > -1 ∧ da_abs (lv - val2.getD j 0) < 1 / 10000)) := by
        rintro (⟨a, _⟩ | ⟨_, b⟩)
        · exact h1 a
        · exact h2 b
      rw [if_neg hc]
      unfold knngCheckStep
      dsimp only
      rw [if_neg h1, if_neg h2]
      split_ifs <;> exact ⟨rfl, fun _ _ => rfl⟩

end VerifyCount
section VerifyCountLoop
variable {α : Type} [LinearOrderedField α]

theorem filter_range_succ_length (p : Nat → Bool) (n : Nat) :
    ((List.range (n + 1)).filter p).length =
      ((List.range n).filter p).length + (if p n = true then 1 else 0) := by
  rw [List.range_succ, List.filter_append, List.length_append]
  by_cases h : p n = true
  · rw [List.filter_cons_of_pos h, if_pos h]; rfl
  · rw [List.filter_cons_of_neg h, if_neg h]; rfl

/-- On a scratch array that holds the values of the candidate row at its ids and
`-1` at the other ids, the test of one round of the loop over the true
neighbours is `correctlyScored`. -/
theorem correctlyScored_iff (ind : List Nat) (val : List α) (s len : Nat) (lv : α)
    (row : List α) (cid : Nat) (v : α)
    (hpres : ∀ t, t < len → row.getD (ind.getD (s + t) 0) 0 = val.getD (s + t) 0)
    (hval : ∀ t, t < len → val.getD (s + t) 0 > -1)
    (habs : (∀ t, t < len → ind.getD (s + t) 0 ≠ cid) → row.getD cid 0 = -1) :
    ((row.getD cid 0 > -1 ∧ da_abs (row.getD cid 0 - v) < 1 / 10000) ∨
        (¬ row.getD cid 0 > -1 ∧ da_abs (lv - v) < 1 / 10000)) ↔
      correctlyScored ind val s len lv cid v = true := by
  unfold correctlyScored
  rw [decide_eq_true_iff]
  by_cases hp : ∃ t, t < len ∧ ind.getD (s + t) 0 = cid
  · obtain ⟨t, ht, hc⟩ := hp
    have e1 : row.getD cid 0 = val.getD (s + t) 0 := by rw [← hc]; exact hpres t ht
    have e2 : row.getD cid 0 > -1 := by rw [e1]; exact hval t ht
    constructor
    · rintro (⟨_, b⟩ | ⟨a, _⟩)
      · exact Or.inl ⟨t, ht, hc, by rw [← e1]; exact b⟩
      · exact absurd e2 a
    · rintro (⟨u, hu, hcu, b⟩ | ⟨a, _⟩)
      · have e3 : row.getD cid 0 = val.getD (s + u) 0 := by rw [← hcu]; exact hpres u hu
        exact Or.inl ⟨e2, by rw [e3]; exact b⟩
      · exact absurd hc (a t ht)
  · have hab : ∀ t, t < len → ind.getD (s + t) 0 ≠ cid := fun t ht h => hp ⟨t, ht, h⟩
    have e1 : row.getD cid 0 = -1 := habs hab
    have e2 : ¬ row.getD cid 0 > -1 := by rw [e1]; exact lt_irrefl _
    constructor
    · rintro (⟨a, _⟩ | ⟨_, b⟩)
      · exact absurd a e2
      · exact Or.inr ⟨hab, b⟩
    · rintro (⟨u, hu, hcu, _⟩ | ⟨_, b⟩)
      · exact absurd hcu (hab u hu)
      · exact Or.inr ⟨e2, b⟩

/-- The counter `cc` at the end of the loop over the true neighbours: the number
of walked neighbours that are `correctlyScored`. -/
theorem knngCheck_count (ind : List Nat) (val : List α) (s len : Nat) (ind2 : List Nat)
    (val2 : List α) (s2 cnt pe : Nat) (lv fltMax : α) (row : List α) (nrows : Nat)
    (hpres : ∀ t, t < len → row.getD (ind.getD (s + t) 0) 0 = val.getD (s + t) 0)
    (hval : ∀ t, t < len → val.getD (s + t) 0 > -1)
    (habs : ∀ x, x < nrows → (∀ t, t < len → ind.getD (s + t) 0 ≠ x) → row.getD x 0 = -1)
    (hid2 : ∀ u, u < cnt → ind2.getD (s2 + u) 0 < nrows)
    (hdist2 : ∀ u w, u < cnt → w < cnt → ind2.getD (s2 + u) 0 = ind2.getD (s2 + w) 0 → u = w) :
    (knngCheck ind2 val2 s2 cnt pe lv fltMax row).cc =
      ((List.range cnt).filter (fun u =>
        correctlyScored ind val s len lv (ind2.getD (s2 + u) 0) (val2.getD (s2 + u) 0))).length := by
  unfold knngCheck
  have key := forLoop_invariant (fun u (st : KnngRowState α) =>
      st.cc = ((List.range u).filter (fun u =>
        correctlyScored ind val s len lv (ind2.getD (s2 + u) 0)
          (val2.getD (s2 + u) 0))).length ∧
      ∀ x, (∀ w, w < u → ind2.getD (s2 + w) 0 ≠ x) → st.row.getD x 0 = row.getD x 0)
    (knngCheckStep ind2 val2 pe lv) s2
    { row := row, c := 0, cc := 0, err := 0, lv2 := fltMax } cnt
    ⟨rfl, fun _ _ => rfl⟩
    (by
      intro u st hu ⟨a1, a2⟩
      obtain ⟨b1, b2⟩ := knngCheckStep_cc ind2 val2 pe lv (s2 + u) st
      have e1 : st.row.getD (ind2.getD (s2 + u) 0) 0 = row.getD (ind2.getD (s2 + u) 0) 0 :=
        a2 _ (fun w hw h => by have := hdist2 w u (by omega) hu h; omega)
      have hiff := correctlyScored_iff ind val s len lv row (ind2.getD (s2 + u) 0)
        (val2.getD (s2 + u) 0) hpres hval (habs _ (hid2 u hu))
      refine ⟨?_, ?_⟩
      · rw [b1, a1, filter_range_succ_length, e1]
        congr 1
        by_cases hc : correctlyScored ind val s len lv (ind2.getD (s2 + u) 0)
            (val2.getD (s2 + u) 0) = true
        · rw [if_pos hc, if_pos (hiff.mpr hc)]
        · rw [if_neg hc, if_neg (fun h => hc (hiff.mp h))]
      · intro x hx
        rw [b2 x (fun h => hx u (Nat.lt_succ_self u) h.symm)]
        exact a2 x (fun w hw => hx w (by omega)))
  exact key.1

end VerifyCountLoop
section VerifyCountClaim
variable {α : Type} [LinearOrderedField α]

/-- C32: in the body of the row loop of `verify_knng_results` for a row `i`
whose candidate row is not empty (scratch array at `-1`, as every row finds it),
with candidate ids below `nrows` and pairwise distinct, candidate values above
`-1` and at most `FLT_MAX`, and walked truth ids below `nrows` and pairwise
distinct: `lv` is the minimum value of the candidate row, and the counter `cc`
at the end of the loop over the true neighbours is the number of walked truth
entries (the first `min(len2, nsz)`) that are held by the candidate row with a
value less than `1e-4` away, or not held and less than `1e-4` away from `lv`. -/
theorem verify_knng_results_cc (nrows : Nat) (ptr ind : List Nat) (val : List α)
    (ptr2 ind2 : List Nat) (val2 : List α) (nsz pe : Nat) (fltMax : α) (i : Nat)
    (hne : ptr.getD i 0 < ptr.getD (i + 1) 0)
    (hid : ∀ j, ptr.getD i 0 ≤ j → j < ptr.getD (i + 1) 0 → ind.getD j 0 < nrows)
    (hdist : ∀ j k, ptr.getD i 0 ≤ j → j < ptr.getD (i + 1) 0 → ptr.getD i 0 ≤ k →
      k < ptr.getD (i + 1) 0 → ind.getD j 0 = ind.getD k 0 → j = k)
    (hval : ∀ j, ptr.getD i 0 ≤ j → j < ptr.getD (i + 1) 0 →
      val.getD j 0 > -1 ∧ val.getD j 0 ≤ fltMax)
    (hid2 : ∀ j, ptr2.getD i 0 ≤ j → j < ptr2.getD (i + 1) 0 → ind2.getD j 0 < nrows)
    (hdist2 : ∀ j k, ptr2.getD i 0 ≤ j → j < ptr2.getD (i + 1) 0 → ptr2.getD i 0 ≤ k →
      k < ptr2.getD (i + 1) 0 → ind2.getD j 0 = ind2.getD k 0 → j = k) :
    (∀ j, ptr.getD i 0 ≤ j → j < ptr.getD (i + 1) 0 →
        (knngFill ind val (ptr.getD i 0) (ptr.getD (i + 1) 0 - ptr.getD i 0) fltMax
          (List.replicate nrows (-1))).2 ≤ val.getD j 0) ∧
      (∃ j, ptr.getD i 0 ≤ j ∧ j < ptr.getD (i + 1) 0 ∧
        (knngFill ind val (ptr.getD i 0) (ptr.getD (i + 1) 0 - ptr.getD i 0) fltMax
          (List.replicate nrows (-1))).2 = val.getD j 0) ∧
      (knngCheck ind2 val2 (ptr2.getD i 0) (min (ptr2.getD (i + 1) 0 - ptr2.getD i 0) nsz) pe
          (knngFill ind val (ptr.getD i 0) (ptr.getD (i + 1) 0 - ptr.getD i 0) fltMax
            (List.replicate nrows (-1))).2 fltMax
          (knngFill ind val (ptr.getD i 0) (ptr.getD (i + 1) 0 - ptr.getD i 0) fltMax
            (List.replicate nrows (-1))).1).cc =
        ((List.range (min (ptr2.getD (i + 1) 0 - ptr2.getD i 0) nsz)).filter (fun u =>
          correctlyScored ind val (ptr.getD i 0) (ptr.getD (i + 1) 0 - ptr.getD i 0)
            (knngFill ind val (ptr.getD i 0) (ptr.getD (i + 1) 0 - ptr.getD i 0) fltMax
              (List.replicate nrows (-1))).2
            (ind2.getD (ptr2.getD i 0 + u) 0) (val2.getD (ptr2.getD i 0 + u) 0))).length := by
  have hsl : ptr.getD i 0 + (ptr.getD (i + 1) 0 - ptr.getD i 0) = ptr.getD (i + 1) 0 := by omega
  obtain ⟨l1, l2⟩ := knngFill_lv ind val (ptr.getD i 0) (ptr.getD (i + 1) 0 - ptr.getD i 0)
    fltMax (List.replicate nrows (-1))
  obtain ⟨f1, f2⟩ := knngFill_spec ind val (ptr.getD i 0) (ptr.getD (i + 1) 0 - ptr.getD i 0)
    fltMax (List.replicate nrows (-1))
  have f3 := knngFill_distinct ind val (ptr.getD i 0) (ptr.getD (i + 1) 0 - ptr.getD i 0)
    fltMax (List.replicate nrows (-1))
    (fun j a b => by rw [List.length_replicate]; exact hid j a (by omega))
    (fun j k a b c d => hdist j k a (by omega) c (by omega))
  refine ⟨fun j a b => l1 j a (by omega), ?_, ?_⟩
  · rcases l2 with l2 | ⟨j, a, b, c⟩
    · refine ⟨ptr.getD i 0, le_refl _, hne, ?_⟩
      apply le_antisymm (l1 _ (le_refl _) (by omega))
      rw [l2]
      exact (hval _ (le_refl _) hne).2
    · exact ⟨j, a, by omega, c⟩
  · apply knngCheck_count ind val (ptr.getD i 0) (ptr.getD (i + 1) 0 - ptr.getD i 0) ind2 val2
      (ptr2.getD i 0) (min (ptr2.getD (i + 1) 0 - ptr2.getD i 0) nsz) pe _ fltMax _ nrows
    · intro t ht
      exact f3 _ (by omega) (by omega)
    · intro t ht
      exact (hval _ (by omega) (by omega)).1
    · intro x hx hab
      rw [f2 x (fun j a b h => hab (j - ptr.getD i 0) (by omega)
        (by rw [show ptr.getD i 0 + (j - ptr.getD i 0) = j by omega]; exact h))]
      exact replicate_getD_neg nrows x hx
    · intro u hu
      have := Nat.min_le_left (ptr2.getD (i + 1) 0 - ptr2.getD i 0) nsz
      exact hid2 _ (by omega) (by omega)
    · intro u w hu hw h
      have := Nat.min_le_left (ptr2.getD (i + 1) 0 - ptr2.getD i 0) nsz
      have := hdist2 _ _ (by omega) (by omega) (by omega) (by omega) h
      omega

/-- Witness of C32: row 0 of the candidate `halfNeighbors` against row 0 of
`fullNeighbors` at check width 1. -/
theorem verify_knng_results_cc_witness :
    (∀ j, [0, 1, 1].getD 0 0 ≤ j → j < [0, 1, 1].getD (0 + 1) 0 →
        (knngFill [1] [(1 / 2 : ℚ)] ([0, 1, 1].getD 0 0)
          ([0, 1, 1].getD (0 + 1) 0 - [0, 1, 1].getD 0 0) 1000
          (List.replicate 2 (-1))).2 ≤ [(1 / 2 : ℚ)].getD j 0) ∧
      (∃ j, [0, 1, 1].getD 0 0 ≤ j ∧ j < [0, 1, 1].getD (0 + 1) 0 ∧
        (knngFill [1] [(1 / 2 : ℚ)] ([0, 1, 1].getD 0 0)
          ([0, 1, 1].getD (0 + 1) 0 - [0, 1, 1].getD 0 0) 1000
          (List.replicate 2 (-1))).2 = [(1 / 2 : ℚ)].getD j 0) ∧
      (knngCheck [1, 0] [(1 / 2 : ℚ), 1 / 2] ([0, 1, 2].getD 0 0)
          (min ([0, 1, 2].getD (0 + 1) 0 - [0, 1, 2].getD 0 0) 1) 0
          (knngFill [1] [(1 / 2 : ℚ)] ([0, 1, 1].getD 0 0)
            ([0, 1, 1].getD (0 + 1) 0 - [0, 1, 1].getD 0 0) 1000
            (List.replicate 2 (-1))).2 1000
          (knngFill [1] [(1 / 2 : ℚ)] ([0, 1, 1].getD 0 0)
            ([0, 1, 1].getD (0 + 1) 0 - [0, 1, 1].getD 0 0) 1000
            (List.replicate 2 (-1))).1).cc =
        ((List.range (min ([0, 1, 2].getD (0 + 1) 0 - [0, 1, 2].getD 0 0) 1)).filter (fun u =>
          correctlyScored [1] [(1 / 2 : ℚ)] ([0, 1, 1].getD 0 0)
            ([0, 1, 1].getD (0 + 1) 0 - [0, 1, 1].getD 0 0)
            (knngFill [1] [(1 / 2 : ℚ)] ([0, 1, 1].getD 0 0)
              ([0, 1, 1].getD (0 + 1) 0 - [0, 1, 1].getD 0 0) 1000
              (List.replicate 2 (-1))).2
            ([1, 0].getD ([0, 1, 2].getD 0 0 + u) 0)
            ([(1 / 2 : ℚ), 1 / 2].getD ([0, 1, 2].getD 0 0 + u) 0))).length :=
  verify_knng_results_cc 2 [0, 1, 1] [1] [1 / 2] [0, 1, 2] [1, 0] [1 / 2, 1 / 2] 1 0 1000 0
    (by decide)
    (by
      intro j a b
      have : j = 0 := by simp at a b; omega
      subst this; decide)
    (by intro j k a b c d _; simp at a b c d; omega)
    (by
      intro j a b
      have : j = 0 := by simp at a b; omega
      subst this; norm_num)
    (by
      intro j a b
      have : j = 0 := by simp at a b; omega
      subst this; decide)
    (by intro j k a b c d _; simp at a b c d; omega)

end VerifyCountClaim
section StaleCount

/-- C35 (evaluation at the failing input): on the preprocessed 3 x 1 matrix with
rows `{f0:1}`, `{f0:1}` and `{}`, with `k = 2` and `eps = 1/2`, the rows have 1,
1 and 0 distinct candidate rows, 2 in total, and the search loop of `idxjoin`
ends with `ncands = 3`: the call for the empty row returns before it writes
`*ncands`, so the count of row 1 is added a second time. -/
theorem idxjoinSearch_counts_stale (ncand0 : Nat) :
    (idxjoinSearch staleDocs 2 (1 / 2) ncand0).map (fun s => s.ncands) = some 3 ∧
      ((List.range staleDocs.nrows).map (candidateCount staleDocs)) = [1, 1, 0] ∧
      ((List.range staleDocs.nrows).map (candidateCount staleDocs)).sum = 2 := by
  refine ⟨?_, ?_, ?_⟩
  · norm_num [idxjoinSearch, idxjoinRow, da_getSimilarRows, accumulate, accumFeature, accumEntry,
      markCandidate, clearMarkers, filterHits, da_ivkvsortd, DA_MKQSORT, forLoop, staleDocs]
  · decide
  · decide

end StaleCount
section IndexOrder
variable {α : Type} [LinearOrderedField α]

/-- The nested loop over a view visits the rows in non-decreasing order. -/
theorem fwdEntries_rows_sorted (fptr : List Nat) : ∀ nf,
    (∀ e ∈ fwdEntries nf fptr, e.1 < nf) ∧
      (fwdEntries nf fptr).Pairwise (fun a b => a.1 ≤ b.1)
  | 0 => by simp [fwdEntries]
  | nf + 1 => by
    obtain ⟨h1, h2⟩ := fwdEntries_rows_sorted fptr nf
    have e : fwdEntries (nf + 1) fptr = fwdEntries nf fptr ++
        (List.range' (fptr.getD nf 0) (fptr.getD (nf + 1) 0 - fptr.getD nf 0)).map
          (fun j => (nf, j)) := by
      unfold fwdEntries
      rw [List.range_succ, List.flatMap_append]
      simp only [List.flatMap_cons, List.flatMap_nil, List.append_nil]
    rw [e]
    constructor
    · intro x hx
      rcases List.mem_append.mp hx with hx | hx
      · exact Nat.lt_succ_of_lt (h1 x hx)
      · rw [List.mem_map] at hx
        obtain ⟨y, _, rfl⟩ := hx
        exact Nat.lt_succ_self nf
    · rw [List.pairwise_append]
      refine ⟨h2, ?_, ?_⟩
      · rw [List.pairwise_map]
        exact List.pairwise_of_forall (fun _ _ => le_refl _)
      · intro a ha b hb
        rw [List.mem_map] at hb
        obtain ⟨y, _, rfl⟩ := hb
        exact le_of_lt (h1 a ha)

/-- In the index of a view, the ids stored in a bucket are in non-decreasing
order. -/
theorem IsIndexOf.bucket_sorted {nf nr : Nat} {fptr find : List Nat} {fval : Option (List α)}
    {r : List Nat × List Nat × Option (List α)} (h : IsIndexOf nf nr fptr find fval r)
    (c : Nat) (hc : c < nr) :
    ∀ j, r.1.getD c 0 < j → j < r.1.getD (c + 1) 0 → r.2.1.getD (j - 1) 0 ≤ r.2.1.getD j 0 := by
  have hs := congrArg (List.map Prod.fst) (h.segment c hc)
  rw [List.map_map, List.map_map] at hs
  have e1 : (Prod.fst ∘ fun p => (r.2.1.getD p 0, (r.2.2.getD []).getD p 0)) =
      fun p => r.2.1.getD p 0 := rfl
  have e2 : (Prod.fst ∘ fun e : Nat × Nat => (e.1, (fval.getD []).getD e.2 0)) = Prod.fst := rfl
  rw [e1, e2] at hs
  have hsorted : ((List.range' (r.1.getD c 0) (r.1.getD (c + 1) 0 - r.1.getD c 0)).map
      (fun p => r.2.1.getD p 0)).Sorted (· ≤ ·) := by
    rw [hs]
    unfold List.Sorted
    rw [List.pairwise_map]
    exact ((fwdEntries_rows_sorted fptr nf).2).sublist (List.filter_sublist _)
  intro j a b
  exact adjacent_of_sorted_range (fun p => r.2.1.getD p 0) _ _ hsorted j a (by omega)

/-- The scan of `da_csr_CheckSortedIndex` keeps the flag at 1 on a view without
inversions. -/
theorem checkSorted_one (ptr ind : List Nat) (n : Nat)
    (h : ∀ i, i < n → ∀ j, ptr.getD i 0 < j → j < ptr.getD (i + 1) 0 →
      ind.getD (j - 1) 0 ≤ ind.getD j 0) :
    forLoop (checkSortedRow ptr ind) n 0 1 = 1 := by
  have key := forLoop_invariant (fun _ (k : Nat) => k = 1) (checkSortedRow ptr ind) 0 1 n rfl
    (by
      intro i k hi hk
      rw [hk, Nat.zero_add]
      unfold checkSortedRow
      rw [if_pos rfl]
      have inner := forLoop_invariant (fun _ (k : Nat) => k = 1)
        (fun j (k : Nat) =>
          if k = 1 then
            if j > ptr.getD i 0 ∧ ind.getD j 0 < ind.getD (j - 1) 0 then 0 else k
          else k)
        (ptr.getD i 0) 1 (ptr.getD (i + 1) 0 - ptr.getD i 0) rfl
        (by
          intro t k ht hk
          rw [hk]
          dsimp only
          rw [if_pos rfl, if_neg]
          rintro ⟨a, b⟩
          have := h i hi (ptr.getD i 0 + t) a (by omega)
          omega)
      exact inner)
  exact key

end IndexOrder
section IndexOrderClaim
variable {α : Type} [LinearOrderedField α]

/-- C38: after `da_csr_CreateIndex(mat, what)` on a well-formed source view
(the row view for `DA_COL`, the column view for `DA_ROW`), whether its rows are
sorted or not, the ids stored inside every column (every row for `DA_ROW`) of
the view built are in non-decreasing order, and
`da_csr_CheckSortedIndex(mat, what)` returns 1. -/
theorem da_csr_CreateIndex_sorted (mat : da_csr_t α) (what : Nat)
    (hwhat : what = DA_COL ∨ what = DA_ROW)
    (hcol : what = DA_COL →
      WellFormedView mat.nrows mat.ncols (mat.rowptr.getD []) (mat.rowind.getD []))
    (hrow : what = DA_ROW →
      WellFormedView mat.ncols mat.nrows (mat.colptr.getD []) (mat.colind.getD [])) :
    ∃ m ptr ind, da_csr_CreateIndex mat what = some m ∧
      (viewOf m what).2.1 = some ptr ∧ (viewOf m what).2.2.1 = some ind ∧
      (∀ c, c < (viewOf m what).1 → ∀ j, ptr.getD c 0 < j → j < ptr.getD (c + 1) 0 →
        ind.getD (j - 1) 0 ≤ ind.getD j 0) ∧
      da_csr_CheckSortedIndex m what = some 1 := by
  have hne : DA_COL ≠ DA_ROW := by decide
  rcases hwhat with rfl | rfl
  · have hs := createIndexView_spec mat.nrows mat.ncols (mat.rowptr.getD [])
      (mat.rowind.getD []) mat.rowval (hcol rfl)
    have hb := fun c hc => hs.bucket_sorted c hc
    refine ⟨{ mat with
        colptr := some (createIndexView mat.nrows mat.ncols (mat.rowptr.getD [])
          (mat.rowind.getD []) mat.rowval).1,
        colind := some (createIndexView mat.nrows mat.ncols (mat.rowptr.getD [])
          (mat.rowind.getD []) mat.rowval).2.1,
        colval := (createIndexView mat.nrows mat.ncols (mat.rowptr.getD [])
          (mat.rowind.getD []) mat.rowval).2.2 },
      (createIndexView mat.nrows mat.ncols (mat.rowptr.getD []) (mat.rowind.getD [])
        mat.rowval).1,
      (createIndexView mat.nrows mat.ncols (mat.rowptr.getD []) (mat.rowind.getD [])
        mat.rowval).2.1,
      by unfold da_csr_CreateIndex; rw [if_pos rfl], ?_, ?_, ?_, ?_⟩
    · unfold viewOf; rw [if_neg hne]
    · unfold viewOf; rw [if_neg hne]
    · unfold viewOf; rw [if_neg hne]
      exact hb
    · unfold da_csr_CheckSortedIndex
      rw [if_neg hne, if_pos rfl]
      dsimp only
      rw [Option.getD_some, checkSorted_one _ _ _ hb]
  · have hs := createIndexView_spec mat.ncols mat.nrows (mat.colptr.getD [])
      (mat.colind.getD []) mat.colval (hrow rfl)
    have hb := fun c hc => hs.bucket_sorted c hc
    refine ⟨{ mat with
        rowptr := some (createIndexView mat.ncols mat.nrows (mat.colptr.getD [])
          (mat.colind.getD []) mat.colval).1,
        rowind := some (createIndexView mat.ncols mat.nrows (mat.colptr.getD [])
          (mat.colind.getD []) mat.colval).2.1,
        rowval := (createIndexView mat.ncols mat.nrows (mat.colptr.getD [])
          (mat.colind.getD []) mat.colval).2.2 },
      (createIndexView mat.ncols mat.nrows (mat.colptr.getD []) (mat.colind.getD [])
        mat.colval).1,
      (createIndexView mat.ncols mat.nrows (mat.colptr.getD []) (mat.colind.getD [])
        mat.colval).2.1,
      by unfold da_csr_CreateIndex; rw [if_neg hne.symm, if_pos rfl], ?_, ?_, ?_, ?_⟩
    · unfold viewOf; rw [if_pos rfl]
    · unfold viewOf; rw [if_pos rfl]
    · unfold viewOf; rw [if_pos rfl]
      exact hb
    · unfold da_csr_CheckSortedIndex
      rw [if_pos rfl]
      dsimp only
      rw [Option.getD_some, checkSorted_one _ _ _ hb]

theorem shuffledDocs_wellFormed : WellFormedView shuffledDocs.nrows shuffledDocs.ncols
    (shuffledDocs.rowptr.getD []) (shuffledDocs.rowind.getD []) := by
  refine ⟨rfl, rfl, ?_, rfl, ?_⟩
  · intro i hi
    have h3 : i < 2 := hi
    interval_cases i <;> decide
  · intro x hx
    have hx2 : x = 0 ∨ x = 1 := by
      have hx3 : x ∈ [1, 0, 0] := hx
      simp only [List.mem_cons, List.mem_singleton, List.not_mem_nil, or_false] at hx3
      omega
    rcases hx2 with rfl | rfl <;> decide

/-- Witness of C38 on the 2 x 2 sample matrix whose first row is not sorted. -/
theorem da_csr_CreateIndex_sorted_witness :
    ∃ m ptr ind, da_csr_CreateIndex shuffledDocs DA_COL = some m ∧
      (viewOf m DA_COL).2.1 = some ptr ∧ (viewOf m DA_COL).2.2.1 = some ind ∧
      (∀ c, c < (viewOf m DA_COL).1 → ∀ j, ptr.getD c 0 < j → j < ptr.getD (c + 1) 0 →
        ind.getD (j - 1) 0 ≤ ind.getD j 0) ∧
      da_csr_CheckSortedIndex m DA_COL = some 1 :=
  da_csr_CreateIndex_sorted shuffledDocs DA_COL (Or.inl rfl) (fun _ => shuffledDocs_wellFormed)
    (fun h => absurd h (by decide))

end IndexOrderClaim
section IndexSinglePass
variable {α : Type} [LinearOrderedField α]

/-- The pointer array after counting and `CSRMAKE` holds the bucket starts, and
so does the pointer array after the index scatter and `CSRSHIFT`: the two are
the same array. -/
theorem scatter_restores_starts (nf nr : Nat) (fptr find : List Nat)
    (h : WellFormedView nf nr fptr find) :
    CSRSHIFT nr ((fwdEntries nf fptr).foldl
        (fun (st : List Nat × List Nat) (e : Nat × Nat) =>
          (st.1.set (find.getD e.2 0) (st.1.getD (find.getD e.2 0) 0 + 1),
           st.2.set (st.1.getD (find.getD e.2 0) 0) e.1))
        (CSRMAKE nr ((fwdEntries nf fptr).foldl
          (fun (rp : List Nat) (e : Nat × Nat) =>
            rp.set (find.getD e.2 0) (rp.getD (find.getD e.2 0) 0 + 1))
          (List.replicate (nr + 1) 0)), List.replicate (fptr.getD nf 0) 0)).1 =
      CSRMAKE nr ((fwdEntries nf fptr).foldl
        (fun (rp : List Nat) (e : Nat × Nat) =>
          rp.set (find.getD e.2 0) (rp.getD (find.getD e.2 0) 0 + 1))
        (List.replicate (nr + 1) 0)) := by
  obtain ⟨hcol, hlen⟩ := fwdEntries_wf nf nr fptr find h
  have htot := bucketStart_total find (fwdEntries nf fptr) nr hcol
  obtain ⟨c1, c2⟩ := countFold_spec find (fwdEntries nf fptr) (List.replicate (nr + 1) 0)
  rw [List.length_replicate] at c1 c2
  obtain ⟨m1, m2⟩ := CSRMAKE_spec nr _ c1
  have hstart : ∀ c, c ≤ nr → (CSRMAKE nr ((fwdEntries nf fptr).foldl
      (fun (rp : List Nat) (e : Nat × Nat) =>
        rp.set (find.getD e.2 0) (rp.getD (find.getD e.2 0) 0 + 1))
      (List.replicate (nr + 1) 0))).getD c 0 = bucketStart find (fwdEntries nf fptr) c := by
    intro c hc
    rw [m2 c hc]
    unfold bucketStart
    congr 1
    apply List.map_congr_left
    intro x hx
    rw [List.mem_range] at hx
    rw [c2 x (by omega)]
    have hz : (List.replicate (nr + 1) 0).getD x 0 = 0 := by
      rw [List.getD_eq_getElem?_getD, List.getElem?_replicate]
      split_ifs <;> rfl
    rw [hz, Nat.zero_add]
  have hi := scatter_pass (0 : Nat) find (fun i _ => i) nr (fwdEntries nf fptr) hcol _
    (List.replicate (fptr.getD nf 0) 0) m1 (by rw [List.length_replicate, htot, hlen]) hstart
    _ rfl
  obtain ⟨i1, i2, _, _⟩ := hi
  apply list_ext_getD _ _ (nr + 1) i1 m1
  intro t ht
  rw [i2 t (by omega), hstart t (by omega)]

/-- The two functions that build an index compute the same arrays from a
well-formed forward view. -/
theorem createIndexView_a_eq (nf nr : Nat) (fptr find : List Nat) (fval : Option (List α))
    (h : WellFormedView nf nr fptr find) :
    createIndexView nf nr fptr find fval = createIndexView_a nf nr fptr find fval := by
  have hr := scatter_restores_starts nf nr fptr find h
  unfold createIndexView createIndexView_a
  simp only [forEntries_eq_foldl]
  split_ifs with hbig
  · cases fval with
    | none => rfl
    | some fv =>
      obtain ⟨p1, p2⟩ := tripleFold_proj find fv (fwdEntries nf fptr)
        (CSRMAKE nr ((fwdEntries nf fptr).foldl
          (fun (rp : List Nat) (e : Nat × Nat) =>
            rp.set (find.getD e.2 0) (rp.getD (find.getD e.2 0) 0 + 1))
          (List.replicate (nr + 1) 0)))
        (List.replicate (fptr.getD nf 0) 0) (List.replicate (fptr.getD nf 0) 0)
      dsimp only
      rw [p1, hr, p2, hr]
  · cases fval with
    | none => rfl
    | some fv => rfl

end IndexSinglePass
section IndexSinglePassClaim
variable {α : Type} [LinearOrderedField α]

/-- C39: on a well-formed source view (the row view for `DA_COL`, the column
view for `DA_ROW`), `da_csr_CreateIndex`, which scatters indices and values in
two passes when `nnz > 6 * nr` and in one pass otherwise, and
`da_csr_CreateIndex_a`, which always scatters in one pass, return the same
matrix: same `ptr`, `ind` and `val` arrays. -/
theorem da_csr_CreateIndex_a_same (mat : da_csr_t α) (what : Nat)
    (hcol : what = DA_COL →
      WellFormedView mat.nrows mat.ncols (mat.rowptr.getD []) (mat.rowind.getD []))
    (hrow : what = DA_ROW →
      WellFormedView mat.ncols mat.nrows (mat.colptr.getD []) (mat.colind.getD [])) :
    da_csr_CreateIndex mat what = da_csr_CreateIndex_a mat what := by
  unfold da_csr_CreateIndex da_csr_CreateIndex_a
  by_cases h1 : what = DA_COL
  · rw [if_pos h1, if_pos h1]
    dsimp only
    rw [createIndexView_a_eq _ _ _ _ _ (hcol h1)]
  · rw [if_neg h1, if_neg h1]
    by_cases h2 : what = DA_ROW
    · rw [if_pos h2, if_pos h2]
      dsimp only
      rw [createIndexView_a_eq _ _ _ _ _ (hrow h2)]
    · rw [if_neg h2, if_neg h2]

theorem denseDocs_wellFormed : WellFormedView denseDocs.nrows denseDocs.ncols
    (denseDocs.rowptr.getD []) (denseDocs.rowind.getD []) := by
  refine ⟨rfl, rfl, ?_, rfl, ?_⟩
  · intro i hi
    have h3 : i < 7 := hi
    interval_cases i <;> decide
  · intro x hx
    have hx2 : x = 0 := by
      have hx3 : x ∈ [0, 0, 0, 0, 0, 0, 0] := hx
      simp only [List.mem_cons, List.mem_singleton, List.not_mem_nil, or_false, or_self] at hx3
      exact hx3
    rw [hx2]
    decide

/-- Witness of C39 on the 7 x 1 sample matrix, whose 7 entries exceed
`6 * ncols`, so that `da_csr_CreateIndex` takes its two-pass branch. -/
theorem da_csr_CreateIndex_a_same_witness :
    da_csr_CreateIndex denseDocs DA_COL = da_csr_CreateIndex_a denseDocs DA_COL :=
  da_csr_CreateIndex_a_same denseDocs DA_COL (fun _ => denseDocs_wellFormed)
    (fun h => absurd h (by decide))

end IndexSinglePassClaim
section SortValuesRow
variable {α : Type} [LinearOrderedField α]

theorem sortVal_sort_eq (how len : Nat) (c : List (da_ivkv_t α)) :
    (if how = DA_SORT_I then da_ivkvsorti len c else da_ivkvsortd len c) =
      (c.take len).insertionSort (fun a b => sortValLt how b a = false) ++ c.drop len := by
  unfold da_ivkvsorti da_ivkvsortd DA_MKQSORT sortValLt
  split_ifs with h
  · rfl
  · rfl

/-- Effect of one iteration of the row loop of `da_csr_SortValues`. -/
theorem sortValuesRow_spec (how : Nat) (ptr : List Nat) (i : Nat) (ind : List Nat)
    (val : List α) (cand : List (da_ivkv_t α)) (L : Nat)
    (hs : ptr.getD i 0 ≤ ptr.getD (i + 1) 0) (he : ptr.getD (i + 1) 0 ≤ L)
    (h1 : ind.length = L) (h2 : val.length = L)
    (h3 : ptr.getD (i + 1) 0 - ptr.getD i 0 ≤ cand.length) :
    (sortValuesRow how ptr i (ind, val, cand)).2.2.length = cand.length ∧
    (sortValuesRow how ptr i (ind, val, cand)).1.length = L ∧
    (sortValuesRow how ptr i (ind, val, cand)).2.1.length = L ∧
    (∀ j, j < ptr.getD i 0 ∨ ptr.getD (i + 1) 0 ≤ j →
      (sortValuesRow how ptr i (ind, val, cand)).1.getD j 0 = ind.getD j 0 ∧
      (sortValuesRow how ptr i (ind, val, cand)).2.1.getD j 0 = val.getD j 0) ∧
    ((∃ k, ptr.getD i 0 < k ∧ k < ptr.getD (i + 1) 0 ∧ sortValInv how val k) →
      ∀ t, t < ptr.getD (i + 1) 0 - ptr.getD i 0 →
        (sortValuesRow how ptr i (ind, val, cand)).1.getD (ptr.getD i 0 + t) 0 =
          ((sortedRowPairs how ptr ind val i).getD t default).key ∧
        (sortValuesRow how ptr i (ind, val, cand)).2.1.getD (ptr.getD i 0 + t) 0 =
          ((sortedRowPairs how ptr ind val i).getD t default).val) ∧
    ((¬ ∃ k, ptr.getD i 0 < k ∧ k < ptr.getD (i + 1) 0 ∧ sortValInv how val k) →
      (sortValuesRow how ptr i (ind, val, cand)).1 = ind ∧
      (sortValuesRow how ptr i (ind, val, cand)).2.1 = val) := by
  unfold sortValuesRow
  dsimp only
  by_cases hshort : ptr.getD (i + 1) 0 - ptr.getD i 0 < 2
  · rw [if_pos hshort]
    refine ⟨rfl, h1, h2, fun _ _ => ⟨rfl, rfl⟩, ?_, fun _ => ⟨rfl, rfl⟩⟩
    rintro ⟨k, a, b, _⟩
    omega
  · rw [if_neg hshort]
    have hc0 : ∀ t, t < ptr.getD i 0 + 1 - ptr.getD i 0 →
        ((cand.set 0 { cand.getD 0 default with key := ind.getD (ptr.getD i 0) 0 }).getD t
          default).key = ind.getD (ptr.getD i 0 + t) 0 := by
      intro t ht
      have : t = 0 := by omega
      subst this
      rw [getD_set_eq, if_pos ⟨rfl, by omega⟩]
      rfl
    obtain ⟨a1, a2, a3, a4, a5⟩ := sortValScan_spec how ind val (ptr.getD i 0)
      (ptr.getD (i + 1) 0 - (ptr.getD i 0 + 1)) (ptr.getD i 0 + 1)
      (cand.set 0 { cand.getD 0 default with key := ind.getD (ptr.getD i 0) 0 })
      (by omega) (by rw [List.length_set]; omega) hc0
    rw [List.length_set] at a1
    have hiff : (∃ k, ptr.getD i 0 < k ∧ k < ptr.getD (i + 1) 0 ∧ sortValInv how val k) ↔
        ∃ k, ptr.getD i 0 + 1 ≤ k ∧
          k < ptr.getD i 0 + 1 + (ptr.getD (i + 1) 0 - (ptr.getD i 0 + 1)) ∧
          (if how = DA_SORT_I then val.getD k 0 < val.getD (k - 1) 0
           else val.getD k 0 > val.getD (k - 1) 0) := by
      constructor
      · rintro ⟨k, b1, b2, b3⟩
        exact ⟨k, by omega, by omega, b3⟩
      · rintro ⟨k, b1, b2, b3⟩
        exact ⟨k, by omega, by omega, b3⟩
    rw [← hiff] at a5
    clear hiff
    generalize sortValScan how ind val (ptr.getD i 0)
      (ptr.getD (i + 1) 0 - (ptr.getD i 0 + 1)) (ptr.getD i 0 + 1)
      (cand.set 0 { cand.getD 0 default with key := ind.getD (ptr.getD i 0) 0 }) = scan
      at a1 a2 a3 a4 a5 ⊢
    by_cases hk : scan.1 = true
    · rw [if_pos hk]
      dsimp only
      obtain ⟨k1, k2⟩ := sortValKeys_spec ind (ptr.getD i 0) scan.2.1
        (ptr.getD (i + 1) 0 - scan.2.1) scan.2.2 (by clear a5; omega)
        (by rw [a1]; clear a5; omega) a4
      have hend : scan.2.1 + (ptr.getD (i + 1) 0 - scan.2.1) - ptr.getD i 0 =
          ptr.getD (i + 1) 0 - ptr.getD i 0 := by clear a5; omega
      rw [hend] at k2
      obtain ⟨v1, v2⟩ := sortValVals_spec ind val (ptr.getD i 0)
        (ptr.getD (i + 1) 0 - ptr.getD i 0) _ (by rw [k1, a1]; exact h3) k2
      rw [sortVal_sort_eq]
      generalize forLoop (fun j (c : List (da_ivkv_t α)) =>
          c.set (j - ptr.getD i 0) { c.getD (j - ptr.getD i 0) default with
            val := val.getD j 0 }) (ptr.getD (i + 1) 0 - ptr.getD i 0) (ptr.getD i 0)
        (forLoop (fun j (c : List (da_ivkv_t α)) =>
          c.set (j - ptr.getD i 0) { c.getD (j - ptr.getD i 0) default with
            key := ind.getD j 0 }) (ptr.getD (i + 1) 0 - scan.2.1) scan.2.1 scan.2.2) = c3
        at v1 v2 ⊢
      have htake : c3.take (ptr.getD (i + 1) 0 - ptr.getD i 0) =
          (List.range (ptr.getD (i + 1) 0 - ptr.getD i 0)).map
            (fun t => (⟨ind.getD (ptr.getD i 0 + t) 0, val.getD (ptr.getD i 0 + t) 0⟩ :
              da_ivkv_t α)) := by
        apply List.ext_getElem
        · rw [List.length_take, List.length_map, List.length_range, v1, k1, a1]
          exact Nat.min_eq_left h3
        · intro n e1 e2
          simp only [List.length_map, List.length_range] at e2
          simp only [List.getElem_take, List.getElem_map, List.getElem_range]
          have := v2 n e2
          rw [List.getD_eq_getElem?_getD, List.getElem?_eq_getElem (by
            rw [v1, k1, a1]; clear a5; omega)] at this
          exact this
      rw [htake]
      have hSlen : (sortedRowPairs how ptr ind val i).length =
          ptr.getD (i + 1) 0 - ptr.getD i 0 := by
        unfold sortedRowPairs
        rw [List.length_insertionSort, List.length_map, List.length_range]
      have hfold : ((List.range (ptr.getD (i + 1) 0 - ptr.getD i 0)).map
            (fun t => (⟨ind.getD (ptr.getD i 0 + t) 0, val.getD (ptr.getD i 0 + t) 0⟩ :
              da_ivkv_t α))).insertionSort (fun a b => sortValLt how b a = false) =
          sortedRowPairs how ptr ind val i := rfl
      rw [hfold]
      have hc2 : ∀ u, u < ptr.getD (i + 1) 0 - ptr.getD i 0 →
          (sortedRowPairs how ptr ind val i ++
            c3.drop (ptr.getD (i + 1) 0 - ptr.getD i 0)).getD u default =
          (sortedRowPairs how ptr ind val i).getD u default := by
        intro u hu
        rw [List.getD_append _ _ _ _ (by clear a5; omega)]
      obtain ⟨f1, f2⟩ := forLoop_set_spec
        (fun j => ((sortedRowPairs how ptr ind val i ++
          c3.drop (ptr.getD (i + 1) 0 - ptr.getD i 0)).getD (j - ptr.getD i 0) default).key) 0
        (ptr.getD (i + 1) 0 - ptr.getD i 0) (ptr.getD i 0) ind
      obtain ⟨g1, g2⟩ := forLoop_set_spec
        (fun j => ((sortedRowPairs how ptr ind val i ++
          c3.drop (ptr.getD (i + 1) 0 - ptr.getD i 0)).getD (j - ptr.getD i 0) default).val) 0
        (ptr.getD (i + 1) 0 - ptr.getD i 0) (ptr.getD i 0) val
      refine ⟨?_, by rw [f1]; exact h1, by rw [g1]; exact h2, ?_, ?_, ?_⟩
      · rw [List.length_append, List.length_drop, hSlen, v1, k1, a1]
        clear a5
        omega
      · intro j hj
        rw [f2, g2, if_neg (by clear a5; omega), if_neg (by clear a5; omega)]
        exact ⟨rfl, rfl⟩
      · intro hex t ht
        clear hex
        have e : ptr.getD i 0 + t - ptr.getD i 0 = t := by clear a5; omega
        rw [f2, g2, if_pos ⟨by clear a5; omega, by clear a5; omega, by clear a5; omega⟩,
          if_pos ⟨by clear a5; omega, by clear a5; omega, by clear a5; omega⟩]
        rw [e, hc2 t ht]
        exact ⟨rfl, rfl⟩
      · intro hno
        exact absurd (a5.mp hk) hno
    · rw [if_neg hk]
      refine ⟨a1, h1, h2, fun _ _ => ⟨rfl, rfl⟩, ?_, fun _ => ⟨rfl, rfl⟩⟩
      intro hex
      exact absurd (a5.mpr hex) hk

end SortValuesRow
section SortValuesFacts
variable {α : Type} [LinearOrderedField α]

theorem list_ext_getD_gen {β : Type} (d : β) (x y : List β) (n : Nat) (hx : x.length = n)
    (hy : y.length = n) (h : ∀ t, t < n → x.getD t d = y.getD t d) : x = y := by
  apply List.ext_getElem (by rw [hx, hy])
  intro t h1 h2
  have := h t (by omega)
  rw [List.getD_eq_getElem?_getD, List.getD_eq_getElem?_getD, List.getElem?_eq_getElem h1,
    List.getElem?_eq_getElem h2] at this
  exact this

theorem sorted_range_of_adjacent_rel {β : Type} (r : β → β → Prop) (hrefl : ∀ a, r a a)
    (htrans : ∀ a b c, r a b → r b c → r a c) (f : Nat → β) (s len : Nat)
    (h : ∀ j, s < j → j < s + len → r (f (j - 1)) (f j)) :
    ((List.range' s len).map f).Pairwise r := by
  have mono : ∀ b a, s ≤ a → a ≤ b → b < s + len → r (f a) (f b) := by
    intro b
    induction b with
    | zero =>
      intro a h1 h2 _
      have : a = 0 := by omega
      rw [this]
      exact hrefl _
    | succ b ih =>
      intro a h1 h2 h3
      by_cases hab : a = b + 1
      · rw [hab]
        exact hrefl _
      · have := h (b + 1) (by omega) h3
        simp only [Nat.add_sub_cancel] at this
        exact htrans _ _ _ (ih a h1 (by omega) (by omega)) this
  rw [List.pairwise_iff_getElem]
  intro i j hi hj hij
  simp only [List.length_map, List.length_range'] at hi hj
  simp only [List.getElem_map, List.getElem_range', Nat.one_mul]
  exact mono _ _ (by omega) (by omega) (by omega)

/-- The order on values that `da_csr_SortValues` establishes: `≤` for
`DA_SORT_I`, `≥` otherwise. -/
theorem sortValOrder_iff (how : Nat) (a b : da_ivkv_t α) :
    sortValLt how b a = false ↔ (if how = DA_SORT_I then a.val ≤ b.val else b.val ≤ a.val) := by
  unfold sortValLt
  split_ifs with h
  · rw [decide_eq_false_iff_not, not_lt]
  · rw [decide_eq_false_iff_not, gt_iff_lt, not_lt]

/-- The sorted pairs of a row: as many as the row has, a rearrangement of its
(index, value) pairs, with values in the order asked for. -/
theorem sortedRowPairs_facts (how : Nat) (ptr ind : List Nat) (val : List α) (i : Nat) :
    (sortedRowPairs how ptr ind val i).length = ptr.getD (i + 1) 0 - ptr.getD i 0 ∧
      ((sortedRowPairs how ptr ind val i).map (fun e => (e.key, e.val))).Perm
        (outRow ptr ind val i) ∧
      ((sortedRowPairs how ptr ind val i).map (fun e => e.val)).Pairwise
        (fun a b => if how = DA_SORT_I then a ≤ b else b ≤ a) := by
  have hT : IsTotal (da_ivkv_t α) (fun a b => sortValLt how b a = false) := ⟨by
    intro a b
    rw [sortValOrder_iff, sortValOrder_iff]
    split_ifs
    · exact le_total _ _
    · exact le_total _ _⟩
  have hTr : IsTrans (da_ivkv_t α) (fun a b => sortValLt how b a = false) := ⟨by
    intro a b c
    rw [sortValOrder_iff, sortValOrder_iff, sortValOrder_iff]
    split_ifs
    · exact le_trans
    · exact fun h1 h2 => le_trans h2 h1⟩
  refine ⟨?_, ?_, ?_⟩
  · unfold sortedRowPairs
    rw [List.length_insertionSort, List.length_map, List.length_range]
  · unfold sortedRowPairs outRow
    refine ((List.perm_insertionSort _ _).map _).trans ?_
    rw [List.map_map, range'_eq_map_add, List.map_map]
    exact List.Perm.refl _
  · have hs := List.sorted_insertionSort (fun a b : da_ivkv_t α => sortValLt how b a = false)
      ((List.range (ptr.getD (i + 1) 0 - ptr.getD i 0)).map
        (fun t => (⟨ind.getD (ptr.getD i 0 + t) 0, val.getD (ptr.getD i 0 + t) 0⟩ :
          da_ivkv_t α)))
    unfold sortedRowPairs
    rw [List.pairwise_map]
    exact hs.imp (fun {a b} h => (sortValOrder_iff how a b).mp h)

end SortValuesFacts
section SortValuesRowFacts
variable {α : Type} [LinearOrderedField α]

/-- After one iteration of the row loop of `da_csr_SortValues`, row `i` holds a
rearrangement of its (index, value) pairs with the values in the order asked
for. -/
theorem sortValuesRow_row (how : Nat) (ptr : List Nat) (i : Nat) (ind : List Nat)
    (val : List α) (cand : List (da_ivkv_t α)) (L : Nat)
    (hs : ptr.getD i 0 ≤ ptr.getD (i + 1) 0) (he : ptr.getD (i + 1) 0 ≤ L)
    (h1 : ind.length = L) (h2 : val.length = L)
    (h3 : ptr.getD (i + 1) 0 - ptr.getD i 0 ≤ cand.length) :
    (outRow ptr (sortValuesRow how ptr i (ind, val, cand)).1
        (sortValuesRow how ptr i (ind, val, cand)).2.1 i).Perm (outRow ptr ind val i) ∧
      (rowVals ptr (sortValuesRow how ptr i (ind, val, cand)).2.1 i).Pairwise
        (fun a b => if how = DA_SORT_I then a ≤ b else b ≤ a) := by
  obtain ⟨_, _, _, _, b5, b6⟩ := sortValuesRow_spec how ptr i ind val cand L hs he h1 h2 h3
  obtain ⟨f1, f2, f3⟩ := sortedRowPairs_facts how ptr ind val i
  by_cases hinv : ∃ k, ptr.getD i 0 < k ∧ k < ptr.getD (i + 1) 0 ∧ sortValInv how val k
  · have hrow := b5 hinv
    have e1 : outRow ptr (sortValuesRow how ptr i (ind, val, cand)).1
        (sortValuesRow how ptr i (ind, val, cand)).2.1 i =
        (sortedRowPairs how ptr ind val i).map (fun e => (e.key, e.val)) := by
      unfold outRow
      have := map_take_eq_range' (sortedRowPairs how ptr ind val i)
        (ptr.getD (i + 1) 0 - ptr.getD i 0) (ptr.getD i 0) default
        (fun e => (e.key, e.val))
        (fun j => ((sortValuesRow how ptr i (ind, val, cand)).1.getD j 0,
          (sortValuesRow how ptr i (ind, val, cand)).2.1.getD j 0)) (by rw [f1])
        (by
          intro t ht
          obtain ⟨c1, c2⟩ := hrow t ht
          dsimp only
          rw [c1, c2])
      rw [this, List.take_of_length_le (by rw [f1])]
    have e2 : rowVals ptr (sortValuesRow how ptr i (ind, val, cand)).2.1 i =
        (sortedRowPairs how ptr ind val i).map (fun e => e.val) := by
      unfold rowVals
      have := map_take_eq_range' (sortedRowPairs how ptr ind val i)
        (ptr.getD (i + 1) 0 - ptr.getD i 0) (ptr.getD i 0) default
        (fun e => e.val)
        (fun j => (sortValuesRow how ptr i (ind, val, cand)).2.1.getD j 0) (by rw [f1])
        (by
          intro t ht
          exact (hrow t ht).2)
      rw [this, List.take_of_length_le (by rw [f1])]
    rw [e1, e2]
    exact ⟨f2, f3⟩
  · obtain ⟨c1, c2⟩ := b6 hinv
    rw [c1, c2]
    refine ⟨List.Perm.refl _, ?_⟩
    unfold rowVals
    apply sorted_range_of_adjacent_rel
    · intro a
      split_ifs <;> exact le_refl a
    · intro a b c
      split_ifs
      · exact le_trans
      · exact fun x y => le_trans y x
    · intro j a b
      have hn : ¬ sortValInv how val j := fun h => hinv ⟨j, a, by omega, h⟩
      unfold sortValInv at hn
      split_ifs with hh
      · rw [if_pos hh] at hn
        exact not_lt.mp hn
      · rw [if_neg hh] at hn
        exact not_lt.mp hn

/-- The arrays left by one iteration of the row loop of `da_csr_SortValues` do
not depend on the scratch buffer, as long as it can hold the row. -/
theorem sortValuesRow_indep (how : Nat) (ptr : List Nat) (i : Nat) (ind : List Nat)
    (val : List α) (cand cand2 : List (da_ivkv_t α)) (L : Nat)
    (hs : ptr.getD i 0 ≤ ptr.getD (i + 1) 0) (he : ptr.getD (i + 1) 0 ≤ L)
    (h1 : ind.length = L) (h2 : val.length = L)
    (h3 : ptr.getD (i + 1) 0 - ptr.getD i 0 ≤ cand.length)
    (h4 : ptr.getD (i + 1) 0 - ptr.getD i 0 ≤ cand2.length) :
    (sortValuesRow how ptr i (ind, val, cand)).1 = (sortValuesRow how ptr i (ind, val, cand2)).1 ∧
      (sortValuesRow how ptr i (ind, val, cand)).2.1 =
        (sortValuesRow how ptr i (ind, val, cand2)).2.1 := by
  obtain ⟨_, a2, a3, a4, a5, a6⟩ := sortValuesRow_spec how ptr i ind val cand L hs he h1 h2 h3
  obtain ⟨_, b2, b3, b4, b5, b6⟩ := sortValuesRow_spec how ptr i ind val cand2 L hs he h1 h2 h4
  by_cases hinv : ∃ k, ptr.getD i 0 < k ∧ k < ptr.getD (i + 1) 0 ∧ sortValInv how val k
  · have ha := a5 hinv
    have hb := b5 hinv
    have key : ∀ j, j < L →
        (sortValuesRow how ptr i (ind, val, cand)).1.getD j 0 =
          (sortValuesRow how ptr i (ind, val, cand2)).1.getD j 0 ∧
        (sortValuesRow how ptr i (ind, val, cand)).2.1.getD j 0 =
          (sortValuesRow how ptr i (ind, val, cand2)).2.1.getD j 0 := by
      intro j _
      by_cases hj : j < ptr.getD i 0 ∨ ptr.getD (i + 1) 0 ≤ j
      · obtain ⟨c1, c2⟩ := a4 j hj
        obtain ⟨d1, d2⟩ := b4 j hj
        exact ⟨by rw [c1, d1], by rw [c2, d2]⟩
      · have hlt : j - ptr.getD i 0 < ptr.getD (i + 1) 0 - ptr.getD i 0 := by
          clear ha hb a5 b5 a6 b6 hinv
          omega
        have e : ptr.getD i 0 + (j - ptr.getD i 0) = j := by
          clear ha hb a5 b5 a6 b6 hinv
          omega
        obtain ⟨c1, c2⟩ := ha _ hlt
        obtain ⟨d1, d2⟩ := hb _ hlt
        rw [e] at c1 c2 d1 d2
        exact ⟨by rw [c1, d1], by rw [c2, d2]⟩
    exact ⟨list_ext_getD_gen 0 _ _ L a2 b2 (fun j hj => (key j hj).1),
      list_ext_getD_gen 0 _ _ L a3 b3 (fun j hj => (key j hj).2)⟩
  · obtain ⟨c1, c2⟩ := a6 hinv
    obtain ⟨d1, d2⟩ := b6 hinv
    exact ⟨by rw [c1, d1], by rw [c2, d2]⟩

end SortValuesRowFacts
section SortValuesView
variable {α : Type} [LinearOrderedField α]

theorem forLoop_rel_bounded {σ τ : Type} (R : Nat → σ → τ → Prop) (b1 : Nat → σ → σ)
    (b2 : Nat → τ → τ) (start : Nat) (s : σ) (t : τ) :
    ∀ n : Nat, R 0 s t →
      (∀ k x y, k < n → R k x y → R (k + 1) (b1 (start + k) x) (b2 (start + k) y)) →
      R n (forLoop b1 n start s) (forLoop b2 n start t)
  | 0, h0, _ => h0
  | n + 1, h0, hs => by
    rw [forLoop_succ_last, forLoop_succ_last]
    exact hs n _ _ (Nat.lt_succ_self n)
      (forLoop_rel_bounded R b1 b2 start s t n h0 (fun k x y hk h => hs k x y (by omega) h))

/-- The row loop of `da_csr_SortValues` with a scratch buffer that can hold
every row: every row ends as a rearrangement of its (index, value) pairs with
the values in the order asked for. -/
theorem sortValuesLoop_spec (how n : Nat) (ptr ind : List Nat) (val : List α)
    (cand0 : List (da_ivkv_t α))
    (hmono : ∀ i, i < n → ptr.getD i 0 ≤ ptr.getD (i + 1) 0)
    (hlen : ptr.getD n 0 ≤ ind.length) (hval : val.length = ind.length)
    (hnn : ∀ i, i < n → ptr.getD (i + 1) 0 - ptr.getD i 0 ≤ cand0.length) :
    (forLoop (sortValuesRow how ptr) n 0 (ind, val, cand0)).1.length = ind.length ∧
    (forLoop (sortValuesRow how ptr) n 0 (ind, val, cand0)).2.1.length = ind.length ∧
    ∀ i, i < n →
      (outRow ptr (forLoop (sortValuesRow how ptr) n 0 (ind, val, cand0)).1
        (forLoop (sortValuesRow how ptr) n 0 (ind, val, cand0)).2.1 i).Perm
        (outRow ptr ind val i) ∧
      (rowVals ptr (forLoop (sortValuesRow how ptr) n 0 (ind, val, cand0)).2.1 i).Pairwise
        (fun a b => if how = DA_SORT_I then a ≤ b else b ≤ a) := by
  have key := forLoop_invariant (fun t (st : List Nat × List α × List (da_ivkv_t α)) =>
      st.1.length = ind.length ∧ st.2.1.length = ind.length ∧
      st.2.2.length = cand0.length ∧
      (∀ j, ptr.getD t 0 ≤ j → st.1.getD j 0 = ind.getD j 0 ∧ st.2.1.getD j 0 = val.getD j 0) ∧
      ∀ i, i < t →
        (outRow ptr st.1 st.2.1 i).Perm (outRow ptr ind val i) ∧
        (rowVals ptr st.2.1 i).Pairwise (fun a b => if how = DA_SORT_I then a ≤ b else b ≤ a))
    (sortValuesRow how ptr) 0 (ind, val, cand0) n
    ⟨rfl, hval, rfl, fun _ _ => ⟨rfl, rfl⟩, fun i hi => by omega⟩
    (by
      intro t st ht
      obtain ⟨si, sv, sc⟩ := st
      rintro ⟨a1, a2, a3, a4, a5⟩
      simp only [Nat.zero_add]
      dsimp only at a1 a2 a3 a4 a5
      have hL : ptr.getD (t + 1) 0 ≤ ind.length :=
        le_trans (ptr_mono ptr n hmono n (t + 1) (by omega) (le_refl _)) hlen
      have hc : ptr.getD (t + 1) 0 - ptr.getD t 0 ≤ sc.length := by
        rw [a3]; exact hnn t ht
      obtain ⟨b1, b2, b3, b4, _, _⟩ := sortValuesRow_spec how ptr t si sv sc ind.length
        (hmono t ht) hL a1 a2 hc
      obtain ⟨r1, r2⟩ := sortValuesRow_row how ptr t si sv sc ind.length
        (hmono t ht) hL a1 a2 hc
      have hrow : outRow ptr si sv t = outRow ptr ind val t :=
        outRow_congr_seg ptr _ _ _ _ t (fun j h1 _ => a4 j h1)
      refine ⟨b2, b3, by rw [b1, a3], ?_, ?_⟩
      · intro j hj
        have := b4 j (Or.inr hj)
        have h2 := a4 j (le_trans (hmono t ht) hj)
        exact ⟨this.1.trans h2.1, this.2.trans h2.2⟩
      · intro i hi
        by_cases hit : i = t
        · subst hit
          exact ⟨by rw [← hrow]; exact r1, r2⟩
        · have hlt : i < t := by omega
          have hp : ptr.getD (i + 1) 0 ≤ ptr.getD t 0 :=
            ptr_mono ptr n hmono t (i + 1) (by omega) (by omega)
          have hrow2 : outRow ptr (sortValuesRow how ptr t (si, sv, sc)).1
              (sortValuesRow how ptr t (si, sv, sc)).2.1 i = outRow ptr si sv i :=
            outRow_congr_seg ptr _ _ _ _ i (fun j _ h2 => b4 j (Or.inl (lt_of_lt_of_le h2 hp)))
          have hrow3 : rowVals ptr (sortValuesRow how ptr t (si, sv, sc)).2.1 i =
              rowVals ptr sv i :=
            rowVals_congr ptr _ _ i (fun j _ h2 => (b4 j (Or.inl (lt_of_lt_of_le h2 hp))).2)
          rw [hrow2, hrow3]
          exact a5 i hlt)
  obtain ⟨k1, k2, _, _, k5⟩ := key
  exact ⟨k1, k2, k5⟩

/-- The arrays left by the row loop of `da_csr_SortValues` do not depend on the
scratch buffer, as long as it can hold every row. -/
theorem sortValuesLoop_indep (how n : Nat) (ptr ind : List Nat) (val : List α)
    (cand0 cand1 : List (da_ivkv_t α))
    (hmono : ∀ i, i < n → ptr.getD i 0 ≤ ptr.getD (i + 1) 0)
    (hlen : ptr.getD n 0 ≤ ind.length) (hval : val.length = ind.length)
    (hnn0 : ∀ i, i < n → ptr.getD (i + 1) 0 - ptr.getD i 0 ≤ cand0.length)
    (hnn1 : ∀ i, i < n → ptr.getD (i + 1) 0 - ptr.getD i 0 ≤ cand1.length) :
    (forLoop (sortValuesRow how ptr) n 0 (ind, val, cand0)).1 =
        (forLoop (sortValuesRow how ptr) n 0 (ind, val, cand1)).1 ∧
      (forLoop (sortValuesRow how ptr) n 0 (ind, val, cand0)).2.1 =
        (forLoop (sortValuesRow how ptr) n 0 (ind, val, cand1)).2.1 := by
  have key := forLoop_rel_bounded
    (fun (_ : Nat) (x y : List Nat × List α × List (da_ivkv_t α)) =>
      x.1 = y.1 ∧ x.2.1 = y.2.1 ∧ x.1.length = ind.length ∧ x.2.1.length = ind.length ∧
      x.2.2.length = cand0.length ∧ y.2.2.length = cand1.length)
    (sortValuesRow how ptr) (sortValuesRow how ptr) 0 (ind, val, cand0) (ind, val, cand1) n
    ⟨rfl, rfl, rfl, hval, rfl, rfl⟩
    (by
      intro t x y ht
      obtain ⟨xi, xv, xc⟩ := x
      obtain ⟨yi, yv, yc⟩ := y
      rintro ⟨a1, a2, a3, a4, a5, a6⟩
      dsimp only at a1 a2 a3 a4 a5 a6
      subst a1 a2
      simp only [Nat.zero_add]
      have hL : ptr.getD (t + 1) 0 ≤ ind.length :=
        le_trans (ptr_mono ptr n hmono n (t + 1) (by omega) (le_refl _)) hlen
      have hc : ptr.getD (t + 1) 0 - ptr.getD t 0 ≤ xc.length := by
        rw [a5]; exact hnn0 t ht
      have hc2 : ptr.getD (t + 1) 0 - ptr.getD t 0 ≤ yc.length := by
        rw [a6]; exact hnn1 t ht
      obtain ⟨b1, b2, b3, _, _, _⟩ := sortValuesRow_spec how ptr t xi xv xc ind.length
        (hmono t ht) hL a3 a4 hc
      obtain ⟨c1, _, _, _, _, _⟩ := sortValuesRow_spec how ptr t xi xv yc ind.length
        (hmono t ht) hL a3 a4 hc2
      obtain ⟨d1, d2⟩ := sortValuesRow_indep how ptr t xi xv xc yc ind.length
        (hmono t ht) hL a3 a4 hc hc2
      exact ⟨d1, d2, b2, b3, by rw [b1, a5], by rw [c1, a6]⟩)
  exact ⟨key.1, key.2.1⟩

end SortValuesView
section SortValuesClaim
variable {α : Type} [LinearOrderedField α]

theorem maxRowLenV_spec (ptr : List Nat) (n : Nat) :
    ∀ i, i < n → ptr.getD (i + 1) 0 - ptr.getD i 0 ≤
      forLoop (fun ii (nn : Nat) =>
        if ptr.getD (ii + 1) 0 - ptr.getD ii 0 > nn then ptr.getD (ii + 1) 0 - ptr.getD ii 0
        else nn) n 0 0 := by
  have key := forLoop_invariant (fun t (nn : Nat) =>
      ∀ i, i < t → ptr.getD (i + 1) 0 - ptr.getD i 0 ≤ nn)
    (fun ii (nn : Nat) =>
        if ptr.getD (ii + 1) 0 - ptr.getD ii 0 > nn then ptr.getD (ii + 1) 0 - ptr.getD ii 0
        else nn) 0 0 n
    (by intro i hi; omega)
    (by
      intro t nn ht h i hi
      simp only [Nat.zero_add]
      by_cases hit : i = t
      · subst hit
        split_ifs <;> omega
      · have := h i (by omega)
        split_ifs <;> omega)
  exact key

/-- The row loop of `da_csr_SortValues` on one view, for `mrl` that is 0 or at
least every row length. -/
theorem sortValuesView_spec (n : Nat) (ptr ind : List Nat) (val : List α) (mrl how : Nat)
    (hmono : ∀ i, i < n → ptr.getD i 0 ≤ ptr.getD (i + 1) 0)
    (hlen : ptr.getD n 0 ≤ ind.length) (hval : val.length = ind.length)
    (hmrl : mrl = 0 ∨ ∀ i, i < n → ptr.getD (i + 1) 0 - ptr.getD i 0 ≤ mrl) :
    (∀ i, i < n →
      (rowVals ptr (sortValuesView n ptr ind val mrl how).2 i).Pairwise
        (fun a b => if how = DA_SORT_I then a ≤ b else b ≤ a) ∧
      (outRow ptr (sortValuesView n ptr ind val mrl how).1
        (sortValuesView n ptr ind val mrl how).2 i).Perm (outRow ptr ind val i)) ∧
    sortValuesView n ptr ind val mrl how = sortValuesView n ptr ind val 0 how := by
  have hmax := maxRowLenV_spec ptr n
  have hnn : ∀ i, i < n → ptr.getD (i + 1) 0 - ptr.getD i 0 ≤
      (List.replicate (if mrl > 0 then mrl
        else forLoop (fun ii (nn : Nat) =>
          if ptr.getD (ii + 1) 0 - ptr.getD ii 0 > nn then ptr.getD (ii + 1) 0 - ptr.getD ii 0
          else nn) n 0 0) (default : da_ivkv_t α)).length := by
    intro i hi
    rw [List.length_replicate]
    split_ifs with h
    · rcases hmrl with h0 | h1
      · omega
      · exact h1 i hi
    · exact hmax i hi
  have hnn0 : ∀ i, i < n → ptr.getD (i + 1) 0 - ptr.getD i 0 ≤
      (List.replicate (if 0 > 0 then 0
        else forLoop (fun ii (nn : Nat) =>
          if ptr.getD (ii + 1) 0 - ptr.getD ii 0 > nn then ptr.getD (ii + 1) 0 - ptr.getD ii 0
          else nn) n 0 0) (default : da_ivkv_t α)).length := by
    intro i hi
    rw [List.length_replicate, if_neg (lt_irrefl 0)]
    exact hmax i hi
  obtain ⟨_, _, s3⟩ := sortValuesLoop_spec how n ptr ind val _ hmono hlen hval hnn
  obtain ⟨i1, i2⟩ := sortValuesLoop_indep how n ptr ind val _ _ hmono hlen hval hnn hnn0
  unfold sortValuesView
  dsimp only
  refine ⟨fun i hi => ⟨(s3 i hi).2, (s3 i hi).1⟩, ?_⟩
  rw [i1, i2]

/-- C15: for a matrix holding the view `(n, ptr, ind, val)` requested by `what`
with values (pointer array non-decreasing and within the arrays) and for `mrl`
that is 0 or at least every row length, `da_csr_SortValues(mat, what, mrl, how)`
returns a matrix whose requested view has the same dimension and pointer array,
in which every row has its values in non-decreasing order when
`how = DA_SORT_I` and in non-increasing order otherwise and holds a
rearrangement of the (index, value) pairs it had; and the matrix returned is the
one returned for `mrl = 0`. -/
theorem da_csr_SortValues_sorts (mat : da_csr_t α) (what n : Nat) (ptr ind : List Nat)
    (val : List α) (mrl how : Nat) (hw : what = DA_ROW ∨ what = DA_COL)
    (hv : viewOf mat what = (n, some ptr, some ind, some val))
    (hmono : ∀ i, i < n → ptr.getD i 0 ≤ ptr.getD (i + 1) 0)
    (hlen : ptr.getD n 0 ≤ ind.length) (hval : val.length = ind.length)
    (hmrl : mrl = 0 ∨ ∀ i, i < n → ptr.getD (i + 1) 0 - ptr.getD i 0 ≤ mrl) :
    ∃ m ind2 val2, da_csr_SortValues mat what mrl how = some m ∧
      viewOf m what = (n, some ptr, some ind2, some val2) ∧
      (∀ i, i < n →
        (how = DA_SORT_I → (rowVals ptr val2 i).Sorted (· ≤ ·)) ∧
        (how ≠ DA_SORT_I → (rowVals ptr val2 i).Sorted (· ≥ ·)) ∧
        (outRow ptr ind2 val2 i).Perm (outRow ptr ind val i)) ∧
      da_csr_SortValues mat what 0 how = some m := by
  obtain ⟨s1, s2⟩ := sortValuesView_spec n ptr ind val mrl how hmono hlen hval hmrl
  have hne : DA_COL ≠ DA_ROW := by decide
  have hrows : ∀ i, i < n →
      (how = DA_SORT_I → (rowVals ptr (sortValuesView n ptr ind val mrl how).2 i).Sorted
        (· ≤ ·)) ∧
      (how ≠ DA_SORT_I → (rowVals ptr (sortValuesView n ptr ind val mrl how).2 i).Sorted
        (· ≥ ·)) ∧
      (outRow ptr (sortValuesView n ptr ind val mrl how).1
        (sortValuesView n ptr ind val mrl how).2 i).Perm (outRow ptr ind val i) := by
    intro i hi
    obtain ⟨a, b⟩ := s1 i hi
    refine ⟨?_, ?_, b⟩
    · intro h
      exact a.imp (fun {x y} hxy => by rw [if_pos h] at hxy; exact hxy)
    · intro h
      exact a.imp (fun {x y} hxy => by rw [if_neg h] at hxy; exact hxy)
  rcases hw with rfl | rfl
  · unfold viewOf at hv
    rw [if_pos rfl] at hv
    simp only [Prod.mk.injEq] at hv
    obtain ⟨e1, e2, e3, e4⟩ := hv
    refine ⟨{ mat with rowind := mat.rowind.map (fun _ => (sortValuesView n ptr ind val mrl how).1),
                       rowval := some (sortValuesView n ptr ind val mrl how).2 },
      (sortValuesView n ptr ind val mrl how).1, (sortValuesView n ptr ind val mrl how).2,
      ?_, ?_, hrows, ?_⟩
    · unfold da_csr_SortValues
      rw [if_pos rfl, e2, e3, e4, e1]
      rfl
    · unfold viewOf
      rw [if_pos rfl]
      simp only [e1, e2, e3, Option.map_some']
    · unfold da_csr_SortValues
      rw [if_pos rfl, e2, e3, e4, e1]
      dsimp only
      rw [Option.getD_some, ← s2]
  · unfold viewOf at hv
    rw [if_neg hne] at hv
    simp only [Prod.mk.injEq] at hv
    obtain ⟨e1, e2, e3, e4⟩ := hv
    refine ⟨{ mat with colind := mat.colind.map (fun _ => (sortValuesView n ptr ind val mrl how).1),
                       colval := some (sortValuesView n ptr ind val mrl how).2 },
      (sortValuesView n ptr ind val mrl how).1, (sortValuesView n ptr ind val mrl how).2,
      ?_, ?_, hrows, ?_⟩
    · unfold da_csr_SortValues
      rw [if_neg hne, if_pos rfl, e2, e3, e4, e1]
      rfl
    · unfold viewOf
      rw [if_neg hne]
      simp only [e1, e2, e3, Option.map_some']
    · unfold da_csr_SortValues
      rw [if_neg hne, if_pos rfl, e2, e3, e4, e1]
      dsimp only
      rw [Option.getD_some, ← s2]

/-- Witness of C15 on the 2 x 2 sample matrix whose first row holds the values
2, 1: sorting the rows in increasing order with `mrl = 2`. -/
theorem da_csr_SortValues_sorts_witness :
    ∃ m ind2 val2, da_csr_SortValues shuffledDocs DA_ROW 2 DA_SORT_I = some m ∧
      viewOf m DA_ROW = (2, some [0, 2, 3], some ind2, some val2) ∧
      (∀ i, i < 2 →
        (DA_SORT_I = DA_SORT_I → (rowVals [0, 2, 3] val2 i).Sorted (· ≤ ·)) ∧
        (DA_SORT_I ≠ DA_SORT_I → (rowVals [0, 2, 3] val2 i).Sorted (· ≥ ·)) ∧
        (outRow [0, 2, 3] ind2 val2 i).Perm (outRow [0, 2, 3] [1, 0, 0] [(2 : ℚ), 1, 3] i)) ∧
      da_csr_SortValues shuffledDocs DA_ROW 0 DA_SORT_I = some m :=
  da_csr_SortValues_sorts shuffledDocs DA_ROW 2 [0, 2, 3] [1, 0, 0] [2, 1, 3] 2 DA_SORT_I
    (Or.inl rfl) rfl
    (by intro i hi; interval_cases i <;> decide)
    (by decide) rfl
    (Or.inr (by intro i hi; interval_cases i <;> decide))

end SortValuesClaim
section RoundTripLists
variable {α : Type} [LinearOrderedField α]

theorem fwdEntries_succ (n : Nat) (ptr : List Nat) :
    fwdEntries (n + 1) ptr = fwdEntries n ptr ++
      (List.range' (ptr.getD n 0) (ptr.getD (n + 1) 0 - ptr.getD n 0)).map (fun j => (n, j)) := by
  unfold fwdEntries
  rw [List.range_succ, List.flatMap_append]
  simp only [List.flatMap_cons, List.flatMap_nil, List.append_nil]

/-- The entries of the nested loop that belong to row `i`. -/
theorem fwdEntries_filter_row (ptr : List Nat) (i : Nat) : ∀ n, i < n →
    (fwdEntries n ptr).filter (fun e => decide (e.1 = i)) =
      (List.range' (ptr.getD i 0) (ptr.getD (i + 1) 0 - ptr.getD i 0)).map (fun j => (i, j))
  | 0, h => by omega
  | n + 1, h => by
    rw [fwdEntries_succ, List.filter_append]
    by_cases hin : i = n
    · subst hin
      have e1 : (fwdEntries i ptr).filter (fun e => decide (e.1 = i)) = [] := by
        rw [List.filter_eq_nil_iff]
        intro e he
        have := (fwdEntries_rows_sorted ptr i).1 e he
        simp only [decide_eq_true_eq]
        omega
      have e2 : ((List.range' (ptr.getD i 0) (ptr.getD (i + 1) 0 - ptr.getD i 0)).map
          (fun j => (i, j))).filter (fun e => decide (e.1 = i)) =
          (List.range' (ptr.getD i 0) (ptr.getD (i + 1) 0 - ptr.getD i 0)).map
            (fun j => (i, j)) := by
        rw [List.filter_eq_self]
        intro e he
        rw [List.mem_map] at he
        obtain ⟨j, _, rfl⟩ := he
        simp
      rw [e1, e2, List.nil_append]
    · have e2 : ((List.range' (ptr.getD n 0) (ptr.getD (n + 1) 0 - ptr.getD n 0)).map
          (fun j => (n, j))).filter (fun e => decide (e.1 = i)) = [] := by
        rw [List.filter_eq_nil_iff]
        intro e he
        rw [List.mem_map] at he
        obtain ⟨j, _, rfl⟩ := he
        simp only [decide_eq_true_eq]
        omega
      rw [e2, List.append_nil]
      exact fwdEntries_filter_row ptr i n (by omega)

/-- The triples of a row view that belong to row `i`, without the row id, are the
entries of row `i`. -/
theorem rowTriples_filter_row (n : Nat) (ptr ind : List Nat) (val : List α) (i : Nat)
    (hi : i < n) :
    ((rowTriples n ptr ind val).filter (fun t => decide (t.1 = i))).map (fun t => t.2) =
      outRow ptr ind val i := by
  unfold rowTriples outRow
  rw [List.filter_map]
  have e : ((fun t : Nat × Nat × α => decide (t.1 = i)) ∘
      fun e : Nat × Nat => (e.1, ind.getD e.2 0, val.getD e.2 0)) =
      fun e => decide (e.1 = i) := rfl
  rw [e, fwdEntries_filter_row ptr i n hi, List.map_map, List.map_map]
  rfl

/-- The entries of the nested loop in the rows below `i`. -/
theorem fwdEntries_filter_below (ptr : List Nat) (i : Nat) : ∀ n, i ≤ n →
    (fwdEntries n ptr).filter (fun e => decide (e.1 < i)) = fwdEntries i ptr
  | 0, h => by
    have : i = 0 := by omega
    subst this
    simp [fwdEntries]
  | n + 1, h => by
    by_cases hin : i = n + 1
    · subst hin
      rw [List.filter_eq_self]
      intro e he
      have := (fwdEntries_rows_sorted ptr (n + 1)).1 e he
      simpa using this
    · rw [fwdEntries_succ, List.filter_append]
      have e2 : ((List.range' (ptr.getD n 0) (ptr.getD (n + 1) 0 - ptr.getD n 0)).map
          (fun j => (n, j))).filter (fun e => decide (e.1 < i)) = [] := by
        rw [List.filter_eq_nil_iff]
        intro e he
        rw [List.mem_map] at he
        obtain ⟨j, _, rfl⟩ := he
        simp only [decide_eq_true_eq]
        omega
      rw [e2, List.append_nil]
      exact fwdEntries_filter_below ptr i n (by omega)

/-- A position below `ptr[n]` lies in one of the rows. -/
theorem position_row (ptr : List Nat) (h0 : ptr.getD 0 0 = 0) : ∀ n j, j < ptr.getD n 0 →
    ∃ i, i < n ∧ ptr.getD i 0 ≤ j ∧ j < ptr.getD (i + 1) 0
  | 0, j, h => by omega
  | n + 1, j, h => by
    by_cases hj : j < ptr.getD n 0
    · obtain ⟨i, a, b, c⟩ := position_row ptr h0 n j hj
      exact ⟨i, by omega, b, c⟩
    · exact ⟨n, by omega, by omega, h⟩

/-- Two views with the same pointer array whose rows hold the same entries hold
the same indices and values at every position below `ptr[n]`. -/
theorem arrays_eq_of_rows (n : Nat) (ptr i1 i2 : List Nat) (v1 v2 : List α)
    (h0 : ptr.getD 0 0 = 0)
    (h : ∀ i, i < n → outRow ptr i1 v1 i = outRow ptr i2 v2 i) :
    ∀ j, j < ptr.getD n 0 → i1.getD j 0 = i2.getD j 0 ∧ v1.getD j 0 = v2.getD j 0 := by
  intro j hj
  obtain ⟨i, a, b, c⟩ := position_row ptr h0 n j hj
  have hr := h i a
  unfold outRow at hr
  have hm : j ∈ List.range' (ptr.getD i 0) (ptr.getD (i + 1) 0 - ptr.getD i 0) := by
    rw [List.mem_range'_1]
    omega
  have := List.map_inj_left.mp hr j hm
  simp only [Prod.mk.injEq] at this
  exact this

end RoundTripLists
section RoundTripIndex
variable {α : Type} [LinearOrderedField α]

/-- The view built by `createIndexView` from a well-formed view is well formed. -/
theorem createIndexView_wf (nf nr : Nat) (fptr find : List Nat) (fval : Option (List α))
    (h : WellFormedView nf nr fptr find) :
    WellFormedView nr nf (createIndexView nf nr fptr find fval).1
      (createIndexView nf nr fptr find fval).2.1 := by
  have hs := createIndexView_spec nf nr fptr find fval h
  obtain ⟨hcol, hlen⟩ := fwdEntries_wf nf nr fptr find h
  obtain ⟨s1, s2, s3, _, _⟩ := hs
  refine ⟨s1, ?_, ?_, ?_, ?_⟩
  · rw [s2 0 (Nat.zero_le _)]
    rfl
  · intro c hc
    rw [s2 c (by omega), s2 (c + 1) (by omega)]
    exact bucketStart_mono find _ c (c + 1) (by omega)
  · rw [s3, s2 _ (le_refl _), bucketStart_total find _ _ hcol, hlen]
  · intro x hx
    rcases createIndexView_ind nf nr fptr find fval x hx with h0 | h0
    · by_cases hnf : nf = 0
      · exfalso
        have hl : (createIndexView nf nr fptr find fval).2.1.length = 0 := by
          rw [s3, hnf]
          exact h.2.1
        rw [List.length_eq_zero] at hl
        rw [hl] at hx
        exact List.not_mem_nil _ hx
      · omega
    · exact h0

/-- Building the column view and from it the row view again gives a row view
that stores the triples of the original row view. -/
theorem roundTrip_triples (nf nr : Nat) (fptr find : List Nat) (fval : Option (List α))
    (h : WellFormedView nf nr fptr find) :
    (rowTriples nf
      (createIndexView nr nf (createIndexView nf nr fptr find fval).1
        (createIndexView nf nr fptr find fval).2.1 (createIndexView nf nr fptr find fval).2.2).1
      (createIndexView nr nf (createIndexView nf nr fptr find fval).1
        (createIndexView nf nr fptr find fval).2.1 (createIndexView nf nr fptr find fval).2.2).2.1
      ((createIndexView nr nf (createIndexView nf nr fptr find fval).1
        (createIndexView nf nr fptr find fval).2.1
        (createIndexView nf nr fptr find fval).2.2).2.2.getD [])).Perm
      (rowTriples nf fptr find (fval.getD [])) := by
  have hs1 := createIndexView_spec nf nr fptr find fval h
  have hwf1 := createIndexView_wf nf nr fptr find fval h
  have hp1 := hs1.triples_perm (fwdEntries_wf nf nr fptr find h).1
  generalize createIndexView nf nr fptr find fval = r1 at hs1 hwf1 hp1 ⊢
  have hs2 := createIndexView_spec nr nf r1.1 r1.2.1 r1.2.2 hwf1
  have hp2 := hs2.triples_perm (fwdEntries_wf nr nf r1.1 r1.2.1 hwf1).1
  generalize createIndexView nr nf r1.1 r1.2.1 r1.2.2 = r2 at hs2 hp2 ⊢
  rw [rowTriples_eq_colTriples_swap]
  have e : colTriples nr r1.1 r1.2.1 (r1.2.2.getD []) =
      (rowTriples nr r1.1 r1.2.1 (r1.2.2.getD [])).map (fun t => (t.2.1, t.1, t.2.2)) := by
    unfold rowTriples colTriples
    rw [List.map_map]
    rfl
  rw [e] at hp1
  exact (hp2.map _).trans hp1

end RoundTripIndex
section RoundTripPtr
variable {α : Type} [LinearOrderedField α]

/-- Building the column view and from it the row view again gives back the
pointer array of the original row view. -/
theorem roundTrip_ptr (nf nr : Nat) (fptr find : List Nat) (fval : Option (List α))
    (h : WellFormedView nf nr fptr find) :
    (createIndexView nr nf (createIndexView nf nr fptr find fval).1
      (createIndexView nf nr fptr find fval).2.1 (createIndexView nf nr fptr find fval).2.2).1 =
      fptr := by
  have hs1 := createIndexView_spec nf nr fptr find fval h
  have hwf1 := createIndexView_wf nf nr fptr find fval h
  have hp1 := hs1.triples_perm (fwdEntries_wf nf nr fptr find h).1
  generalize createIndexView nf nr fptr find fval = r1 at hs1 hwf1 hp1 ⊢
  have hs2 := createIndexView_spec nr nf r1.1 r1.2.1 r1.2.2 hwf1
  generalize createIndexView nr nf r1.1 r1.2.1 r1.2.2 = r2 at hs2 ⊢
  obtain ⟨t1, t2, _, _, _⟩ := hs2
  obtain ⟨w1, w2, w3, _, _⟩ := h
  apply list_ext_getD _ _ (nf + 1) t1 w1
  intro i hi
  rw [t2 i (by omega), bucketStart_eq_filter]
  have e1 : ((fwdEntries nr r1.1).filter (fun e => decide (r1.2.1.getD e.2 0 < i))).length =
      ((colTriples nr r1.1 r1.2.1 (r1.2.2.getD [])).filter (fun t => decide (t.1 < i))).length := by
    unfold colTriples
    rw [List.filter_map, List.length_map]
    rfl
  have e2 : ((rowTriples nf fptr find (fval.getD [])).filter (fun t => decide (t.1 < i))).length =
      ((fwdEntries nf fptr).filter (fun e => decide (e.1 < i))).length := by
    unfold rowTriples
    rw [List.filter_map, List.length_map]
    rfl
  rw [e1, (hp1.filter _).length_eq, e2, fwdEntries_filter_below fptr i nf (by omega)]
  have hp := fwdEntries_positions i fptr w2 (fun k hk => w3 k (by omega))
  have := congrArg List.length hp
  rw [List.length_map, List.length_range] at this
  exact this

/-- Building the column view and from it the row view again gives rows that are
rearrangements of the original rows, with indices in non-decreasing order. -/
theorem roundTrip_rows (nf nr : Nat) (fptr find : List Nat) (fval : Option (List α))
    (h : WellFormedView nf nr fptr find) (i : Nat) (hi : i < nf) :
    (outRow fptr
      (createIndexView nr nf (createIndexView nf nr fptr find fval).1
        (createIndexView nf nr fptr find fval).2.1 (createIndexView nf nr fptr find fval).2.2).2.1
      ((createIndexView nr nf (createIndexView nf nr fptr find fval).1
        (createIndexView nf nr fptr find fval).2.1
        (createIndexView nf nr fptr find fval).2.2).2.2.getD []) i).Perm
        (outRow fptr find (fval.getD []) i) ∧
      ((outRow fptr
        (createIndexView nr nf (createIndexView nf nr fptr find fval).1
          (createIndexView nf nr fptr find fval).2.1
          (createIndexView nf nr fptr find fval).2.2).2.1
        ((createIndexView nr nf (createIndexView nf nr fptr find fval).1
          (createIndexView nf nr fptr find fval).2.1
          (createIndexView nf nr fptr find fval).2.2).2.2.getD []) i).map Prod.fst).Sorted
        (· ≤ ·) := by
  have hT := roundTrip_triples nf nr fptr find fval h
  have hP := roundTrip_ptr nf nr fptr find fval h
  have hwf1 := createIndexView_wf nf nr fptr find fval h
  generalize createIndexView nf nr fptr find fval = r1 at hT hP hwf1 ⊢
  have hs2 := createIndexView_spec nr nf r1.1 r1.2.1 r1.2.2 hwf1
  generalize createIndexView nr nf r1.1 r1.2.1 r1.2.2 = r2 at hT hP hs2 ⊢
  constructor
  · have := ((hT.filter (fun t => decide (t.1 = i))).map (fun t => t.2))
    rw [rowTriples_filter_row nf _ _ _ i hi, rowTriples_filter_row nf _ _ _ i hi, hP] at this
    exact this
  · rw [outRow_fst]
    apply sorted_range_of_adjacent
    intro j a b
    have := hs2.bucket_sorted i hi j (by rw [hP]; exact a) (by rw [hP]; omega)
    exact this

end RoundTripPtr
section RoundTripExact
variable {α : Type} [LinearOrderedField α]

/-- Two rearrangements of the same pairs, one with strictly increasing first
components and one with non-decreasing first components, are the same list. -/
theorem eq_of_perm_sorted_keys (l1 l2 : List (Nat × α)) (hp : l1.Perm l2)
    (h1 : (l1.map Prod.fst).Sorted (· ≤ ·)) (h2 : (l2.map Prod.fst).Sorted (· < ·)) :
    l1 = l2 := by
  have hnd2 : (l2.map Prod.fst).Nodup := h2.nodup
  have hnd1 : (l1.map Prod.fst).Nodup := (hp.map Prod.fst).nodup_iff.mpr hnd2
  have s1 : (l1.map Prod.fst).Pairwise (· < ·) := by
    have := List.Pairwise.and h1 hnd1
    exact this.imp (fun {a b} h => lt_of_le_of_ne h.1 h.2)
  have hA : IsAntisymm (Nat × α) (fun a b => a.1 < b.1) :=
    ⟨fun a b x y => absurd x (lt_asymm y)⟩
  have p1 : l1.Sorted (fun a b => a.1 < b.1) := List.pairwise_map.mp s1
  have p2 : l2.Sorted (fun a b => a.1 < b.1) := List.pairwise_map.mp h2
  exact List.eq_of_perm_of_sorted hp p1 p2

/-- When the rows of the original view have strictly increasing indices and the
value array is as long as the index array, building the column view and from it
the row view again gives back the index and value arrays. -/
theorem roundTrip_exact (nf nr : Nat) (fptr find : List Nat) (fval : Option (List α))
    (h : WellFormedView nf nr fptr find)
    (hsorted : ∀ i, i < nf → ((outRow fptr find (fval.getD []) i).map Prod.fst).Sorted (· < ·))
    (hv : ∀ v, fval = some v → v.length = find.length) :
    (createIndexView nr nf (createIndexView nf nr fptr find fval).1
      (createIndexView nf nr fptr find fval).2.1
      (createIndexView nf nr fptr find fval).2.2).2.1 = find ∧
    (createIndexView nr nf (createIndexView nf nr fptr find fval).1
      (createIndexView nf nr fptr find fval).2.1
      (createIndexView nf nr fptr find fval).2.2).2.2 = fval := by
  have hrows := fun i hi => roundTrip_rows nf nr fptr find fval h i hi
  have hs1 := createIndexView_spec nf nr fptr find fval h
  have hwf1 := createIndexView_wf nf nr fptr find fval h
  generalize createIndexView nf nr fptr find fval = r1 at hrows hs1 hwf1 ⊢
  have hs2 := createIndexView_spec nr nf r1.1 r1.2.1 r1.2.2 hwf1
  generalize createIndexView nr nf r1.1 r1.2.1 r1.2.2 = r2 at hrows hs2 ⊢
  have heq : ∀ i, i < nf → outRow fptr r2.2.1 (r2.2.2.getD []) i =
      outRow fptr find (fval.getD []) i := by
    intro i hi
    obtain ⟨a, b⟩ := hrows i hi
    exact eq_of_perm_sorted_keys _ _ a b (hsorted i hi)
  have harr := arrays_eq_of_rows nf fptr r2.2.1 find (r2.2.2.getD []) (fval.getD []) h.2.1 heq
  obtain ⟨_, _, s3, _, s5⟩ := hs1
  obtain ⟨_, _, t3, _, t5⟩ := hs2
  obtain ⟨_, _, _, w4, _⟩ := h
  obtain ⟨_, _, _, x4, _⟩ := hwf1
  have hn : r1.1.getD nr 0 = fptr.getD nf 0 := by rw [← x4, s3]
  constructor
  · apply list_ext_getD _ _ (fptr.getD nf 0) (by rw [t3, hn]) w4
    intro j hj
    exact (harr j hj).1
  · cases hfv : fval with
    | none =>
      rw [hfv] at s5
      dsimp only at s5
      rw [s5] at t5
      dsimp only at t5
      exact t5
    | some fv =>
      rw [hfv] at s5
      dsimp only at s5
      obtain ⟨rv1, e1, _, _⟩ := s5
      rw [e1] at t5
      dsimp only at t5
      obtain ⟨rv2, e2, l2, _⟩ := t5
      rw [e2]
      congr 1
      apply list_ext_getD_gen 0 _ _ (fptr.getD nf 0) (by rw [l2, hn])
        (by rw [hv fv hfv, w4])
      intro j hj
      have := (harr j hj).2
      rw [e2, hfv] at this
      exact this

end RoundTripExact
section RoundTripClaim
variable {α : Type} [LinearOrderedField α]

theorem createIndexView_isSome (nf nr : Nat) (fptr find : List Nat) (fval : Option (List α))
    (h : WellFormedView nf nr fptr find) :
    (createIndexView nf nr fptr find fval).2.2.isSome = fval.isSome := by
  obtain ⟨_, _, _, _, s5⟩ := createIndexView_spec nf nr fptr find fval h
  cases hv : fval with
  | none =>
    rw [hv] at s5
    dsimp only at s5
    rw [s5]
  | some fv =>
    rw [hv] at s5
    obtain ⟨rv, e, _⟩ := s5
    rw [e]
    rfl

/-- C12: for a matrix with a well-formed row view, `da_csr_CreateIndex(DA_COL)`
followed by `da_csr_CreateIndex(DA_ROW)` yields a row view with the same
`row_ptr` and the same multiset of (row, column, value) triples as the original;
and if every original row has strictly increasing column ids (sorted by index,
no duplicate column) and the value array, when present, is as long as the index
array, the rebuilt `row_ind` and `row_val` arrays are the original arrays. -/
theorem da_csr_CreateIndex_round_trip (mat : da_csr_t α) (rp ri : List Nat)
    (h1 : mat.rowptr = some rp) (h2 : mat.rowind = some ri)
    (hwf : WellFormedView mat.nrows mat.ncols rp ri) :
    ∃ m1 m2 ri2, da_csr_CreateIndex mat DA_COL = some m1 ∧
      da_csr_CreateIndex m1 DA_ROW = some m2 ∧
      m2.rowptr = some rp ∧ m2.rowind = some ri2 ∧
      m2.rowval.isSome = mat.rowval.isSome ∧
      (rowTriples mat.nrows rp ri2 (m2.rowval.getD [])).Perm
        (rowTriples mat.nrows rp ri (mat.rowval.getD [])) ∧
      ((∀ i, i < mat.nrows →
          ((outRow rp ri (mat.rowval.getD []) i).map Prod.fst).Sorted (· < ·)) →
        (∀ v, mat.rowval = some v → v.length = ri.length) →
        ri2 = ri ∧ m2.rowval = mat.rowval) := by
  have hP := roundTrip_ptr mat.nrows mat.ncols rp ri mat.rowval hwf
  have hT := roundTrip_triples mat.nrows mat.ncols rp ri mat.rowval hwf
  have hS1 := createIndexView_isSome mat.nrows mat.ncols rp ri mat.rowval hwf
  have hS2 := createIndexView_isSome mat.ncols mat.nrows
    (createIndexView mat.nrows mat.ncols rp ri mat.rowval).1
    (createIndexView mat.nrows mat.ncols rp ri mat.rowval).2.1
    (createIndexView mat.nrows mat.ncols rp ri mat.rowval).2.2
    (createIndexView_wf mat.nrows mat.ncols rp ri mat.rowval hwf)
  have hE := roundTrip_exact mat.nrows mat.ncols rp ri mat.rowval hwf
  have hne : DA_ROW ≠ DA_COL := by decide
  refine ⟨{ mat with
      colptr := some (createIndexView mat.nrows mat.ncols rp ri mat.rowval).1,
      colind := some (createIndexView mat.nrows mat.ncols rp ri mat.rowval).2.1,
      colval := (createIndexView mat.nrows mat.ncols rp ri mat.rowval).2.2 },
    { mat with
      colptr := some (createIndexView mat.nrows mat.ncols rp ri mat.rowval).1,
      colind := some (createIndexView mat.nrows mat.ncols rp ri mat.rowval).2.1,
      colval := (createIndexView mat.nrows mat.ncols rp ri mat.rowval).2.2,
      rowptr := some (createIndexView mat.ncols mat.nrows
        (createIndexView mat.nrows mat.ncols rp ri mat.rowval).1
        (createIndexView mat.nrows mat.ncols rp ri mat.rowval).2.1
        (createIndexView mat.nrows mat.ncols rp ri mat.rowval).2.2).1,
      rowind := some (createIndexView mat.ncols mat.nrows
        (createIndexView mat.nrows mat.ncols rp ri mat.rowval).1
        (createIndexView mat.nrows mat.ncols rp ri mat.rowval).2.1
        (createIndexView mat.nrows mat.ncols rp ri mat.rowval).2.2).2.1,
      rowval := (createIndexView mat.ncols mat.nrows
        (createIndexView mat.nrows mat.ncols rp ri mat.rowval).1
        (createIndexView mat.nrows mat.ncols rp ri mat.rowval).2.1
        (createIndexView mat.nrows mat.ncols rp ri mat.rowval).2.2).2.2 },
    (createIndexView mat.ncols mat.nrows
        (createIndexView mat.nrows mat.ncols rp ri mat.rowval).1
        (createIndexView mat.nrows mat.ncols rp ri mat.rowval).2.1
        (createIndexView mat.nrows mat.ncols rp ri mat.rowval).2.2).2.1,
    ?_, ?_, ?_, rfl, ?_, ?_, ?_⟩
  · unfold da_csr_CreateIndex
    rw [if_pos rfl, h1, h2]
    rfl
  · unfold da_csr_CreateIndex
    rw [if_neg hne, if_pos rfl]
    rfl
  · show some _ = some rp
    rw [hP]
  · show Option.isSome _ = _
    rw [hS2, hS1]
  · rw [hP] at hT
    exact hT
  · intro hsorted hv
    obtain ⟨e1, e2⟩ := hE hsorted hv
    exact ⟨e1, e2⟩

/-- Witness of C12 on the 3 x 2 sample matrix, whose rows are sorted: the row
view rebuilt from the column view is the original one. -/
theorem da_csr_CreateIndex_round_trip_witness :
    ∃ m1 m2, da_csr_CreateIndex sampleDocs DA_COL = some m1 ∧
      da_csr_CreateIndex m1 DA_ROW = some m2 ∧
      m2.rowptr = some [0, 2, 3, 4] ∧ m2.rowind = some [0, 1, 0, 1] ∧
      m2.rowval = sampleDocs.rowval ∧
      (rowTriples sampleDocs.nrows [0, 2, 3, 4] [0, 1, 0, 1] (m2.rowval.getD [])).Perm
        (rowTriples sampleDocs.nrows [0, 2, 3, 4] [0, 1, 0, 1] (sampleDocs.rowval.getD [])) := by
  obtain ⟨m1, m2, ri2, a, b, c, d, _, f, g⟩ :=
    da_csr_CreateIndex_round_trip sampleDocs [0, 2, 3, 4] [0, 1, 0, 1] rfl rfl
      sampleDocs_wellFormed
  obtain ⟨g1, g2⟩ := g
    (by
      intro i hi
      have h3 : i < 3 := hi
      interval_cases i <;> simp [outRow, sampleDocs, List.range'])
    (by
      intro v hv
      have : v = [1, 2, 3, 1] := by
        have e : sampleDocs.rowval = some [1, 2, 3, 1] := rfl
        rw [e] at hv
        exact (Option.some.inj hv).symm
      rw [this]
      rfl)
  rw [g1] at d f
  exact ⟨m1, m2, a, b, c, d, g2, f⟩

end RoundTripClaim
section Scenario
variable {α : Type} [LinearOrderedField α]

/-- Function `da_csr_CompactColumns` on the 4 x 5 example input keeps the three
columns in use, with their numbers. -/
theorem scenario_compact : da_csr_CompactColumns (scenarioDocs α) =
    { nrows := 4, ncols := 3, rowptr := some [0, 2, 4, 5, 5], colptr := none,
      rowind := some [0, 1, 0, 1, 2], colind := none,
      rowval := some [1, 1, 1, 1, 1], colval := none, rnorms := none, cnorms := none } := by
  simp [da_csr_CompactColumns, scenarioDocs, forLoop, da_iikvsortd, DA_MKQSORT, compactMap,
    List.insertionSort, List.orderedInsert, List.replicate]

/-- The preprocessing of the 4 x 5 example input: the entries of rows 0 and 1
become `log 2 / sqrt (2 (log 2)^2)` and the entry of row 2 becomes
`log 4 / sqrt ((log 4)^2)`. -/
theorem scenario_preprocess (log sqrt : α → α)
    (h2 : 0 < log (4 / 2) * log (4 / 2) + log (4 / 2) * log (4 / 2))
    (h4 : 0 < log 4 * log 4) :
    preprocess log sqrt (scenarioDocs α) =
      some (scenarioIndexed
        (log (4 / 2) * (sqrt (log (4 / 2) * log (4 / 2) + log (4 / 2) * log (4 / 2)))⁻¹)
        (log 4 * (sqrt (log 4 * log 4))⁻¹)) := by
  unfold preprocess
  rw [scenario_compact]
  simp [da_csr_SortIndices, sortIndicesView, sortIndicesRow, forLoop, DA_ROW, DA_COL, da_pikvsorti,
    DA_MKQSORT, List.replicate, da_csr_Scale, forEntries, da_csr_Normalize, normalizeRows,
    normalizeCols, normalizeView, normalizeRow, da_csr_CreateIndex, createIndexView, CSRMAKE,
    CSRSHIFT, h2, h4, scenarioIndexed]

end Scenario
section ScenarioSearch
variable {α : Type} [LinearOrderedField α]

theorem unit_norm_pair (L S : α) (hS : S ≠ 0) (hSS : S * S = L * L + L * L) :
    L * S⁻¹ * (L * S⁻¹) + L * S⁻¹ * (L * S⁻¹) = 1 := by
  have e : L * S⁻¹ * (L * S⁻¹) + L * S⁻¹ * (L * S⁻¹) = (L * L + L * L) * (S * S)⁻¹ := by
    rw [mul_inv]
    ring
  rw [e, ← hSS]
  exact mul_inv_cancel₀ (mul_ne_zero hS hS)

/-- The search loop of `idxjoin` on the preprocessed example input, for entry
values `a` (rows 0 and 1) with `a * a + a * a = 1` and `b` (row 2). -/
theorem scenario_search (a b : α) (n0 : Nat) (hs : a * a + a * a = 1) :
    ∃ s, idxjoinSearch (scenarioIndexed a b) 2 (1 / 2) n0 = some s ∧
      s.rowptr = [0, 1, 2, 2, 2] ∧ s.rowind = [1, 0, 0, 0, 0, 0, 0, 0] ∧
      s.rowval = [1, 1, 0, 0, 0, 0, 0, 0] := by
  have h12 : (2 : α)⁻¹ ≤ 1 := by norm_num
  have key : (idxjoinSearch (scenarioIndexed a b) 2 (1 / 2) n0).map
      (fun s => (s.rowptr, s.rowind, s.rowval)) =
      some ([0, 1, 2, 2, 2], [1, 0, 0, 0, 0, 0, 0, 0], [1, 1, 0, 0, 0, 0, 0, 0]) := by
    simp [idxjoinSearch, idxjoinRow, da_getSimilarRows, accumulate, accumFeature, accumEntry,
      markCandidate, clearMarkers, filterHits, da_ivkvsortd, DA_MKQSORT, forLoop, hs, h12,
      scenarioIndexed]
  rw [Option.map_eq_some'] at key
  obtain ⟨s, e1, e2⟩ := key
  simp only [Prod.mk.injEq] at e2
  exact ⟨s, e1, e2.1, e2.2.1, e2.2.2⟩

/-- C6: on the 4 x 5 input with rows `{f0:1, f1:1}`, `{f0:1, f1:1}`, `{f2:1}` and
`{}`, with `k = 2` and `eps = 1/2`, in exact arithmetic (a logarithm that is
positive above 1 and a square root that is the positive root of a positive
number), `idxjoin` returns and its output has row 0 = `[(1, 1)]`, row 1 =
`[(0, 1)]` and empty rows 2 and 3. -/
theorem idxjoin_scenario (log sqrt : α → α) (hlog : ∀ x, 1 < x → 0 < log x)
    (hsqrt : ∀ x, 0 < x → 0 < sqrt x ∧ sqrt x * sqrt x = x) (ncand0 : Nat) :
    ∃ docs s, idxjoin log sqrt { docs := scenarioDocs α, k := 2, epsilon := 1 / 2 } ncand0 =
        some (docs, s) ∧
      outRow s.rowptr s.rowind s.rowval 0 = [(1, 1)] ∧
      outRow s.rowptr s.rowind s.rowval 1 = [(0, 1)] ∧
      outRow s.rowptr s.rowind s.rowval 2 = [] ∧
      outRow s.rowptr s.rowind s.rowval 3 = [] := by
  have hl2 : 0 < log (4 / 2) := hlog _ (by norm_num)
  have hl4 : 0 < log 4 := hlog _ (by norm_num)
  have h2 : 0 < log (4 / 2) * log (4 / 2) + log (4 / 2) * log (4 / 2) :=
    add_pos (mul_pos hl2 hl2) (mul_pos hl2 hl2)
  have h4 : 0 < log 4 * log 4 := mul_pos hl4 hl4
  obtain ⟨q1, q2⟩ := hsqrt _ h2
  have hs : log (4 / 2) * (sqrt (log (4 / 2) * log (4 / 2) + log (4 / 2) * log (4 / 2)))⁻¹ *
      (log (4 / 2) * (sqrt (log (4 / 2) * log (4 / 2) + log (4 / 2) * log (4 / 2)))⁻¹) +
      log (4 / 2) * (sqrt (log (4 / 2) * log (4 / 2) + log (4 / 2) * log (4 / 2)))⁻¹ *
      (log (4 / 2) * (sqrt (log (4 / 2) * log (4 / 2) + log (4 / 2) * log (4 / 2)))⁻¹) = 1 := by
    have hne : sqrt (log (4 / 2) * log (4 / 2) + log (4 / 2) * log (4 / 2)) ≠ 0 := ne_of_gt q1
    exact unit_norm_pair _ _ hne q2
  obtain ⟨s, e1, e2, e3, e4⟩ := scenario_search _ (log 4 * (sqrt (log 4 * log 4))⁻¹) ncand0 hs
  have r0 : outRow s.rowptr s.rowind s.rowval 0 = [(1, 1)] := by
    rw [e2, e3, e4]
    simp [outRow, List.range']
  have r1 : outRow s.rowptr s.rowind s.rowval 1 = [(0, 1)] := by
    rw [e2, e3, e4]
    simp [outRow, List.range']
  have r2 : outRow s.rowptr s.rowind s.rowval 2 = [] := by
    rw [e2, e3, e4]
    simp [outRow, List.range']
  have r3 : outRow s.rowptr s.rowind s.rowval 3 = [] := by
    rw [e2, e3, e4]
    simp [outRow, List.range']
  refine ⟨scenarioIndexed
      (log (4 / 2) * (sqrt (log (4 / 2) * log (4 / 2) + log (4 / 2) * log (4 / 2)))⁻¹)
      (log 4 * (sqrt (log 4 * log 4))⁻¹), s, ?_, r0, r1, r2, r3⟩
  unfold idxjoin
  dsimp only
  rw [scenario_preprocess log sqrt h2 h4]
  dsimp only
  rw [e1]
  rfl

/-- Witness of C6 over the real numbers, with the natural logarithm and the real
square root. -/
theorem idxjoin_scenario_witness :
    ∃ docs s, idxjoin Real.log Real.sqrt { docs := scenarioDocs ℝ, k := 2, epsilon := 1 / 2 } 0 =
        some (docs, s) ∧
      outRow s.rowptr s.rowind s.rowval 0 = [(1, 1)] ∧
      outRow s.rowptr s.rowind s.rowval 1 = [(0, 1)] ∧
      outRow s.rowptr s.rowind s.rowval 2 = [] ∧
      outRow s.rowptr s.rowind s.rowval 3 = [] :=
  idxjoin_scenario Real.log Real.sqrt (fun _ hx => Real.log_pos hx) real_sqrt_spec 0

end ScenarioSearch
section ScoreLoop
variable {α : Type} [LinearOrderedCommRing α]

/-- Marking a candidate keeps the score discipline; afterwards the row `k` is
marked. -/
theorem markCandidate_score (nrows k : Nat) (st : AccState α) (C : List (Nat × α))
    (hk : k < nrows) (h : AccInv nrows st) (hS : ScoreInv nrows st C) :
    (∀ x, x < nrows → ((markCandidate k st).marker.getD x 0 ≠ -1 ↔
      (x ∈ C.map Prod.fst ∨ x = k))) ∧
    (∀ s, s < (markCandidate k st).ncand → ((markCandidate k st).cand.getD s default).val =
      ((C.filter (fun p => decide (p.1 = ((markCandidate k st).cand.getD s default).key))).map
        Prod.snd).sum) := by
  have hnew := markCandidate_inv nrows k st hk h
  obtain ⟨h1, h2, h3, h4, h5⟩ := h
  obtain ⟨s1, s2⟩ := hS
  unfold markCandidate at hnew ⊢
  by_cases hm : st.marker.getD k 0 = -1
  · rw [if_pos hm] at hnew ⊢
    have hlt : st.ncand < nrows := hnew.2.2.1
    have hkC : k ∉ C.map Prod.fst := fun hin => ((s1 k hk).mpr hin) hm
    constructor
    · intro x hx
      show (st.marker.set k (st.ncand : Int)).getD x 0 ≠ -1 ↔ _
      rw [getD_set_eq]
      by_cases hkx : k = x
      · rw [if_pos ⟨hkx, by omega⟩]
        constructor
        · intro _
          exact Or.inr hkx.symm
        · intro _
          omega
      · rw [if_neg (fun hc => hkx hc.1)]
        constructor
        · intro hne
          exact Or.inl ((s1 x hx).mp hne)
        · rintro (hin | hxk)
          · exact (s1 x hx).mpr hin
          · exact absurd hxk.symm hkx
    · intro s hs
      show ((st.cand.set st.ncand ⟨k, 0⟩).getD s default).val =
        ((C.filter (fun p => decide (p.1 = ((st.cand.set st.ncand ⟨k, 0⟩).getD s default).key))).map
          Prod.snd).sum
      have hs' : s < st.ncand + 1 := hs
      rw [getD_set_eq]
      by_cases hsn : st.ncand = s
      · rw [if_pos ⟨hsn, by omega⟩]
        have e : C.filter (fun p => decide (p.1 = k)) = [] := by
          rw [List.filter_eq_nil_iff]
          intro p hp
          simp only [decide_eq_true_eq]
          intro hpk
          exact hkC (List.mem_map.mpr ⟨p, hp, hpk⟩)
        show (0 : α) = ((C.filter (fun p => decide (p.1 = k))).map Prod.snd).sum
        rw [e]
        rfl
      · rw [if_neg (fun hc => hsn hc.1)]
        exact s2 s (by omega)
  · rw [if_neg hm]
    refine ⟨?_, s2⟩
    intro x hx
    rw [s1 x hx]
    constructor
    · exact fun hin => Or.inl hin
    · rintro (hin | hxk)
      · exact hin
      · rw [hxk]
        exact (s1 k hk).mp hm

end ScoreLoop
section ScoreLoop2
variable {α : Type} [LinearOrderedCommRing α]

/-- One posting entry keeps the score discipline, its contribution being added
to the list. -/
theorem accumEntry_score (mat : da_csr_t α) (rid : Nat) (qv : α) (j : Nat) (st : AccState α)
    (C : List (Nat × α)) (hk : (mat.colind.getD []).getD j 0 < mat.nrows)
    (h : AccInv mat.nrows st) (hM : MarkerInv mat.nrows st) (hS : ScoreInv mat.nrows st C) :
    ScoreInv mat.nrows (accumEntry (mat.colind.getD []) (mat.colval.getD []) rid qv j st)
      (C ++ entryContrib mat rid qv j) := by
  unfold accumEntry entryContrib
  simp only []
  by_cases hr : (mat.colind.getD []).getD j 0 = rid
  · rw [if_pos hr, if_pos hr, List.append_nil]
    exact hS
  · rw [if_neg hr, if_neg hr]
    obtain ⟨a1, a2⟩ := markCandidate_score mat.nrows _ st C hk h hS
    have hA := markCandidate_inv mat.nrows _ st hk h
    obtain ⟨m1, m2⟩ := markCandidate_marker mat.nrows _ st hk h hM
    generalize markCandidate ((mat.colind.getD []).getD j 0) st = st1 at a1 a2 hA m1 m2 ⊢
    generalize (mat.colind.getD []).getD j 0 = k at hk hr a1 a2 m1 m2 ⊢
    generalize (mat.colval.getD []).getD j 0 * qv = c
    have hmk : st1.marker.getD k 0 ≠ -1 := (a1 k hk).mpr (Or.inr rfl)
    obtain ⟨s0, hs0, e1, e2⟩ := m2 k hk hmk
    have hslot : (st1.marker.getD k 0).toNat = s0 := by rw [e1]; rfl
    obtain ⟨_, q2, q3, _, _⟩ := hA
    constructor
    · intro x hx
      show st1.marker.getD x 0 ≠ -1 ↔ _
      rw [a1 x hx, List.map_append, List.mem_append]
      simp
    · intro s hs
      show ((st1.cand.set _ _).getD s default).val =
        (((C ++ [(k, c)]).filter
          (fun p => decide (p.1 = ((st1.cand.set _ _).getD s default).key))).map Prod.snd).sum
      have hs1 : s < st1.ncand := hs
      rw [getD_set_val_key, hslot, getD_set_eq, List.filter_append, List.map_append,
        List.sum_append, ← a2 s hs1]
      by_cases hss : s0 = s
      · subst hss
        rw [if_pos ⟨rfl, by omega⟩, e2, List.filter_cons_of_pos (by simp)]
        simp
      · rw [if_neg (fun hc => hss hc.1)]
        have hne : ¬ k = (st1.cand.getD s default).key := by
          intro hke
          have := (m1 s hs1).2
          rw [← hke, e1] at this
          have : s0 = s := by exact_mod_cast this
          exact hss this
        rw [List.filter_cons_of_neg (by simpa using hne)]
        simp

end ScoreLoop2
section ScoreLoop3
variable {α : Type} [LinearOrderedCommRing α]

theorem contributions_succ (mat : da_csr_t α) (rid t : Nat) :
    contributions mat rid (t + 1) = contributions mat rid t ++ featureContrib mat rid t := by
  unfold contributions
  rw [List.range_succ, List.flatMap_append]
  simp only [List.flatMap_cons, List.flatMap_nil, List.append_nil]

theorem flatMap_range'_succ {β : Type} (g : Nat → List β) (s u : Nat) :
    (List.range' s (u + 1)).flatMap g = (List.range' s u).flatMap g ++ g (s + u) := by
  rw [List.range'_1_concat, List.flatMap_append]
  simp only [List.flatMap_cons, List.flatMap_nil, List.append_nil]

/-- The accumulation loop of `da_getSimilarRows`, entered with every marker `-1`,
keeps the score discipline against the list of its contributions. -/
theorem accumulate_score (mat : da_csr_t α) (rid qsz : Nat) (cand : List (da_ivkv_t α))
    (hpos : 0 < mat.nrows) (hcol : ∀ x ∈ mat.colind.getD [], x < mat.nrows)
    (hc : cand.length = mat.nrows) :
    ScoreInv mat.nrows (accumulate mat rid qsz (List.replicate mat.nrows (-1)) cand)
      (contributions mat rid qsz) := by
  have key := forLoop_invariant (fun t (st : AccState α) =>
      AccInv mat.nrows st ∧ MarkerInv mat.nrows st ∧
      ScoreInv mat.nrows st (contributions mat rid t))
    (accumFeature mat rid) 0
    { marker := List.replicate mat.nrows (-1), cand := cand, ncand := 0 } qsz
    (by
      refine ⟨⟨by simp, hc, Nat.zero_le _, by simp, by simp⟩, ⟨?_, ?_⟩, ?_, ?_⟩
      · intro s hs
        exact absurd hs (Nat.not_lt_zero _)
      · intro x hx hne
        exfalso
        apply hne
        show (List.replicate mat.nrows (-1 : Int)).getD x 0 = -1
        rw [List.getD_eq_getElem?_getD, List.getElem?_eq_getElem (by simpa using hx)]
        simp
      · intro x hx
        have e : (List.replicate mat.nrows (-1 : Int)).getD x 0 = -1 := by
          rw [List.getD_eq_getElem?_getD, List.getElem?_eq_getElem (by simpa using hx)]
          simp
        show (List.replicate mat.nrows (-1 : Int)).getD x 0 ≠ -1 ↔ _
        rw [e]
        simp [contributions]
      · intro s hs
        exact absurd hs (Nat.not_lt_zero _))
    (by
      intro t st _ ⟨hA, hM, hS⟩
      rw [contributions_succ, Nat.zero_add]
      unfold accumFeature featureContrib
      simp only []
      split_ifs with hlt
      · have inner := forLoop_invariant (fun u (s2 : AccState α) =>
            AccInv mat.nrows s2 ∧ MarkerInv mat.nrows s2 ∧
            ScoreInv mat.nrows s2 (contributions mat rid t ++
              (List.range'
                ((mat.colptr.getD []).getD
                  ((mat.rowind.getD []).getD ((mat.rowptr.getD []).getD rid 0 + t) 0) 0) u).flatMap
                (entryContrib mat rid
                  ((mat.rowval.getD []).getD ((mat.rowptr.getD []).getD rid 0 + t) 0))))
          (accumEntry (mat.colind.getD []) (mat.colval.getD []) rid
            ((mat.rowval.getD []).getD ((mat.rowptr.getD []).getD rid 0 + t) 0))
          ((mat.colptr.getD []).getD
            ((mat.rowind.getD []).getD ((mat.rowptr.getD []).getD rid 0 + t) 0) 0) st
          ((mat.colptr.getD []).getD
              ((mat.rowind.getD []).getD ((mat.rowptr.getD []).getD rid 0 + t) 0 + 1) 0 -
            (mat.colptr.getD []).getD
              ((mat.rowind.getD []).getD ((mat.rowptr.getD []).getD rid 0 + t) 0) 0)
          ⟨hA, hM, by simpa using hS⟩
          (by
            intro u s2 _ ⟨bA, bM, bS⟩
            have hk := colind_getD_lt mat hpos hcol
              ((mat.colptr.getD []).getD
                ((mat.rowind.getD []).getD ((mat.rowptr.getD []).getD rid 0 + t) 0) 0 + u)
            refine ⟨accumEntry_inv _ _ _ _ _ _ _ hk bA, accumEntry_marker _ _ _ _ _ _ _ hk bA bM,
              ?_⟩
            rw [flatMap_range'_succ, ← List.append_assoc]
            exact accumEntry_score mat rid _ _ s2 _ hk bA bM bS)
        exact inner
      · rw [List.append_nil]
        exact ⟨hA, hM, hS⟩)
  exact key.2.2

end ScoreLoop3
section ContribLists
variable {α : Type} [LinearOrderedCommRing α]

theorem flatMap_map_eq {β γ δ : Type} (f : β → γ) (g : γ → List δ) : ∀ l : List β,
    (l.map f).flatMap g = l.flatMap (fun x => g (f x))
  | [] => rfl
  | x :: l => by
    rw [List.map_cons, List.flatMap_cons, List.flatMap_cons, flatMap_map_eq f g l]

/-- Among the contributions of a list of (row, value) pairs, those to a row `r`
other than the query row. -/
theorem contrib_filter (rid r : Nat) (qv : α) (hr : r ≠ rid) : ∀ L : List (Nat × α),
    (L.flatMap (fun q => if q.1 = rid then [] else [(q.1, q.2 * qv)])).filter
        (fun p => decide (p.1 = r)) =
      (L.filter (fun q => decide (q.1 = r))).map (fun q => (r, q.2 * qv))
  | [] => rfl
  | q :: L => by
    rw [List.flatMap_cons, List.filter_append, contrib_filter rid r qv hr L]
    by_cases h1 : q.1 = r
    · have h2 : ¬ q.1 = rid := fun h => hr (h1 ▸ h)
      rw [if_neg h2, List.filter_cons_of_pos (by simpa using h1),
        List.filter_cons_of_pos (by simpa using h1), List.filter_nil, List.map_cons, h1]
      rfl
    · rw [List.filter_cons_of_neg (by simpa using h1)]
      by_cases h2 : q.1 = rid
      · rw [if_pos h2]
        rfl
      · rw [if_neg h2, List.filter_cons_of_neg (by simpa using h1), List.filter_nil]
        rfl

/-- No contribution goes to the query row. -/
theorem contrib_not_self (rid : Nat) (qv : α) : ∀ L : List (Nat × α),
    ∀ p ∈ L.flatMap (fun q => if q.1 = rid then [] else [(q.1, q.2 * qv)]), p.1 ≠ rid
  | [], p, hp => by simp at hp
  | q :: L, p, hp => by
    rw [List.flatMap_cons, List.mem_append] at hp
    rcases hp with hp | hp
    · by_cases h2 : q.1 = rid
      · rw [if_pos h2] at hp
        exact absurd hp (List.not_mem_nil _)
      · rw [if_neg h2, List.mem_singleton] at hp
        rw [hp]
        exact h2
    · exact contrib_not_self rid qv L p hp

end ContribLists
section FeatureContrib
variable {α : Type} [LinearOrderedField α]

/-- The contributions of one query entry to a row `r` other than the query row,
when the column view is the index of the row view: one product per entry of row
`r` in the column of the query entry. -/
theorem featureContrib_filter (mat : da_csr_t α) (rp ri cp ci : List Nat)
    (h1 : mat.rowptr = some rp) (h2 : mat.rowind = some ri)
    (h3 : mat.colptr = some cp) (h4 : mat.colind = some ci)
    (hidx : IsIndexOf mat.nrows mat.ncols rp ri mat.rowval (cp, ci, mat.colval))
    (rid ii r : Nat) (hr : r < mat.nrows) (hne : r ≠ rid)
    (hf : ri.getD (rp.getD rid 0 + ii) 0 < mat.ncols) :
    (featureContrib mat rid ii).filter (fun p => decide (p.1 = r)) =
      ((rowEntries mat r).filter
        (fun y => decide (y.1 = ri.getD (rp.getD rid 0 + ii) 0))).map
        (fun y => (r, y.2 * (mat.rowval.getD []).getD (rp.getD rid 0 + ii) 0)) := by
  have hs := hidx.segment (ri.getD (rp.getD rid 0 + ii) 0) hf
  dsimp only at hs
  unfold featureContrib
  rw [h1, h2, h3]
  simp only [Option.getD_some]
  rw [if_pos hf]
  have e1 : entryContrib mat rid ((mat.rowval.getD []).getD (rp.getD rid 0 + ii) 0) =
      fun p => (fun q : Nat × α => if q.1 = rid then []
        else [(q.1, q.2 * (mat.rowval.getD []).getD (rp.getD rid 0 + ii) 0)])
        ((fun p => (ci.getD p 0, (mat.colval.getD []).getD p 0)) p) := by
    funext p
    unfold entryContrib
    rw [h4]
    rfl
  rw [e1, ← flatMap_map_eq (fun p => (ci.getD p 0, (mat.colval.getD []).getD p 0))
      (fun q : Nat × α => if q.1 = rid then []
        else [(q.1, q.2 * (mat.rowval.getD []).getD (rp.getD rid 0 + ii) 0)]), hs,
    contrib_filter rid r _ hne, List.filter_map, List.filter_filter]
  have e2 : (fwdEntries mat.nrows rp).filter (fun a =>
      ((fun q : Nat × α => decide (q.1 = r)) ∘
        fun e : Nat × Nat => (e.1, (mat.rowval.getD []).getD e.2 0)) a &&
      decide (ri.getD a.2 0 = ri.getD (rp.getD rid 0 + ii) 0)) =
      ((fwdEntries mat.nrows rp).filter (fun e => decide (e.1 = r))).filter
        (fun e => decide (ri.getD e.2 0 = ri.getD (rp.getD rid 0 + ii) 0)) := by
    rw [List.filter_filter]
    apply List.filter_congr
    intro x _
    simp only [Function.comp]
    exact Bool.and_comm _ _
  rw [e2, fwdEntries_filter_row rp r mat.nrows hr]
  unfold rowEntries outRow
  rw [h1, h2]
  simp only [Option.getD_some]
  rw [List.filter_map, List.filter_map, List.map_map, List.map_map, List.map_map]
  rfl

/-- The contributions of one query entry never go to the query row. -/
theorem featureContrib_not_self (mat : da_csr_t α) (rid ii : Nat) :
    ∀ p ∈ featureContrib mat rid ii, p.1 ≠ rid := by
  intro p hp
  unfold featureContrib at hp
  split_ifs at hp with h
  · rw [List.mem_flatMap] at hp
    obtain ⟨j, _, hj⟩ := hp
    unfold entryContrib at hj
    split_ifs at hj with h2
    · exact absurd hj (List.not_mem_nil _)
    · rw [List.mem_singleton] at hj
      rw [hj]
      exact h2
  · exact absurd hp (List.not_mem_nil _)

end FeatureContrib
section ContribTotal
variable {α : Type} [LinearOrderedField α]

theorem sum_map_flatMap {β γ : Type} (g : β → List γ) (h : γ → α) : ∀ L : List β,
    ((L.flatMap g).map h).sum = (L.map (fun a => ((g a).map h).sum)).sum
  | [] => rfl
  | a :: L => by
    rw [List.flatMap_cons, List.map_append, List.sum_append, List.map_cons, List.sum_cons,
      sum_map_flatMap g h L]

/-- Every query entry of a row of a well-formed row view is in a column below
`ncols`. -/
theorem query_col_lt (n m : Nat) (rp ri : List Nat) (hwf : WellFormedView n m rp ri)
    (rid ii : Nat) (hrid : rid < n) (hii : ii < rp.getD (rid + 1) 0 - rp.getD rid 0) :
    ri.getD (rp.getD rid 0 + ii) 0 < m := by
  obtain ⟨_, _, w3, w4, w5⟩ := hwf
  have hle : rp.getD (rid + 1) 0 ≤ rp.getD n 0 := ptr_mono rp n w3 n (rid + 1) (by omega) (le_refl _)
  have hlt : rp.getD rid 0 + ii < ri.length := by omega
  rw [List.getD_eq_getElem?_getD, List.getElem?_eq_getElem hlt]
  exact w5 _ (List.getElem_mem _)

/-- The sum of the contributions to a row `r` other than the query row is the dot
product of the two rows. -/
theorem contributions_sum (mat : da_csr_t α) (rp ri cp ci : List Nat)
    (h1 : mat.rowptr = some rp) (h2 : mat.rowind = some ri)
    (h3 : mat.colptr = some cp) (h4 : mat.colind = some ci)
    (hwf : WellFormedView mat.nrows mat.ncols rp ri)
    (hidx : IsIndexOf mat.nrows mat.ncols rp ri mat.rowval (cp, ci, mat.colval))
    (rid r : Nat) (hrid : rid < mat.nrows) (hr : r < mat.nrows) (hne : r ≠ rid) :
    (((contributions mat rid (rp.getD (rid + 1) 0 - rp.getD rid 0)).filter
      (fun p => decide (p.1 = r))).map Prod.snd).sum = dotRows mat rid r := by
  unfold contributions dotRows
  rw [List.filter_flatMap, sum_map_flatMap]
  have e : rowEntries mat rid = (List.range (rp.getD (rid + 1) 0 - rp.getD rid 0)).map
      (fun u => (ri.getD (rp.getD rid 0 + u) 0, (mat.rowval.getD []).getD (rp.getD rid 0 + u) 0)) := by
    unfold rowEntries outRow
    rw [h1, h2]
    simp only [Option.getD_some]
    rw [range'_eq_map_add, List.map_map]
    rfl
  rw [e, List.map_map]
  apply congrArg
  apply List.map_congr_left
  intro ii hii
  rw [List.mem_range] at hii
  rw [featureContrib_filter mat rp ri cp ci h1 h2 h3 h4 hidx rid ii r hr hne
    (query_col_lt _ _ rp ri hwf rid ii hrid hii), List.map_map]
  simp only [Function.comp]
  apply congrArg
  apply List.map_congr_left
  intro y _
  exact mul_comm _ _

/-- A row `r` has a contribution exactly when it is not the query row and shares
a feature with it. -/
theorem contributions_mem (mat : da_csr_t α) (rp ri cp ci : List Nat)
    (h1 : mat.rowptr = some rp) (h2 : mat.rowind = some ri)
    (h3 : mat.colptr = some cp) (h4 : mat.colind = some ci)
    (hwf : WellFormedView mat.nrows mat.ncols rp ri)
    (hidx : IsIndexOf mat.nrows mat.ncols rp ri mat.rowval (cp, ci, mat.colval))
    (rid r : Nat) (hrid : rid < mat.nrows) (hr : r < mat.nrows) :
    r ∈ (contributions mat rid (rp.getD (rid + 1) 0 - rp.getD rid 0)).map Prod.fst ↔
      (r ≠ rid ∧ sharesFeature mat rid r = true) := by
  have e : rowEntries mat rid = (List.range (rp.getD (rid + 1) 0 - rp.getD rid 0)).map
      (fun u => (ri.getD (rp.getD rid 0 + u) 0, (mat.rowval.getD []).getD (rp.getD rid 0 + u) 0)) := by
    unfold rowEntries outRow
    rw [h1, h2]
    simp only [Option.getD_some]
    rw [range'_eq_map_add, List.map_map]
    rfl
  unfold sharesFeature
  rw [List.any_eq_true]
  constructor
  · intro hin
    rw [List.mem_map] at hin
    obtain ⟨p, hp, hpr⟩ := hin
    unfold contributions at hp
    rw [List.mem_flatMap] at hp
    obtain ⟨ii, hii, hpf⟩ := hp
    rw [List.mem_range] at hii
    have hne : r ≠ rid := hpr ▸ featureContrib_not_self mat rid ii p hpf
    refine ⟨hne, ?_⟩
    have hfil : p ∈ (featureContrib mat rid ii).filter (fun p => decide (p.1 = r)) := by
      rw [List.mem_filter]
      exact ⟨hpf, by simpa using hpr⟩
    rw [featureContrib_filter mat rp ri cp ci h1 h2 h3 h4 hidx rid ii r hr hne
      (query_col_lt _ _ rp ri hwf rid ii hrid hii), List.mem_map] at hfil
    obtain ⟨y, hy, _⟩ := hfil
    rw [List.mem_filter] at hy
    refine ⟨(ri.getD (rp.getD rid 0 + ii) 0, (mat.rowval.getD []).getD (rp.getD rid 0 + ii) 0),
      ?_, ?_⟩
    · rw [e, List.mem_map]
      exact ⟨ii, List.mem_range.mpr hii, rfl⟩
    · rw [List.any_eq_true]
      exact ⟨y, hy.1, hy.2⟩
  · rintro ⟨hne, x, hx, hany⟩
    rw [List.any_eq_true] at hany
    obtain ⟨y, hy, hyx⟩ := hany
    rw [e, List.mem_map] at hx
    obtain ⟨ii, hii, rfl⟩ := hx
    rw [List.mem_range] at hii
    have hfil : (r, y.2 * (mat.rowval.getD []).getD (rp.getD rid 0 + ii) 0) ∈
        (featureContrib mat rid ii).filter (fun p => decide (p.1 = r)) := by
      rw [featureContrib_filter mat rp ri cp ci h1 h2 h3 h4 hidx rid ii r hr hne
        (query_col_lt _ _ rp ri hwf rid ii hrid hii), List.mem_map]
      exact ⟨y, List.mem_filter.mpr ⟨hy, hyx⟩, rfl⟩
    rw [List.mem_filter] at hfil
    rw [List.mem_map]
    refine ⟨(r, y.2 * (mat.rowval.getD []).getD (rp.getD rid 0 + ii) 0), ?_, rfl⟩
    unfold contributions
    rw [List.mem_flatMap]
    exact ⟨ii, List.mem_range.mpr hii, hfil.1⟩

end ContribTotal
section CandidatesClaim
variable {α : Type} [LinearOrderedField α]

/-- The candidates left by the accumulation loop of `da_getSimilarRows` on a
matrix indexed from a well-formed row view: distinct keys, the rows sharing a
column with the query row, each with the dot product of the two rows. -/
theorem candidatesOf_index_facts (mat0 mat : da_csr_t α) (rp ri : List Nat)
    (h1 : mat0.rowptr = some rp) (h2 : mat0.rowind = some ri)
    (hwf : WellFormedView mat0.nrows mat0.ncols rp ri)
    (hidx : da_csr_CreateIndex mat0 DA_COL = some mat)
    (i : Nat) (hi : i < mat.nrows) (cand : List (da_ivkv_t α)) (hc : cand.length = mat.nrows) :
    ((candidatesOf mat i (List.replicate mat.nrows (-1)) cand).map (fun e => e.key)).Nodup ∧
    (∀ r, r ∈ (candidatesOf mat i (List.replicate mat.nrows (-1)) cand).map (fun e => e.key) ↔
      (r < mat.nrows ∧ r ≠ i ∧ sharesFeature mat i r = true)) ∧
    (∀ e ∈ candidatesOf mat i (List.replicate mat.nrows (-1)) cand,
      e.val = dotRows mat i e.key) ∧
    i ∉ (candidatesOf mat i (List.replicate mat.nrows (-1)) cand).map (fun e => e.key) := by
  have hs := createIndexView_spec mat0.nrows mat0.ncols rp ri mat0.rowval hwf
  have hw := createIndexView_wf mat0.nrows mat0.ncols rp ri mat0.rowval hwf
  have hmat : mat = { mat0 with
      colptr := some (createIndexView mat0.nrows mat0.ncols rp ri mat0.rowval).1,
      colind := some (createIndexView mat0.nrows mat0.ncols rp ri mat0.rowval).2.1,
      colval := (createIndexView mat0.nrows mat0.ncols rp ri mat0.rowval).2.2 } := by
    have e1 : mat0.rowptr.getD [] = rp := by rw [h1]; rfl
    have e2 : mat0.rowind.getD [] = ri := by rw [h2]; rfl
    unfold da_csr_CreateIndex at hidx
    rw [if_pos rfl] at hidx
    dsimp only at hidx
    rw [e1, e2] at hidx
    exact (Option.some.inj hidx).symm
  have g1 : mat.rowptr = some rp := by rw [hmat]; exact h1
  have g2 : mat.rowind = some ri := by rw [hmat]; exact h2
  have g3 : mat.colptr = some (createIndexView mat0.nrows mat0.ncols rp ri mat0.rowval).1 := by
    rw [hmat]
  have g4 : mat.colind = some (createIndexView mat0.nrows mat0.ncols rp ri mat0.rowval).2.1 := by
    rw [hmat]
  have gn : mat.nrows = mat0.nrows := by rw [hmat]
  have gm : mat.ncols = mat0.ncols := by rw [hmat]
  have gv : mat.rowval = mat0.rowval := by rw [hmat]
  have gc : mat.colval = (createIndexView mat0.nrows mat0.ncols rp ri mat0.rowval).2.2 := by
    rw [hmat]
  have hwf2 : WellFormedView mat.nrows mat.ncols rp ri := by rw [gn, gm]; exact hwf
  have hidx2 : IsIndexOf mat.nrows mat.ncols rp ri mat.rowval
      ((createIndexView mat0.nrows mat0.ncols rp ri mat0.rowval).1,
       (createIndexView mat0.nrows mat0.ncols rp ri mat0.rowval).2.1, mat.colval) := by
    rw [gn, gm, gv, gc]
    exact hs
  have hpos : 0 < mat.nrows := by omega
  have hcol : ∀ x ∈ mat.colind.getD [], x < mat.nrows := by
    rw [g4, gn]
    exact hw.2.2.2.2
  have hq : (querySize mat i).toNat = rp.getD (i + 1) 0 - rp.getD i 0 := by
    unfold querySize
    rw [g1]
    exact Int.toNat_sub _ _
  have hA := accumulate_inv mat i (querySize mat i).toNat (List.replicate mat.nrows (-1)) cand
    hpos hcol (by simp) hc
  have hM := accumulate_marker mat i (querySize mat i).toNat cand hpos hcol hc
  have hS := accumulate_score mat i (querySize mat i).toNat cand hpos hcol hc
  unfold candidatesOf
  rw [hq] at hA hM hS ⊢
  generalize accumulate mat i (rp.getD (i + 1) 0 - rp.getD i 0)
    (List.replicate mat.nrows (-1)) cand = st at hA hM hS ⊢
  obtain ⟨a1, a2, a3, a4, a5⟩ := hA
  obtain ⟨m1, m2⟩ := hM
  obtain ⟨s1, s2⟩ := hS
  have hmem : ∀ r, r ∈ (st.cand.take st.ncand).map (fun e => e.key) ↔
      (r < mat.nrows ∧ r ≠ i ∧ sharesFeature mat i r = true) := by
    intro r
    constructor
    · intro hin
      obtain ⟨b1, b2⟩ := a5 r hin
      have := (contributions_mem mat rp ri _ _ g1 g2 g3 g4 hwf2 hidx2 i r hi b1).mp
        ((s1 r b1).mp b2)
      exact ⟨b1, this.1, this.2⟩
    · rintro ⟨b1, b2, b3⟩
      have hne := (s1 r b1).mpr
        ((contributions_mem mat rp ri _ _ g1 g2 g3 g4 hwf2 hidx2 i r hi b1).mpr ⟨b2, b3⟩)
      obtain ⟨s, hs1, _, hs3⟩ := m2 r b1 hne
      rw [List.mem_map]
      exact ⟨st.cand.getD s default, getD_mem_take _ _ _ hs1 (by omega), hs3⟩
  refine ⟨a4, hmem, ?_, fun hin => ((hmem i).mp hin).2.1 rfl⟩
  intro e he
  obtain ⟨s, hs1, _, hs3⟩ := mem_take_getD _ _ _ he
  have hkey : e.key ∈ (st.cand.take st.ncand).map (fun e => e.key) :=
    List.mem_map.mpr ⟨e, he, rfl⟩
  obtain ⟨b1, b2, _⟩ := (hmem e.key).mp hkey
  rw [← hs3, s2 s hs1, hs3]
  exact contributions_sum mat rp ri _ _ g1 g2 g3 g4 hwf2 hidx2 i e.key hi b1 b2

/-- C3: for a matrix `mat` obtained by `da_csr_CreateIndex(DA_COL)` from a matrix
with a well-formed row view, and a query row `i`, the candidates left by the
accumulation loop of `da_getSimilarRows` (entered with every marker `-1`) have
pairwise distinct keys; a row `r` is the key of a candidate exactly when
`r ≠ i` and rows `i` and `r` share a column; the value of a candidate `r` is the
dot product of rows `i` and `r`; and `i` is not a candidate.  The dot product
`dotRows` is the sum over the pairs of entries of the two rows in the same
column, which is the sum over the shared columns when no row repeats a column. -/
theorem da_getSimilarRows_candidates (mat0 mat : da_csr_t α) (rp ri : List Nat)
    (h1 : mat0.rowptr = some rp) (h2 : mat0.rowind = some ri)
    (hwf : WellFormedView mat0.nrows mat0.ncols rp ri)
    (hidx : da_csr_CreateIndex mat0 DA_COL = some mat)
    (i : Nat) (hi : i < mat.nrows) (cand : List (da_ivkv_t α)) (hc : cand.length = mat.nrows) :
    ((candidatesOf mat i (List.replicate mat.nrows (-1)) cand).map (fun e => e.key)).Nodup ∧
    (∀ r, r ∈ (candidatesOf mat i (List.replicate mat.nrows (-1)) cand).map (fun e => e.key) ↔
      (r < mat.nrows ∧ r ≠ i ∧ sharesFeature mat i r = true)) ∧
    (∀ e ∈ candidatesOf mat i (List.replicate mat.nrows (-1)) cand,
      e.val = dotRows mat i e.key) ∧
    i ∉ (candidatesOf mat i (List.replicate mat.nrows (-1)) cand).map (fun e => e.key) :=
  candidatesOf_index_facts mat0 mat rp ri h1 h2 hwf hidx i hi cand hc

end CandidatesClaim
section CandidatesWitness

theorem sampleDocs_index : da_csr_CreateIndex sampleDocs DA_COL = some indexedDocs := by
  simp [da_csr_CreateIndex, createIndexView, CSRMAKE, CSRSHIFT, forEntries, forLoop, sampleDocs,
    indexedDocs, DA_COL, List.replicate]

/-- Witness of C3 on the 3 x 2 sample matrix with the column view built from its
row view, for query row 0. -/
theorem da_getSimilarRows_candidates_witness :
    ((candidatesOf indexedDocs 0 (List.replicate indexedDocs.nrows (-1))
        (List.replicate 3 default)).map (fun e => e.key)).Nodup ∧
    (∀ r, r ∈ (candidatesOf indexedDocs 0 (List.replicate indexedDocs.nrows (-1))
        (List.replicate 3 default)).map (fun e => e.key) ↔
      (r < indexedDocs.nrows ∧ r ≠ 0 ∧ sharesFeature indexedDocs 0 r = true)) ∧
    (∀ e ∈ candidatesOf indexedDocs 0 (List.replicate indexedDocs.nrows (-1))
        (List.replicate 3 default), e.val = dotRows indexedDocs 0 e.key) ∧
    0 ∉ (candidatesOf indexedDocs 0 (List.replicate indexedDocs.nrows (-1))
        (List.replicate 3 default)).map (fun e => e.key) :=
  da_getSimilarRows_candidates sampleDocs indexedDocs [0, 2, 3, 4] [0, 1, 0, 1] rfl rfl
    sampleDocs_wellFormed sampleDocs_index 0 (by decide) (List.replicate 3 default) rfl

end CandidatesWitness

section CheckedScan
variable {α : Type} [LinearOrderedField α]

theorem exists_mem_not_mem_of_length {β : Type} (A B : List β) (hB : B.Nodup)
    (x : β) (hxA : x ∈ A) (hxB : x ∉ B) (hlen : A.length ≤ B.length) : ∃ b ∈ B, b ∉ A := by
  classical
  by_contra h
  push_neg at h
  have hsub : B ⊆ A.erase x := by
    intro b hb
    have hne : b ≠ x := fun e => hxB (e ▸ hb)
    exact (List.mem_erase_of_ne hne).mpr (h b hb)
  have hle := (List.subperm_of_subset hB hsub).length_le
  rw [List.length_erase_of_mem hxA] at hle
  have hpos : 0 < A.length := List.length_pos_of_mem hxA
  omega

theorem getD_replicate_zero (d i : Nat) : (List.replicate d (0 : α)).getD i 0 = 0 := by
  rw [List.getD_eq_getElem?_getD, List.getElem?_replicate]
  split <;> rfl

/-- A call of `findMatches` for a document with no entry and a positive
threshold leaves the similarity maps as they are and counts nothing. -/
theorem findMatches_empty_row (d : Nat) (idx : List (List (Nat × α))) (eps : α)
    (docs : da_csr_t α) (maps : List (List (Nat × α))) (heps : 0 < eps)
    (hz : (docs.rowptr.getD []).getD (d + 1) 0 - (docs.rowptr.getD []).getD d 0 = 0) :
    findMatches d idx eps docs maps = (maps, 0) := by
  unfold findMatches
  simp only [hz, forLoop]
  apply forLoop_invariant (fun _ s => s = (maps, 0))
  · rfl
  · intro t s _ hs
    rw [getD_replicate_zero, if_neg (not_le.mpr heps)]
    exact hs

/-- A call of `findMatches` for a document with no entry and a threshold that is
not positive records one pair for each earlier document. -/
theorem findMatches_empty_row_count (d : Nat) (idx : List (List (Nat × α))) (eps : α)
    (docs : da_csr_t α) (maps : List (List (Nat × α))) (heps : eps ≤ 0)
    (hz : (docs.rowptr.getD []).getD (d + 1) 0 - (docs.rowptr.getD []).getD d 0 = 0) :
    (findMatches d idx eps docs maps).2 = d := by
  unfold findMatches
  simp only [hz, forLoop, List.length_replicate]
  have key := forLoop_invariant (fun t (s : List (List (Nat × α)) × Nat) => s.2 = t)
    (fun i (st : List (List (Nat × α)) × Nat) =>
      if eps ≤ (List.replicate d (0 : α)).getD i 0 then
        (((st.1.set i (mapInsert (d, (List.replicate d (0 : α)).getD i 0) (st.1.getD i []))).set d
          (mapInsert (i, (List.replicate d (0 : α)).getD i 0)
            ((st.1.set i (mapInsert (d, (List.replicate d (0 : α)).getD i 0)
              (st.1.getD i []))).getD d []))), st.2 + 1)
      else st) 0 (maps, 0) d rfl
    (by
      intro t s _ hs
      dsimp only
      rw [getD_replicate_zero, if_pos heps]
      show s.2 + 1 = t + 1
      rw [hs])
  exact key

/-- The body of the document loop and its access test read the row pointer array
only at `i` and `i + 1`. -/
theorem invertedDoc_congr (d1 d2 : da_csr_t α) (eps : α) (i : Nat) (st : InvState α)
    (hi : d1.rowind = d2.rowind) (hv : d1.rowval = d2.rowval)
    (h0 : (d1.rowptr.getD []).getD i 0 = (d2.rowptr.getD []).getD i 0)
    (h1 : (d1.rowptr.getD []).getD (i + 1) 0 = (d2.rowptr.getD []).getD (i + 1) 0) :
    invertedDoc d1 eps i st = invertedDoc d2 eps i st ∧
      docAccessOk d1 eps i st = docAccessOk d2 eps i st := by
  unfold invertedDoc docAccessOk findMatches
  simp only [hi, hv, h0, h1, and_self]

end CheckedScan

section CheckedSearch
variable {α : Type} [LinearOrderedField α]

/-- In a matrix with a well-formed row view every entry of a row names a column
below `ncols`. -/
theorem rowsInRange_of_wellFormed (mat : da_csr_t α) (rp ri : List Nat)
    (h1 : mat.rowptr = some rp) (h2 : mat.rowind = some ri)
    (hwf : WellFormedView mat.nrows mat.ncols rp ri) : RowsInRange mat := by
  obtain ⟨w1, w2, w3, w4, w5⟩ := hwf
  intro a ha e he
  unfold rowEntries outRow at he
  rw [h1, h2] at he
  simp only [Option.getD_some] at he
  obtain ⟨j, hj, rfl⟩ := List.mem_map.mp he
  rw [List.mem_range'_1] at hj
  have hle := ptr_mono rp mat.nrows w3 mat.nrows (a + 1) (by omega) (le_refl _)
  have hjl : j < ri.length := by omega
  apply w5
  show ri.getD j 0 ∈ ri
  rw [List.getD_eq_getElem _ _ hjl]
  exact List.getElem_mem _

/-- Inside the rows of a matrix with a well-formed row view every array access of
an iteration of the document loop is inside its array. -/
theorem docAccessOk_of_wellFormed (docs : da_csr_t α) (rp ri : List Nat) (eps : α)
    (g1 : docs.rowptr = some rp) (g2 : docs.rowind = some ri)
    (hwf : WellFormedView docs.nrows docs.ncols rp ri) (n : Nat) (hn : n < docs.nrows) :
    docAccessOk docs eps n (invertedScan docs eps n) = true := by
  have hrange := rowsInRange_of_wellFormed docs rp ri g1 g2 hwf
  obtain ⟨s1, _, s3, _⟩ := invertedScan_spec docs eps hrange n (by omega)
  obtain ⟨w1, w2, w3, w4, w5⟩ := hwf
  unfold docAccessOk
  rw [g1, g2]
  simp only [Option.getD_some]
  rw [Bool.and_eq_true, List.all_eq_true, Bool.or_eq_true]
  constructor
  · intro j hj
    rw [List.mem_range'_1] at hj
    have hle := ptr_mono rp docs.nrows w3 docs.nrows (n + 1) (by omega) (le_refl _)
    have hjl : j < ri.length := by omega
    rw [Bool.and_eq_true, decide_eq_true_eq, decide_eq_true_eq, s1]
    refine ⟨hjl, w5 _ ?_⟩
    rw [List.getD_eq_getElem _ _ hjl]
    exact List.getElem_mem _
  · right
    rw [decide_eq_true_eq, s3]
    exact hn

/-- The document loop run over the rows `0..n-1`, `n ≤ nrows`, of a matrix with a
well-formed row view stays inside its arrays: the checked loop returns the state
of the loop. -/
theorem checkedScan_eq (docs : da_csr_t α) (rp ri : List Nat) (eps : α) (g : Nat)
    (g1 : docs.rowptr = some rp) (g2 : docs.rowind = some ri)
    (hwf : WellFormedView docs.nrows docs.ncols rp ri) :
    ∀ n, n ≤ docs.nrows →
      forLoop (invertedDocChecked
          { docs with rowptr := docs.rowptr.map (fun p => p ++ [g]) } eps) n 0
        (some { invertedIndex := List.replicate docs.ncols [],
                matchMaps := List.replicate docs.nrows [], ncands := 0 }) =
      some (invertedScan docs eps n) := by
  intro n
  induction n with
  | zero =>
    intro _
    rfl
  | succ n ih =>
    intro hn
    rw [forLoop_succ_last, ih (by omega)]
    have hlen : rp.length = docs.nrows + 1 := hwf.1
    have h0 : (({ docs with rowptr := docs.rowptr.map (fun p => p ++ [g]) } :
        da_csr_t α).rowptr.getD []).getD n 0 = (docs.rowptr.getD []).getD n 0 := by
      rw [g1]
      simp only [Option.map_some', Option.getD_some]
      exact List.getD_append _ _ _ _ (by omega)
    have h1 : (({ docs with rowptr := docs.rowptr.map (fun p => p ++ [g]) } :
        da_csr_t α).rowptr.getD []).getD (n + 1) 0 = (docs.rowptr.getD []).getD (n + 1) 0 := by
      rw [g1]
      simp only [Option.map_some', Option.getD_some]
      exact List.getD_append _ _ _ _ (by omega)
    obtain ⟨c1, c2⟩ := invertedDoc_congr
      { docs with rowptr := docs.rowptr.map (fun p => p ++ [g]) } docs eps n
      (invertedScan docs eps n) rfl rfl h0 h1
    unfold invertedDocChecked
    simp only [Nat.zero_add, Option.some_bind]
    rw [c2, docAccessOk_of_wellFormed docs rp ri eps g1 g2 hwf n (by omega), if_pos rfl, c1]
    unfold invertedScan
    rw [forLoop_succ_last, Nat.zero_add]

end CheckedSearch

section LastIteration
variable {α : Type} [LinearOrderedField α]

theorem memDocs_reads (docs : da_csr_t α) (rp : List Nat) (g : Nat)
    (g1 : docs.rowptr = some rp) (hlen : rp.length = docs.nrows + 1) :
    (({ docs with rowptr := docs.rowptr.map (fun p => p ++ [g]) } :
        da_csr_t α).rowptr.getD []).getD docs.nrows 0 = rp.getD docs.nrows 0 ∧
    (({ docs with rowptr := docs.rowptr.map (fun p => p ++ [g]) } :
        da_csr_t α).rowptr.getD []).getD (docs.nrows + 1) 0 = g := by
  rw [g1]
  simp only [Option.map_some', Option.getD_some]
  constructor
  · exact List.getD_append _ _ _ _ (by omega)
  · rw [List.getD_append_right _ _ _ _ (by omega), hlen, Nat.sub_self]
    rfl

/-- The search of `invertedidx` on a matrix with a well-formed row view, for a
positive threshold and a word `g` after the row pointer array that is at most
`rowptr[nrows]`: the iteration `i = nrows` finds an empty range and changes no
map, the search returns, and the similarity maps are those left by the rows
`0..nrows-1`. -/
theorem invertedSearch_some (docs : da_csr_t α) (rp ri : List Nat) (k : Int) (eps : α) (g : Nat)
    (g1 : docs.rowptr = some rp) (g2 : docs.rowind = some ri)
    (hwf : WellFormedView docs.nrows docs.ncols rp ri)
    (heps : 0 < eps) (hg : g ≤ rp.getD docs.nrows 0) :
    ∃ (st : InvState α) (out : OutState α), invertedSearch docs k eps g = some (st, out) ∧
      out = forLoop (emitRow k st.matchMaps) st.matchMaps.length 0
          ({ rowptr := (List.replicate (docs.nrows + 1) 0).set 0 0,
             rowind := List.replicate (k * (docs.nrows : Int)).toNat 0,
             rowval := List.replicate (k * (docs.nrows : Int)).toNat 0,
             nsims := 0 } : OutState α) ∧
      st.matchMaps = (invertedScan docs eps docs.nrows).matchMaps := by
  obtain ⟨m0, m1⟩ := memDocs_reads docs rp g g1 hwf.1
  have hz : (({ docs with rowptr := docs.rowptr.map (fun p => p ++ [g]) } :
      da_csr_t α).rowptr.getD []).getD (docs.nrows + 1) 0 -
      (({ docs with rowptr := docs.rowptr.map (fun p => p ++ [g]) } :
      da_csr_t α).rowptr.getD []).getD docs.nrows 0 = 0 := by
    rw [m0, m1]; omega
  have hfm := findMatches_empty_row docs.nrows (invertedScan docs eps docs.nrows).invertedIndex eps
    { docs with rowptr := docs.rowptr.map (fun p => p ++ [g]) }
    (invertedScan docs eps docs.nrows).matchMaps heps hz
  have hok : docAccessOk { docs with rowptr := docs.rowptr.map (fun p => p ++ [g]) } eps
      docs.nrows (invertedScan docs eps docs.nrows) = true := by
    unfold docAccessOk
    rw [hz, hfm]
    simp
  refine ⟨invertedDoc { docs with rowptr := docs.rowptr.map (fun p => p ++ [g]) } eps docs.nrows
    (invertedScan docs eps docs.nrows), _, ?_, rfl, ?_⟩
  · unfold invertedSearch
    simp only []
    rw [forLoop_succ_last, checkedScan_eq docs rp ri eps g g1 g2 hwf docs.nrows (le_refl _)]
    unfold invertedDocChecked
    simp only [Nat.zero_add, Option.some_bind]
    rw [hok, if_pos rfl]
    rfl
  · unfold invertedDoc
    simp only []
    rw [hfm]

/-- When the word `g` after the row pointer array is above `rowptr[nrows]`, the
iteration `i = nrows` reads `rowind[rowptr[nrows]]`, past the end of the index
array: the search does not return. -/
theorem invertedSearch_none_of_gt (docs : da_csr_t α) (rp ri : List Nat) (k : Int) (eps : α)
    (g : Nat) (g1 : docs.rowptr = some rp) (g2 : docs.rowind = some ri)
    (hwf : WellFormedView docs.nrows docs.ncols rp ri) (hg : rp.getD docs.nrows 0 < g) :
    invertedSearch docs k eps g = none := by
  obtain ⟨m0, m1⟩ := memDocs_reads docs rp g g1 hwf.1
  have hbad : docAccessOk { docs with rowptr := docs.rowptr.map (fun p => p ++ [g]) } eps
      docs.nrows (invertedScan docs eps docs.nrows) = false := by
    unfold docAccessOk
    rw [m0, m1]
    apply Bool.and_eq_false_imp.mpr
    intro hall
    exfalso
    rw [List.all_eq_true] at hall
    have := hall (rp.getD docs.nrows 0) (by rw [List.mem_range'_1]; omega)
    rw [Bool.and_eq_true, decide_eq_true_eq] at this
    have h2 : (({ docs with rowptr := docs.rowptr.map (fun p => p ++ [g]) } :
        da_csr_t α).rowind.getD []).length = ri.length := by
      show (docs.rowind.getD []).length = ri.length
      rw [g2]; rfl
    rw [h2, hwf.2.2.2.1] at this
    exact absurd this.1 (Nat.lt_irrefl _)
  unfold invertedSearch
  simp only []
  rw [forLoop_succ_last, checkedScan_eq docs rp ri eps g g1 g2 hwf docs.nrows (le_refl _)]
  unfold invertedDocChecked
  simp only [Nat.zero_add, Option.some_bind]
  rw [hbad]
  rfl

/-- With a threshold that is not positive and at least one row, the iteration
`i = nrows` either reads past the index array or records the pair `(nrows, 0)`
and writes `matches[nrows]`, past the end of the vector: the search does not
return, whatever the word after the row pointer array is. -/
theorem invertedSearch_none_of_eps (docs : da_csr_t α) (rp ri : List Nat) (k : Int) (eps : α)
    (g : Nat) (g1 : docs.rowptr = some rp) (g2 : docs.rowind = some ri)
    (hwf : WellFormedView docs.nrows docs.ncols rp ri) (heps : eps ≤ 0)
    (hpos : 0 < docs.nrows) : invertedSearch docs k eps g = none := by
  by_cases hg : rp.getD docs.nrows 0 < g
  · exact invertedSearch_none_of_gt docs rp ri k eps g g1 g2 hwf hg
  obtain ⟨m0, m1⟩ := memDocs_reads docs rp g g1 hwf.1
  have hz : (({ docs with rowptr := docs.rowptr.map (fun p => p ++ [g]) } :
      da_csr_t α).rowptr.getD []).getD (docs.nrows + 1) 0 -
      (({ docs with rowptr := docs.rowptr.map (fun p => p ++ [g]) } :
      da_csr_t α).rowptr.getD []).getD docs.nrows 0 = 0 := by
    rw [m0, m1]; omega
  have hcnt := findMatches_empty_row_count docs.nrows
    (invertedScan docs eps docs.nrows).invertedIndex eps
    { docs with rowptr := docs.rowptr.map (fun p => p ++ [g]) }
    (invertedScan docs eps docs.nrows).matchMaps heps hz
  have hlen := (invertedScan_maps docs eps docs.nrows).1
  have hbad : docAccessOk { docs with rowptr := docs.rowptr.map (fun p => p ++ [g]) } eps
      docs.nrows (invertedScan docs eps docs.nrows) = false := by
    unfold docAccessOk
    rw [hcnt, hlen]
    apply Bool.and_eq_false_imp.mpr
    intro _
    rw [Bool.or_eq_false_iff, decide_eq_false_iff_not, decide_eq_false_iff_not]
    exact ⟨by omega, Nat.lt_irrefl _⟩
  unfold invertedSearch
  simp only []
  rw [forLoop_succ_last, checkedScan_eq docs rp ri eps g g1 g2 hwf docs.nrows (le_refl _)]
  unfold invertedDocChecked
  simp only [Nat.zero_add, Option.some_bind]
  rw [hbad]
  rfl

end LastIteration

section InvertedRows
variable {α : Type} [LinearOrderedField α]

/-- Row `i` of the output loop of `invertedidx` run on `nrows` similarity maps: the
first `k` elements of `candidatePairs` of map `i`, as (id, value) pairs. -/
theorem invertedOut_row (nrows : Nat) (k : Int) (hk : 0 ≤ k) (maps : List (List (Nat × α)))
    (hlen : maps.length = nrows) (out : OutState α)
    (hout : out = forLoop (emitRow k maps) maps.length 0
      ({ rowptr := (List.replicate (nrows + 1) 0).set 0 0,
         rowind := List.replicate (k * (nrows : Int)).toNat 0,
         rowval := List.replicate (k * (nrows : Int)).toNat 0, nsims := 0 } : OutState α))
    (i : Nat) (hi : i < nrows) :
    outRow out.rowptr out.rowind out.rowval i =
      ((candidatePairs (maps.getD i [])).take k.toNat).map (fun p => (p.2, p.1)) := by
  obtain ⟨K, hK⟩ := Int.eq_ofNat_of_zero_le hk
  have hnnz : (k * (nrows : Int)).toNat = K * nrows := by
    rw [hK, ← Nat.cast_mul, Int.toNat_ofNat]
  have hrowi := emitLoop_rows K maps out
    (by
      rw [hout, hnnz, hlen, hK])
    i (by rw [hlen]; exact hi)
  rw [hrowi, hK, Int.toNat_ofNat]

/-- What the first `k` elements of `candidatePairs` of a similarity map with
increasing keys are: `min(k, |M|)` entries of the map, in non-increasing score
order, and every entry of the map left out has a score at most that of every
one of them. -/
theorem candidatePairs_take_facts (k : Int) (hk : 0 ≤ k) (M : List (Nat × α))
    (hM : MapSorted M) (B : List (Nat × α))
    (hB : B = ((candidatePairs M).take k.toNat).map (fun p => (p.2, p.1))) :
    (B.length : Int) = min k (M.length : Int) ∧ (∀ e ∈ B, e ∈ M) ∧
      (∀ m ∈ M, m ∉ B → ∀ e ∈ B, m.2 ≤ e.2) ∧
      List.Pairwise (fun a b => b.2 ≤ a.2) B ∧ B.Nodup ∧
      (∀ m ∈ M, m ∉ B → B.length = k.toNat) := by
  obtain ⟨K, hK⟩ := Int.eq_ofNat_of_zero_le hk
  obtain ⟨c1, c2, c3⟩ := candidatePairs_spec M hM
  rw [hK, Int.toNat_ofNat] at hB
  rw [hK, Int.toNat_ofNat]
  generalize candidatePairs M = ps at c1 c2 c3 hB
  have hsplit : List.Pairwise PairBefore (ps.take K ++ ps.drop K) := by
    rw [List.take_append_drop]; exact c1
  rw [List.pairwise_append] at hsplit
  have hnd : ps.Nodup := by
    unfold List.Nodup
    refine c1.imp ?_
    intro a b h e
    rw [e] at h
    exact pairBefore_irrefl b h
  subst hB
  refine ⟨?_, ?_, ?_, ?_, ?_, ?_⟩
  · rw [List.length_map, List.length_take, c3]
    simp
  · intro e he
    obtain ⟨p, hp, rfl⟩ := List.mem_map.mp he
    exact (c2 p).mp (List.mem_of_mem_take hp)
  · intro m hm hnot e he
    obtain ⟨p, hp, rfl⟩ := List.mem_map.mp he
    have hm2 : (m.2, m.1) ∈ ps := (c2 (m.2, m.1)).mpr hm
    have hm3 : (m.2, m.1) ∈ ps.take K ++ ps.drop K := by
      rw [List.take_append_drop]; exact hm2
    rw [List.mem_append] at hm3
    rcases hm3 with h | h
    · exact absurd (List.mem_map.mpr ⟨(m.2, m.1), h, rfl⟩) hnot
    · exact pairBefore_val_le (hsplit.2.2 p hp _ h)
  · rw [List.pairwise_map]
    exact List.Pairwise.imp (fun h => pairBefore_val_le h) hsplit.1
  · apply List.Nodup.map
    · intro p q h
      have h1 := congrArg Prod.fst h
      have h2 := congrArg Prod.snd h
      exact Prod.ext h2 h1
    · exact hnd.sublist (List.take_sublist _ _)
  · intro m hm hnot
    have hm2 : (m.2, m.1) ∈ ps := (c2 (m.2, m.1)).mpr hm
    have hm3 : (m.2, m.1) ∈ ps.take K ++ ps.drop K := by
      rw [List.take_append_drop]; exact hm2
    rw [List.mem_append] at hm3
    rcases hm3 with h | h
    · exact absurd (List.mem_map.mpr ⟨(m.2, m.1), h, rfl⟩) hnot
    · rw [List.length_map, List.length_take]
      have : K < ps.length := by
        by_contra hcon
        rw [List.drop_of_length_le (by omega)] at h
        simp at h
      omega

end InvertedRows

section SimilarRowsSub
variable {α : Type} [LinearOrderedField α]

/-- The hits reported by `da_getSimilarRows` are candidates of the query row, each
taken at most once. -/
theorem da_getSimilarRows_subperm (mat : da_csr_t α) (rid : Nat) (nsim : Int) (eps : α)
    (hits cand : List (da_ivkv_t α)) (marker : List Int) (nc : Nat)
    (hpos : 0 < mat.nrows) (hcol : ∀ x ∈ mat.colind.getD [], x < mat.nrows)
    (hh : hits.length = mat.nrows) (hc : cand.length = mat.nrows)
    (hm : marker.length = mat.nrows) (hns : nsim = -1 ∨ 0 ≤ nsim) (r : SimRows α)
    (hr : da_getSimilarRows mat rid nsim eps hits (some cand) (some marker) nc = some r) :
    (r.hits.take r.k).Subperm (candidatesOf mat rid marker cand) := by
  unfold candidatesOf
  have hqs : querySize mat rid = (((mat.rowptr.getD []).getD (rid + 1) 0 : Nat) : Int) -
      (((mat.rowptr.getD []).getD rid 0 : Nat) : Int) := rfl
  unfold da_getSimilarRows at hr
  simp only [Option.getD_some] at hr
  rw [← hqs] at hr
  by_cases hq : querySize mat rid = 0
  · rw [if_pos hq] at hr
    cases hr
    simp
  · rw [if_neg hq] at hr
    have inv := accumulate_inv mat rid (querySize mat rid).toNat marker cand hpos hcol hm hc
    generalize accumulate mat rid (querySize mat rid).toNat marker cand = st at inv hr ⊢
    obtain ⟨i1, i2, i3, i4, i5⟩ := inv
    by_cases hA : nsim = -1 ∨ nsim ≥ (st.ncand : Int)
    · rw [if_pos hA] at hr
      obtain ⟨e1, e2, e3, e4⟩ := emit_spec st.cand hits eps st.ncand (by omega) (by omega)
      simp only [Option.map_some', Int.toNat_ofNat] at hr
      cases hr
      exact e3.subperm.trans (List.filter_sublist _).subperm
    · rw [if_neg hA] at hr
      have h0 : 0 ≤ nsim := by
        rcases hns with h | h
        · exact absurd (Or.inl h) hA
        · exact h
      have hlt : nsim < (st.ncand : Int) := by
        by_contra hcon
        exact hA (Or.inr (by omega))
      have hge : ¬ nsim ≥ (st.ncand : Int) := by omega
      simp only [if_neg hge] at hr
      obtain ⟨out, eo, hol, f1, f2, f3, f4⟩ :=
        select_filter_sort nsim eps st.ncand st.cand hits (by omega) (by omega) h0 hlt
      rw [eo] at hr
      simp only [Option.map_some'] at hr
      cases hr
      have htk : out.take nsim.toNat = (out.take st.ncand).take nsim.toNat := by
        rw [List.take_take, min_eq_left (by omega)]
      refine f2.subperm.trans ((List.filter_sublist _).subperm.trans ?_)
      rw [htk]
      exact (List.take_sublist _ _).subperm.trans f3.subperm

end SimilarRowsSub

section IdxJoinRow
variable {α : Type} [LinearOrderedField α]

/-- Two rows that share no column have dot product zero. -/
theorem dotRows_eq_zero_of_not_shares (mat : da_csr_t α) (i r : Nat)
    (h : sharesFeature mat i r = false) : dotRows mat i r = 0 := by
  unfold dotRows
  apply List.sum_eq_zero
  intro z hz
  obtain ⟨x, hx, rfl⟩ := List.mem_map.mp hz
  have hnil : (rowEntries mat r).filter (fun y => decide (y.1 = x.1)) = [] := by
    rw [List.filter_eq_nil_iff]
    intro y hy hyx
    have : sharesFeature mat i r = true := by
      unfold sharesFeature
      rw [List.any_eq_true]
      exact ⟨x, hx, List.any_eq_true.mpr ⟨y, hy, hyx⟩⟩
    rw [h] at this
    exact Bool.noConfusion this
  rw [hnil]
  rfl

/-- The matrix returned by `da_csr_CreateIndex(mat0, DA_COL)` is `mat0` with its
column view replaced by the index of its row view. -/
theorem da_csr_CreateIndex_col_eq (mat0 mat : da_csr_t α) (rp ri : List Nat)
    (h1 : mat0.rowptr = some rp) (h2 : mat0.rowind = some ri)
    (hidx : da_csr_CreateIndex mat0 DA_COL = some mat) :
    mat = { mat0 with
      colptr := some (createIndexView mat0.nrows mat0.ncols rp ri mat0.rowval).1,
      colind := some (createIndexView mat0.nrows mat0.ncols rp ri mat0.rowval).2.1,
      colval := (createIndexView mat0.nrows mat0.ncols rp ri mat0.rowval).2.2 } := by
  have e1 : mat0.rowptr.getD [] = rp := by rw [h1]; rfl
  have e2 : mat0.rowind.getD [] = ri := by rw [h2]; rfl
  unfold da_csr_CreateIndex at hidx
  rw [if_pos rfl] at hidx
  dsimp only at hidx
  rw [e1, e2] at hidx
  exact (Option.some.inj hidx).symm

/-- What row `i` of the output of the search loop of `idxjoin` is, for a
positive threshold and a matrix indexed from a well-formed row view: at most `k`
distinct qualifying pairs, and a qualifying pair that is left out has a score at
most that of each of the `k` pairs of the row. -/
theorem idxjoin_row_facts (mat0 docs : da_csr_t α) (rp ri : List Nat)
    (h1 : mat0.rowptr = some rp) (h2 : mat0.rowind = some ri)
    (hwf : WellFormedView mat0.nrows mat0.ncols rp ri)
    (hidx : da_csr_CreateIndex mat0 DA_COL = some docs)
    (k : Int) (eps : α) (hk : 0 ≤ k) (heps : 0 < eps) (i : Nat) (hi : i < docs.nrows)
    (cand0 : List (da_ivkv_t α)) (hc : cand0.length = docs.nrows) (A : List (Nat × α))
    (hA : IsRowAnswer docs k eps i cand0 A) :
    A.Nodup ∧ A.length ≤ k.toNat ∧ (∀ e ∈ A, Qualifies docs eps i e) ∧
      ∀ c, Qualifies docs eps i c → c ∉ A → A.length = k.toNat ∧ ∀ e ∈ A, c.2 ≤ e.2 := by
  have hmat := da_csr_CreateIndex_col_eq mat0 docs rp ri h1 h2 hidx
  have hw := createIndexView_wf mat0.nrows mat0.ncols rp ri mat0.rowval hwf
  have gn : docs.nrows = mat0.nrows := by rw [hmat]
  have g4 : docs.colind = some (createIndexView mat0.nrows mat0.ncols rp ri mat0.rowval).2.1 := by
    rw [hmat]
  have hpos : 0 < docs.nrows := by omega
  have hcol : ∀ x ∈ docs.colind.getD [], x < docs.nrows := by
    rw [g4, gn]
    exact hw.2.2.2.2
  obtain ⟨f1, _, f3, f4, f5⟩ := IsRowAnswer.facts docs k eps i cand0 A hpos hcol hc hk hA
  obtain ⟨_, c2, c3, _⟩ := candidatesOf_index_facts mat0 docs rp ri h1 h2 hwf hidx i hi
    (List.replicate docs.nrows ⟨0, 0⟩) (by simp)
  have hcands : candidates docs i = candidatesOf docs i (List.replicate docs.nrows (-1))
      (List.replicate docs.nrows ⟨0, 0⟩) := rfl
  rw [← hcands] at c2 c3
  refine ⟨?_, by omega, ?_, ?_⟩
  · obtain ⟨hits, nc, r, hh, hr, rfl⟩ := hA
    obtain ⟨d1, _, _, _⟩ := candidatesOf_index_facts mat0 docs rp ri h1 h2 hwf hidx i hi cand0 hc
    have hsp := da_getSimilarRows_subperm docs i k eps hits cand0 _ nc hpos hcol hh hc (by simp)
      (Or.inr hk) r hr
    obtain ⟨l, hl, hsub⟩ := hsp
    have hn1 : (r.hits.take r.k).Nodup :=
      hl.nodup_iff.mp ((List.Nodup.of_map _ d1).sublist hsub)
    apply List.Nodup.map _ hn1
    intro x y hxy
    cases x
    cases y
    simp only [Prod.mk.injEq] at hxy
    rw [hxy.1, hxy.2]
  · intro e he
    have hmem := f4 e he
    have hkey : e.1 ∈ (candidates docs i).map (fun e => e.key) :=
      List.mem_map.mpr ⟨_, hmem, rfl⟩
    obtain ⟨b1, b2, _⟩ := (c2 e.1).mp hkey
    exact ⟨b1, b2, c3 _ hmem, f3 e he⟩
  · intro c hc1 hnot
    obtain ⟨q1, q2, q3, q4⟩ := hc1
    have hsh : sharesFeature docs i c.1 = true := by
      by_contra hcon
      have hz := dotRows_eq_zero_of_not_shares docs i c.1 (by simpa using hcon)
      rw [← q3] at hz
      rw [hz] at q4
      exact absurd heps (not_lt.mpr q4)
    have hkey := (c2 c.1).mpr ⟨q1, q2, hsh⟩
    obtain ⟨e1, he1, hk1⟩ := List.mem_map.mp hkey
    have hv1 : e1.val = c.2 := by rw [c3 e1 he1, hk1, q3]
    have hce : (e1.key, e1.val) = c := Prod.ext hk1 hv1
    obtain ⟨l1, l2⟩ := f5 e1 he1 (by rw [hv1]; exact q4) (by rw [hce]; exact hnot)
    refine ⟨by omega, ?_⟩
    intro e he
    rw [← hv1]
    exact l2 e he

end IdxJoinRow

section PreprocessWF
variable {α : Type} [LinearOrderedField α]

/-- The call `da_csr_CompactColumns` keeps a well-formed row view well formed for
the new number of columns. -/
theorem compactColumns_wellFormed (mat : da_csr_t α) (rp ri : List Nat)
    (h1 : mat.rowptr = some rp) (h2 : mat.rowind = some ri)
    (hwf : WellFormedView mat.nrows mat.ncols rp ri) :
    ∃ ri2, (da_csr_CompactColumns mat).rowind = some ri2 ∧ ri2.length = ri.length ∧
      WellFormedView (da_csr_CompactColumns mat).nrows (da_csr_CompactColumns mat).ncols rp
        ri2 := by
  obtain ⟨S, cm, P, a1, a2, a3, a4, a5, a6, a7, a8, a9, a10⟩ :=
    compactColumns_core mat rp ri h1 h2 hwf
  obtain ⟨f1, f2⟩ := compactColumns_positions mat.ncols ri hwf.2.2.2.2 S cm P a5 a8 a9
    (by rw [a3]; exact a4) a10
  have hn : (da_csr_CompactColumns mat).nrows = mat.nrows := rfl
  refine ⟨_, a1, by simp, ?_⟩
  rw [hn]
  refine ⟨hwf.1, hwf.2.1, hwf.2.2.1, ?_, ?_⟩
  · rw [List.length_map]
    exact hwf.2.2.2.1
  · intro x hx
    rw [List.mem_map] at hx
    obtain ⟨c, hc, rfl⟩ := hx
    obtain ⟨p, hp, _, hf⟩ := f1 c hc
    rw [a2, hf]
    exact hp

/-- The call `da_csr_SortIndices(mat, DA_ROW)` keeps a well-formed row view well
formed. -/
theorem sortIndices_wellFormed (mat d : da_csr_t α) (rp ri : List Nat)
    (h1 : mat.rowptr = some rp) (h2 : mat.rowind = some ri)
    (hwf : WellFormedView mat.nrows mat.ncols rp ri)
    (hval : ∀ v, mat.rowval = some v → v.length = ri.length)
    (hd : da_csr_SortIndices mat DA_ROW = some d) :
    ∃ ri2, d.rowptr = some rp ∧ d.rowind = some ri2 ∧ d.nrows = mat.nrows ∧
      d.ncols = mat.ncols ∧ WellFormedView mat.nrows mat.ncols rp ri2 := by
  obtain ⟨w1, w2, w3, w4, w5⟩ := hwf
  have hspec := sortIndicesView_spec mat.nrows rp ri mat.rowval w3 (by omega) hval
  unfold da_csr_SortIndices at hd
  rw [if_pos rfl, h1, h2] at hd
  simp only [Option.getD_some, Option.map_some', Option.some.injEq] at hd
  subst hd
  refine ⟨_, rfl, rfl, rfl, rfl, w1, w2, w3, ?_, ?_⟩
  · rw [hspec.1]; exact w4
  · intro x hx
    obtain ⟨j, hj, rfl⟩ := List.getElem_of_mem hx
    have hj2 : j < rp.getD mat.nrows 0 := by
      rw [hspec.1] at hj; omega
    obtain ⟨i, hi, hlo, hhi⟩ := position_row rp w2 mat.nrows j hj2
    obtain ⟨_, hperm, _⟩ := hspec.2.2.2 i hi
    have hmem : ((sortIndicesView mat.nrows rp ri mat.rowval).1.getD j 0,
        ((sortIndicesView mat.nrows rp ri mat.rowval).2.getD []).getD j 0) ∈
        outRow rp (sortIndicesView mat.nrows rp ri mat.rowval).1
          ((sortIndicesView mat.nrows rp ri mat.rowval).2.getD []) i := by
      unfold outRow
      apply List.mem_map.mpr
      refine ⟨j, ?_, rfl⟩
      rw [List.mem_range'_1]
      omega
    have hmem2 := hperm.mem_iff.mp hmem
    unfold outRow at hmem2
    obtain ⟨j2, hj2m, hj2e⟩ := List.mem_map.mp hmem2
    rw [List.mem_range'_1] at hj2m
    have hle := ptr_mono rp mat.nrows w3 mat.nrows (i + 1) (by omega) (le_refl _)
    have hj2l : j2 < ri.length := by omega
    have e1 := congrArg Prod.fst hj2e
    simp only at e1
    rw [List.getD_eq_getElem _ _ hj] at e1
    rw [← e1, List.getD_eq_getElem _ _ hj2l]
    exact w5 _ (List.getElem_mem _)

theorem da_csr_Normalize_row_frame (sqrt : α → α) (mat : da_csr_t α) (what norm : Nat) :
    (da_csr_Normalize sqrt mat what norm).rowptr = mat.rowptr ∧
      (da_csr_Normalize sqrt mat what norm).rowind = mat.rowind ∧
      (da_csr_Normalize sqrt mat what norm).ncols = mat.ncols := by
  have h1 : ∀ m : da_csr_t α, (normalizeRows sqrt m what norm).rowptr = m.rowptr ∧
      (normalizeRows sqrt m what norm).rowind = m.rowind ∧
      (normalizeRows sqrt m what norm).ncols = m.ncols := by
    intro m
    unfold normalizeRows
    split
    · split_ifs <;> exact ⟨rfl, rfl, rfl⟩
    · exact ⟨rfl, rfl, rfl⟩
  have h2 : ∀ m : da_csr_t α, (normalizeCols sqrt m what norm).rowptr = m.rowptr ∧
      (normalizeCols sqrt m what norm).rowind = m.rowind ∧
      (normalizeCols sqrt m what norm).ncols = m.ncols := by
    intro m
    unfold normalizeCols
    split
    · split_ifs <;> exact ⟨rfl, rfl, rfl⟩
    · exact ⟨rfl, rfl, rfl⟩
  unfold da_csr_Normalize
  obtain ⟨a1, a2, a3⟩ := h2 (normalizeRows sqrt mat what norm)
  obtain ⟨b1, b2, b3⟩ := h1 mat
  exact ⟨a1.trans b1, a2.trans b2, a3.trans b3⟩

/-- The preprocessing of an input with a well-formed row view returns a matrix
that `da_csr_CreateIndex(DA_COL)` built from a matrix with a well-formed row
view, with the `nrows` of the input. -/
theorem preprocess_wellFormed (log sqrt : α → α) (docs : da_csr_t α) (rp ri : List Nat)
    (h1 : docs.rowptr = some rp) (h2 : docs.rowind = some ri)
    (hwf : WellFormedView docs.nrows docs.ncols rp ri)
    (hval : ∀ v, docs.rowval = some v → v.length = ri.length) :
    ∃ mat0 d ri2, preprocess log sqrt docs = some d ∧
      da_csr_CreateIndex mat0 DA_COL = some d ∧ d.nrows = docs.nrows ∧
      mat0.rowptr = some rp ∧ mat0.rowind = some ri2 ∧
      WellFormedView mat0.nrows mat0.ncols rp ri2 := by
  obtain ⟨d0, hd0, hn0, _⟩ := preprocess_spec log sqrt docs rp h1
  obtain ⟨ra, c1, c2, c3⟩ := compactColumns_wellFormed docs rp ri h1 h2 hwf
  have hcp : (da_csr_CompactColumns docs).rowptr = some rp := h1
  have hcv : (da_csr_CompactColumns docs).rowval = docs.rowval := rfl
  unfold preprocess at hd0 ⊢
  cases hs : da_csr_SortIndices (da_csr_CompactColumns docs) DA_ROW with
  | none =>
    rw [hs] at hd0
    exact absurd hd0 (by simp)
  | some d1 =>
    rw [hs] at hd0
    simp only [] at hd0 ⊢
    obtain ⟨rb, s1, s2, s3, s4, s5⟩ := sortIndices_wellFormed (da_csr_CompactColumns docs) d1 rp
      ra hcp c1 c3 (by intro v hv; rw [c2]; exact hval v (by rw [← hcv]; exact hv)) hs
    obtain ⟨n1, n2, n3⟩ := da_csr_Normalize_row_frame sqrt (da_csr_Scale log d1) DA_ROW 2
    have n4 := da_csr_Normalize_nrows sqrt (da_csr_Scale log d1) DA_ROW 2
    have t1 : (da_csr_Scale log d1).rowptr = d1.rowptr := rfl
    have t2 : (da_csr_Scale log d1).rowind = d1.rowind := rfl
    have t3 : (da_csr_Scale log d1).ncols = d1.ncols := rfl
    have t4 : (da_csr_Scale log d1).nrows = d1.nrows := rfl
    refine ⟨_, d0, rb, hd0, hd0, hn0, ?_, ?_, ?_⟩
    · rw [n1, t1]; exact s1
    · rw [n2, t2]; exact s2
    · rw [n4, n3, t3, t4, s3, s4]
      exact s5

end PreprocessWF

section PreprocessIndexed
variable {α : Type} [LinearOrderedField α]

/-- The preprocessing of an input with a well-formed row view returns a matrix
`d` with the row pointer array of the input, a well-formed row view, and the
column view that `da_csr_CreateIndex(DA_COL)` builds from it. -/
theorem preprocess_indexed (log sqrt : α → α) (docs : da_csr_t α) (rp ri : List Nat)
    (h1 : docs.rowptr = some rp) (h2 : docs.rowind = some ri)
    (hwf : WellFormedView docs.nrows docs.ncols rp ri)
    (hval : ∀ v, docs.rowval = some v → v.length = ri.length) :
    ∃ mat0 d ri2, preprocess log sqrt docs = some d ∧ d.nrows = docs.nrows ∧
      mat0.rowptr = some rp ∧ mat0.rowind = some ri2 ∧
      WellFormedView mat0.nrows mat0.ncols rp ri2 ∧
      da_csr_CreateIndex mat0 DA_COL = some d ∧
      d.rowptr = some rp ∧ d.rowind = some ri2 ∧ WellFormedView d.nrows d.ncols rp ri2 := by
  obtain ⟨mat0, d, ri2, p1, p2, p3, p4, p5, p6⟩ :=
    preprocess_wellFormed log sqrt docs rp ri h1 h2 hwf hval
  have hmat := da_csr_CreateIndex_col_eq mat0 d rp ri2 p4 p5 p2
  have gn : d.nrows = mat0.nrows := by rw [hmat]
  have gm : d.ncols = mat0.ncols := by rw [hmat]
  have g1 : d.rowptr = some rp := by rw [hmat]; exact p4
  have g2 : d.rowind = some ri2 := by rw [hmat]; exact p5
  exact ⟨mat0, d, ri2, p1, p3, p4, p5, p6, p2, g1, g2, by rw [gn, gm]; exact p6⟩

end PreprocessIndexed

section InvertedClaims
variable {α : Type} [LinearOrderedField α]

end InvertedClaims

section EnginesAgree
variable {α : Type} [LinearOrderedField α]

/-- Two selections of at most `k` best pairs among the qualifying pairs of row
`i`, when no tie lies across the `k`-th place: every pair of the first is in
the second. -/
theorem topk_subset_cut (docs : da_csr_t α) (eps : α) (k : Int) (i : Nat) (hk : 0 ≤ k)
    (hcut : NoTieAtCut docs eps k i) (A B : List (Nat × α)) (hBn : B.Nodup)
    (hA : ∀ e ∈ A, Qualifies docs eps i e) (hB : ∀ e ∈ B, Qualifies docs eps i e)
    (hAlen : A.length ≤ k.toNat)
    (hAo : ∀ c, Qualifies docs eps i c → c ∉ A → ∀ e ∈ A, c.2 ≤ e.2)
    (hBo : ∀ c, Qualifies docs eps i c → c ∉ B → B.length = k.toNat ∧ ∀ e ∈ B, c.2 ≤ e.2) :
    ∀ e ∈ A, e ∈ B := by
  intro e he
  by_contra hn
  obtain ⟨q1, q2, q3, q4⟩ := hA e he
  obtain ⟨hBl, hBall⟩ := hBo e (hA e he) hn
  apply hcut e.1 q1 q2 (by rw [← q3]; exact q4)
  rw [← q3]
  constructor
  · by_contra hge
    have hge2 : k.toNat ≤ (rowsAbove docs i e.2).length := by omega
    have hnd : (rowsAbove docs i e.2).Nodup := List.Nodup.filter _ (List.nodup_range _)
    have hnot : e.1 ∉ rowsAbove docs i e.2 := by
      unfold rowsAbove
      rw [List.mem_filter]
      rintro ⟨_, h2⟩
      rw [Bool.and_eq_true, decide_eq_true_eq, decide_eq_true_eq, ← q3] at h2
      exact lt_irrefl _ h2.2
    obtain ⟨c, hc, hcA⟩ := exists_mem_not_mem_of_length (A.map Prod.fst) (rowsAbove docs i e.2)
      hnd e.1 (List.mem_map.mpr ⟨e, he, rfl⟩) hnot (by rw [List.length_map]; omega)
    unfold rowsAbove at hc
    rw [List.mem_filter, List.mem_range, Bool.and_eq_true, decide_eq_true_eq,
      decide_eq_true_eq] at hc
    obtain ⟨c1, c2, c3⟩ := hc
    have hq : Qualifies docs eps i (c, dotRows docs i c) :=
      ⟨c1, c2, rfl, le_trans q4 (le_of_lt c3)⟩
    have hcn : (c, dotRows docs i c) ∉ A := fun hin =>
      hcA (List.mem_map.mpr ⟨_, hin, rfl⟩)
    have := hAo _ hq hcn e he
    exact absurd c3 (not_lt.mpr this)
  · have hkeys : (B.map Prod.fst).Nodup := by
      apply List.Nodup.map_on _ hBn
      intro x hx y hy hxy
      apply Prod.ext hxy
      rw [(hB x hx).2.2.1, (hB y hy).2.2.1, hxy]
    have hnotin : e.1 ∉ B.map Prod.fst := by
      intro hin
      obtain ⟨b, hb, hbe⟩ := List.mem_map.mp hin
      apply hn
      have : b = e := by
        apply Prod.ext hbe
        rw [(hB b hb).2.2.1, q3, hbe]
      rw [← this]
      exact hb
    have hnd : (e.1 :: B.map Prod.fst).Nodup := List.nodup_cons.mpr ⟨hnotin, hkeys⟩
    have hsub : (e.1 :: B.map Prod.fst) ⊆ rowsAtLeast docs i e.2 := by
      intro x hx
      unfold rowsAtLeast
      rw [List.mem_filter, List.mem_range, Bool.and_eq_true, decide_eq_true_eq,
        decide_eq_true_eq]
      rcases List.mem_cons.mp hx with h | h
      · rw [h]
        exact ⟨q1, q2, le_of_eq q3⟩
      · obtain ⟨b, hb, rfl⟩ := List.mem_map.mp h
        obtain ⟨b1, b2, b3, _⟩ := hB b hb
        exact ⟨b1, b2, by rw [← b3]; exact hBall b hb⟩
    have hle := (List.subperm_of_subset hnd hsub).length_le
    rw [List.length_cons, List.length_map, hBl] at hle
    omega

/-- What the first `k` elements of `candidatePairs` of the similarity map of row
`i` are, in terms of the rows of the matrix: at most `k` distinct qualifying
pairs, and a qualifying pair that is left out has a score at most that of each
of the `k` pairs. -/
theorem invertedRow_facts (docs : da_csr_t α) (k : Int) (eps : α) (hk : 0 ≤ k)
    (hwf : RowsInRange docs) (i : Nat) (hi : i < docs.nrows) (B : List (Nat × α))
    (hB : B = ((candidatePairs ((invertedScan docs eps docs.nrows).matchMaps.getD i [])).take
        k.toNat).map (fun p => (p.2, p.1))) :
    B.Nodup ∧ B.length ≤ k.toNat ∧ (∀ e ∈ B, Qualifies docs eps i e) ∧
      ∀ c, Qualifies docs eps i c → c ∉ B → B.length = k.toNat ∧ ∀ e ∈ B, c.2 ≤ e.2 := by
  have hspec := (invertedScan_spec docs eps hwf docs.nrows (le_refl _)).2.2.2 i
  obtain ⟨f1, f2, f3, _, f5, f6⟩ := candidatePairs_take_facts k hk _
    ((invertedScan_maps docs eps docs.nrows).2 i) B hB
  refine ⟨f5, ?_, ?_, ?_⟩
  · have : (B.length : Int) ≤ k := by rw [f1]; exact min_le_left _ _
    omega
  · intro e he
    have := (hspec e).mp (f2 e he)
    exact ⟨this.2.1, this.2.2.1, this.2.2.2.1, this.2.2.2.2⟩
  · intro c hc hnot
    have hm := (hspec c).mpr ⟨hi, hc.1, hc.2.1, hc.2.2.1, hc.2.2.2⟩
    exact ⟨f6 c hm hnot, f3 c hm hnot⟩

/-- C5 (as amended): for every input matrix with a well-formed row view (and a
value array, if any, as long as the index array), every `k ≥ 1`, every `eps > 0`
and every run of `invertedidx` that stays inside its arrays (the word `g` after
the row pointer array is at most `rowptr[nrows]`), both engines return, on the
same preprocessed matrix, and in every row in which no tie lies across the `k`-th
place the output row of `idxjoin` and the output row of `invertedidx` hold the
same (neighbour id, value) pairs. -/
theorem idxjoin_invertedidx_agree (log sqrt : α → α) (params : params_t α) (ncand0 g : Nat)
    (rp ri : List Nat)
    (h1 : params.docs.rowptr = some rp) (h2 : params.docs.rowind = some ri)
    (hwf : WellFormedView params.docs.nrows params.docs.ncols rp ri)
    (hval : ∀ v, params.docs.rowval = some v → v.length = ri.length)
    (hk : 1 ≤ params.k) (heps : 0 < params.epsilon)
    (hg : g ≤ rp.getD params.docs.nrows 0) :
    ∃ docs s st out, idxjoin log sqrt params ncand0 = some (docs, s) ∧
      invertedidx log sqrt params g = some (docs, st, out) ∧
      docs.nrows = params.docs.nrows ∧
      ∀ i, i < docs.nrows → NoTieAtCut docs params.epsilon params.k i →
        ∀ e, e ∈ outRow s.rowptr s.rowind s.rowval i ↔
          e ∈ outRow out.rowptr out.rowind out.rowval i := by
  obtain ⟨mat0, d, ri2, p1, pn, m1, m2, mwf, pidx, g1, g2, gwf⟩ :=
    preprocess_indexed log sqrt params.docs rp ri h1 h2 hwf hval
  have hk0 : 0 ≤ params.k := by omega
  obtain ⟨st, out, hst, hout, hmaps⟩ := invertedSearch_some d rp ri2 params.k params.epsilon g
    g1 g2 gwf heps (by rw [pn]; exact hg)
  have hsorted := invertedScan_maps d params.epsilon d.nrows
  have hw := createIndexView_wf mat0.nrows mat0.ncols rp ri2 mat0.rowval mwf
  have hmat := da_csr_CreateIndex_col_eq mat0 d rp ri2 m1 m2 pidx
  have gn : d.nrows = mat0.nrows := by rw [hmat]
  have g4 : d.colind = some (createIndexView mat0.nrows mat0.ncols rp ri2 mat0.rowval).2.1 := by
    rw [hmat]
  have hcol : 0 < d.nrows → ∀ x ∈ d.colind.getD [], x < d.nrows := by
    intro _
    rw [g4, gn]
    exact hw.2.2.2.2
  have hrange := rowsInRange_of_wellFormed d rp ri2 g1 g2 gwf
  obtain ⟨s, hs, hrows⟩ := idxjoinSearch_rows d params.k params.epsilon ncand0 hcol hk0
  refine ⟨d, s, st, out, ?_, ?_, pn, ?_⟩
  · unfold idxjoin
    rw [p1]
    simp only [hs, Option.map_some']
  · unfold invertedidx
    rw [p1]
    simp only [hst, Option.map_some']
  · intro i hi hcut e
    obtain ⟨cand0, hc, hA⟩ := hrows i hi
    obtain ⟨a1, a2, a3, a4⟩ := idxjoin_row_facts mat0 d rp ri2 m1 m2 mwf pidx params.k
      params.epsilon hk0 heps i hi cand0 hc _ hA
    have hrow := invertedOut_row d.nrows params.k hk0 st.matchMaps
      (by rw [hmaps]; exact hsorted.1) out hout i hi
    rw [hmaps] at hrow
    obtain ⟨b1, b2, b3, b4⟩ := invertedRow_facts d params.k params.epsilon hk0 hrange i hi _ hrow
    constructor
    · exact topk_subset_cut d params.epsilon params.k i hk0 hcut _ _ b1 a3 b3 a2
        (fun c hc hn => (a4 c hc hn).2) b4 e
    · exact topk_subset_cut d params.epsilon params.k i hk0 hcut _ _ a1 b3 a3 b2
        (fun c hc hn => (b4 c hc hn).2) a4 e

end EnginesAgree

section MixedEval
variable {α : Type} [LinearOrderedField α]

theorem mixed_compact : da_csr_CompactColumns (mixedDocs α) =
    { nrows := 4, ncols := 3, rowptr := some [0, 2, 3, 4, 5], colptr := none,
      rowind := some [0, 1, 0, 0, 2], colind := none,
      rowval := some [1, 1, 1, 1, 1], colval := none, rnorms := none, cnorms := none } := by
  simp [da_csr_CompactColumns, mixedDocs, forLoop, da_iikvsortd, DA_MKQSORT, compactMap,
    List.insertionSort, List.orderedInsert, List.replicate]

/-- The preprocessing of the 4 x 3 input `mixedDocs`. -/
theorem mixed_preprocess (log sqrt : α → α)
    (h3 : 0 < log (4 / 3) * log (4 / 3)) (h4 : 0 < log 4 * log 4)
    (h34 : 0 < log (4 / 3) * log (4 / 3) + log 4 * log 4) :
    preprocess log sqrt (mixedDocs α) =
      some (mixedIndexed (log (4 / 3) * (sqrt (log (4 / 3) * log (4 / 3)))⁻¹)
        (log 4 * (sqrt (log 4 * log 4))⁻¹)
        (log (4 / 3) * (sqrt (log (4 / 3) * log (4 / 3) + log 4 * log 4))⁻¹)
        (log 4 * (sqrt (log (4 / 3) * log (4 / 3) + log 4 * log 4))⁻¹)) := by
  unfold preprocess
  rw [mixed_compact]
  simp [da_csr_SortIndices, sortIndicesView, sortIndicesRow, forLoop, DA_ROW, DA_COL, da_pikvsorti,
    DA_MKQSORT, List.replicate, da_csr_Scale, forEntries, da_csr_Normalize, normalizeRows,
    normalizeCols, normalizeView, normalizeRow, da_csr_CreateIndex, createIndexView, CSRMAKE,
    CSRSHIFT, h3, h4, h34, mixedIndexed]

/-- The search loop of `idxjoin` on the preprocessed matrix `mixedIndexed a b x y`
for `k = 2` and `eps = 1/10`, when rows 1 and 2 have score 1 and row 0 has a
score `c` with `1/10 ≤ c < 1` against each of them. -/
theorem mixed_idxjoinSearch_two (a b x y c : α) (n0 : Nat) (hs : a * a = 1)
    (hxa : x * a = c) (hax : a * x = c) (hc : 1 / 10 ≤ c) (hc1 : c < 1) :
    ∃ s, idxjoinSearch (mixedIndexed a b x y) 2 (1 / 10) n0 = some s ∧
      s.rowptr = [0, 2, 4, 6, 6] ∧ s.rowind = [1, 2, 2, 0, 1, 0, 0, 0] ∧
      s.rowval = [c, c, 1, c, 1, c, 0, 0] := by
  have h10 : (10 : α)⁻¹ ≤ 1 := by norm_num
  have hc' : (10 : α)⁻¹ ≤ c := by rw [← one_div]; exact hc
  have hc2 : c ≤ 1 := le_of_lt hc1
  have hc3 : ¬ 1 ≤ c := not_le.mpr hc1
  have hc4 : ¬ 1 < c := not_lt.mpr hc2
  have key : (idxjoinSearch (mixedIndexed a b x y) 2 (1 / 10) n0).map
      (fun s => (s.rowptr, s.rowind, s.rowval)) =
      some ([0, 2, 4, 6, 6], [1, 2, 2, 0, 1, 0, 0, 0], [c, c, 1, c, 1, c, 0, 0]) := by
    simp [idxjoinSearch, idxjoinRow, da_getSimilarRows, accumulate, accumFeature, accumEntry,
      markCandidate, clearMarkers, filterHits, da_ivkvsortd, DA_MKQSORT, forLoop, hs, hxa, hax,
      h10, hc', hc1, hc2, hc3, hc4,
      mixedIndexed, da_ivkvkselectd, kselectdLoop, selectMedianD, partitionD, DA_QSSWAP, valAt]
  rw [Option.map_eq_some'] at key
  obtain ⟨s, e1, e2⟩ := key
  simp only [Prod.mk.injEq] at e2
  exact ⟨s, e1, e2.1, e2.2.1, e2.2.2⟩

/-- The same search loop for `k = 1`: the selection keeps the better of the two
candidates of rows 1 and 2. -/
theorem mixed_idxjoinSearch_one (a b x y c : α) (n0 : Nat) (hs : a * a = 1)
    (hxa : x * a = c) (hax : a * x = c) (hc : 1 / 10 ≤ c) (hc1 : c < 1) :
    ∃ s, idxjoinSearch (mixedIndexed a b x y) 1 (1 / 10) n0 = some s ∧
      s.rowptr = [0, 1, 2, 3, 3] ∧ s.rowind = [2, 2, 1, 0] ∧
      s.rowval = [c, 1, 1, 0] := by
  have h10 : (10 : α)⁻¹ ≤ 1 := by norm_num
  have hc' : (10 : α)⁻¹ ≤ c := by rw [← one_div]; exact hc
  have hc2 : c ≤ 1 := le_of_lt hc1
  have hc3 : ¬ 1 ≤ c := not_le.mpr hc1
  have hc4 : ¬ 1 < c := not_lt.mpr hc2
  have key : (idxjoinSearch (mixedIndexed a b x y) 1 (1 / 10) n0).map
      (fun s => (s.rowptr, s.rowind, s.rowval)) =
      some ([0, 1, 2, 3, 3], [2, 2, 1, 0], [c, 1, 1, 0]) := by
    simp [idxjoinSearch, idxjoinRow, da_getSimilarRows, accumulate, accumFeature, accumEntry,
      markCandidate, clearMarkers, filterHits, da_ivkvsortd, DA_MKQSORT, forLoop, hs, hxa, hax,
      h10, hc', hc1, hc2, hc3, hc4,
      mixedIndexed, da_ivkvkselectd, kselectdLoop, selectMedianD, partitionD, DA_QSSWAP, valAt]
  rw [Option.map_eq_some'] at key
  obtain ⟨s, e1, e2⟩ := key
  simp only [Prod.mk.injEq] at e2
  exact ⟨s, e1, e2.1, e2.2.1, e2.2.2⟩

/-- The candidates of row 1 of `mixedIndexed a b x y`: row 0 with score `c` and
row 2 with score 1. -/
theorem mixed_candidates_one (a b x y c : α) (hs : a * a = 1) (hxa : x * a = c) :
    candidates (mixedIndexed a b x y) 1 = [⟨0, c⟩, ⟨2, 1⟩] := by
  simp [candidates, candidatesOf, querySize, accumulate, accumFeature, accumEntry,
    markCandidate, forLoop, mixedIndexed, hs, hxa]

end MixedEval

section Tied
variable {α : Type} [LinearOrderedField α]

theorem tied_compact : da_csr_CompactColumns (tiedDocs α) =
    { nrows := 5, ncols := 2, rowptr := some [0, 1, 2, 3, 4, 5], colptr := none,
      rowind := some [0, 0, 0, 0, 1], colind := none,
      rowval := some [1, 1, 1, 1, 1], colval := none, rnorms := none, cnorms := none } := by
  simp [da_csr_CompactColumns, tiedDocs, forLoop, da_iikvsortd, DA_MKQSORT, compactMap,
    List.insertionSort, List.orderedInsert, List.replicate]

/-- The preprocessing of the 5 x 2 input `tiedDocs`: the entries of rows 0 to 3
become `log (5/4) / sqrt ((log (5/4))^2)` and the entry of row 4 becomes
`log 5 / sqrt ((log 5)^2)`. -/
theorem tied_preprocess (log sqrt : α → α)
    (h4 : 0 < log (5 / 4) * log (5 / 4)) (h5 : 0 < log 5 * log 5) :
    preprocess log sqrt (tiedDocs α) =
      some (tiedIndexed (log (5 / 4) * (sqrt (log (5 / 4) * log (5 / 4)))⁻¹)
        (log 5 * (sqrt (log 5 * log 5))⁻¹)) := by
  unfold preprocess
  rw [tied_compact]
  simp [da_csr_SortIndices, sortIndicesView, sortIndicesRow, forLoop, DA_ROW, DA_COL, da_pikvsorti,
    DA_MKQSORT, List.replicate, da_csr_Scale, forEntries, da_csr_Normalize, normalizeRows,
    normalizeCols, normalizeView, normalizeRow, da_csr_CreateIndex, createIndexView, CSRMAKE,
    CSRSHIFT, h4, h5, tiedIndexed]

theorem apart_compact : da_csr_CompactColumns (apartDocs α) =
    { nrows := 2, ncols := 2, rowptr := some [0, 1, 2], colptr := none,
      rowind := some [0, 1], colind := none,
      rowval := some [1, 1], colval := none, rnorms := none, cnorms := none } := by
  simp [da_csr_CompactColumns, apartDocs, forLoop, da_iikvsortd, DA_MKQSORT, compactMap,
    List.insertionSort, List.orderedInsert, List.replicate]

/-- The preprocessing of the 2 x 2 input `apartDocs`: both entries become
`log (2/1) / sqrt ((log (2/1))^2)`. -/
theorem apart_preprocess (log sqrt : α → α) (h2 : 0 < log 2 * log 2) :
    preprocess log sqrt (apartDocs α) =
      some (apartIndexed (log 2 * (sqrt (log 2 * log 2))⁻¹)) := by
  unfold preprocess
  rw [apart_compact]
  simp [da_csr_SortIndices, sortIndicesView, sortIndicesRow, forLoop, DA_ROW, DA_COL, da_pikvsorti,
    DA_MKQSORT, List.replicate, da_csr_Scale, forEntries, da_csr_Normalize, normalizeRows,
    normalizeCols, normalizeView, normalizeRow, da_csr_CreateIndex, createIndexView, CSRMAKE,
    CSRSHIFT, h2, apartIndexed]

theorem unit_norm_single (L S : α) (hS : S ≠ 0) (hSS : S * S = L * L) :
    L * S⁻¹ * (L * S⁻¹) = 1 := by
  have e : L * S⁻¹ * (L * S⁻¹) = (L * L) * (S * S)⁻¹ := by
    rw [mul_inv]
    ring
  rw [e, ← hSS]
  exact mul_inv_cancel₀ (mul_ne_zero hS hS)

/-- The search loop of `idxjoin` on the preprocessed matrix `tiedIndexed a b` with
`a * a = 1`, for `k = 2` and `eps = 1/2`. -/
theorem tied_idxjoinSearch (a b : α) (n0 : Nat) (hs : a * a = 1) :
    ∃ s, idxjoinSearch (tiedIndexed a b) 2 (1 / 2) n0 = some s ∧
      s.rowptr = [0, 2, 4, 6, 8, 8] ∧ s.rowind = [1, 3, 0, 3, 0, 3, 0, 2, 0, 0] ∧
      s.rowval = [1, 1, 1, 1, 1, 1, 1, 1, 0, 0] := by
  have h12 : (2 : α)⁻¹ ≤ 1 := by norm_num
  have key : (idxjoinSearch (tiedIndexed a b) 2 (1 / 2) n0).map
      (fun s => (s.rowptr, s.rowind, s.rowval)) =
      some ([0, 2, 4, 6, 8, 8], [1, 3, 0, 3, 0, 3, 0, 2, 0, 0],
        [1, 1, 1, 1, 1, 1, 1, 1, 0, 0]) := by
    simp [idxjoinSearch, idxjoinRow, da_getSimilarRows, accumulate, accumFeature, accumEntry,
      markCandidate, clearMarkers, filterHits, da_ivkvsortd, DA_MKQSORT, forLoop, hs, h12,
      tiedIndexed, da_ivkvkselectd, kselectdLoop, selectMedianD, partitionD, DA_QSSWAP, valAt]
  rw [Option.map_eq_some'] at key
  obtain ⟨s, e1, e2⟩ := key
  simp only [Prod.mk.injEq] at e2
  exact ⟨s, e1, e2.1, e2.2.1, e2.2.2⟩

/-- The search loop of `idxjoin` on the preprocessed matrix `apartIndexed a`, for
`k = 1` and `eps = 0`. -/
theorem apart_idxjoinSearch (a : α) (n0 : Nat) :
    ∃ s, idxjoinSearch (apartIndexed a) 1 0 n0 = some s ∧
      s.rowptr = [0, 0, 0] ∧ s.rowind = [0, 0] ∧ s.rowval = [0, 0] := by
  have key : (idxjoinSearch (apartIndexed a) 1 0 n0).map
      (fun s => (s.rowptr, s.rowind, s.rowval)) = some ([0, 0, 0], [0, 0], [0, 0]) := by
    simp [idxjoinSearch, idxjoinRow, da_getSimilarRows, accumulate, accumFeature, accumEntry,
      markCandidate, clearMarkers, filterHits, da_ivkvsortd, DA_MKQSORT, forLoop,
      apartIndexed, da_ivkvkselectd, kselectdLoop, selectMedianD, partitionD, DA_QSSWAP, valAt]
  rw [Option.map_eq_some'] at key
  obtain ⟨s, e1, e2⟩ := key
  simp only [Prod.mk.injEq] at e2
  exact ⟨s, e1, e2.1, e2.2.1, e2.2.2⟩

end Tied

section TiedEval
variable {α : Type} [LinearOrderedField α]

/-- The search of `invertedidx` on `tiedIndexed a b` with `a * a = 1`, for `k = 2`,
`eps = 1/2` and the word 0 after the row pointer array: it returns; each of the
rows 0 to 3 has the other three in its similarity map and two of them in its
output row. -/
theorem tied_invertedSearch (a b : α) (hs : a * a = 1) :
    ∃ st out, invertedSearch (tiedIndexed a b) 2 (1 / 2) 0 = some (st, out) ∧
      st.matchMaps = [[(1, 1), (2, 1), (3, 1)], [(0, 1), (2, 1), (3, 1)],
        [(0, 1), (1, 1), (3, 1)], [(0, 1), (1, 1), (2, 1)], []] ∧
      out.rowptr = [0, 2, 4, 6, 8, 8] ∧ out.rowind = [3, 2, 3, 2, 3, 1, 2, 1, 0, 0] ∧
      out.rowval = [1, 1, 1, 1, 1, 1, 1, 1, 0, 0] := by
  have h12 : (2 : α)⁻¹ ≤ 1 := by norm_num
  have h0 : ¬ (2 : α)⁻¹ ≤ 0 := by norm_num
  have key : (invertedSearch (tiedIndexed a b) 2 (1 / 2) 0).map
      (fun r => (r.1.matchMaps, r.2.rowptr, r.2.rowind, r.2.rowval)) =
      some ([[(1, 1), (2, 1), (3, 1)], [(0, 1), (2, 1), (3, 1)],
        [(0, 1), (1, 1), (3, 1)], [(0, 1), (1, 1), (2, 1)], []],
        [0, 2, 4, 6, 8, 8], [3, 2, 3, 2, 3, 1, 2, 1, 0, 0],
        [1, 1, 1, 1, 1, 1, 1, 1, 0, 0]) := by
    simp [invertedSearch, invertedDocChecked, docAccessOk, invertedDoc, findMatches, forLoop,
      mapInsert, tiedIndexed, emitRow, candidatePairs, setInsert, pairGreater, hs, h12, h0,
      List.range']
  rw [Option.map_eq_some'] at key
  obtain ⟨r, e1, e2⟩ := key
  simp only [Prod.mk.injEq] at e2
  exact ⟨r.1, r.2, e1, e2.1, e2.2.1, e2.2.2.1, e2.2.2.2⟩

/-- The search loop of `idxjoin` on `tiedIndexed a b` with `a * a = 1`, for `k = 3`
and `eps = 1/2`. -/
theorem tied_idxjoinSearch_three (a b : α) (n0 : Nat) (hs : a * a = 1) :
    ∃ s, idxjoinSearch (tiedIndexed a b) 3 (1 / 2) n0 = some s ∧
      s.rowptr = [0, 3, 6, 9, 12, 12] ∧
      s.rowind = [1, 2, 3, 0, 2, 3, 0, 1, 3, 0, 1, 2, 0, 0, 0] ∧
      s.rowval = [1, 1, 1, 1, 1, 1, 1, 1, 1, 1, 1, 1, 0, 0, 0] := by
  have h12 : (2 : α)⁻¹ ≤ 1 := by norm_num
  have key : (idxjoinSearch (tiedIndexed a b) 3 (1 / 2) n0).map
      (fun s => (s.rowptr, s.rowind, s.rowval)) =
      some ([0, 3, 6, 9, 12, 12], [1, 2, 3, 0, 2, 3, 0, 1, 3, 0, 1, 2, 0, 0, 0],
        [1, 1, 1, 1, 1, 1, 1, 1, 1, 1, 1, 1, 0, 0, 0]) := by
    simp [idxjoinSearch, idxjoinRow, da_getSimilarRows, accumulate, accumFeature, accumEntry,
      markCandidate, clearMarkers, filterHits, da_ivkvsortd, DA_MKQSORT, forLoop, hs, h12,
      tiedIndexed, da_ivkvkselectd, kselectdLoop, selectMedianD, partitionD, DA_QSSWAP, valAt]
  rw [Option.map_eq_some'] at key
  obtain ⟨s, e1, e2⟩ := key
  simp only [Prod.mk.injEq] at e2
  exact ⟨s, e1, e2.1, e2.2.1, e2.2.2⟩

/-- The scores of the rows of `tiedIndexed a b` with `a * a = 1`: 1 between two
of the rows 0 to 3, 0 between one of them and row 4. -/
theorem tied_dotRows (a b : α) (hs : a * a = 1) (i j : Nat) (hi : i < 5) (hj : j < 5)
    (hij : i ≠ j) :
    dotRows (tiedIndexed a b) i j = if i < 4 ∧ j < 4 then 1 else 0 := by
  interval_cases i <;> interval_cases j <;>
    first
    | exact absurd rfl hij
    | simp [dotRows, rowEntries, outRow, tiedIndexed, List.range', hs]

/-- With `k = 3` no tie of `tiedIndexed a b` lies across the `k`-th place: the
three neighbours of each of the rows 0 to 3 are tied, and all three are kept. -/
theorem tied_noTieAtCut (a b : α) (hs : a * a = 1) :
    ∀ i, i < 5 → NoTieAtCut (tiedIndexed a b) (1 / 2) 3 i := by
  intro i hi x hx hxi he
  have hx5 : x < 5 := hx
  rintro ⟨_, h2⟩
  have hdx := tied_dotRows a b hs i x hi hx5 (fun e => hxi e.symm)
  have hc : i < 4 ∧ x < 4 := by
    by_contra hc
    rw [hdx, if_neg hc] at he
    norm_num at he
  rw [hdx, if_pos hc] at h2
  have hcount : (rowsAtLeast (tiedIndexed a b) i 1).length ≤ 3 := by
    unfold rowsAtLeast
    have hn : (tiedIndexed a b).nrows = 5 := rfl
    rw [hn]
    have hlen : ∀ (p : Nat → Bool), p 4 = false → p i = false →
        ((List.range 5).filter p).length ≤ 3 := by
      intro p h4 hpi
      have e : List.range 5 = [0, 1, 2, 3, 4] := rfl
      rw [e]
      have hi4 := hc.1
      interval_cases i <;> simp [List.filter, h4, hpi] <;>
        (repeat' split) <;> simp
    apply hlen
    · rw [tied_dotRows a b hs i 4 hi (by norm_num) (by omega)]
      simp
    · simp
  omega

end TiedEval

section SampleEngines
variable {α : Type} [LinearOrderedField α]

/-- Both engines on the 5 x 2 input `tiedDocs` with `k = 2` and `eps = 1/2`, in
exact arithmetic, the word after the row pointer array being 0: both return, on
the same preprocessed matrix; the similarity map of each of the rows 0 to 3
holds the other three with score 1. -/
theorem tied_engines (log sqrt : α → α) (hlog : ∀ x, 1 < x → 0 < log x)
    (hsqrt : ∀ x, 0 < x → 0 < sqrt x ∧ sqrt x * sqrt x = x) (ncand0 : Nat) :
    ∃ docs s st out,
      idxjoin log sqrt { docs := tiedDocs α, k := 2, epsilon := 1 / 2 } ncand0 =
        some (docs, s) ∧
      invertedidx log sqrt { docs := tiedDocs α, k := 2, epsilon := 1 / 2 } 0 =
        some (docs, st, out) ∧
      s.rowptr = [0, 2, 4, 6, 8, 8] ∧ s.rowind = [1, 3, 0, 3, 0, 3, 0, 2, 0, 0] ∧
      s.rowval = [1, 1, 1, 1, 1, 1, 1, 1, 0, 0] ∧
      st.matchMaps = [[(1, 1), (2, 1), (3, 1)], [(0, 1), (2, 1), (3, 1)],
        [(0, 1), (1, 1), (3, 1)], [(0, 1), (1, 1), (2, 1)], []] ∧
      out.rowptr = [0, 2, 4, 6, 8, 8] ∧ out.rowind = [3, 2, 3, 2, 3, 1, 2, 1, 0, 0] ∧
      out.rowval = [1, 1, 1, 1, 1, 1, 1, 1, 0, 0] ∧
      candidates docs 0 = [⟨1, 1⟩, ⟨2, 1⟩, ⟨3, 1⟩] := by
  have hl4 : 0 < log (5 / 4) := hlog _ (by norm_num)
  have hl5 : 0 < log 5 := hlog _ (by norm_num)
  have h4 : 0 < log (5 / 4) * log (5 / 4) := mul_pos hl4 hl4
  have h5 : 0 < log 5 * log 5 := mul_pos hl5 hl5
  obtain ⟨q1, q2⟩ := hsqrt _ h4
  have hs : log (5 / 4) * (sqrt (log (5 / 4) * log (5 / 4)))⁻¹ *
      (log (5 / 4) * (sqrt (log (5 / 4) * log (5 / 4)))⁻¹) = 1 :=
    unit_norm_single _ _ (ne_of_gt q1) q2
  obtain ⟨s, e1, e2, e3, e4⟩ := tied_idxjoinSearch _ (log 5 * (sqrt (log 5 * log 5))⁻¹) ncand0 hs
  obtain ⟨st, out, i1, i2, i3, i4, i5⟩ :=
    tied_invertedSearch _ (log 5 * (sqrt (log 5 * log 5))⁻¹) hs
  refine ⟨tiedIndexed (log (5 / 4) * (sqrt (log (5 / 4) * log (5 / 4)))⁻¹)
      (log 5 * (sqrt (log 5 * log 5))⁻¹), s, st, out, ?_, ?_, e2, e3, e4, i2, i3, i4, i5, ?_⟩
  · unfold idxjoin
    dsimp only
    rw [tied_preprocess log sqrt h4 h5]
    dsimp only
    rw [e1]
    rfl
  · unfold invertedidx
    dsimp only
    rw [tied_preprocess log sqrt h4 h5]
    dsimp only
    rw [i1]
    rfl
  · simp [candidates, candidatesOf, querySize, accumulate, accumFeature, accumEntry,
      markCandidate, forLoop, tiedIndexed, hs]

/-- The engine `idxjoin` on `tiedDocs` with `k = 3` and `eps = 1/2`, in exact
arithmetic: the three tied neighbours of each of the rows 0 to 3 are all
reported. -/
theorem tied_idxjoin_three (log sqrt : α → α) (hlog : ∀ x, 1 < x → 0 < log x)
    (hsqrt : ∀ x, 0 < x → 0 < sqrt x ∧ sqrt x * sqrt x = x) (ncand0 : Nat) :
    ∃ a b s, a * a = 1 ∧
      idxjoin log sqrt { docs := tiedDocs α, k := 3, epsilon := 1 / 2 } ncand0 =
        some (tiedIndexed a b, s) ∧
      s.rowptr = [0, 3, 6, 9, 12, 12] ∧
      s.rowind = [1, 2, 3, 0, 2, 3, 0, 1, 3, 0, 1, 2, 0, 0, 0] ∧
      s.rowval = [1, 1, 1, 1, 1, 1, 1, 1, 1, 1, 1, 1, 0, 0, 0] := by
  have hl4 : 0 < log (5 / 4) := hlog _ (by norm_num)
  have hl5 : 0 < log 5 := hlog _ (by norm_num)
  have h4 : 0 < log (5 / 4) * log (5 / 4) := mul_pos hl4 hl4
  have h5 : 0 < log 5 * log 5 := mul_pos hl5 hl5
  obtain ⟨q1, q2⟩ := hsqrt _ h4
  have hs : log (5 / 4) * (sqrt (log (5 / 4) * log (5 / 4)))⁻¹ *
      (log (5 / 4) * (sqrt (log (5 / 4) * log (5 / 4)))⁻¹) = 1 :=
    unit_norm_single _ _ (ne_of_gt q1) q2
  obtain ⟨s, e1, e2, e3, e4⟩ :=
    tied_idxjoinSearch_three _ (log 5 * (sqrt (log 5 * log 5))⁻¹) ncand0 hs
  refine ⟨log (5 / 4) * (sqrt (log (5 / 4) * log (5 / 4)))⁻¹,
    log 5 * (sqrt (log 5 * log 5))⁻¹, s, hs, ?_, e2, e3, e4⟩
  unfold idxjoin
  dsimp only
  rw [tied_preprocess log sqrt h4 h5]
  dsimp only
  rw [e1]
  rfl

/-- The engine `idxjoin` returns on the 2 x 2 input `apartDocs` with `k = 1` and
`eps = 0`, with an empty output, on the preprocessed matrix `apartIndexed a`. -/
theorem apart_idxjoin (log sqrt : α → α) (hlog : ∀ x, 1 < x → 0 < log x) (ncand0 : Nat) :
    ∃ a s, preprocess log sqrt (apartDocs α) = some (apartIndexed a) ∧
      idxjoin log sqrt { docs := apartDocs α, k := 1, epsilon := 0 } ncand0 =
        some (apartIndexed a, s) ∧
      s.rowptr = [0, 0, 0] := by
  have hl2 : 0 < log 2 := hlog _ (by norm_num)
  have h2 : 0 < log 2 * log 2 := mul_pos hl2 hl2
  obtain ⟨s, e1, e2, e3, e4⟩ := apart_idxjoinSearch (log 2 * (sqrt (log 2 * log 2))⁻¹) ncand0
  refine ⟨log 2 * (sqrt (log 2 * log 2))⁻¹, s, apart_preprocess log sqrt h2, ?_, e2⟩
  unfold idxjoin
  dsimp only
  rw [apart_preprocess log sqrt h2]
  dsimp only
  rw [e1]
  rfl

/-- The scores of the preprocessed `mixedDocs`: rows 1 and 2 are unit vectors
and the score `c` of row 0 against them lies in `[1/10, 1)`, for a logarithm
with `log 4 ≤ 9 log (4/3)`. -/
theorem mixed_scores (L3 L4 S3 S : α) (h3 : 0 < L3) (h4 : 0 < L4) (hS3 : 0 < S3)
    (hS3s : S3 * S3 = L3 * L3) (hS : 0 < S) (hSs : S * S = L3 * L3 + L4 * L4)
    (hb : L4 ≤ 9 * L3) :
    L3 * S3⁻¹ * (L3 * S3⁻¹) = 1 ∧ L3 * S3⁻¹ * (L3 * S⁻¹) = L3 * S⁻¹ * (L3 * S3⁻¹) ∧
      1 / 10 ≤ L3 * S⁻¹ * (L3 * S3⁻¹) ∧ L3 * S⁻¹ * (L3 * S3⁻¹) < 1 := by
  have e3 : S3 = L3 := (mul_self_inj (le_of_lt hS3) (le_of_lt h3)).mp hS3s
  have hA : L3 * S3⁻¹ = 1 := by rw [e3]; exact mul_inv_cancel₀ (ne_of_gt h3)
  rw [hA, mul_one, one_mul, mul_one]
  refine ⟨rfl, rfl, ?_, ?_⟩ <;> rw [← div_eq_mul_inv]
  · rw [le_div_iff₀ hS]
    by_contra hcon
    push_neg at hcon
    nlinarith [mul_pos h3 h3, mul_pos h4 h4, mul_pos hS hS]
  · rw [div_lt_one hS]
    by_contra hcon
    push_neg at hcon
    nlinarith [mul_pos h3 h3, mul_pos h4 h4, mul_pos hS hS]

/-- The engine `idxjoin` on the 4 x 3 input `mixedDocs` with `eps = 1/10`, in
exact arithmetic, for `k = 2` and for `k = 1`: rows 1 and 2 score 1 against each
other and `c`, with `1/10 ≤ c < 1`, against row 0. -/
theorem mixed_idxjoin (log sqrt : α → α) (hlog : ∀ x, 1 < x → 0 < log x)
    (hsqrt : ∀ x, 0 < x → 0 < sqrt x ∧ sqrt x * sqrt x = x)
    (hb : log 4 ≤ 9 * log (4 / 3)) (ncand0 : Nat) :
    ∃ docs c s2 s1, 1 / 10 ≤ c ∧ c < 1 ∧
      idxjoin log sqrt { docs := mixedDocs α, k := 2, epsilon := 1 / 10 } ncand0 =
        some (docs, s2) ∧
      s2.rowptr = [0, 2, 4, 6, 6] ∧ s2.rowind = [1, 2, 2, 0, 1, 0, 0, 0] ∧
      s2.rowval = [c, c, 1, c, 1, c, 0, 0] ∧
      idxjoin log sqrt { docs := mixedDocs α, k := 1, epsilon := 1 / 10 } ncand0 =
        some (docs, s1) ∧
      s1.rowptr = [0, 1, 2, 3, 3] ∧ s1.rowind = [2, 2, 1, 0] ∧ s1.rowval = [c, 1, 1, 0] ∧
      candidates docs 1 = [⟨0, c⟩, ⟨2, 1⟩] := by
  have hl3 : 0 < log (4 / 3) := hlog _ (by norm_num)
  have hl4 : 0 < log 4 := hlog _ (by norm_num)
  have h3 : 0 < log (4 / 3) * log (4 / 3) := mul_pos hl3 hl3
  have h4 : 0 < log 4 * log 4 := mul_pos hl4 hl4
  have h34 : 0 < log (4 / 3) * log (4 / 3) + log 4 * log 4 := add_pos h3 h4
  obtain ⟨q1, q2⟩ := hsqrt _ h3
  obtain ⟨r1, r2⟩ := hsqrt _ h34
  obtain ⟨m1, m2, m3, m4⟩ := mixed_scores (log (4 / 3)) (log 4) _ _ hl3 hl4 q1 q2 r1 r2 hb
  obtain ⟨s2, a1, a2, a3, a4⟩ := mixed_idxjoinSearch_two _ (log 4 * (sqrt (log 4 * log 4))⁻¹) _
    (log 4 * (sqrt (log (4 / 3) * log (4 / 3) + log 4 * log 4))⁻¹) _ ncand0 m1 rfl m2 m3 m4
  obtain ⟨s1, b1, b2, b3, b4⟩ := mixed_idxjoinSearch_one _ (log 4 * (sqrt (log 4 * log 4))⁻¹) _
    (log 4 * (sqrt (log (4 / 3) * log (4 / 3) + log 4 * log 4))⁻¹) _ ncand0 m1 rfl m2 m3 m4
  refine ⟨mixedIndexed (log (4 / 3) * (sqrt (log (4 / 3) * log (4 / 3)))⁻¹)
      (log 4 * (sqrt (log 4 * log 4))⁻¹)
      (log (4 / 3) * (sqrt (log (4 / 3) * log (4 / 3) + log 4 * log 4))⁻¹)
      (log 4 * (sqrt (log (4 / 3) * log (4 / 3) + log 4 * log 4))⁻¹),
    log (4 / 3) * (sqrt (log (4 / 3) * log (4 / 3) + log 4 * log 4))⁻¹ *
      (log (4 / 3) * (sqrt (log (4 / 3) * log (4 / 3)))⁻¹),
    s2, s1, m3, m4, ?_, a2, a3, a4, ?_, b2, b3, b4,
    mixed_candidates_one _ _ _ _ _ m1 rfl⟩
  · unfold idxjoin
    dsimp only
    rw [mixed_preprocess log sqrt h3 h4 h34]
    dsimp only
    rw [a1]
    rfl
  · unfold idxjoin
    dsimp only
    rw [mixed_preprocess log sqrt h3 h4 h34]
    dsimp only
    rw [b1]
    rfl

end SampleEngines

section SampleFacts

theorem real_log_bound : Real.log 4 ≤ 9 * Real.log (4 / 3) := by
  have h : Real.log 4 ≤ Real.log ((4 / 3 : ℝ) ^ 9) :=
    Real.log_le_log (by norm_num) (by norm_num)
  rw [Real.log_pow] at h
  exact_mod_cast h

theorem tiedDocs_wellFormed {α : Type} [LinearOrderedField α] :
    WellFormedView (tiedDocs α).nrows (tiedDocs α).ncols [0, 1, 2, 3, 4, 5] [0, 0, 0, 0, 1] :=
  ⟨rfl, rfl, by intro i hi; have h5 : i < 5 := hi; interval_cases i <;> decide, rfl,
    by show ∀ x ∈ [0, 0, 0, 0, 1], x < 2; decide⟩

theorem apartIndexed_wellFormed {α : Type} [LinearOrderedField α] (a : α) :
    WellFormedView (apartIndexed a).nrows (apartIndexed a).ncols [0, 1, 2] [0, 1] :=
  ⟨rfl, rfl, by intro i hi; have h2 : i < 2 := hi; interval_cases i <;> decide, rfl,
    by show ∀ x ∈ [0, 1], x < 2; decide⟩

theorem scenarioIndexed_wellFormed {α : Type} [LinearOrderedField α] (a b : α) :
    WellFormedView (scenarioIndexed a b).nrows (scenarioIndexed a b).ncols [0, 2, 4, 5, 5]
      [0, 1, 0, 1, 2] :=
  ⟨rfl, rfl, by intro i hi; have h4 : i < 4 := hi; interval_cases i <;> decide, rfl,
    by show ∀ x ∈ [0, 1, 0, 1, 2], x < 3; decide⟩

theorem tailDocs_wellFormed {α : Type} [LinearOrderedField α] :
    WellFormedView (tailDocs α).nrows (tailDocs α).ncols [0, 1, 3] [0, 0, 1] :=
  ⟨rfl, rfl, by intro i hi; have h2 : i < 2 := hi; interval_cases i <;> decide, rfl,
    by show ∀ x ∈ [0, 0, 1], x < 2; decide⟩

end SampleFacts

section ExtraIteration

/-- C33 (evaluation at the failing input): on the 2 x 2 matrix with rows
`{f0:1}` and `{f0:1, f1:1}` and `eps = 0`, the document loop stopped after the
two rows leaves the similarity maps `[(1, 1)]` and `[(0, 1)]`; the body of the
iteration with `i = nrows = 2` that the bound `i <= nrows` adds, entered with
an empty range, inserts the pair `(2, 0)` into both maps, which names the id
`2`, no row, as a neighbour of both rows; it also writes `matches[2]`, past the
end of the vector, so that the search does not return, whatever the word after
the row pointer array is. -/
theorem invertedDoc_past_last_row :
    (invertedScan (tailDocs ℚ) 0 (tailDocs ℚ).nrows).matchMaps = [[(1, 1)], [(0, 1)]] ∧
      (invertedDoc (tailDocs ℚ) 0 (tailDocs ℚ).nrows
        (invertedScan (tailDocs ℚ) 0 (tailDocs ℚ).nrows)).matchMaps =
        [[(1, 1), (2, 0)], [(0, 1), (2, 0)]] ∧
      ∀ g, invertedSearch (tailDocs ℚ) 2 0 g = none := by
  refine ⟨?_, ?_, ?_⟩
  · norm_num [invertedScan, invertedDoc, findMatches, forLoop, mapInsert, tailDocs]
    rfl
  · norm_num [invertedScan, invertedDoc, findMatches, forLoop, mapInsert, tailDocs]
    rfl
  · intro g
    exact invertedSearch_none_of_eps (tailDocs ℚ) [0, 1, 3] [0, 0, 1] 2 0 g rfl rfl
      tailDocs_wellFormed (le_refl _) (by show 0 < 2; decide)

end ExtraIteration

section EngineWitnesses

/-- Witness of C1 over the reals, with the natural logarithm and the real square
root, on the 4 x 3 input with rows `{f0:1, f1:1}`, `{f0:1}`, `{f0:1}`, `{f2:1}`,
`k = 1` and `eps = 1/10`: row 1 has the two candidates row 0 (score `c`,
`1/10 ≤ c < 1`) and row 2 (score 1), both reaching `eps`, and one entry in its
output row. -/
theorem idxjoin_row_bounds_witness :
    ∃ docs s, idxjoin Real.log Real.sqrt { docs := mixedDocs ℝ, k := 1, epsilon := 1 / 10 } 0 =
        some (docs, s) ∧
      (∃ c : ℝ, 1 / 10 ≤ c ∧ c < 1 ∧ candidates docs 1 = [⟨0, c⟩, ⟨2, 1⟩] ∧
        outRow s.rowptr s.rowind s.rowval 0 = [(2, c)] ∧
        outRow s.rowptr s.rowind s.rowval 1 = [(2, 1)] ∧
        outRow s.rowptr s.rowind s.rowval 2 = [(1, 1)] ∧
        outRow s.rowptr s.rowind s.rowval 3 = []) ∧
      ∀ i, i < (mixedDocs ℝ).nrows →
        ((outRow s.rowptr s.rowind s.rowval i).length : Int) ≤ 1 ∧
        ∀ e ∈ outRow s.rowptr s.rowind s.rowval i, (1 / 10 : ℝ) ≤ e.2 := by
  obtain ⟨docs, s, h, hall⟩ := idxjoin_row_bounds Real.log Real.sqrt
    { docs := mixedDocs ℝ, k := 1, epsilon := 1 / 10 } 0 [0, 2, 3, 4, 5] rfl (le_refl _)
  obtain ⟨docs2, c, s2, s1, hc, hc1, _, _, _, _, h1, r1, r2, r3, hcand⟩ :=
    mixed_idxjoin Real.log Real.sqrt (fun _ hx => Real.log_pos hx) real_sqrt_spec
      real_log_bound 0
  have heq : (docs, s) = (docs2, s1) := Option.some.inj (h.symm.trans h1)
  obtain ⟨rfl, rfl⟩ := Prod.mk.inj heq
  refine ⟨docs, s, h, ⟨c, hc, hc1, hcand, ?_, ?_, ?_, ?_⟩, hall⟩ <;>
    rw [r1, r2, r3] <;> simp [outRow, List.range']

/-- Witness of C4 over the reals on the same input with `k = 2` and
`eps = 1/10`: the loop finds the candidates of row 1 in the order row 0 (score
`c < 1`), row 2 (score 1), and the output row lists row 2 first. -/
theorem idxjoin_rows_sorted_witness :
    ∃ docs s, idxjoin Real.log Real.sqrt { docs := mixedDocs ℝ, k := 2, epsilon := 1 / 10 } 0 =
        some (docs, s) ∧
      (∃ c : ℝ, 1 / 10 ≤ c ∧ c < 1 ∧ candidates docs 1 = [⟨0, c⟩, ⟨2, 1⟩] ∧
        outRow s.rowptr s.rowind s.rowval 0 = [(1, c), (2, c)] ∧
        outRow s.rowptr s.rowind s.rowval 1 = [(2, 1), (0, c)] ∧
        outRow s.rowptr s.rowind s.rowval 2 = [(1, 1), (0, c)] ∧
        outRow s.rowptr s.rowind s.rowval 3 = []) ∧
      ∀ i, i < (mixedDocs ℝ).nrows →
        List.Pairwise (fun a b => b.2 ≤ a.2) (outRow s.rowptr s.rowind s.rowval i) := by
  obtain ⟨docs, s, h, hall⟩ := idxjoin_rows_sorted Real.log Real.sqrt
    { docs := mixedDocs ℝ, k := 2, epsilon := 1 / 10 } 0 [0, 2, 3, 4, 5] rfl (by decide)
  obtain ⟨docs2, c, s2, s1, hc, hc1, h2, r1, r2, r3, _, _, _, _, hcand⟩ :=
    mixed_idxjoin Real.log Real.sqrt (fun _ hx => Real.log_pos hx) real_sqrt_spec
      real_log_bound 0
  have heq : (docs, s) = (docs2, s2) := Option.some.inj (h.symm.trans h2)
  obtain ⟨rfl, rfl⟩ := Prod.mk.inj heq
  refine ⟨docs, s, h, ⟨c, hc, hc1, hcand, ?_, ?_, ?_, ?_⟩, hall⟩ <;>
    rw [r1, r2, r3] <;> simp [outRow, List.range']

/-- Witness of C2 over the reals on the same input with `k = 1` and
`eps = 1/10`: the candidate row 0 of row 1 has score `c ≥ eps` and is not
emitted; row 1 has exactly `k = 1` emitted neighbour, row 2 with score 1, and
`c ≤ 1`. -/
theorem idxjoin_topk_exact_witness :
    ∃ docs s, idxjoin Real.log Real.sqrt { docs := mixedDocs ℝ, k := 1, epsilon := 1 / 10 } 0 =
        some (docs, s) ∧
      (∃ c : ℝ, 1 / 10 ≤ c ∧ c < 1 ∧ (⟨0, c⟩ : da_ivkv_t ℝ) ∈ candidates docs 1 ∧
        (0, c) ∉ outRow s.rowptr s.rowind s.rowval 1 ∧
        outRow s.rowptr s.rowind s.rowval 1 = [(2, 1)]) ∧
      ∀ i, i < (mixedDocs ℝ).nrows →
        (∀ e ∈ outRow s.rowptr s.rowind s.rowval i,
          (⟨e.1, e.2⟩ : da_ivkv_t ℝ) ∈ candidates docs i) ∧
        ∀ c ∈ candidates docs i, (1 / 10 : ℝ) ≤ c.val →
          (c.key, c.val) ∉ outRow s.rowptr s.rowind s.rowval i →
          ((outRow s.rowptr s.rowind s.rowval i).length : Int) = 1 ∧
          ∀ e ∈ outRow s.rowptr s.rowind s.rowval i, c.val ≤ e.2 := by
  obtain ⟨docs, s, h, hall⟩ := idxjoin_topk_exact Real.log Real.sqrt
    { docs := mixedDocs ℝ, k := 1, epsilon := 1 / 10 } 0 [0, 2, 3, 4, 5] rfl (le_refl _)
  obtain ⟨docs2, c, s2, s1, hc, hc1, _, _, _, _, h1, r1, r2, r3, hcand⟩ :=
    mixed_idxjoin Real.log Real.sqrt (fun _ hx => Real.log_pos hx) real_sqrt_spec
      real_log_bound 0
  have heq : (docs, s) = (docs2, s1) := Option.some.inj (h.symm.trans h1)
  obtain ⟨rfl, rfl⟩ := Prod.mk.inj heq
  have hrow : outRow s.rowptr s.rowind s.rowval 1 = [(2, 1)] := by
    rw [r1, r2, r3]
    simp [outRow, List.range']
  refine ⟨docs, s, h, ⟨c, hc, hc1, ?_, ?_, hrow⟩, hall⟩
  · rw [hcand]
    simp
  · rw [hrow]
    simp

/-- C5 (counterexample): over the reals, with the natural logarithm and the real
square root.  (1) On the 5 x 2 input with rows 0 to 3 equal to `{f0:1}` and row 4
equal to `{f1:1}`, `k = 2`, `eps = 1/2`, the word after the row pointer array
being 0: both engines return, row 0 of `idxjoin` is `[(1,1), (3,1)]` and row 0 of
`invertedidx` is `[(3,1), (2,1)]`, so the two rows do not hold the same pairs.
(2) On the 2 x 2 input with rows `{f0:1}` and `{f1:1}`, `k = 1`, `eps = 0`:
`idxjoin` returns and `invertedidx` does not, whatever the word after the row
pointer array is.  (3) On the 4 x 5 example input, `k = 2`, `eps = 1/2`:
`idxjoin` returns and `invertedidx` does not when the word after the row pointer
array is above `rowptr[nrows] = 5`. -/
theorem idxjoin_invertedidx_differ :
    (∃ docs s st out,
      idxjoin Real.log Real.sqrt { docs := tiedDocs ℝ, k := 2, epsilon := 1 / 2 } 0 =
        some (docs, s) ∧
      invertedidx Real.log Real.sqrt { docs := tiedDocs ℝ, k := 2, epsilon := 1 / 2 } 0 =
        some (docs, st, out) ∧
      outRow s.rowptr s.rowind s.rowval 0 = [(1, 1), (3, 1)] ∧
      outRow out.rowptr out.rowind out.rowval 0 = [(3, 1), (2, 1)] ∧
      ¬ (∀ e, e ∈ outRow s.rowptr s.rowind s.rowval 0 ↔
          e ∈ outRow out.rowptr out.rowind out.rowval 0)) ∧
    ((∃ docs s,
      idxjoin Real.log Real.sqrt { docs := apartDocs ℝ, k := 1, epsilon := 0 } 0 =
        some (docs, s)) ∧
      ∀ g, invertedidx Real.log Real.sqrt { docs := apartDocs ℝ, k := 1, epsilon := 0 } g =
        none) ∧
    ((∃ docs s,
      idxjoin Real.log Real.sqrt { docs := scenarioDocs ℝ, k := 2, epsilon := 1 / 2 } 0 =
        some (docs, s)) ∧
      ∀ g, 5 < g →
        invertedidx Real.log Real.sqrt { docs := scenarioDocs ℝ, k := 2, epsilon := 1 / 2 } g =
          none) := by
  refine ⟨?_, ?_, ?_⟩
  · obtain ⟨docs, s, st, out, a1, a2, s1, s2, s3, _, o1, o2, o3, _⟩ :=
      tied_engines Real.log Real.sqrt (fun _ hx => Real.log_pos hx) real_sqrt_spec 0
    have r0 : outRow s.rowptr s.rowind s.rowval 0 = [(1, 1), (3, 1)] := by
      rw [s1, s2, s3]
      simp [outRow, List.range']
    have r1 : outRow out.rowptr out.rowind out.rowval 0 = [(3, 1), (2, 1)] := by
      rw [o1, o2, o3]
      simp [outRow, List.range']
    refine ⟨docs, s, st, out, a1, a2, r0, r1, ?_⟩
    intro h
    have h2 := (h (2, 1)).mpr (by rw [r1]; simp)
    rw [r0] at h2
    simp at h2
  · obtain ⟨a, s, hp, hi, _⟩ := apart_idxjoin Real.log Real.sqrt (fun _ hx => Real.log_pos hx) 0
    refine ⟨⟨_, s, hi⟩, ?_⟩
    intro g
    unfold invertedidx
    dsimp only
    rw [hp]
    dsimp only
    rw [invertedSearch_none_of_eps (apartIndexed a) [0, 1, 2] [0, 1] 1 0 g rfl rfl
      (apartIndexed_wellFormed a) (le_refl _) (by show 0 < 2; decide)]
    rfl
  · have hl2 : 0 < Real.log (4 / 2) := Real.log_pos (by norm_num)
    have hl4 : 0 < Real.log 4 := Real.log_pos (by norm_num)
    have h2 : 0 < Real.log (4 / 2) * Real.log (4 / 2) + Real.log (4 / 2) * Real.log (4 / 2) :=
      add_pos (mul_pos hl2 hl2) (mul_pos hl2 hl2)
    have h4 : 0 < Real.log 4 * Real.log 4 := mul_pos hl4 hl4
    obtain ⟨q1, q2⟩ := real_sqrt_spec _ h2
    have hs := unit_norm_pair _ _ (ne_of_gt q1) q2
    obtain ⟨s, e1, _⟩ := scenario_search _ (Real.log 4 * (Real.sqrt (Real.log 4 * Real.log 4))⁻¹)
      0 hs
    constructor
    · refine ⟨scenarioIndexed
          (Real.log (4 / 2) * (Real.sqrt (Real.log (4 / 2) * Real.log (4 / 2) +
            Real.log (4 / 2) * Real.log (4 / 2)))⁻¹)
          (Real.log 4 * (Real.sqrt (Real.log 4 * Real.log 4))⁻¹), s, ?_⟩
      unfold idxjoin
      dsimp only
      rw [scenario_preprocess Real.log Real.sqrt h2 h4]
      dsimp only
      rw [e1]
      rfl
    · intro g hg
      unfold invertedidx
      dsimp only
      rw [scenario_preprocess Real.log Real.sqrt h2 h4]
      dsimp only
      rw [invertedSearch_none_of_gt (scenarioIndexed _ _) [0, 2, 4, 5, 5] [0, 1, 0, 1, 2] 2
        (1 / 2) g rfl rfl (scenarioIndexed_wellFormed _ _) hg]
      rfl

/-- Witness of the amended C5 over the reals on the 5 x 2 input with rows 0 to 3
equal to `{f0:1}` and row 4 equal to `{f1:1}`, with `k = 3`, `eps = 1/2` and the
word 0 after the row pointer array: the three neighbours of each of the rows 0
to 3 are tied, no tie lies across the third place, and every row of the two
outputs holds the same pairs. -/
theorem idxjoin_invertedidx_agree_witness :
    ∃ docs s st out,
      idxjoin Real.log Real.sqrt { docs := tiedDocs ℝ, k := 3, epsilon := 1 / 2 } 0 =
        some (docs, s) ∧
      invertedidx Real.log Real.sqrt { docs := tiedDocs ℝ, k := 3, epsilon := 1 / 2 } 0 =
        some (docs, st, out) ∧
      docs.nrows = 5 ∧
      outRow s.rowptr s.rowind s.rowval 0 = [(1, 1), (2, 1), (3, 1)] ∧
      (∀ i, i < 5 → NoTieAtCut docs (1 / 2) 3 i) ∧
      ∀ i, i < 5 → ∀ e, e ∈ outRow s.rowptr s.rowind s.rowval i ↔
        e ∈ outRow out.rowptr out.rowind out.rowval i := by
  obtain ⟨docs, s, st, out, e1, e2, e3, e4⟩ :=
    idxjoin_invertedidx_agree Real.log Real.sqrt
      { docs := tiedDocs ℝ, k := 3, epsilon := 1 / 2 } 0 0
      [0, 1, 2, 3, 4, 5] [0, 0, 0, 0, 1] rfl rfl tiedDocs_wellFormed
      (by intro v hv; cases hv; rfl) (by decide) (by norm_num) (Nat.zero_le _)
  obtain ⟨a, b, s2, hs, h2, r1, r2, r3⟩ :=
    tied_idxjoin_three Real.log Real.sqrt (fun _ hx => Real.log_pos hx) real_sqrt_spec 0
  have heq : (docs, s) = (tiedIndexed a b, s2) := Option.some.inj (e1.symm.trans h2)
  obtain ⟨rfl, rfl⟩ := Prod.mk.inj heq
  have hn : (tiedIndexed a b).nrows = 5 := rfl
  have hcut := tied_noTieAtCut a b hs
  refine ⟨_, s, st, out, e1, e2, hn, ?_, hcut, fun i hi => e4 i hi (hcut i hi)⟩
  rw [r1, r2, r3]
  simp [outRow, List.range']

end EngineWitnesses

end Findsim
